import Mathlib

/-!
# Arena1 core: ordered collection (`list.c`) and event bus (`event.c`)

A shallow embedding of `src/core/list.c` and `src/core/event.c`.

* A `List *` chain is a Lean list of the `data` fields in `next` order; a link of a chain
  is its position in that list (together with the `data` it holds where the C code reads it).
* C `int` values are integers, arithmetic results are reduced with `wrap32`;
  the `unsigned long` raise counter is reduced modulo `ULONG_MOD`.
* `void *` values and function pointers are natural numbers (addresses).
* The module state (`l_events`, `next_id`) is the record `Bus`, passed explicitly.
* A handler function called by `event_raise` is recorded as a `Call`. In `event_raise` the
  handler bodies are taken not to touch the bus; `event_raise_with` takes handler bodies that
  call `event_handler_set_state` and `event_handler_set_user_data`, and `event_raise_deep`
  handler bodies that call `event_raise`, on the channel list at pointer level (`EventMem`).
  With handler bodies that do nothing both are `event_raise`.
-/

namespace Arena1

/-! ## Machine integers and strings -/

/-- Two's complement value of a 32-bit `int` holding the arithmetic result `x`. -/
def wrap32 (x : Int) : Int := (x + 2147483648) % 4294967296 - 2147483648

/-- Range of a C `int`. -/
def IsInt32 (x : Int) : Prop := -2147483648 ≤ x ∧ x < 2147483648

instance (x : Int) : Decidable (IsInt32 x) := by unfold IsInt32; infer_instance

/-- The modulus of `unsigned long` arithmetic (`ULONG_MAX + 1`, 64-bit). -/
def ULONG_MOD : Nat := 18446744073709551616

/-- Number of bytes before the terminator: `strlen`. -/
def strlen (s : String) : Nat := s.utf8ByteSize

/-- Lexicographic comparison of two character sequences, as a sign. -/
def strcmp_chars : List Char → List Char → Int
  | [], [] => 0
  | [], _ :: _ => -1
  | _ :: _, [] => 1
  | a :: as, b :: bs =>
    if a.toNat < b.toNat then -1 else if b.toNat < a.toNat then 1 else strcmp_chars as bs

/-- Sign of `strcmp`: the first differing position decides, a proper initial part is smaller
(UTF-8 keeps the order of code points, so the sign is that of the byte-wise comparison). -/
def strcmp (a b : String) : Int := strcmp_chars a.data b.data

/-! ## list.c -/

section list
variable {α β : Type}

/-- Embedding of `list_append`: new link after `list_last(list)`, or alone when the list is NULL. -/
def list_append : List α → α → List α
  | [], data => [data]
  | x :: xs, data => x :: list_append xs data

/-- Embedding of `list_insert_sorted`, called on the cursor `tmp_list` (holding `x`) and the
chain after it: the loop advances while `tmp_list->next && cmp > 0`; at the last link the
new link goes behind it when `cmp > 0`, otherwise directly before the cursor. -/
def list_insert_sorted_scan (func : α → α → Int) (data : α) : α → List α → List α
  | x, [] => if func data x > 0 then [x, data] else [data, x]
  | x, y :: rest =>
    if func data x > 0 then x :: list_insert_sorted_scan func data y rest
    else data :: x :: y :: rest

/-- Embedding of `list_insert_sorted`. -/
def list_insert_sorted (list : List α) (data : α) (func : α → α → Int) : List α :=
  match list with
  | [] => [data]
  | x :: rest => list_insert_sorted_scan func data x rest

/-- Embedding of `list_find_custom`: the first link whose data gives `func(link->data, data) == 0`,
as its position and its data. -/
def list_find_custom (list : List α) (data : β) (func : α → β → Int) : Option (Nat × α) :=
  match list with
  | [] => none
  | x :: rest =>
    if func x data = 0 then some (0, x)
    else (list_find_custom rest data func).map (fun r => (r.1 + 1, r.2))

/-- Embedding of `list_delete_link` for a link of the list itself, given by its position:
the neighbours are joined and the head moves on when the link was the first one. -/
def list_delete_link (list : List α) (link : Nat) : List α :=
  match list, link with
  | [], _ => []
  | _ :: rest, 0 => rest
  | x :: rest, k + 1 => x :: list_delete_link rest k

/-- Assignment through a link: `link->data = v` for the link at position `i` (no link: no change). -/
def store (list : List α) (i : Nat) (v : α) : List α :=
  match list, i with
  | [], _ => []
  | _ :: rest, 0 => v :: rest
  | x :: rest, k + 1 => x :: store rest k v

/-- The data of the link at position `i`: `link->data`. -/
def load (list : List α) (i : Nat) : Option α :=
  match list, i with
  | [], _ => none
  | x :: _, 0 => some x
  | _ :: rest, k + 1 => load rest k

end list

/-! ## event.c: data -/

/-- The maximum length of an event name (including null-terminator). -/
def EVENT_NAME_MAX_LENGTH : Nat := 32

/-- The enum `EventHandlerState`. -/
inductive EventHandlerState where
  | EVENT_HANDLER_DISABLED
  | EVENT_HANDLER_ENABLED
  deriving DecidableEq, Repr

open EventHandlerState

/-- The struct `EventHandlerInfo`; `event` is the address of the owning `EventInfo`. -/
structure EventHandlerInfo where
  id : Int
  priority : Int
  event : Nat
  handler : Nat
  state : EventHandlerState
  user_data : Nat
  deriving DecidableEq, Repr

/-- The struct `EventInfo`; `addr` is the address `malloc` returned for the record, the value
that `EventInfo *` pointers to it hold. -/
structure EventInfo where
  addr : Nat
  name : String
  raise_count : Nat
  l_event_handlers : List EventHandlerInfo
  deriving DecidableEq, Repr

/-- The module state: the statics `l_events` and `next_id`. -/
structure Bus where
  l_events : List EventInfo
  next_id : Int
  deriving DecidableEq, Repr

/-- The state at program start: `l_events = NULL`, `next_id = 1`. -/
def Bus.init : Bus := { l_events := [], next_id := 1 }

/-- One call `handler->handler(event_data, handler->user_data)` made by `event_raise`;
`id` names the subscription the call was made for. -/
structure Call where
  id : Int
  handler : Nat
  event_data : Nat
  user_data : Nat
  deriving DecidableEq, Repr

/-! ## event.c: static functions -/

/-- Embedding of `_event_find_event`. -/
def _event_find_event (event : EventInfo) (name : String) : Int := strcmp event.name name

/-- Embedding of `_event_find_handler`. -/
def _event_find_handler (handler : EventHandlerInfo) (id : Int) : Int := wrap32 (handler.id - id)

/-- Embedding of `_event_insert_handler`. -/
def _event_insert_handler (a b : EventHandlerInfo) : Int := wrap32 (b.priority - a.priority)

/-- Embedding of `_event_get_event_link`. -/
def _event_get_event_link (l_events : List EventInfo) (name : String) : Option (Nat × EventInfo) :=
  list_find_custom l_events name _event_find_event

/-- Embedding of `_event_get_handler_link`: the events are tried in list order; the result is
the position of the event whose list holds the link, the position of the link in that list
and the link's data. -/
def _event_get_handler_link (l_events : List EventInfo) (id : Int) :
    Option (Nat × Nat × EventHandlerInfo) :=
  match l_events with
  | [] => none
  | event :: rest =>
    match list_find_custom event.l_event_handlers id _event_find_handler with
    | some (j, h) => some (0, j, h)
    | none => (_event_get_handler_link rest id).map (fun r => (r.1 + 1, r.2.1, r.2.2))

/-- Write `h` into the record held by link `j` of the handler list of the event at position `i`
(the in-place assignment through an `EventHandlerInfo *`). -/
def store_handler (l_events : List EventInfo) (i j : Nat) (h : EventHandlerInfo) : List EventInfo :=
  match l_events, i with
  | [], _ => []
  | e :: rest, 0 => { e with l_event_handlers := store e.l_event_handlers j h } :: rest
  | e :: rest, k + 1 => e :: store_handler rest k j h

/-! ## event.c: public functions -/

/-- Embedding of `event_connect`; returns the handle and the new state. -/
def event_connect (b : Bus) (name : String) (priority : Int) (handler : Nat) (user_data : Nat)
    (handler_state : EventHandlerState) : Int × Bus :=
  if strlen name > EVENT_NAME_MAX_LENGTH - 1 then (0, b)
  else
    let found : Nat × EventInfo × List EventInfo :=
      match _event_get_event_link b.l_events name with
      | some (i, event) => (i, event, b.l_events)
      | none =>
        let event : EventInfo :=
          { addr := b.l_events.length, name := name, raise_count := 0, l_event_handlers := [] }
        (b.l_events.length, event, list_append b.l_events event)
    let event := found.2.1
    let handler_info : EventHandlerInfo :=
      { id := b.next_id, priority := priority, event := event.addr, handler := handler,
        state := handler_state, user_data := user_data }
    let event1 : EventInfo :=
      { event with l_event_handlers :=
          list_insert_sorted event.l_event_handlers handler_info _event_insert_handler }
    (handler_info.id,
      { l_events := store found.2.2 found.1 event1, next_id := wrap32 (b.next_id + 1) })

/-- Embedding of `event_handler_set_state`. -/
def event_handler_set_state (b : Bus) (id : Int) (handler_state : EventHandlerState) : Bus :=
  match _event_get_handler_link b.l_events id with
  | none => b
  | some (i, j, handler) =>
    { b with l_events := store_handler b.l_events i j ({ handler with state := handler_state }) }

/-- Embedding of `event_handler_set_user_data`. -/
def event_handler_set_user_data (b : Bus) (id : Int) (user_data : Nat) : Bus :=
  match _event_get_handler_link b.l_events id with
  | none => b
  | some (i, j, handler) =>
    { b with l_events := store_handler b.l_events i j ({ handler with user_data := user_data }) }

/-- Embedding of `event_disconnect`. The link found is link `j` of the list of the event at
position `i`; `event = handler->event` is that event when the addresses agree, and then
`list_delete_link` takes the link out of `event->l_event_handlers`. When `handler->event`
is another record the call `list_delete_link(event->l_event_handlers, link)` is given a link
of a foreign list, which `list.c` does not define: `none`. -/
def event_disconnect (b : Bus) (id : Int) : Option Bus :=
  match _event_get_handler_link b.l_events id with
  | none => some b
  | some (i, j, handler) =>
    match load b.l_events i with
    | none => none
    | some event =>
      if handler.event = event.addr then
        let event1 : EventInfo :=
          { event with l_event_handlers := list_delete_link event.l_event_handlers j }
        some { b with l_events := store b.l_events i event1 }
      else none

/-- The handler loop of `event_raise`: front to back, one call per enabled handler. -/
def raise_handlers (handlers : List EventHandlerInfo) (event_data : Nat) : List Call :=
  match handlers with
  | [] => []
  | handler :: rest =>
    if handler.state = EVENT_HANDLER_ENABLED then
      { id := handler.id, handler := handler.handler, event_data := event_data,
        user_data := handler.user_data } :: raise_handlers rest event_data
    else raise_handlers rest event_data

/-- Embedding of `event_raise`; returns the calls made, in order, and the new state. -/
def event_raise (b : Bus) (name : String) (event_data : Nat) : List Call × Bus :=
  match _event_get_event_link b.l_events name with
  | none => ([], b)
  | some (i, event) =>
    let calls := raise_handlers event.l_event_handlers event_data
    let event1 : EventInfo := { event with raise_count := (event.raise_count + 1) % ULONG_MOD }
    let l1 := store b.l_events i event1
    match i with
    | 0 => (calls, { b with l_events := l1 })
    | k + 1 =>
      match load l1 k with
      | none => (calls, { b with l_events := l1 })
      | some prev_event =>
        if prev_event.raise_count < event1.raise_count then
          (calls, { b with l_events := store (store l1 k event1) (k + 1) prev_event })
        else (calls, { b with l_events := l1 })

/-! ## Runs of the bus -/

/-- A call of the public interface. -/
inductive Op where
  | connect (name : String) (priority : Int) (handler : Nat) (user_data : Nat)
      (handler_state : EventHandlerState)
  | set_state (id : Int) (handler_state : EventHandlerState)
  | set_user_data (id : Int) (user_data : Nat)
  | disconnect (id : Int)
  | raise (name : String) (event_data : Nat)
  deriving DecidableEq, Repr

/-- What a call gives back to the program: the handle of `event_connect`, the handler calls
of `event_raise`, nothing for the others. -/
inductive Out where
  | handle (id : Int)
  | calls (cs : List Call)
  | unit
  deriving DecidableEq, Repr

/-- One call on the bus. -/
def step (b : Bus) (op : Op) : Option (Out × Bus) :=
  match op with
  | .connect name priority handler user_data handler_state =>
    let r := event_connect b name priority handler user_data handler_state
    some (.handle r.1, r.2)
  | .set_state id handler_state => some (.unit, event_handler_set_state b id handler_state)
  | .set_user_data id user_data => some (.unit, event_handler_set_user_data b id user_data)
  | .disconnect id => (event_disconnect b id).map (fun b1 => (.unit, b1))
  | .raise name event_data =>
    let r := event_raise b name event_data
    some (.calls r.1, r.2)

/-- A sequence of calls, with the outputs in call order. -/
def run (b : Bus) (ops : List Op) : Option (List Out × Bus) :=
  match ops with
  | [] => some ([], b)
  | op :: rest =>
    match step b op with
    | none => none
    | some (o, b1) =>
      match run b1 rest with
      | none => none
      | some (os, b2) => some (o :: os, b2)

/-- Number of `event_connect` calls of a run that pass the name-length check. -/
def connects (ops : List Op) : Nat :=
  match ops with
  | [] => 0
  | .connect name _ _ _ _ :: rest =>
    if strlen name > EVENT_NAME_MAX_LENGTH - 1 then connects rest else connects rest + 1
  | _ :: rest => connects rest

/-- The handles returned by the `event_connect` calls of a run that pass the name-length
check, in call order (`outs` are the outputs of `ops`). -/
def handles (ops : List Op) (outs : List Out) : List Int :=
  match ops, outs with
  | .connect name _ _ _ _ :: ops1, .handle id :: outs1 =>
    if strlen name > EVENT_NAME_MAX_LENGTH - 1 then handles ops1 outs1
    else id :: handles ops1 outs1
  | _ :: ops1, _ :: outs1 => handles ops1 outs1
  | _, _ => []

/-- All subscription ids held by the bus, channel after channel. -/
def all_ids (l_events : List EventInfo) : List Int :=
  match l_events with
  | [] => []
  | e :: rest => e.l_event_handlers.map (fun h => h.id) ++ all_ids rest

/-! ## Notions used in the statements -/

/-- The record `e` with its handler list replaced (`event->l_event_handlers = hs`). -/
abbrev set_handlers (e : EventInfo) (hs : List EventHandlerInfo) : EventInfo :=
  { e with l_event_handlers := hs }

/-- The record of a channel after a raise: the counter moved on by one. -/
abbrev bump (e : EventInfo) : EventInfo :=
  { e with raise_count := (e.raise_count + 1) % ULONG_MOD }

/-- The record `h` with its state replaced. -/
abbrev set_state_of (h : EventHandlerInfo) (st : EventHandlerState) : EventHandlerInfo :=
  { h with state := st }

/-- The record `h` with its user data replaced. -/
abbrev set_user_data_of (h : EventHandlerInfo) (u : Nat) : EventHandlerInfo :=
  { h with user_data := u }

/-- The subscriber lists a bus can hold after the call `op` in state `b`: a list as it was,
a list (or the empty list of a new channel) with the new record inserted by
`list_insert_sorted`, a list with one record rewritten in place (same handle and priority),
or a list with one record taken out. -/
inductive HandlersChange (b : Bus) (op : Op) : List EventHandlerInfo → Prop where
  | same (e : EventInfo) (he : e ∈ b.l_events) : HandlersChange b op e.l_event_handlers
  | insert (hs0 : List EventHandlerInfo) (name : String) (p : Int) (f u : Nat)
      (st : EventHandlerState) (addr : Nat) (hop : op = .connect name p f u st)
      (hlen : ¬ strlen name > EVENT_NAME_MAX_LENGTH - 1)
      (h0 : hs0 = [] ∨ ∃ e ∈ b.l_events, hs0 = e.l_event_handlers) :
      HandlersChange b op
        (list_insert_sorted hs0 ⟨b.next_id, p, addr, f, st, u⟩ _event_insert_handler)
  | replace (e : EventInfo) (he : e ∈ b.l_events) (h1 h2 : List EventHandlerInfo)
      (y z : EventHandlerInfo) (hs : e.l_event_handlers = h1 ++ y :: h2) (hid : z.id = y.id)
      (hp : z.priority = y.priority) : HandlersChange b op (h1 ++ z :: h2)
  | remove (e : EventInfo) (he : e ∈ b.l_events) (h1 h2 : List EventHandlerInfo)
      (y : EventHandlerInfo) (hs : e.l_event_handlers = h1 ++ y :: h2) :
      HandlersChange b op (h1 ++ h2)

/-- The priority of a subscription has magnitude below 2^30 (for every call that is not a
subscription there is nothing to ask). -/
def priority_bounded (op : Op) : Prop :=
  match op with
  | .connect _ p _ _ _ => -1073741824 < p ∧ p < 1073741824
  | _ => True

instance (op : Op) : Decidable (priority_bounded op) := by
  cases op <;> simp only [priority_bounded] <;> infer_instance

/-- The fields of a subscription that decide its place: priority and handle. -/
def key (h : EventHandlerInfo) : Int × Int := (h.priority, h.id)

/-- The record `e` with its raise counter one higher. -/
abbrev count_up (e : EventInfo) : EventInfo :=
  { e with raise_count := e.raise_count + 1 }

/-- The call `event_raise` makes for the handler record `h` with payload `d`. -/
abbrev call_of (d : Nat) (h : EventHandlerInfo) : Call :=
  { id := h.id, handler := h.handler, event_data := d, user_data := h.user_data }

/-- The state of a bus on which `n` subscriptions have been made so far: the counter stands
at `n + 1`, the handles in use are distinct and among `1..n`, channel names are distinct,
every subscription points back at the channel record whose list holds it, and the channel
records have distinct addresses. -/
structure WF (n : Nat) (b : Bus) : Prop where
  next : b.next_id = wrap32 ((n : Int) + 1)
  ids_range : ∀ e ∈ b.l_events, ∀ h ∈ e.l_event_handlers, 1 ≤ h.id ∧ h.id ≤ (n : Int)
  ids_nodup : (all_ids b.l_events).Nodup
  names_nodup : (b.l_events.map (fun e => e.name)).Nodup
  owner : ∀ e ∈ b.l_events, ∀ h ∈ e.l_event_handlers, h.event = e.addr
  addrs_nodup : (b.l_events.map (fun e => e.addr)).Nodup
  addrs_lt : ∀ e ∈ b.l_events, e.addr < b.l_events.length

/-! ## event.c: the structure dump -/

/-- One line of the output of `event_print_structure`. -/
inductive Line where
  | event (name : String) (raise_count : Nat)
  | handler (id : Int) (priority : Int) (state : EventHandlerState) (handler : Nat)
  deriving DecidableEq, Repr

/-- The outer loop of `event_print_structure` from the link holding the first record on:
one line for the event, then one line for each of its handlers in list order. -/
def print_events (l_events : List EventInfo) : List Line :=
  match l_events with
  | [] => []
  | event_info :: rest =>
    Line.event event_info.name event_info.raise_count ::
      (event_info.l_event_handlers.map
        (fun handler_info => Line.handler handler_info.id handler_info.priority
          handler_info.state handler_info.handler) ++ print_events rest)

/-- Embedding of `event_print_structure`: the lines it prints. -/
def event_print_structure (b : Bus) : List Line := print_events b.l_events

/-- The event names of a dump, in the order of their lines. -/
def printed_names (ls : List Line) : List String :=
  match ls with
  | [] => []
  | .event name _ :: rest => name :: printed_names rest
  | .handler _ _ _ _ :: rest => printed_names rest

/-- Number of `event_raise` calls on `name` in a sequence of calls. -/
def raises (name : String) (ops : List Op) : Nat :=
  match ops with
  | [] => 0
  | .raise n _ :: rest => if n = name then raises name rest + 1 else raises name rest
  | _ :: rest => raises name rest

/-- The call `op` is an `event_raise` on the name `a` or on the name `c`. -/
def raise_of (a c : String) (op : Op) : Prop :=
  match op with
  | .raise n _ => n = a ∨ n = c
  | _ => False

instance (a c : String) (op : Op) : Decidable (raise_of a c op) := by
  cases op <;> simp only [raise_of] <;> infer_instance

/-- The record `e` with its raise counter set to `c`. -/
abbrev with_count (e : EventInfo) (c : Nat) : EventInfo :=
  { e with raise_count := c }

/-! ## event.c: a raise whose handlers change subscriptions -/

/-- A call a handler function makes on the bus while it runs: here the two calls that
rewrite a field of a subscription in place. -/
inductive CbAction where
  | set_state (id : Int) (handler_state : EventHandlerState)
  | set_user_data (id : Int) (user_data : Nat)
  deriving DecidableEq, Repr

/-- The bus after the calls of one handler run, in order. -/
def run_actions (b : Bus) (acts : List CbAction) : Bus :=
  match acts with
  | [] => b
  | .set_state id handler_state :: rest =>
    run_actions (event_handler_set_state b id handler_state) rest
  | .set_user_data id user_data :: rest =>
    run_actions (event_handler_set_user_data b id user_data) rest

/-- The handler loop of `event_raise` when the handler functions act on the bus: `body f d u`
are the calls the function at address `f` makes when called with payload `d` and user data
`u`. The loop stands at link `j` of the handler list of the event at position `i`; neither
the chain of links nor the event list is changed by such calls, so positions stand for the
pointers `handler_link` and `event`. Each turn reads the record the link holds now. `fuel`
bounds the number of turns; the loop ends when `handler_link` is NULL. -/
def raise_loop (body : Nat → Nat → Nat → List CbAction) (event_data : Nat) (i : Nat) :
    Nat → Nat → Bus → List Call × Bus
  | 0, _, b => ([], b)
  | fuel + 1, j, b =>
    match load b.l_events i with
    | none => ([], b)
    | some event =>
      match load event.l_event_handlers j with
      | none => ([], b)
      | some handler =>
        if handler.state = .EVENT_HANDLER_ENABLED then
          let b1 := run_actions b (body handler.handler event_data handler.user_data)
          let r := raise_loop body event_data i fuel (j + 1) b1
          ({ id := handler.id, handler := handler.handler, event_data := event_data,
             user_data := handler.user_data } :: r.1, r.2)
        else raise_loop body event_data i fuel (j + 1) b

/-- Embedding of `event_raise` with handler functions that act on the bus as `body` says.
The loop gets as many turns as the handler list has links. -/
def event_raise_with (body : Nat → Nat → Nat → List CbAction) (b : Bus) (name : String)
    (event_data : Nat) : List Call × Bus :=
  match _event_get_event_link b.l_events name with
  | none => ([], b)
  | some (i, event) =>
    let r := raise_loop body event_data i event.l_event_handlers.length 0 b
    let b1 := r.2
    match load b1.l_events i with
    | none => (r.1, b1)
    | some event_now =>
      let event1 : EventInfo :=
        { event_now with raise_count := (event_now.raise_count + 1) % ULONG_MOD }
      let l1 := store b1.l_events i event1
      match i with
      | 0 => (r.1, { b1 with l_events := l1 })
      | k + 1 =>
        match load l1 k with
        | none => (r.1, { b1 with l_events := l1 })
        | some prev_event =>
          if prev_event.raise_count < event1.raise_count then
            (r.1, { b1 with l_events := store (store l1 k event1) (k + 1) prev_event })
          else (r.1, { b1 with l_events := l1 })

/-- What one call of a handler does to a subscription record: the record that the handle
matches (as `_event_find_handler` compares) gets the new field, any other stays. -/
def act_record (a : CbAction) (h : EventHandlerInfo) : EventHandlerInfo :=
  match a with
  | .set_state id handler_state =>
    if _event_find_handler h id = 0 then { h with state := handler_state } else h
  | .set_user_data id user_data =>
    if _event_find_handler h id = 0 then { h with user_data := user_data } else h

/-- A record after a sequence of handler calls, in order. -/
def acts_record (acts : List CbAction) (h : EventHandlerInfo) : EventHandlerInfo :=
  match acts with
  | [] => h
  | a :: rest => acts_record rest (act_record a h)

/-- The calls of a raise when every subscription is taken as it is at the moment the
traversal reaches it: `pend` are the calls the handlers run so far have made, `handlers` are
the records not reached yet, as they were when the raise began. -/
def dispatch_live (body : Nat → Nat → Nat → List CbAction) (event_data : Nat)
    (pend : List CbAction) (handlers : List EventHandlerInfo) : List Call :=
  match handlers with
  | [] => []
  | h0 :: rest =>
    if (acts_record pend h0).state = .EVENT_HANDLER_ENABLED then
      { id := (acts_record pend h0).id, handler := (acts_record pend h0).handler,
        event_data := event_data, user_data := (acts_record pend h0).user_data } ::
        dispatch_live body event_data
          (pend ++ body (acts_record pend h0).handler event_data (acts_record pend h0).user_data)
          rest
    else dispatch_live body event_data pend rest

/-! ## list.c at the level of links

The functions of `list.c` on a memory of `List` structs. A pointer is an address, NULL is
`none`; dereferencing a pointer that holds no live link is undefined and gives `none`.
Loops over a chain run on fuel: the number of cells of the memory, which no chain without a
cycle exceeds. -/

namespace ptr

/-- The struct `_List`. -/
structure Link where
  data : Nat
  next : Option Nat
  prev : Option Nat
  deriving DecidableEq, Repr

/-- The memory of links, cell `a` at address `a` (`none`: freed), with the two debug
counters of `list.c`. -/
structure Heap where
  cells : List (Option Link)
  list_alloc_count : Int
  list_free_count : Int
  deriving DecidableEq, Repr

/-- The live link at address `a`. -/
def Heap.get (m : Heap) (a : Nat) : Option Link :=
  match load m.cells a with
  | some (some l) => some l
  | _ => none

/-- Overwrite the cell at address `a`. -/
def Heap.set (m : Heap) (a : Nat) (l : Link) : Heap :=
  { m with cells := store m.cells a (some l) }

/-- The assignment `a->data = v`. -/
def set_data (m : Heap) (a : Nat) (v : Nat) : Option Heap :=
  match m.get a with
  | none => none
  | some l => some (m.set a { l with data := v })

/-- The assignment `a->next = v`. -/
def set_next (m : Heap) (a : Nat) (v : Option Nat) : Option Heap :=
  match m.get a with
  | none => none
  | some l => some (m.set a { l with next := v })

/-- The assignment `a->prev = v`. -/
def set_prev (m : Heap) (a : Nat) (v : Option Nat) : Option Heap :=
  match m.get a with
  | none => none
  | some l => some (m.set a { l with prev := v })

/-- Embedding of `_list_alloc_link`: a fresh cell with `next = prev = NULL` (the data field
is not yet written; it reads as 0), the allocation counter moved on. -/
def _list_alloc_link (m : Heap) : Nat × Heap :=
  (m.cells.length,
    { m with cells := m.cells ++ [some { data := 0, next := none, prev := none }],
             list_alloc_count := wrap32 (m.list_alloc_count + 1) })

/-- Embedding of `_list_free_link`. -/
def _list_free_link (m : Heap) (link : Nat) : Heap :=
  { m with cells := store m.cells link none,
           list_free_count := wrap32 (m.list_free_count + 1) }

/-- The loop of `list_last` from a non-NULL link. -/
def last_loop (m : Heap) : Nat → Nat → Option Nat
  | 0, _ => none
  | fuel + 1, a =>
    match m.get a with
    | none => none
    | some l =>
      match l.next with
      | none => some a
      | some nx => last_loop m fuel nx

/-- Embedding of `list_last`. -/
def list_last (m : Heap) (list : Option Nat) : Option (Option Nat) :=
  match list with
  | none => some none
  | some a => (last_loop m m.cells.length a).map some

/-- Embedding of `list_append`. -/
def list_append (m : Heap) (list : Option Nat) (data : Nat) : Option (Option Nat × Heap) :=
  match set_data (_list_alloc_link m).2 (_list_alloc_link m).1 data with
  | none => none
  | some m2 =>
    match list with
    | none => some (some (_list_alloc_link m).1, m2)
    | some _ =>
      match list_last m2 list with
      | some (some last) =>
        match set_next m2 last (some (_list_alloc_link m).1) with
        | none => none
        | some m3 =>
          match set_prev m3 (_list_alloc_link m).1 (some last) with
          | none => none
          | some m4 => some (list, m4)
      | _ => none

/-- Embedding of `list_prepend`. -/
def list_prepend (m : Heap) (list : Option Nat) (data : Nat) : Option (Option Nat × Heap) :=
  match set_data (_list_alloc_link m).2 (_list_alloc_link m).1 data with
  | none => none
  | some m2 =>
    match list with
    | none => some (some (_list_alloc_link m).1, m2)
    | some a =>
      match set_prev m2 a (some (_list_alloc_link m).1) with
      | none => none
      | some m3 =>
        match set_next m3 (_list_alloc_link m).1 list with
        | none => none
        | some m4 => some (some (_list_alloc_link m).1, m4)

/-- The loop of `list_nth` for a count that is still positive `k` times. -/
def nth_loop (m : Heap) : Nat → Option Nat → Option (Option Nat)
  | 0, p => some p
  | _ + 1, none => some none
  | k + 1, some a =>
    match m.get a with
    | none => none
    | some l => nth_loop m k l.next

/-- Embedding of `list_nth`. -/
def list_nth (m : Heap) (list : Option Nat) (n : Int) : Option (Option Nat) :=
  if n ≤ 0 then some list else nth_loop m n.toNat list

/-- Embedding of `list_insert`. When the position is off the end, the link allocated first
stays behind and `list_append` allocates the link that enters the list. -/
def list_insert (m : Heap) (list : Option Nat) (data : Nat) (position : Int) :
    Option (Option Nat × Heap) :=
  if position < 0 then list_append m list data
  else if position = 0 then list_prepend m list data
  else
    match set_data (_list_alloc_link m).2 (_list_alloc_link m).1 data with
    | none => none
    | some m2 =>
      match list_nth m2 list position with
      | none => none
      | some none => list_append m2 list data
      | some (some tmp) =>
        match m2.get tmp with
        | none => none
        | some t =>
          match t.prev with
          | none => none
          | some tp =>
            match set_next m2 tp (some (_list_alloc_link m).1) with
            | none => none
            | some m3 =>
              match m3.get tmp with
              | none => none
              | some t3 =>
                match set_prev m3 (_list_alloc_link m).1 t3.prev with
                | none => none
                | some m4 =>
                  match set_next m4 (_list_alloc_link m).1 (some tmp) with
                  | none => none
                  | some m5 =>
                    match set_prev m5 tmp (some (_list_alloc_link m).1) with
                    | none => none
                    | some m6 => some (list, m6)

/-- The loop of `list_insert_sorted`: the link at which the scan stops. -/
def scan_loop (m : Heap) (func : Nat → Nat → Int) (data : Nat) : Nat → Nat → Option Nat
  | 0, _ => none
  | fuel + 1, a =>
    match m.get a with
    | none => none
    | some l =>
      match l.next with
      | none => some a
      | some nx => if func data l.data > 0 then scan_loop m func data fuel nx else some a

/-- Embedding of `list_insert_sorted`. -/
def list_insert_sorted (m : Heap) (list : Option Nat) (data : Nat) (func : Nat → Nat → Int) :
    Option (Option Nat × Heap) :=
  match set_data (_list_alloc_link m).2 (_list_alloc_link m).1 data with
  | none => none
  | some m2 =>
    match list with
    | none => some (some (_list_alloc_link m).1, m2)
    | some head =>
      match scan_loop m2 func data m2.cells.length head with
      | none => none
      | some tmp =>
        match m2.get tmp with
        | none => none
        | some t =>
          if t.next = none ∧ func data t.data > 0 then
            match set_next m2 tmp (some (_list_alloc_link m).1) with
            | none => none
            | some m3 =>
              match set_prev m3 (_list_alloc_link m).1 (some tmp) with
              | none => none
              | some m4 => some (list, m4)
          else
            match (match t.prev with
              | none => some m2
              | some tp =>
                match set_next m2 tp (some (_list_alloc_link m).1) with
                | none => none
                | some m3 => set_prev m3 (_list_alloc_link m).1 (some tp)) with
            | none => none
            | some m4 =>
              match set_next m4 (_list_alloc_link m).1 (some tmp) with
              | none => none
              | some m5 =>
                match set_prev m5 tmp (some (_list_alloc_link m).1) with
                | none => none
                | some m6 =>
                  if tmp = head then some (some (_list_alloc_link m).1, m6)
                  else some (list, m6)

/-- The loop of `list_find`. -/
def find_loop (m : Heap) (data : Nat) : Nat → Option Nat → Option (Option Nat)
  | 0, _ => none
  | _ + 1, none => some none
  | fuel + 1, some a =>
    match m.get a with
    | none => none
    | some l => if l.data = data then some (some a) else find_loop m data fuel l.next

/-- Embedding of `list_find`. -/
def list_find (m : Heap) (list : Option Nat) (data : Nat) : Option (Option Nat) :=
  find_loop m data (m.cells.length + 1) list

/-- Embedding of `list_delete_link`. -/
def list_delete_link (m : Heap) (list : Option Nat) (link : Nat) :
    Option (Option Nat × Heap) :=
  match m.get link with
  | none => none
  | some l =>
    match (match l.prev with
      | none => some m
      | some p => set_next m p l.next) with
    | none => none
    | some m1 =>
      match m1.get link with
      | none => none
      | some l1 =>
        match (match l1.next with
          | none => some m1
          | some nx => set_prev m1 nx l1.prev) with
        | none => none
        | some m2 =>
          match m2.get link with
          | none => none
          | some l2 =>
            some (if list = some link then l2.next else list, _list_free_link m2 link)

/-- Embedding of `list_remove`. -/
def list_remove (m : Heap) (list : Option Nat) (data : Nat) : Option (Option Nat × Heap) :=
  match list_find m list data with
  | none => none
  | some none => some (list, m)
  | some (some tmp) => list_delete_link m list tmp

/-- The address of the first node of a chain, or `q` when there is none. -/
def first_or (nodes : List (Nat × Nat)) (q : Option Nat) : Option Nat :=
  match nodes with
  | [] => q
  | (a, _) :: _ => some a

/-- The address of the last node of a chain, or `p` when there is none. -/
def last_or (nodes : List (Nat × Nat)) (p : Option Nat) : Option Nat :=
  match nodes with
  | [] => p
  | [(a, _)] => some a
  | _ :: rest => last_or rest p

/-- The links at the addresses of `nodes` (pairs of address and data) form a doubly linked
segment in memory: each holds its data, points forward to the next node (the last one to
`q`) and back to the node before (the first one to `prev`). -/
def dlseg (m : Heap) (prev : Option Nat) (nodes : List (Nat × Nat)) (q : Option Nat) : Prop :=
  match nodes with
  | [] => True
  | (a, x) :: rest =>
    m.get a = some { data := x, next := first_or rest q, prev := prev } ∧
      dlseg m (some a) rest q

/-- The pointer `list` is a well-formed list holding `nodes`: it points at the first node
(NULL for none), the first node has no predecessor, the last no successor. -/
def is_list (m : Heap) (list : Option Nat) (nodes : List (Nat × Nat)) : Prop :=
  list = first_or nodes none ∧ dlseg m none nodes none

end ptr

/-! ## timer.c: data

The timers of the host (SDL) are part of the state: `ticks` lists the timers running in the
host, each as `SDL_AddTimer` was asked for it. The answer of the host to `SDL_AddTimer` is an
argument of the call that may ask: NULL (0) when the host starts no timer, otherwise the
`SDL_TimerID` of the timer it started. -/

/-- The enum `TimerState`. -/
inductive TimerState where
  | TIMER_DISABLED
  | TIMER_ENABLED
  deriving DecidableEq, Repr

open TimerState

/-- The struct `TimerInfo`; `addr` is the address `malloc` returned for the record, `sdl_id`
the `SDL_TimerID` (0 for none). -/
structure TimerInfo where
  addr : Nat
  id : Int
  sdl_id : Nat
  state : TimerState
  interval : Int
  handler : Nat
  user_data : Nat
  deriving DecidableEq, Repr

/-- A timer running in the host: the id `SDL_AddTimer(interval, _timer_thread_swap, param)`
returned for it, with the `Uint32` interval and the parameter of that call. -/
structure Tick where
  sdl_id : Nat
  interval : Nat
  param : Nat
  deriving DecidableEq, Repr

/-- The module state: the statics `l_timers` and `next_id`, the number `brk` of records
handed out by `malloc` so far (the next record gets the address `brk`), and the timers
running in the host. -/
structure Timers where
  l_timers : List TimerInfo
  next_id : Int
  brk : Nat
  ticks : List Tick
  deriving DecidableEq, Repr

/-- The state at program start: `l_timers = NULL`, `next_id = 1`, no timer in the host. -/
def Timers.init : Timers := { l_timers := [], next_id := 1, brk := 0, ticks := [] }

/-- Conversion of an `int` argument to the `Uint32` parameter of `SDL_AddTimer`. -/
def to_uint32 (x : Int) : Nat := (x % 4294967296).toNat

/-- The host call `SDL_AddTimer(interval, _timer_thread_swap, param)` answered with `answer`:
a timer is running under that id afterwards, unless the answer is NULL. -/
def SDL_AddTimer (ticks : List Tick) (interval : Nat) (param : Nat) (answer : Nat) :
    Nat × List Tick :=
  if answer = 0 then (0, ticks)
  else (answer, ticks ++ [{ sdl_id := answer, interval := interval, param := param }])

/-- The host call `SDL_RemoveTimer(id)`: no timer runs under `id` afterwards. -/
def SDL_RemoveTimer (ticks : List Tick) (id : Nat) : List Tick :=
  ticks.filter (fun k => decide (k.sdl_id ≠ id))

/-! ## timer.c: static functions -/

/-- Embedding of `_timer_get_link`: the first link whose timer has the id, as its position
and its data. -/
def _timer_get_link (l_timers : List TimerInfo) (id : Int) : Option (Nat × TimerInfo) :=
  match l_timers with
  | [] => none
  | timer :: rest =>
    if timer.id = id then some (0, timer)
    else (_timer_get_link rest id).map (fun r => (r.1 + 1, r.2))

/-- Embedding of `_timer_get`: the record of the link found (with the position of the link,
through which the record is reached). -/
def _timer_get (l_timers : List TimerInfo) (id : Int) : Option (Nat × TimerInfo) :=
  match _timer_get_link l_timers id with
  | some link => some link
  | none => none

/-- The first `if` of `_timer_set_state`: enabling. -/
def _timer_set_state_enable (timer : TimerInfo) (ticks : List Tick) (state : TimerState)
    (answer : Nat) : TimerInfo × List Tick :=
  if timer.state = TIMER_DISABLED ∧ state = TIMER_ENABLED then
    ({ timer with
        sdl_id := (SDL_AddTimer ticks (to_uint32 timer.interval) timer.addr answer).1,
        state := TIMER_ENABLED },
      (SDL_AddTimer ticks (to_uint32 timer.interval) timer.addr answer).2)
  else (timer, ticks)

/-- The second `if` of `_timer_set_state`: disabling. -/
def _timer_set_state_disable (timer : TimerInfo) (ticks : List Tick) (state : TimerState) :
    TimerInfo × List Tick :=
  if timer.state = TIMER_ENABLED ∧ state = TIMER_DISABLED then
    ({ timer with sdl_id := 0, state := TIMER_DISABLED }, SDL_RemoveTimer ticks timer.sdl_id)
  else (timer, ticks)

/-- Embedding of `_timer_set_state`: the record and the host after the two `if`s. -/
def _timer_set_state (timer : TimerInfo) (ticks : List Tick) (state : TimerState)
    (answer : Nat) : TimerInfo × List Tick :=
  _timer_set_state_disable (_timer_set_state_enable timer ticks state answer).1
    (_timer_set_state_enable timer ticks state answer).2 state

/-! ## timer.c: public functions -/

/-- Embedding of `timer_create`; returns the handle and the new state. The new record is the
data of the last link, through which `_timer_set_state` writes. -/
def timer_create (s : Timers) (interval : Int) (handler : Nat) (user_data : Nat)
    (state : TimerState) (answer : Nat) : Int × Timers :=
  let timer : TimerInfo :=
    { addr := s.brk, id := s.next_id, sdl_id := 0, state := TIMER_DISABLED,
      interval := interval, handler := handler, user_data := user_data }
  let l1 := list_append s.l_timers timer
  let r := _timer_set_state timer s.ticks state answer
  (r.1.id,
    { l_timers := store l1 s.l_timers.length r.1, next_id := wrap32 (s.next_id + 1),
      brk := s.brk + 1, ticks := r.2 })

/-- Embedding of `timer_set_state`. -/
def timer_set_state (s : Timers) (id : Int) (state : TimerState) (answer : Nat) : Timers :=
  match _timer_get s.l_timers id with
  | none => s
  | some (i, timer) =>
    { s with l_timers := store s.l_timers i (_timer_set_state timer s.ticks state answer).1,
             ticks := (_timer_set_state timer s.ticks state answer).2 }

/-- Embedding of `timer_set_interval`. -/
def timer_set_interval (s : Timers) (id : Int) (interval : Int) : Timers :=
  match _timer_get s.l_timers id with
  | none => s
  | some (i, timer) => { s with l_timers := store s.l_timers i { timer with interval := interval } }

/-- Embedding of `timer_set_user_data`. -/
def timer_set_user_data (s : Timers) (id : Int) (user_data : Nat) : Timers :=
  match _timer_get s.l_timers id with
  | none => s
  | some (i, timer) =>
    { s with l_timers := store s.l_timers i { timer with user_data := user_data } }

/-- Embedding of `timer_free`: the timer is disabled (a call that never asks the host for a
timer), its record freed and its link deleted. -/
def timer_free (s : Timers) (id : Int) : Timers :=
  match _timer_get_link s.l_timers id with
  | none => s
  | some (i, timer) =>
    { s with
      l_timers :=
        list_delete_link (store s.l_timers i (_timer_set_state timer s.ticks TIMER_DISABLED 0).1) i,
      ticks := (_timer_set_state timer s.ticks TIMER_DISABLED 0).2 }

/-! ## Runs of the timer module -/

/-- A call of the public interface; `answer` is the answer of the host, should the call ask
it for a timer. -/
inductive TimerOp where
  | create (interval : Int) (handler : Nat) (user_data : Nat) (state : TimerState)
      (answer : Nat)
  | set_state (id : Int) (state : TimerState) (answer : Nat)
  | set_interval (id : Int) (interval : Int)
  | set_user_data (id : Int) (user_data : Nat)
  | free (id : Int)
  deriving DecidableEq, Repr

/-- One call on the timer module: the handle `timer_create` returns (nothing for the other
calls) and the new state. -/
def timer_step (s : Timers) (op : TimerOp) : Option Int × Timers :=
  match op with
  | .create interval handler user_data state answer =>
    (some (timer_create s interval handler user_data state answer).1,
      (timer_create s interval handler user_data state answer).2)
  | .set_state id state answer => (none, timer_set_state s id state answer)
  | .set_interval id interval => (none, timer_set_interval s id interval)
  | .set_user_data id user_data => (none, timer_set_user_data s id user_data)
  | .free id => (none, timer_free s id)

/-- A sequence of calls: the handles returned, in call order, and the final state. -/
def timer_run (s : Timers) (ops : List TimerOp) : List Int × Timers :=
  match ops with
  | [] => ([], s)
  | op :: rest =>
    match (timer_step s op).1 with
    | some id => (id :: (timer_run (timer_step s op).2 rest).1, (timer_run (timer_step s op).2 rest).2)
    | none => timer_run (timer_step s op).2 rest

/-- Number of `timer_create` calls of a run. -/
def creates (ops : List TimerOp) : Nat :=
  match ops with
  | [] => 0
  | .create _ _ _ _ _ :: rest => creates rest + 1
  | _ :: rest => creates rest

/-- The host grants a timer under the id `answer`: the id is not NULL and no running timer
has it. -/
def host_grants (ticks : List Tick) (answer : Nat) : Prop :=
  answer ≠ 0 ∧ ∀ k ∈ ticks, k.sdl_id ≠ answer

instance (ticks : List Tick) (answer : Nat) : Decidable (host_grants ticks answer) := by
  unfold host_grants; infer_instance

/-- The state of the timer a handle stands for, if there is one. -/
def state_of (s : Timers) (id : Int) : Option TimerState :=
  (_timer_get_link s.l_timers id).map (fun r => r.2.state)

/-- The call is an enable transition: it moves a timer from disabled to enabled. -/
def enabling (s : Timers) (op : TimerOp) : Prop :=
  match op with
  | .create _ _ _ state _ => state = TIMER_ENABLED
  | .set_state id state _ => state_of s id = some TIMER_DISABLED ∧ state = TIMER_ENABLED
  | _ => False

/-- The call is a disable transition: it moves a timer from enabled to disabled (`timer_free`
disables the timer before it frees it). -/
def disabling (s : Timers) (op : TimerOp) : Prop :=
  match op with
  | .set_state id state _ => state_of s id = some TIMER_ENABLED ∧ state = TIMER_DISABLED
  | .free id => state_of s id = some TIMER_ENABLED
  | _ => False

/-- The answer of the host that comes with a call. -/
def answer_of (op : TimerOp) : Nat :=
  match op with
  | .create _ _ _ _ answer => answer
  | .set_state _ _ answer => answer
  | _ => 0

/-- The host grants the timer a call asks for: a call asks on an enable transition. -/
def granted (s : Timers) (op : TimerOp) : Prop :=
  enabling s op → host_grants s.ticks (answer_of op)

/-- The host grants every timer a run asks for. -/
def run_granted (s : Timers) (ops : List TimerOp) : Prop :=
  match ops with
  | [] => True
  | op :: rest => granted s op ∧ run_granted (timer_step s op).2 rest

/-- The timer is running in the host: its `sdl_id` is not NULL and a host timer with that id
and the record as parameter exists. -/
def has_tick (s : Timers) (timer : TimerInfo) : Prop :=
  timer.sdl_id ≠ 0 ∧ ∃ k ∈ s.ticks, k.sdl_id = timer.sdl_id ∧ k.param = timer.addr

instance (s : Timers) (op : TimerOp) : Decidable (enabling s op) := by
  cases op <;> unfold enabling <;> infer_instance

instance (s : Timers) (op : TimerOp) : Decidable (disabling s op) := by
  cases op <;> unfold disabling <;> infer_instance

instance (s : Timers) (op : TimerOp) : Decidable (granted s op) := by
  unfold granted; infer_instance

instance run_granted_decidable (s : Timers) (ops : List TimerOp) :
    Decidable (run_granted s ops) :=
  match ops with
  | [] => instDecidableTrue
  | op :: rest =>
    have := run_granted_decidable (timer_step s op).2 rest
    instDecidableAnd

/-- The invariant between the registry and the host: a timer is enabled exactly when its
`sdl_id` is not NULL, every enabled timer has a host timer under its `sdl_id` with the record
as parameter, every host timer belongs to an enabled timer, and no `SDL_TimerID` occurs twice
(in the host, or in two enabled timers). -/
structure TInv (s : Timers) : Prop where
  flag : ∀ t ∈ s.l_timers, (t.state = TIMER_ENABLED ↔ t.sdl_id ≠ 0)
  held : ∀ t ∈ s.l_timers, t.state = TIMER_ENABLED →
    ∃ k ∈ s.ticks, k.sdl_id = t.sdl_id ∧ k.param = t.addr
  owned : ∀ k ∈ s.ticks, ∃ t ∈ s.l_timers, t.state = TIMER_ENABLED ∧ t.sdl_id = k.sdl_id
  ticks_nodup : (s.ticks.map (fun k => k.sdl_id)).Nodup
  sdl_distinct : s.l_timers.Pairwise (fun a b => a.sdl_id = b.sdl_id → a.sdl_id = 0)

/-- The invariant of the handles after `n` calls of `timer_create`: the next handle is
`n + 1`, the handles of the timers are distinct and among `1..n`, and the records have
distinct addresses below `brk`. -/
structure TWF (n : Nat) (s : Timers) : Prop where
  next : s.next_id = wrap32 ((n : Int) + 1)
  ids_range : ∀ t ∈ s.l_timers, 1 ≤ t.id ∧ t.id ≤ (n : Int)
  ids_nodup : (s.l_timers.map (fun t => t.id)).Nodup
  addrs_lt : ∀ t ∈ s.l_timers, t.addr < s.brk
  addrs_nodup : (s.l_timers.map (fun t => t.addr)).Nodup

/-! ## timer.c: from the tick to the timer handler -/

/-- The event type `SDL_USEREVENT` (its value in the `SDL_events.h` of SDL 1.2). -/
def SDL_USEREVENT : Int := 24

/-- The struct `SDL_UserEvent`; `data1` and `data2` are addresses (0 for NULL). -/
structure SDL_UserEvent where
  type : Int
  code : Int
  data1 : Nat
  data2 : Nat
  deriving DecidableEq, Repr

/-- One call `timer->handler(timer->user_data)`. -/
structure TimerCall where
  handler : Nat
  user_data : Nat
  deriving DecidableEq, Repr

/-- The record a `TimerInfo *` with value `p` points at: the record of the registry that
`malloc` placed at `p`. A pointer to a freed record points at no record. -/
def timer_at (l_timers : List TimerInfo) (p : Nat) : Option TimerInfo :=
  match l_timers with
  | [] => none
  | timer :: rest => if timer.addr = p then some timer else timer_at rest p

/-- What a run of `_timer_thread_swap` does: the events it gives to `SDL_PushEvent`, the
calls of timer handlers it makes, and the value it returns. -/
structure Swap where
  pushed : List SDL_UserEvent
  calls : List TimerCall
  ret : Nat
  deriving DecidableEq, Repr

/-- Embedding of `_timer_thread_swap(interval, param)`: one event is pushed, no timer
handler is called, and `timer->interval` is returned as `Uint32`. Reading `timer->interval`
through a pointer to a freed record is undefined: `none`. -/
def _timer_thread_swap (s : Timers) (_interval : Nat) (param : Nat) : Option Swap :=
  match timer_at s.l_timers param with
  | none => none
  | some timer =>
    some { pushed := [{ type := SDL_USEREVENT, code := 1, data1 := param, data2 := 0 }],
           calls := [], ret := to_uint32 timer.interval }

/-- Embedding of `_timer_evt_sdl_user(event_data, user_data)`, `event_data` pointing at
`event`: the calls of timer handlers it makes. With the code 1 the record `event->data1`
points at is read; for a pointer to a freed record that is undefined: `none`. -/
def _timer_evt_sdl_user (s : Timers) (event : SDL_UserEvent) (_user_data : Nat) :
    Option (List TimerCall) :=
  if event.code = 1 then
    match timer_at s.l_timers event.data1 with
    | none => none
    | some timer => some [{ handler := timer.handler, user_data := timer.user_data }]
  else some []

/-- Embedding of `timer_init`, `fn` being the address of the function
`_timer_evt_sdl_user`; returns `evt_sdl_user` and the new bus. -/
def timer_init (b : Bus) (fn : Nat) : Int × Bus :=
  event_connect b "sdl-user" 0 fn 0 .EVENT_HANDLER_ENABLED

/-- The handler calls of a raise carried out, as far as they run `_timer_evt_sdl_user`
(the handler with address `fn`) on the event: the calls of timer handlers made, in order.
Handlers with another address are code outside timer.c. -/
def run_timer_handler (s : Timers) (fn : Nat) (event : SDL_UserEvent) :
    List Call → Option (List TimerCall)
  | [] => some []
  | c :: rest =>
    if c.handler = fn then
      match _timer_evt_sdl_user s event c.user_data with
      | none => none
      | some made =>
        match run_timer_handler s fn event rest with
        | none => none
        | some more => some (made ++ more)
    else run_timer_handler s fn event rest

/-- The case `SDL_USEREVENT` of the main loop, `event` stored at the address `event_addr`:
`event_raise("sdl-user", &event)`, with the timer handler calls that the raise leads to,
and the new bus. -/
def main_user_event (b : Bus) (s : Timers) (fn : Nat) (event_addr : Nat)
    (event : SDL_UserEvent) : Option (List TimerCall) × Bus :=
  (run_timer_handler s fn event (event_raise b "sdl-user" event_addr).1,
    (event_raise b "sdl-user" event_addr).2)

/-! ## list.c: well-formedness in terms of the pointers -/

namespace ptr

/-- Forward traversal (`list = list->next` until NULL): the nodes met, as address and data.
`none` when a link is not live or the fuel runs out. -/
def forward (m : Heap) : Nat → Option Nat → Option (List (Nat × Nat))
  | _, none => some []
  | 0, some _ => none
  | fuel + 1, some a =>
    match m.get a with
    | none => none
    | some l => (forward m fuel l.next).map (fun rest => (a, l.data) :: rest)

/-- Backward traversal (`list = list->prev` until NULL): the nodes met, as address and data. -/
def backward (m : Heap) : Nat → Option Nat → Option (List (Nat × Nat))
  | _, none => some []
  | 0, some _ => none
  | fuel + 1, some a =>
    match m.get a with
    | none => none
    | some l => (backward m fuel l.prev).map (fun rest => (a, l.data) :: rest)

/-- Well-formedness as the pointers show it: the forward traversal from the head ends at
NULL, `head->prev` is NULL, and every node `n` of the list with a successor has
`n->next->prev == n`. -/
def well_formed (m : Heap) (list : Option Nat) : Prop :=
  ∃ nodes, forward m (m.cells.length + 1) list = some nodes ∧
    (∀ a l, list = some a → m.get a = some l → l.prev = none) ∧
    (∀ n ∈ nodes, ∀ l nx, m.get n.1 = some l → l.next = some nx →
      ∃ l1, m.get nx = some l1 ∧ l1.prev = some n.1)

/-- Forward traversal from the head and backward traversal from the last link meet the same
nodes, in reverse order. -/
def mirrored (m : Heap) (list : Option Nat) : Prop :=
  ∃ nodes last, forward m (m.cells.length + 1) list = some nodes ∧
    list_last m list = some last ∧ backward m (m.cells.length + 1) last = some nodes.reverse

/-- The call returned a list that is well-formed and reads the same in both directions. -/
def returns_well_formed (r : Option (Option Nat × Heap)) : Prop :=
  ∃ head1 m1, r = some (head1, m1) ∧ well_formed m1 head1 ∧ mirrored m1 head1

end ptr

/-- The calls on the bus that the handler functions called in `calls` make, in order. -/
def calls_acts (body : Nat → Nat → Nat → List CbAction) : List Call → List CbAction
  | [] => []
  | c :: rest => body c.handler c.event_data c.user_data ++ calls_acts body rest

/-! ## event.c: raises made from inside handler functions -/

/-- The channel list at the level of pointers, as needed when handler functions raise
events themselves. `links` holds, for each link of `l_events` in list order, the address of
the `EventInfo` its `data` field points to; `records` holds the `EventInfo` structures in
memory, each known by its address `addr`, whether a link points to it or not. -/
structure EventMem where
  links : List Nat
  records : List EventInfo
  deriving DecidableEq, Repr

/-- The pointer-level picture of a bus state: link `i` points to the record of channel `i`. -/
def EventMem.of_bus (b : Bus) : EventMem :=
  { links := b.l_events.map (fun e => e.addr), records := b.l_events }

/-- The structure at address `a`. -/
def EventMem.event (m : EventMem) (a : Nat) : Option EventInfo :=
  m.records.find? (fun e => decide (e.addr = a))

/-- Assignment `event->raise_count = c` through the pointer `a`. -/
def EventMem.set_raise_count (m : EventMem) (a : Nat) (c : Nat) : EventMem :=
  { m with records :=
      m.records.map (fun e => if e.addr = a then { e with raise_count := c } else e) }

/-- The channel list as a walk over the links sees it: the record each link points to. -/
def EventMem.view (m : EventMem) : List EventInfo :=
  m.links.filterMap (fun a => m.event a)

/-- The raises the handler functions of one call make, in order; `raise` is `event_raise`. -/
def run_raises (raise : EventMem → String → Nat → List Call × EventMem) :
    List (String × Nat) → EventMem → List Call × EventMem
  | [], m => ([], m)
  | (name, event_data) :: rest, m =>
    ((raise m name event_data).1 ++ (run_raises raise rest (raise m name event_data).2).1,
      (run_raises raise rest (raise m name event_data).2).2)

/-- The handler loop of `event_raise` when the handler functions raise events: `body f d u`
are the raises (name and payload) the function at address `f` makes when called with payload
`d` and user data `u`. Raises change neither the handler lists nor the handler records, so
the loop runs over the records of the list as read when it starts. The calls are listed in
the order in which they begin. -/
def deep_loop (raise : EventMem → String → Nat → List Call × EventMem)
    (body : Nat → Nat → Nat → List (String × Nat)) (event_data : Nat) :
    List EventHandlerInfo → EventMem → List Call × EventMem
  | [], m => ([], m)
  | handler :: rest, m =>
    if handler.state = .EVENT_HANDLER_ENABLED then
      ({ id := handler.id, handler := handler.handler, event_data := event_data,
         user_data := handler.user_data } ::
          ((run_raises raise (body handler.handler event_data handler.user_data) m).1 ++
            (deep_loop raise body event_data rest
              (run_raises raise (body handler.handler event_data handler.user_data) m).2).1),
        (deep_loop raise body event_data rest
          (run_raises raise (body handler.handler event_data handler.user_data) m).2).2)
    else deep_loop raise body event_data rest m

/-- Embedding of `event_raise` with handler functions that raise events. `event_link` is the
link found by name before the loop (its position `i`), `event` the structure its data
pointed to at that moment (its address). After the loop the counter of `event` goes up, and
if the link before `event_link` points to a structure with a smaller counter, that link is
made to point to `event` and `event_link` to that structure. `fuel` bounds the depth of
raises inside raises; a raise without fuel does nothing. -/
def event_raise_deep (body : Nat → Nat → Nat → List (String × Nat)) :
    Nat → EventMem → String → Nat → List Call × EventMem
  | 0, m, _, _ => ([], m)
  | fuel + 1, m, name, event_data =>
    match list_find_custom m.view name _event_find_event with
    | none => ([], m)
    | some (i, event) =>
      let r := deep_loop (fun m1 n1 d1 => event_raise_deep body fuel m1 n1 d1) body event_data
        event.l_event_handlers m
      match r.2.event event.addr with
      | none => r
      | some event_now =>
        let m2 := r.2.set_raise_count event.addr ((event_now.raise_count + 1) % ULONG_MOD)
        match i with
        | 0 => (r.1, m2)
        | k + 1 =>
          match load m2.links k with
          | none => (r.1, m2)
          | some prev_addr =>
            match m2.event prev_addr with
            | none => (r.1, m2)
            | some prev_event =>
              if prev_event.raise_count < (event_now.raise_count + 1) % ULONG_MOD then
                (r.1, { m2 with links := store (store m2.links k event.addr) (k + 1) prev_addr })
              else (r.1, m2)

/-! ## Machine integer facts -/

theorem wrap32_of_range {x : Int} (h : IsInt32 x) : wrap32 x = x := by
  unfold IsInt32 at h
  unfold wrap32
  omega

theorem wrap32_range (x : Int) : IsInt32 (wrap32 x) := by
  unfold IsInt32 wrap32
  omega

theorem wrap32_sub_eq_zero {a b : Int} (ha : IsInt32 a) (hb : IsInt32 b) :
    wrap32 (a - b) = 0 ↔ a = b := by
  unfold IsInt32 at ha hb
  unfold wrap32
  omega

theorem wrap32_sub_self (a : Int) : wrap32 (a - a) = 0 := by
  unfold wrap32
  omega

theorem wrap32_sub_pos_ne {a b : Int} (h : wrap32 (a - b) > 0) : a ≠ b := by
  intro hab
  subst hab
  rw [wrap32_sub_self] at h
  omega

theorem strcmp_chars_eq_zero {a b : List Char} : strcmp_chars a b = 0 ↔ a = b := by
  induction a generalizing b with
  | nil => cases b <;> simp [strcmp_chars]
  | cons x xs ih =>
    cases b with
    | nil => simp [strcmp_chars]
    | cons y ys =>
      unfold strcmp_chars
      by_cases h1 : x.toNat < y.toNat
      · have hne : x ≠ y := fun h => by subst h; omega
        simp [h1, hne]
      · by_cases h2 : y.toNat < x.toNat
        · have hne : x ≠ y := fun h => by subst h; omega
          simp [h1, h2, hne]
        · have hn : x.toNat = y.toNat := by omega
          have hxy : x = y := by
            calc x = Char.ofNat x.toNat := (Char.ofNat_toNat x).symm
              _ = Char.ofNat y.toNat := by rw [hn]
              _ = y := Char.ofNat_toNat y
          simp [h1, h2, hxy, ih]

theorem strcmp_eq_zero {a b : String} : strcmp a b = 0 ↔ a = b := by
  unfold strcmp
  rw [strcmp_chars_eq_zero]
  constructor
  · intro h
    exact String.ext h
  · intro h
    rw [h]

/-! ## Facts about the list functions -/

section list_facts
variable {α β : Type}

theorem list_append_eq (l : List α) (x : α) : list_append l x = l ++ [x] := by
  induction l with
  | nil => rfl
  | cons y ys ih => simp [list_append, ih]

theorem load_append_cons (l1 : List α) (x : α) (l2 : List α) :
    load (l1 ++ x :: l2) l1.length = some x := by
  induction l1 with
  | nil => rfl
  | cons y ys ih => simpa [load] using ih

theorem store_append_cons (l1 : List α) (x v : α) (l2 : List α) :
    store (l1 ++ x :: l2) l1.length v = l1 ++ v :: l2 := by
  induction l1 with
  | nil => rfl
  | cons y ys ih => simpa [store] using ih

theorem list_delete_link_append_cons (l1 : List α) (x : α) (l2 : List α) :
    list_delete_link (l1 ++ x :: l2) l1.length = l1 ++ l2 := by
  induction l1 with
  | nil => rfl
  | cons y ys ih => simpa [list_delete_link] using ih

theorem load_split {l : List α} {i : Nat} {x : α} (h : load l i = some x) :
    ∃ l1 l2, l = l1 ++ x :: l2 ∧ l1.length = i := by
  induction l generalizing i with
  | nil => simp [load] at h
  | cons y ys ih =>
    cases i with
    | zero =>
      simp only [load, Option.some.injEq] at h
      exact ⟨[], ys, by simp [h], rfl⟩
    | succ k =>
      simp only [load] at h
      obtain ⟨l1, l2, h1, h2⟩ := ih h
      exact ⟨y :: l1, l2, by simp [h1], by simp [h2]⟩

theorem list_find_custom_some {l : List α} {d : β} {f : α → β → Int} {i : Nat} {x : α}
    (h : list_find_custom l d f = some (i, x)) :
    ∃ l1 l2, l = l1 ++ x :: l2 ∧ l1.length = i ∧ f x d = 0 ∧ ∀ y ∈ l1, f y d ≠ 0 := by
  induction l generalizing i with
  | nil => simp [list_find_custom] at h
  | cons y ys ih =>
    unfold list_find_custom at h
    by_cases hy : f y d = 0
    · simp only [hy, if_true, Option.some.injEq, Prod.mk.injEq] at h
      obtain ⟨h1, h2⟩ := h
      subst h1 h2
      exact ⟨[], ys, rfl, rfl, hy, by simp⟩
    · simp only [hy, if_false] at h
      cases hr : list_find_custom ys d f with
      | none => simp [hr] at h
      | some r =>
        obtain ⟨k, z⟩ := r
        simp only [hr, Option.map_some', Option.some.injEq, Prod.mk.injEq] at h
        obtain ⟨h1, h2⟩ := h
        subst h1 h2
        obtain ⟨l1, l2, e1, e2, e3, e4⟩ := ih hr
        refine ⟨y :: l1, l2, by simp [e1], by simp [e2], e3, ?_⟩
        intro w hw
        rcases List.mem_cons.mp hw with hw | hw
        · exact hw ▸ hy
        · exact e4 w hw

theorem list_find_custom_none {l : List α} {d : β} {f : α → β → Int} :
    list_find_custom l d f = none ↔ ∀ y ∈ l, f y d ≠ 0 := by
  induction l with
  | nil => simp [list_find_custom]
  | cons y ys ih =>
    unfold list_find_custom
    by_cases hy : f y d = 0
    · simp [hy]
    · simp [hy, ih]

theorem list_find_custom_append {l1 l2 : List α} {x : α} {d : β} {f : α → β → Int}
    (h1 : ∀ y ∈ l1, f y d ≠ 0) (hx : f x d = 0) :
    list_find_custom (l1 ++ x :: l2) d f = some (l1.length, x) := by
  induction l1 with
  | nil => simp [list_find_custom, hx]
  | cons y ys ih =>
    have hy : f y d ≠ 0 := h1 y (by simp)
    have := ih (fun w hw => h1 w (by simp [hw]))
    simp [list_find_custom, hy, this]

/-- The result of `list_insert_sorted`: the leading run of elements with a positive
comparator result, the new item, the rest. -/
theorem list_insert_sorted_scan_eq (f : α → α → Int) (d x : α) (l : List α) :
    list_insert_sorted_scan f d x l =
      (x :: l).takeWhile (fun y => decide (f d y > 0)) ++
        d :: (x :: l).dropWhile (fun y => decide (f d y > 0)) := by
  induction l generalizing x with
  | nil =>
    by_cases h : f d x > 0 <;> simp [list_insert_sorted_scan, List.takeWhile, List.dropWhile, h]
  | cons y ys ih =>
    by_cases h : f d x > 0
    · rw [list_insert_sorted_scan, if_pos h, ih]
      simp [List.takeWhile_cons, List.dropWhile_cons, h]
    · simp [list_insert_sorted_scan, List.takeWhile_cons, List.dropWhile_cons, h]

theorem list_insert_sorted_eq (l : List α) (d : α) (f : α → α → Int) :
    list_insert_sorted l d f =
      l.takeWhile (fun y => decide (f d y > 0)) ++
        d :: l.dropWhile (fun y => decide (f d y > 0)) := by
  cases l with
  | nil => simp [list_insert_sorted]
  | cons x xs => simpa [list_insert_sorted] using list_insert_sorted_scan_eq f d x xs

end list_facts

/-! ## Facts about the lookup functions of the bus -/

theorem get_handler_link_some {l : List EventInfo} {id : Int} {i j : Nat} {h : EventHandlerInfo}
    (hl : _event_get_handler_link l id = some (i, j, h)) :
    ∃ l1 e l2 h1 h2, l = l1 ++ e :: l2 ∧ l1.length = i ∧
      e.l_event_handlers = h1 ++ h :: h2 ∧ h1.length = j ∧ _event_find_handler h id = 0 ∧
      (∀ e1 ∈ l1, ∀ y ∈ e1.l_event_handlers, _event_find_handler y id ≠ 0) ∧
      (∀ y ∈ h1, _event_find_handler y id ≠ 0) := by
  induction l generalizing i with
  | nil => simp [_event_get_handler_link] at hl
  | cons e es ih =>
    unfold _event_get_handler_link at hl
    cases hf : list_find_custom e.l_event_handlers id _event_find_handler with
    | some r =>
      obtain ⟨k, x⟩ := r
      simp only [hf, Option.some.injEq, Prod.mk.injEq] at hl
      obtain ⟨e1, e2, e3⟩ := hl
      subst e1 e2 e3
      obtain ⟨h1, h2, d1, d2, d3, d4⟩ := list_find_custom_some hf
      exact ⟨[], e, es, h1, h2, rfl, rfl, d1, d2, d3, by simp, d4⟩
    | none =>
      simp only [hf] at hl
      cases hr : _event_get_handler_link es id with
      | none => simp [hr] at hl
      | some r =>
        obtain ⟨i1, j1, x⟩ := r
        simp only [hr, Option.map_some', Option.some.injEq, Prod.mk.injEq] at hl
        obtain ⟨e1, e2, e3⟩ := hl
        subst e1 e2 e3
        obtain ⟨l1, e0, l2, h1, h2, d1, d2, d3, d4, d5, d6, d7⟩ := ih hr
        refine ⟨e :: l1, e0, l2, h1, h2, by simp [d1], by simp [d2], d3, d4, d5, ?_, d7⟩
        intro e1 he1 y hy
        rcases List.mem_cons.mp he1 with he1 | he1
        · subst he1
          exact (list_find_custom_none.mp hf) y hy
        · exact d6 e1 he1 y hy

theorem get_handler_link_none {l : List EventInfo} {id : Int} :
    _event_get_handler_link l id = none ↔
      ∀ e ∈ l, ∀ y ∈ e.l_event_handlers, _event_find_handler y id ≠ 0 := by
  induction l with
  | nil => simp [_event_get_handler_link]
  | cons e es ih =>
    unfold _event_get_handler_link
    cases hf : list_find_custom e.l_event_handlers id _event_find_handler with
    | some r =>
      obtain ⟨k, x⟩ := r
      obtain ⟨h1, h2, d1, _, d3, _⟩ := list_find_custom_some hf
      simp only [false_iff, reduceCtorEq]
      intro hall
      exact hall e (by simp) x (by simp [d1]) d3
    | none =>
      have hn := list_find_custom_none.mp hf
      simp only [Option.map_eq_none', ih, List.mem_cons, forall_eq_or_imp]
      constructor
      · intro h
        exact ⟨hn, h⟩
      · intro h
        exact h.2

theorem get_handler_link_append (l2 : List EventInfo) {l1 : List EventInfo} {e : EventInfo}
    {h1 h2 : List EventHandlerInfo} {h : EventHandlerInfo} {id : Int}
    (he : e.l_event_handlers = h1 ++ h :: h2)
    (hl1 : ∀ e1 ∈ l1, ∀ y ∈ e1.l_event_handlers, _event_find_handler y id ≠ 0)
    (hh1 : ∀ y ∈ h1, _event_find_handler y id ≠ 0) (hh : _event_find_handler h id = 0) :
    _event_get_handler_link (l1 ++ e :: l2) id = some (l1.length, h1.length, h) := by
  induction l1 with
  | nil =>
    simp [_event_get_handler_link, he, list_find_custom_append hh1 hh]
  | cons x xs ih =>
    have hx : list_find_custom x.l_event_handlers id _event_find_handler = none :=
      list_find_custom_none.mpr (hl1 x (by simp))
    have := ih (fun e1 he1 => hl1 e1 (by simp [he1]))
    simp [_event_get_handler_link, hx, this]

theorem store_handler_append (l1 l2 : List EventInfo) (e : EventInfo) (j : Nat)
    (v : EventHandlerInfo) :
    store_handler (l1 ++ e :: l2) l1.length j v =
      l1 ++ { e with l_event_handlers := store e.l_event_handlers j v } :: l2 := by
  induction l1 with
  | nil => rfl
  | cons y ys ih => simpa [store_handler] using ih

theorem get_event_link_some {l : List EventInfo} {name : String} {i : Nat} {e : EventInfo}
    (h : _event_get_event_link l name = some (i, e)) :
    ∃ l1 l2, l = l1 ++ e :: l2 ∧ l1.length = i ∧ e.name = name ∧ ∀ y ∈ l1, y.name ≠ name := by
  obtain ⟨l1, l2, d1, d2, d3, d4⟩ := list_find_custom_some h
  refine ⟨l1, l2, d1, d2, strcmp_eq_zero.mp d3, ?_⟩
  intro y hy hn
  exact d4 y hy (strcmp_eq_zero.mpr hn)

theorem get_event_link_none {l : List EventInfo} {name : String} :
    _event_get_event_link l name = none ↔ ∀ y ∈ l, y.name ≠ name := by
  unfold _event_get_event_link
  rw [list_find_custom_none]
  constructor
  · intro h y hy hn
    exact h y hy (strcmp_eq_zero.mpr hn)
  · intro h y hy hn
    exact h y hy (strcmp_eq_zero.mp hn)

theorem get_event_link_append (l1 l2 : List EventInfo) (e : EventInfo)
    (h1 : ∀ y ∈ l1, y.name ≠ e.name) :
    _event_get_event_link (l1 ++ e :: l2) e.name = some (l1.length, e) := by
  unfold _event_get_event_link
  apply list_find_custom_append
  · intro y hy hn
    exact h1 y hy (strcmp_eq_zero.mp hn)
  · exact strcmp_eq_zero.mpr rfl

/-! ## What each public function does to the channel list -/

theorem event_connect_long (b : Bus) (name : String) (p : Int) (f u : Nat)
    (st : EventHandlerState) (hlen : strlen name > EVENT_NAME_MAX_LENGTH - 1) :
    event_connect b name p f u st = (0, b) := by
  simp [event_connect, hlen]

theorem event_connect_existing (b : Bus) (name : String) (p : Int) (f u : Nat)
    (st : EventHandlerState) (hlen : ¬ strlen name > EVENT_NAME_MAX_LENGTH - 1)
    {l1 l2 : List EventInfo} {e : EventInfo} (hb : b.l_events = l1 ++ e :: l2)
    (hn : e.name = name) (h1 : ∀ y ∈ l1, y.name ≠ name) :
    event_connect b name p f u st =
      (b.next_id,
        { l_events := l1 ++ set_handlers e (list_insert_sorted e.l_event_handlers
            ⟨b.next_id, p, e.addr, f, st, u⟩ _event_insert_handler) :: l2,
          next_id := wrap32 (b.next_id + 1) }) := by
  subst hn
  have hf := get_event_link_append l1 l2 e h1
  rw [← hb] at hf
  simp only [event_connect, hlen, if_false, hf]
  rw [hb, store_append_cons]

theorem event_connect_new (b : Bus) (name : String) (p : Int) (f u : Nat)
    (st : EventHandlerState) (hlen : ¬ strlen name > EVENT_NAME_MAX_LENGTH - 1)
    (h1 : ∀ y ∈ b.l_events, y.name ≠ name) :
    event_connect b name p f u st =
      (b.next_id,
        { l_events := b.l_events ++
            [⟨b.l_events.length, name, 0, [⟨b.next_id, p, b.l_events.length, f, st, u⟩]⟩],
          next_id := wrap32 (b.next_id + 1) }) := by
  have hf := get_event_link_none.mpr h1
  simp only [event_connect, hlen, if_false, hf, list_append_eq, list_insert_sorted]
  rw [store_append_cons]

theorem event_handler_set_state_found (b : Bus) (id : Int) (st : EventHandlerState)
    {l1 l2 : List EventInfo} {e : EventInfo} {h1 h2 : List EventHandlerInfo}
    {h : EventHandlerInfo} (hb : b.l_events = l1 ++ e :: l2)
    (he : e.l_event_handlers = h1 ++ h :: h2)
    (hl1 : ∀ e1 ∈ l1, ∀ y ∈ e1.l_event_handlers, _event_find_handler y id ≠ 0)
    (hh1 : ∀ y ∈ h1, _event_find_handler y id ≠ 0) (hh : _event_find_handler h id = 0) :
    event_handler_set_state b id st =
      { b with l_events := l1 ++ set_handlers e (h1 ++ set_state_of h st :: h2) :: l2 } := by
  have hf := get_handler_link_append l2 he hl1 hh1 hh
  rw [← hb] at hf
  simp only [event_handler_set_state, hf]
  rw [hb, store_handler_append, he, store_append_cons]

theorem event_handler_set_user_data_found (b : Bus) (id : Int) (u : Nat)
    {l1 l2 : List EventInfo} {e : EventInfo} {h1 h2 : List EventHandlerInfo}
    {h : EventHandlerInfo} (hb : b.l_events = l1 ++ e :: l2)
    (he : e.l_event_handlers = h1 ++ h :: h2)
    (hl1 : ∀ e1 ∈ l1, ∀ y ∈ e1.l_event_handlers, _event_find_handler y id ≠ 0)
    (hh1 : ∀ y ∈ h1, _event_find_handler y id ≠ 0) (hh : _event_find_handler h id = 0) :
    event_handler_set_user_data b id u =
      { b with l_events := l1 ++ set_handlers e (h1 ++ set_user_data_of h u :: h2) :: l2 } := by
  have hf := get_handler_link_append l2 he hl1 hh1 hh
  rw [← hb] at hf
  simp only [event_handler_set_user_data, hf]
  rw [hb, store_handler_append, he, store_append_cons]

theorem event_disconnect_found (b : Bus) (id : Int)
    {l1 l2 : List EventInfo} {e : EventInfo} {h1 h2 : List EventHandlerInfo}
    {h : EventHandlerInfo} (hb : b.l_events = l1 ++ e :: l2)
    (he : e.l_event_handlers = h1 ++ h :: h2)
    (hl1 : ∀ e1 ∈ l1, ∀ y ∈ e1.l_event_handlers, _event_find_handler y id ≠ 0)
    (hh1 : ∀ y ∈ h1, _event_find_handler y id ≠ 0) (hh : _event_find_handler h id = 0)
    (hown : h.event = e.addr) :
    event_disconnect b id =
      some { b with l_events := l1 ++ set_handlers e (h1 ++ h2) :: l2 } := by
  have hf := get_handler_link_append l2 he hl1 hh1 hh
  rw [← hb] at hf
  simp only [event_disconnect, hf]
  rw [hb, load_append_cons]
  simp only [hown, if_true]
  rw [store_append_cons, he, list_delete_link_append_cons]

theorem event_raise_first (b : Bus) (d : Nat) (l2 : List EventInfo) (e : EventInfo)
    (hb : b.l_events = e :: l2) :
    event_raise b e.name d =
      (raise_handlers e.l_event_handlers d, { b with l_events := bump e :: l2 }) := by
  have hf := get_event_link_append [] l2 e (by simp)
  simp only [List.nil_append, List.length_nil] at hf
  rw [← hb] at hf
  simp only [event_raise, hf]
  rw [hb]
  rfl

theorem event_raise_inner (b : Bus) (d : Nat) {l0 l2 : List EventInfo} {q e : EventInfo}
    (hb : b.l_events = l0 ++ q :: e :: l2) (h0 : ∀ y ∈ l0, y.name ≠ e.name)
    (hq : q.name ≠ e.name) :
    event_raise b e.name d =
      (raise_handlers e.l_event_handlers d,
        { b with l_events :=
            if q.raise_count < (e.raise_count + 1) % ULONG_MOD then l0 ++ bump e :: q :: l2
            else l0 ++ q :: bump e :: l2 }) := by
  have hb1 : b.l_events = (l0 ++ [q]) ++ e :: l2 := by simp [hb]
  have hf := get_event_link_append (l0 ++ [q]) l2 e (by
    intro y hy
    rcases List.mem_append.mp hy with hy | hy
    · exact h0 y hy
    · simp only [List.mem_singleton] at hy
      exact hy ▸ hq)
  rw [← hb1] at hf
  simp only [List.length_append, List.length_singleton] at hf
  have e1 : store b.l_events (l0.length + 1) (bump e) = l0 ++ q :: bump e :: l2 := by
    have := store_append_cons (l0 ++ [q]) e (bump e) l2
    simpa [hb1] using this
  have e2 : load (l0 ++ q :: bump e :: l2) l0.length = some q := load_append_cons _ _ _
  have e3 : store (store (l0 ++ q :: bump e :: l2) l0.length (bump e)) (l0.length + 1) q =
      l0 ++ bump e :: q :: l2 := by
    rw [store_append_cons]
    have := store_append_cons (l0 ++ [bump e]) (bump e) q l2
    simpa using this
  simp only [event_raise, hf, e1, e2, e3]
  by_cases hc : q.raise_count < (e.raise_count + 1) % ULONG_MOD
  · simp only [hc, if_true]
  · simp only [hc, if_false]

/-! ## Well-formed bus states are kept by every call -/

theorem all_ids_append (l1 l2 : List EventInfo) :
    all_ids (l1 ++ l2) = all_ids l1 ++ all_ids l2 := by
  induction l1 with
  | nil => rfl
  | cons e es ih => simp [all_ids, ih]

theorem all_ids_cons (e : EventInfo) (l : List EventInfo) :
    all_ids (e :: l) = e.l_event_handlers.map (fun h => h.id) ++ all_ids l := rfl

theorem mem_all_ids {l : List EventInfo} {x : Int} :
    x ∈ all_ids l ↔ ∃ e ∈ l, ∃ h ∈ e.l_event_handlers, h.id = x := by
  induction l with
  | nil => simp [all_ids]
  | cons e es ih => simp [all_ids, ih]

theorem WF_init : WF 0 Bus.init := by
  refine ⟨by decide, ?_, ?_, ?_, ?_, ?_, ?_⟩ <;> simp [Bus.init, all_ids]

/-- Replacing the handler list of one channel keeps the state well-formed when the new
list holds admissible records and the handles stay distinct. -/
theorem WF_update {n m : Nat} {l1 l2 : List EventInfo} {e : EventInfo} {nx nx1 : Int}
    {hs : List EventHandlerInfo} (hw : WF n ⟨l1 ++ e :: l2, nx⟩) (hnm : n ≤ m)
    (hnx : nx1 = wrap32 ((m : Int) + 1))
    (hr : ∀ h ∈ hs, (1 ≤ h.id ∧ h.id ≤ (m : Int)) ∧ h.event = e.addr)
    (hd : (all_ids l1 ++ (hs.map (fun h => h.id) ++ all_ids l2)).Nodup) :
    WF m ⟨l1 ++ set_handlers e hs :: l2, nx1⟩ := by
  obtain ⟨_, w2, _, w4, w5, w6, w7⟩ := hw
  refine ⟨hnx, ?_, ?_, ?_, ?_, ?_, ?_⟩
  · intro e1 he1 h hh
    simp only [List.mem_append, List.mem_cons] at he1
    rcases he1 with he1 | he1 | he1
    · have := w2 e1 (by simp [he1]) h hh
      omega
    · subst he1
      exact (hr h hh).1
    · have := w2 e1 (by simp [he1]) h hh
      omega
  · simpa [all_ids_append, all_ids_cons] using hd
  · simpa using w4
  · intro e1 he1 h hh
    simp only [List.mem_append, List.mem_cons] at he1
    rcases he1 with he1 | he1 | he1
    · exact w5 e1 (by simp [he1]) h hh
    · subst he1
      exact (hr h hh).2
    · exact w5 e1 (by simp [he1]) h hh
  · simpa using w6
  · intro e1 he1
    simp only [List.mem_append, List.mem_cons] at he1
    simp only [List.length_append, List.length_cons] at w7 ⊢
    rcases he1 with he1 | he1 | he1
    · exact w7 e1 (by simp [he1])
    · subst he1
      exact w7 e (by simp)
    · exact w7 e1 (by simp [he1])

theorem WF_ids_split {n : Nat} {l1 l2 : List EventInfo} {e : EventInfo} {nx : Int}
    (hw : WF n ⟨l1 ++ e :: l2, nx⟩) :
    (all_ids l1 ++ (e.l_event_handlers.map (fun h => h.id) ++ all_ids l2)).Nodup := by
  simpa [all_ids_append, all_ids_cons] using hw.ids_nodup

theorem list_insert_sorted_perm {α : Type} (l : List α) (d : α) (f : α → α → Int) :
    (list_insert_sorted l d f).Perm (d :: l) := by
  rw [list_insert_sorted_eq]
  have h := List.takeWhile_append_dropWhile (fun y => decide (f d y > 0)) l
  calc (l.takeWhile _ ++ d :: l.dropWhile _).Perm (d :: (l.takeWhile _ ++ l.dropWhile _)) :=
        List.perm_middle
    _ = d :: l := by rw [h]

theorem mem_list_insert_sorted {α : Type} {l : List α} {d x : α} {f : α → α → Int} :
    x ∈ list_insert_sorted l d f ↔ x = d ∨ x ∈ l := by
  rw [(list_insert_sorted_perm l d f).mem_iff, List.mem_cons]

theorem WF_id_le {n : Nat} {b : Bus} (hw : WF n b) {x : Int} (hx : x ∈ all_ids b.l_events) :
    1 ≤ x ∧ x ≤ (n : Int) := by
  obtain ⟨e, he, h, hh, rfl⟩ := mem_all_ids.mp hx
  exact hw.ids_range e he h hh

theorem WF_connect {n : Nat} {b : Bus} (hw : WF n b) (name : String) (p : Int) (f u : Nat)
    (st : EventHandlerState) (hlen : ¬ strlen name > EVENT_NAME_MAX_LENGTH - 1)
    (hn : (n : Int) + 1 < 2147483648) :
    (event_connect b name p f u st).1 = (n : Int) + 1 ∧
      WF (n + 1) (event_connect b name p f u st).2 := by
  have hnext : b.next_id = (n : Int) + 1 := by
    rw [hw.next]
    exact wrap32_of_range ⟨by omega, hn⟩
  have hnext1 : wrap32 (b.next_id + 1) = wrap32 (((n + 1 : Nat) : Int) + 1) := by
    rw [hnext]
    push_cast
    rfl
  cases hf : _event_get_event_link b.l_events name with
  | some r =>
    obtain ⟨i, e⟩ := r
    obtain ⟨l1, l2, hb, _, hname, h1⟩ := get_event_link_some hf
    rw [event_connect_existing b name p f u st hlen hb hname h1]
    refine ⟨hnext, ?_⟩
    obtain ⟨l, nx⟩ := b
    simp only at hb hnext hnext1
    subst hb
    have hsplit := WF_ids_split hw
    refine WF_update hw (Nat.le_succ n) hnext1 ?_ ?_
    · intro h hh
      rcases mem_list_insert_sorted.mp hh with hh | hh
      · subst hh
        simp only [and_true]
        omega
      · have := hw.ids_range e (by simp) h hh
        have ho := hw.owner e (by simp) h hh
        push_cast
        exact ⟨⟨this.1, by omega⟩, ho⟩
    · have hp : (all_ids l1 ++ ((list_insert_sorted e.l_event_handlers
          ⟨nx, p, e.addr, f, st, u⟩ _event_insert_handler).map (fun h => h.id) ++
            all_ids l2)).Perm
          (nx :: (all_ids l1 ++ (e.l_event_handlers.map (fun h => h.id) ++ all_ids l2))) := by
        have h1 := ((list_insert_sorted_perm e.l_event_handlers
          (⟨nx, p, e.addr, f, st, u⟩ : EventHandlerInfo) _event_insert_handler).map
            (fun h => h.id)).append_right (all_ids l2)
        have h2 := h1.append_left (all_ids l1)
        refine h2.trans ?_
        simp only [List.map_cons, List.cons_append]
        exact List.perm_middle
      rw [hp.nodup_iff, List.nodup_cons]
      refine ⟨?_, hsplit⟩
      intro hmem
      have hmem1 : nx ∈ all_ids (l1 ++ e :: l2) := by
        simpa [all_ids_append, all_ids_cons] using hmem
      have := WF_id_le hw hmem1
      omega
  | none =>
    have h1 := get_event_link_none.mp hf
    rw [event_connect_new b name p f u st hlen h1]
    refine ⟨hnext, ?_⟩
    obtain ⟨w1, w2, w3, w4, w5, w6, w7⟩ := hw
    refine ⟨hnext1, ?_, ?_, ?_, ?_, ?_, ?_⟩
    · intro e1 he1 h hh
      simp only [List.mem_append, List.mem_singleton] at he1
      rcases he1 with he1 | he1
      · have := w2 e1 he1 h hh
        push_cast
        omega
      · subst he1
        simp only [List.mem_singleton] at hh
        subst hh
        push_cast
        omega
    · simp only [all_ids_append, all_ids_cons, all_ids, List.map_cons, List.map_nil,
        List.append_nil]
      rw [List.nodup_append]
      refine ⟨w3, by simp, ?_⟩
      intro x hx hx1
      simp only [List.mem_singleton] at hx1
      subst hx1
      have := WF_id_le ⟨w1, w2, w3, w4, w5, w6, w7⟩ hx
      omega
    · simp only [List.map_append, List.map_cons, List.map_nil]
      rw [List.nodup_append]
      refine ⟨w4, by simp, ?_⟩
      intro x hx hx1
      simp only [List.mem_singleton] at hx1
      subst hx1
      obtain ⟨y, hy, hyn⟩ := List.mem_map.mp hx
      exact h1 y hy hyn
    · intro e1 he1 h hh
      simp only [List.mem_append, List.mem_singleton] at he1
      rcases he1 with he1 | he1
      · exact w5 e1 he1 h hh
      · subst he1
        simp only [List.mem_singleton] at hh
        subst hh
        rfl
    · simp only [List.map_append, List.map_cons, List.map_nil]
      rw [List.nodup_append]
      refine ⟨w6, by simp, ?_⟩
      intro x hx hx1
      simp only [List.mem_singleton] at hx1
      subst hx1
      obtain ⟨y, hy, hya⟩ := List.mem_map.mp hx
      have := w7 y hy
      omega
    · intro e1 he1
      simp only [List.mem_append, List.mem_singleton] at he1
      simp only [List.length_append, List.length_singleton]
      rcases he1 with he1 | he1
      · have := w7 e1 he1
        omega
      · subst he1
        simp

theorem WF_set_state {n : Nat} {b : Bus} (hw : WF n b) (id : Int) (st : EventHandlerState) :
    WF n (event_handler_set_state b id st) := by
  cases hf : _event_get_handler_link b.l_events id with
  | none => simpa [event_handler_set_state, hf] using hw
  | some r =>
    obtain ⟨i, j, h⟩ := r
    obtain ⟨l1, e, l2, h1, h2, hb, _, he, _, d5, d6, d7⟩ := get_handler_link_some hf
    rw [event_handler_set_state_found b id st hb he d6 d7 d5]
    obtain ⟨l, nx⟩ := b
    simp only at hb
    subst hb
    have hsplit := WF_ids_split hw
    refine WF_update hw (Nat.le_refl n) hw.next ?_ ?_
    · intro x hx
      simp only [List.mem_append, List.mem_cons] at hx
      have hr := hw.ids_range e (by simp)
      have ho := hw.owner e (by simp)
      rcases hx with hx | hx | hx
      · exact ⟨hr x (by simp [he, hx]), ho x (by simp [he, hx])⟩
      · subst hx
        exact ⟨hr h (by simp [he]), ho h (by simp [he])⟩
      · exact ⟨hr x (by simp [he, hx]), ho x (by simp [he, hx])⟩
    · simpa [he] using hsplit

theorem WF_set_user_data {n : Nat} {b : Bus} (hw : WF n b) (id : Int) (u : Nat) :
    WF n (event_handler_set_user_data b id u) := by
  cases hf : _event_get_handler_link b.l_events id with
  | none => simpa [event_handler_set_user_data, hf] using hw
  | some r =>
    obtain ⟨i, j, h⟩ := r
    obtain ⟨l1, e, l2, h1, h2, hb, _, he, _, d5, d6, d7⟩ := get_handler_link_some hf
    rw [event_handler_set_user_data_found b id u hb he d6 d7 d5]
    obtain ⟨l, nx⟩ := b
    simp only at hb
    subst hb
    have hsplit := WF_ids_split hw
    refine WF_update hw (Nat.le_refl n) hw.next ?_ ?_
    · intro x hx
      simp only [List.mem_append, List.mem_cons] at hx
      have hr := hw.ids_range e (by simp)
      have ho := hw.owner e (by simp)
      rcases hx with hx | hx | hx
      · exact ⟨hr x (by simp [he, hx]), ho x (by simp [he, hx])⟩
      · subst hx
        exact ⟨hr h (by simp [he]), ho h (by simp [he])⟩
      · exact ⟨hr x (by simp [he, hx]), ho x (by simp [he, hx])⟩
    · simpa [he] using hsplit

theorem WF_disconnect {n : Nat} {b : Bus} (hw : WF n b) (id : Int) :
    ∃ b1, event_disconnect b id = some b1 ∧ WF n b1 := by
  cases hf : _event_get_handler_link b.l_events id with
  | none => exact ⟨b, by simp [event_disconnect, hf], hw⟩
  | some r =>
    obtain ⟨i, j, h⟩ := r
    obtain ⟨l1, e, l2, h1, h2, hb, _, he, _, d5, d6, d7⟩ := get_handler_link_some hf
    have hown : h.event = e.addr := hw.owner e (by simp [hb]) h (by simp [he])
    refine ⟨_, event_disconnect_found b id hb he d6 d7 d5 hown, ?_⟩
    obtain ⟨l, nx⟩ := b
    simp only at hb
    subst hb
    have hsplit := WF_ids_split hw
    refine WF_update hw (Nat.le_refl n) hw.next ?_ ?_
    · intro x hx
      simp only [List.mem_append] at hx
      have hr := hw.ids_range e (by simp)
      have ho := hw.owner e (by simp)
      rcases hx with hx | hx
      · exact ⟨hr x (by simp [he, hx]), ho x (by simp [he, hx])⟩
      · exact ⟨hr x (by simp [he, hx]), ho x (by simp [he, hx])⟩
    · rw [he] at hsplit
      refine hsplit.sublist ?_
      refine List.Sublist.append (List.Sublist.refl _) (List.Sublist.append ?_ (List.Sublist.refl _))
      simp only [List.map_append, List.map_cons]
      exact List.Sublist.append (List.Sublist.refl _) (List.sublist_cons_self _ _)

theorem eq_nil_or_snoc {α : Type} (l : List α) : l = [] ∨ ∃ l0 q, l = l0 ++ [q] := by
  rcases List.eq_nil_or_concat l with h | ⟨l0, q, h⟩
  · exact Or.inl h
  · exact Or.inr ⟨l0, q, by simpa using h⟩

theorem all_ids_perm {l l1 : List EventInfo} (h : l.Perm l1) : (all_ids l).Perm (all_ids l1) := by
  induction h with
  | nil => exact List.Perm.refl _
  | cons x _ ih => exact ih.append_left _
  | swap x y l =>
    simp only [all_ids_cons]
    exact List.perm_append_comm_assoc _ _ _
  | trans _ _ ih1 ih2 => exact ih1.trans ih2

theorem WF_perm {n : Nat} {l l1 : List EventInfo} {nx : Int} (hw : WF n ⟨l, nx⟩)
    (hp : l1.Perm l) : WF n ⟨l1, nx⟩ := by
  obtain ⟨w1, w2, w3, w4, w5, w6, w7⟩ := hw
  refine ⟨w1, ?_, ?_, ?_, ?_, ?_, ?_⟩
  · intro e he
    exact w2 e (hp.mem_iff.mp he)
  · exact (all_ids_perm hp).nodup_iff.mpr w3
  · exact (hp.map _).nodup_iff.mpr w4
  · intro e he
    exact w5 e (hp.mem_iff.mp he)
  · exact (hp.map _).nodup_iff.mpr w6
  · intro e he
    have := w7 e (hp.mem_iff.mp he)
    simpa [hp.length_eq] using this

theorem WF_bump {n : Nat} (l1 : List EventInfo) {l2 : List EventInfo} {e : EventInfo} {nx : Int}
    (hw : WF n ⟨l1 ++ e :: l2, nx⟩) : WF n ⟨l1 ++ bump e :: l2, nx⟩ := by
  obtain ⟨w1, w2, w3, w4, w5, w6, w7⟩ := hw
  refine ⟨w1, ?_, ?_, ?_, ?_, ?_, ?_⟩
  · intro e1 he1 h hh
    simp only [List.mem_append, List.mem_cons] at he1
    rcases he1 with he1 | he1 | he1
    · exact w2 e1 (by simp [he1]) h hh
    · subst he1
      exact w2 e (by simp) h hh
    · exact w2 e1 (by simp [he1]) h hh
  · simpa [all_ids_append, all_ids_cons] using w3
  · simpa using w4
  · intro e1 he1 h hh
    simp only [List.mem_append, List.mem_cons] at he1
    rcases he1 with he1 | he1 | he1
    · exact w5 e1 (by simp [he1]) h hh
    · subst he1
      exact w5 e (by simp) h hh
    · exact w5 e1 (by simp [he1]) h hh
  · simpa using w6
  · intro e1 he1
    simp only [List.mem_append, List.mem_cons] at he1
    simp only [List.length_append, List.length_cons] at w7 ⊢
    rcases he1 with he1 | he1 | he1
    · exact w7 e1 (by simp [he1])
    · subst he1
      exact w7 e (by simp)
    · exact w7 e1 (by simp [he1])

theorem WF_raise {n : Nat} {b : Bus} (hw : WF n b) (name : String) (d : Nat) :
    WF n (event_raise b name d).2 := by
  cases hf : _event_get_event_link b.l_events name with
  | none => simpa [event_raise, hf] using hw
  | some r =>
    obtain ⟨i, e⟩ := r
    obtain ⟨l1, l2, hb, _, hname, h1⟩ := get_event_link_some hf
    subst hname
    obtain ⟨l, nx⟩ := b
    simp only at hb
    subst hb
    rcases eq_nil_or_snoc l1 with rfl | ⟨l0, q, rfl⟩
    · rw [event_raise_first _ d l2 e rfl]
      exact WF_bump [] hw
    · have hb1 : (⟨(l0 ++ [q]) ++ e :: l2, nx⟩ : Bus).l_events = l0 ++ q :: e :: l2 := by simp
      rw [event_raise_inner _ d hb1 (fun y hy => h1 y (by simp [hy])) (h1 q (by simp))]
      have hw1 : WF n ⟨l0 ++ q :: bump e :: l2, nx⟩ := by
        have := WF_bump (l0 ++ [q]) hw
        simpa using this
      by_cases hc : q.raise_count < (e.raise_count + 1) % ULONG_MOD
      · simp only [hc, if_true]
        exact WF_perm hw1 ((List.Perm.swap _ _ _).append_left l0)
      · simp only [hc, if_false]
        exact hw1

/-! ## Runs -/

theorem range_handles (n m : Nat) :
    ((n : Int) + 1) :: (List.range m).map (fun (k : Nat) => (((n + 1 : Nat) : Int) + 1 + (k : Int))) =
      (List.range (m + 1)).map (fun (k : Nat) => ((n : Int) + 1 + (k : Int))) := by
  rw [List.range_succ_eq_map]
  simp only [List.map_cons, List.map_map, Nat.cast_zero, add_zero, List.cons.injEq, true_and]
  apply List.map_congr_left
  intro k _
  simp only [Function.comp, Nat.cast_succ]
  ring

/-- A run from a well-formed state never fails, ends in a well-formed state and hands out
the handles `n + 1, n + 2, ...` in call order. -/
theorem run_WF (ops : List Op) {n : Nat} {b : Bus} (hw : WF n b)
    (hn : n + connects ops < 2147483648) :
    ∃ outs b1, run b ops = some (outs, b1) ∧ WF (n + connects ops) b1 ∧
      handles ops outs = (List.range (connects ops)).map (fun (k : Nat) => ((n : Int) + 1 + (k : Int))) := by
  induction ops generalizing n b with
  | nil => exact ⟨[], b, rfl, by simpa [connects] using hw, by simp [connects, handles]⟩
  | cons op rest ih =>
    cases op with
    | connect name p f u st =>
      by_cases hlen : strlen name > EVENT_NAME_MAX_LENGTH - 1
      · have hc : connects (Op.connect name p f u st :: rest) = connects rest := by
          simp [connects, hlen]
        rw [hc] at hn ⊢
        obtain ⟨outs, b1, h1, h2, h3⟩ := ih hw hn
        refine ⟨Out.handle 0 :: outs, b1, ?_, h2, ?_⟩
        · simp [run, step, event_connect_long b name p f u st hlen, h1]
        · simp [handles, hlen, h3]
      · have hc : connects (Op.connect name p f u st :: rest) = connects rest + 1 := by
          simp [connects, hlen]
        rw [hc] at hn ⊢
        obtain ⟨hid, hw1⟩ := WF_connect hw name p f u st hlen (by omega)
        obtain ⟨outs, b1, h1, h2, h3⟩ := ih hw1 (by omega)
        refine ⟨Out.handle (event_connect b name p f u st).1 :: outs, b1, ?_, ?_, ?_⟩
        · simp [run, step, h1]
        · have : n + (connects rest + 1) = n + 1 + connects rest := by omega
          rw [this]
          exact h2
        · simp only [handles, hlen, if_false, h3, hid]
          exact range_handles n (connects rest)
    | set_state id st =>
      have hc : connects (Op.set_state id st :: rest) = connects rest := by simp [connects]
      rw [hc] at hn ⊢
      obtain ⟨outs, b1, h1, h2, h3⟩ := ih (WF_set_state hw id st) hn
      exact ⟨Out.unit :: outs, b1, by simp [run, step, h1], h2, by simp [handles, h3]⟩
    | set_user_data id u =>
      have hc : connects (Op.set_user_data id u :: rest) = connects rest := by simp [connects]
      rw [hc] at hn ⊢
      obtain ⟨outs, b1, h1, h2, h3⟩ := ih (WF_set_user_data hw id u) hn
      exact ⟨Out.unit :: outs, b1, by simp [run, step, h1], h2, by simp [handles, h3]⟩
    | disconnect id =>
      have hc : connects (Op.disconnect id :: rest) = connects rest := by simp [connects]
      rw [hc] at hn ⊢
      obtain ⟨b0, hd, hw0⟩ := WF_disconnect hw id
      obtain ⟨outs, b1, h1, h2, h3⟩ := ih hw0 hn
      exact ⟨Out.unit :: outs, b1, by simp [run, step, hd, h1], h2, by simp [handles, h3]⟩
    | raise name d =>
      have hc : connects (Op.raise name d :: rest) = connects rest := by simp [connects]
      rw [hc] at hn ⊢
      obtain ⟨outs, b1, h1, h2, h3⟩ := ih (WF_raise hw name d) hn
      exact ⟨Out.calls (event_raise b name d).1 :: outs, b1, by simp [run, step, h1], h2,
        by simp [handles, h3]⟩

/-- Every run from program start with fewer than 2^31 subscriptions goes through: no call
of it is left undefined. -/
theorem run_total (ops : List Op) (hn : connects ops < 2147483648) :
    ∃ outs b, run Bus.init ops = some (outs, b) := by
  obtain ⟨outs, b, h1, _, _⟩ := run_WF ops WF_init (by simpa using hn)
  exact ⟨outs, b, h1⟩

/-- Every state a program run reaches is well-formed. -/
theorem run_init_WF {ops : List Op} {outs : List Out} {b : Bus}
    (hr : run Bus.init ops = some (outs, b)) (hn : connects ops < 2147483648) :
    WF (connects ops) b := by
  obtain ⟨outs1, b1, h1, h2, _⟩ := run_WF ops WF_init (by simpa using hn)
  rw [h1] at hr
  simp only [Option.some.injEq, Prod.mk.injEq] at hr
  rw [← hr.2]
  simpa using h2

theorem event_connect_adds (b : Bus) (name : String) (p : Int) (f u : Nat)
    (st : EventHandlerState) (hlen : ¬ strlen name > EVENT_NAME_MAX_LENGTH - 1) :
    (event_connect b name p f u st).1 = b.next_id ∧
    (event_connect b name p f u st).2.next_id = wrap32 (b.next_id + 1) ∧
    ∃ e ∈ (event_connect b name p f u st).2.l_events, e.name = name ∧
      (⟨b.next_id, p, e.addr, f, st, u⟩ : EventHandlerInfo) ∈ e.l_event_handlers := by
  cases hf : _event_get_event_link b.l_events name with
  | some r =>
    obtain ⟨i, e⟩ := r
    obtain ⟨l1, l2, hb, _, hname, h1⟩ := get_event_link_some hf
    rw [event_connect_existing b name p f u st hlen hb hname h1]
    refine ⟨rfl, rfl, set_handlers e (list_insert_sorted e.l_event_handlers
      ⟨b.next_id, p, e.addr, f, st, u⟩ _event_insert_handler), by simp, hname, ?_⟩
    exact mem_list_insert_sorted.mpr (Or.inl rfl)
  | none =>
    have h1 := get_event_link_none.mp hf
    rw [event_connect_new b name p f u st hlen h1]
    exact ⟨rfl, rfl, ⟨b.l_events.length, name, 0, [⟨b.next_id, p, b.l_events.length, f, st, u⟩]⟩,
      by simp, rfl, by simp⟩

theorem raise_handlers_eq (hs : List EventHandlerInfo) (d : Nat) :
    raise_handlers hs d =
      (hs.filter (fun h => decide (h.state = .EVENT_HANDLER_ENABLED))).map (call_of d) := by
  induction hs with
  | nil => rfl
  | cons h rest ih =>
    by_cases hst : h.state = .EVENT_HANDLER_ENABLED
    · simp [raise_handlers, hst, ih]
    · simp [raise_handlers, hst, ih]

theorem event_raise_calls {b : Bus} {name : String} {i : Nat} {e : EventInfo} (d : Nat)
    (hf : _event_get_event_link b.l_events name = some (i, e)) :
    (event_raise b name d).1 = raise_handlers e.l_event_handlers d := by
  unfold event_raise
  simp only [hf]
  split
  · rfl
  · split
    · rfl
    · split <;> rfl

theorem bump_eq_count_up {e : EventInfo} (hc : e.raise_count + 1 < ULONG_MOD) :
    bump e = count_up e := by
  simp only [bump, count_up, Nat.mod_eq_of_lt hc]

/-- In a well-formed state the lookup of a held handle stops at the subscription itself. -/
theorem WF_live {n : Nat} {b : Bus} (hw : WF n b) (hn : n < 2147483648)
    {l1 l2 : List EventInfo} {e : EventInfo} {h1 h2 : List EventHandlerInfo}
    {x : EventHandlerInfo} (hb : b.l_events = l1 ++ e :: l2)
    (he : e.l_event_handlers = h1 ++ x :: h2) :
    (∀ e1 ∈ l1, ∀ y ∈ e1.l_event_handlers, _event_find_handler y x.id ≠ 0) ∧
      (∀ y ∈ h1, _event_find_handler y x.id ≠ 0) ∧ _event_find_handler x x.id = 0 := by
  have hnd := hw.ids_nodup
  rw [hb, all_ids_append, all_ids_cons, he] at hnd
  simp only [List.map_append, List.map_cons] at hnd
  have hrange : ∀ e1 ∈ b.l_events, ∀ y ∈ e1.l_event_handlers, IsInt32 y.id := by
    intro e1 he1 y hy
    have := hw.ids_range e1 he1 y hy
    exact ⟨by omega, by omega⟩
  have hx : IsInt32 x.id := hrange e (by simp [hb]) x (by simp [he])
  rw [List.nodup_append] at hnd
  obtain ⟨_, hnd2, hdis⟩ := hnd
  refine ⟨?_, ?_, ?_⟩
  · intro e1 he1 y hy h0
    have hy1 : IsInt32 y.id := hrange e1 (by simp [hb, he1]) y hy
    have heq := (wrap32_sub_eq_zero hy1 hx).mp h0
    have hmem : y.id ∈ all_ids l1 := mem_all_ids.mpr ⟨e1, he1, y, hy, rfl⟩
    exact hdis hmem (by simp [heq])
  · intro y hy h0
    have hy1 : IsInt32 y.id := hrange e (by simp [hb]) y (by simp [he, hy])
    have heq := (wrap32_sub_eq_zero hy1 hx).mp h0
    rw [List.nodup_append] at hnd2
    obtain ⟨hnd3, _, _⟩ := hnd2
    rw [List.append_cons, List.nodup_append] at hnd3
    obtain ⟨hnd4, _, _⟩ := hnd3
    rw [List.nodup_append] at hnd4
    obtain ⟨_, _, hd4⟩ := hnd4
    have hmem : y.id ∈ h1.map (fun h => h.id) := List.mem_map.mpr ⟨y, hy, rfl⟩
    exact hd4 hmem (by simp [heq])
  · exact wrap32_sub_self x.id

/-- In a well-formed state no other record of a subscriber list carries the handle of `x`. -/
theorem WF_ids_distinct {n : Nat} {b : Bus} (hw : WF n b) {l1 l2 : List EventInfo}
    {e : EventInfo} {h1 h2 : List EventHandlerInfo} {x : EventHandlerInfo}
    (hb : b.l_events = l1 ++ e :: l2) (he : e.l_event_handlers = h1 ++ x :: h2) :
    (∀ y ∈ h1, y.id ≠ x.id) ∧ (∀ y ∈ h2, y.id ≠ x.id) ∧ x.id ∉ all_ids l1 ∧ x.id ∉ all_ids l2 := by
  have hnd := hw.ids_nodup
  rw [hb, all_ids_append, all_ids_cons, he] at hnd
  simp only [List.map_append, List.map_cons] at hnd
  rw [List.nodup_append] at hnd
  obtain ⟨_, hnd2, hdis⟩ := hnd
  rw [List.nodup_append] at hnd2
  obtain ⟨hnd3, _, hdis2⟩ := hnd2
  rw [List.nodup_append] at hnd3
  obtain ⟨_, hnd4, hdis3⟩ := hnd3
  rw [List.nodup_cons] at hnd4
  refine ⟨?_, ?_, ?_, ?_⟩
  · intro y hy heq
    exact hdis3 (List.mem_map.mpr ⟨y, hy, rfl⟩) (by simp [heq])
  · intro y hy heq
    exact hnd4.1 (List.mem_map.mpr ⟨y, hy, heq⟩)
  · intro hmem
    exact hdis hmem (by simp)
  · intro hmem
    exact hdis2 (by simp) hmem

theorem raise_handlers_append (a c : List EventHandlerInfo) (d : Nat) :
    raise_handlers (a ++ c) d = raise_handlers a d ++ raise_handlers c d := by
  simp [raise_handlers_eq]

theorem raise_handlers_id_mem {hs : List EventHandlerInfo} {d : Nat} {c : Call}
    (hc : c ∈ raise_handlers hs d) : ∃ h ∈ hs, h.id = c.id := by
  rw [raise_handlers_eq] at hc
  obtain ⟨h, hh, rfl⟩ := List.mem_map.mp hc
  exact ⟨h, (List.mem_filter.mp hh).1, rfl⟩

theorem raise_handlers_filter_other {hs : List EventHandlerInfo} (d : Nat) {k : Int}
    (hk : ∀ y ∈ hs, y.id ≠ k) :
    (raise_handlers hs d).filter (fun c => decide (c.id = k)) = [] := by
  rw [List.filter_eq_nil_iff]
  intro c hc
  obtain ⟨h, hh, heq⟩ := raise_handlers_id_mem hc
  simpa [← heq] using hk h hh

theorem connect_shape (b : Bus) (name : String) (p : Int) (f u : Nat) (st : EventHandlerState) :
    ∀ e1 ∈ (event_connect b name p f u st).2.l_events,
      HandlersChange b (.connect name p f u st) e1.l_event_handlers := by
  intro e1 he1
  by_cases hlen : strlen name > EVENT_NAME_MAX_LENGTH - 1
  · rw [event_connect_long b name p f u st hlen] at he1
    exact .same e1 he1
  · cases hf : _event_get_event_link b.l_events name with
    | some r =>
      obtain ⟨i, e⟩ := r
      obtain ⟨l1, l2, hb, _, hname, h1⟩ := get_event_link_some hf
      rw [event_connect_existing b name p f u st hlen hb hname h1] at he1
      simp only [List.mem_append, List.mem_cons] at he1
      rcases he1 with he1 | he1 | he1
      · exact .same e1 (by simp [hb, he1])
      · subst he1
        exact .insert e.l_event_handlers name p f u st e.addr rfl hlen
          (Or.inr ⟨e, by simp [hb], rfl⟩)
      · exact .same e1 (by simp [hb, he1])
    | none =>
      have h1 := get_event_link_none.mp hf
      rw [event_connect_new b name p f u st hlen h1] at he1
      simp only [List.mem_append, List.mem_singleton] at he1
      rcases he1 with he1 | he1
      · exact .same e1 he1
      · subst he1
        exact .insert [] name p f u st b.l_events.length rfl hlen (Or.inl rfl)

theorem set_state_shape (b : Bus) (id : Int) (st : EventHandlerState) (op : Op) :
    ∀ e1 ∈ (event_handler_set_state b id st).l_events, HandlersChange b op e1.l_event_handlers := by
  intro e1 he1
  cases hf : _event_get_handler_link b.l_events id with
  | none =>
    simp only [event_handler_set_state, hf] at he1
    exact .same e1 he1
  | some r =>
    obtain ⟨i, j, h⟩ := r
    obtain ⟨l1, e, l2, h1, h2, hb, _, he, _, d5, d6, d7⟩ := get_handler_link_some hf
    rw [event_handler_set_state_found b id st hb he d6 d7 d5] at he1
    simp only [List.mem_append, List.mem_cons] at he1
    rcases he1 with he1 | he1 | he1
    · exact .same e1 (by simp [hb, he1])
    · subst he1
      exact .replace e (by simp [hb]) h1 h2 h (set_state_of h st) he rfl rfl
    · exact .same e1 (by simp [hb, he1])

theorem set_user_data_shape (b : Bus) (id : Int) (u : Nat) (op : Op) :
    ∀ e1 ∈ (event_handler_set_user_data b id u).l_events,
      HandlersChange b op e1.l_event_handlers := by
  intro e1 he1
  cases hf : _event_get_handler_link b.l_events id with
  | none =>
    simp only [event_handler_set_user_data, hf] at he1
    exact .same e1 he1
  | some r =>
    obtain ⟨i, j, h⟩ := r
    obtain ⟨l1, e, l2, h1, h2, hb, _, he, _, d5, d6, d7⟩ := get_handler_link_some hf
    rw [event_handler_set_user_data_found b id u hb he d6 d7 d5] at he1
    simp only [List.mem_append, List.mem_cons] at he1
    rcases he1 with he1 | he1 | he1
    · exact .same e1 (by simp [hb, he1])
    · subst he1
      exact .replace e (by simp [hb]) h1 h2 h (set_user_data_of h u) he rfl rfl
    · exact .same e1 (by simp [hb, he1])

theorem disconnect_shape (b b1 : Bus) (id : Int) (op : Op) (hd : event_disconnect b id = some b1) :
    ∀ e1 ∈ b1.l_events, HandlersChange b op e1.l_event_handlers := by
  intro e1 he1
  cases hf : _event_get_handler_link b.l_events id with
  | none =>
    simp only [event_disconnect, hf, Option.some.injEq] at hd
    subst hd
    exact .same e1 he1
  | some r =>
    obtain ⟨i, j, h⟩ := r
    obtain ⟨l1, e, l2, h1, h2, hb, hi, he, _, d5, d6, d7⟩ := get_handler_link_some hf
    have hload : load b.l_events i = some e := by
      rw [hb, ← hi]
      exact load_append_cons l1 e l2
    by_cases hown : h.event = e.addr
    · rw [event_disconnect_found b id hb he d6 d7 d5 hown] at hd
      simp only [Option.some.injEq] at hd
      subst hd
      simp only [List.mem_append, List.mem_cons] at he1
      rcases he1 with he1 | he1 | he1
      · exact .same e1 (by simp [hb, he1])
      · subst he1
        exact .remove e (by simp [hb]) h1 h2 h he
      · exact .same e1 (by simp [hb, he1])
    · simp [event_disconnect, hf, hload, hown] at hd

theorem raise_shape (b : Bus) (name : String) (d : Nat) (op : Op) :
    ∀ e1 ∈ (event_raise b name d).2.l_events, HandlersChange b op e1.l_event_handlers := by
  intro e1 he1
  cases hf : _event_get_event_link b.l_events name with
  | none =>
    simp only [event_raise, hf] at he1
    exact .same e1 he1
  | some r =>
    obtain ⟨i, e⟩ := r
    obtain ⟨l1, l2, hb, _, hname, h1⟩ := get_event_link_some hf
    subst hname
    have key : e1 ∈ l1 ∨ e1 = bump e ∨ e1 ∈ l2 := by
      rcases eq_nil_or_snoc l1 with hl | ⟨l0, q, hl⟩
      · subst hl
        rw [event_raise_first b d l2 e (by simpa using hb)] at he1
        simpa using he1
      · subst hl
        have hb1 : b.l_events = l0 ++ q :: e :: l2 := by simpa using hb
        rw [event_raise_inner b d hb1 (fun y hy => h1 y (by simp [hy])) (h1 q (by simp))] at he1
        by_cases hc : q.raise_count < (e.raise_count + 1) % ULONG_MOD
        · simp only [hc, if_true, List.mem_append, List.mem_cons] at he1
          simp only [List.mem_append, List.mem_singleton]
          tauto
        · simp only [hc, if_false, List.mem_append, List.mem_cons] at he1
          simp only [List.mem_append, List.mem_singleton]
          tauto
    rcases key with he1 | he1 | he1
    · exact .same e1 (by simp [hb, he1])
    · subst he1
      exact .same e (by simp [hb])
    · exact .same e1 (by simp [hb, he1])

/-- Every subscriber list after a call arises from the state before in one of the ways of
`HandlersChange`. -/
theorem step_shape {b b1 : Bus} {op : Op} {o : Out} (hs : step b op = some (o, b1)) :
    ∀ e1 ∈ b1.l_events, HandlersChange b op e1.l_event_handlers := by
  cases op with
  | connect name p f u st =>
    simp only [step, Option.some.injEq, Prod.mk.injEq] at hs
    rw [← hs.2]
    exact connect_shape b name p f u st
  | set_state id st =>
    simp only [step, Option.some.injEq, Prod.mk.injEq] at hs
    rw [← hs.2]
    exact set_state_shape b id st _
  | set_user_data id u =>
    simp only [step, Option.some.injEq, Prod.mk.injEq] at hs
    rw [← hs.2]
    exact set_user_data_shape b id u _
  | disconnect id =>
    cases hd : event_disconnect b id with
    | none => simp [step, hd] at hs
    | some b2 =>
      simp only [step, hd, Option.map_some', Option.some.injEq, Prod.mk.injEq] at hs
      rw [← hs.2]
      exact disconnect_shape b b2 id _ hd
  | raise name d =>
    simp only [step, Option.some.injEq, Prod.mk.injEq] at hs
    rw [← hs.2]
    exact raise_shape b name d _

theorem run_cons {b b1 : Bus} {op : Op} {rest : List Op} {outs : List Out}
    (hr : run b (op :: rest) = some (outs, b1)) :
    ∃ o b2 outs1, step b op = some (o, b2) ∧ run b2 rest = some (outs1, b1) ∧
      outs = o :: outs1 := by
  unfold run at hr
  cases hs : step b op with
  | none => simp [hs] at hr
  | some r =>
    obtain ⟨o, b2⟩ := r
    simp only [hs] at hr
    cases hr2 : run b2 rest with
    | none => simp [hr2] at hr
    | some r2 =>
      obtain ⟨outs1, b3⟩ := r2
      simp only [hr2, Option.some.injEq, Prod.mk.injEq] at hr
      obtain ⟨hr3, hr4⟩ := hr
      subst hr3 hr4
      exact ⟨o, b2, outs1, rfl, hr2, rfl⟩

theorem connects_cons (op : Op) (rest : List Op) :
    connects (op :: rest) = connects [op] + connects rest := by
  cases op with
  | connect name p f u st =>
    by_cases hlen : strlen name > EVENT_NAME_MAX_LENGTH - 1
    · simp [connects, hlen]
    · simp [connects, hlen]
      omega
  | set_state id st => simp [connects]
  | set_user_data id u => simp [connects]
  | disconnect id => simp [connects]
  | raise name d => simp [connects]

theorem step_WF {n : Nat} {b b1 : Bus} {op : Op} {o : Out} (hw : WF n b)
    (hn : n + connects [op] < 2147483648) (hs : step b op = some (o, b1)) :
    WF (n + connects [op]) b1 := by
  obtain ⟨outs, b2, h1, h2, _⟩ := run_WF [op] hw hn
  have h3 : run b [op] = some ([o], b1) := by simp [run, hs]
  rw [h3] at h1
  simp only [Option.some.injEq, Prod.mk.injEq] at h1
  rw [h1.2]
  exact h2

theorem pairwise_insert {α : Type} {R : α → α → Prop} {l : List α} {d : α} {f : α → α → Int}
    (hp : l.Pairwise R) (h1 : ∀ y ∈ l, f d y > 0 → R y d)
    (h2 : ∀ y ∈ l.dropWhile (fun y => decide (f d y > 0)), R d y) :
    (list_insert_sorted l d f).Pairwise R := by
  rw [list_insert_sorted_eq]
  have hl := List.takeWhile_append_dropWhile (fun y => decide (f d y > 0)) l
  have hp2 := hp
  rw [← hl, List.pairwise_append] at hp2
  obtain ⟨p1, p2, p3⟩ := hp2
  rw [List.pairwise_append]
  refine ⟨p1, List.pairwise_cons.mpr ⟨h2, p2⟩, ?_⟩
  intro a ha c hc
  rcases List.mem_cons.mp hc with hc | hc
  · subst hc
    have ha1 := List.mem_takeWhile_imp ha
    exact h1 a ((List.takeWhile_sublist _).subset ha) (by simpa using ha1)
  · exact p3 a ha c hc

theorem sorted_dropWhile {l : List EventHandlerInfo} {q : Int}
    (hp : l.Pairwise (fun x y => y.priority ≤ x.priority)) :
    ∀ y ∈ l.dropWhile (fun y => decide (q < y.priority)), y.priority ≤ q := by
  induction l with
  | nil => simp
  | cons a rest ih =>
    rw [List.pairwise_cons] at hp
    by_cases ha : q < a.priority
    · simpa [List.dropWhile_cons, ha] using ih hp.2
    · intro y hy
      simp only [List.dropWhile_cons, ha, decide_False, Bool.false_eq_true, if_false,
        List.mem_cons] at hy
      rcases hy with hy | hy
      · subst hy
        omega
      · have := hp.1 y hy
        omega

theorem pairwise_key_step {r : Int × Int → Int × Int → Prop} {b b1 : Bus} {op : Op} {o : Out}
    (hs : step b op = some (o, b1))
    (hP : ∀ e ∈ b.l_events, (e.l_event_handlers.map key).Pairwise r)
    (hins : ∀ (hs0 : List EventHandlerInfo) (name : String) (p : Int) (f u : Nat)
      (st : EventHandlerState) (addr : Nat), op = .connect name p f u st →
      ¬ strlen name > EVENT_NAME_MAX_LENGTH - 1 →
      (hs0 = [] ∨ ∃ e ∈ b.l_events, hs0 = e.l_event_handlers) →
      ((list_insert_sorted hs0 ⟨b.next_id, p, addr, f, st, u⟩ _event_insert_handler).map
        key).Pairwise r) :
    ∀ e1 ∈ b1.l_events, (e1.l_event_handlers.map key).Pairwise r := by
  intro e1 he1
  have hc := step_shape hs e1 he1
  generalize e1.l_event_handlers = hs1 at hc
  cases hc with
  | same e he => exact hP e he
  | insert hs0 name p f u st addr hop hlen h0 => exact hins hs0 name p f u st addr hop hlen h0
  | replace e he h1 h2 y z hs2 hid hp =>
    have := hP e he
    rw [hs2] at this
    have hk : key z = key y := by simp [key, hid, hp]
    simpa [hk] using this
  | remove e he h1 h2 y hs2 =>
    have := hP e he
    rw [hs2] at this
    refine this.sublist ?_
    simp only [List.map_append, List.map_cons]
    exact List.Sublist.append (List.Sublist.refl _) (List.sublist_cons_self _ _)

theorem run_invariant {P : Bus → Prop} {Q : Op → Prop}
    (hstep : ∀ b op o b1, P b → Q op → step b op = some (o, b1) → P b1) :
    ∀ (ops : List Op) (b b1 : Bus) (outs : List Out), P b → (∀ op ∈ ops, Q op) →
      run b ops = some (outs, b1) → P b1 := by
  intro ops
  induction ops with
  | nil =>
    intro b b1 outs hp _ hr
    simp only [run, Option.some.injEq, Prod.mk.injEq] at hr
    exact hr.2 ▸ hp
  | cons op rest ih =>
    intro b b1 outs hp hq hr
    obtain ⟨o, b2, outs1, hs, hr2, _⟩ := run_cons hr
    exact ih b2 b1 outs1 (hstep b op o b2 hp (hq op (by simp)) hs)
      (fun op1 h1 => hq op1 (by simp [h1])) hr2

theorem mem_key_step (pb : Int × Int → Prop) {b b1 : Bus} {op : Op} {o : Out}
    (hs : step b op = some (o, b1))
    (hP : ∀ e ∈ b.l_events, ∀ h ∈ e.l_event_handlers, pb (key h))
    (hnew : ∀ (name : String) (p : Int) (f u : Nat) (st : EventHandlerState),
      op = .connect name p f u st → ¬ strlen name > EVENT_NAME_MAX_LENGTH - 1 →
      pb (p, b.next_id)) :
    ∀ e1 ∈ b1.l_events, ∀ h ∈ e1.l_event_handlers, pb (key h) := by
  intro e1 he1 h hh
  have hc := step_shape hs e1 he1
  generalize e1.l_event_handlers = hs1 at hc hh
  cases hc with
  | same e he => exact hP e he h hh
  | insert hs0 name p f u st addr hop hlen h0 =>
    rcases mem_list_insert_sorted.mp hh with hh | hh
    · subst hh
      exact hnew name p f u st hop hlen
    · rcases h0 with h0 | ⟨e, he, h0⟩
      · subst h0
        simp at hh
      · subst h0
        exact hP e he h hh
  | replace e he h1 h2 y z hs2 hid hp =>
    simp only [List.mem_append, List.mem_cons] at hh
    rcases hh with hh | hh | hh
    · exact hP e he h (by simp [hs2, hh])
    · subst hh
      have hk : key h = key y := by simp [key, hid, hp]
      rw [hk]
      exact hP e he y (by simp [hs2])
    · exact hP e he h (by simp [hs2, hh])
  | remove e he h1 h2 y hs2 =>
    simp only [List.mem_append] at hh
    rcases hh with hh | hh
    · exact hP e he h (by simp [hs2, hh])
    · exact hP e he h (by simp [hs2, hh])

theorem dropWhile_congr_mem {α : Type} {l : List α} {p q : α → Bool}
    (h : ∀ y ∈ l, p y = q y) : l.dropWhile p = l.dropWhile q := by
  induction l with
  | nil => rfl
  | cons a rest ih =>
    have ha := h a (by simp)
    have hr := ih (fun y hy => h y (by simp [hy]))
    simp [List.dropWhile_cons, ha, hr]

/-- The invariant behind the descending order: sorted lists of bounded priorities. -/
theorem sorted_step {b b1 : Bus} {op : Op} {o : Out}
    (hP : ∀ e ∈ b.l_events,
      (e.l_event_handlers.map key).Pairwise (fun x y => y.1 ≤ x.1) ∧
      ∀ h ∈ e.l_event_handlers, -1073741824 < (key h).1 ∧ (key h).1 < 1073741824)
    (hq : priority_bounded op) (hs : step b op = some (o, b1)) :
    ∀ e ∈ b1.l_events,
      (e.l_event_handlers.map key).Pairwise (fun x y => y.1 ≤ x.1) ∧
      ∀ h ∈ e.l_event_handlers, -1073741824 < (key h).1 ∧ (key h).1 < 1073741824 := by
  have hbd := mem_key_step (fun k => -1073741824 < k.1 ∧ k.1 < 1073741824) hs
    (fun e he => (hP e he).2) (by
      intro name p f u st hop _
      subst hop
      simpa [priority_bounded] using hq)
  have hpw := pairwise_key_step hs (fun e he => (hP e he).1) (by
    intro hs0 name p f u st addr hop hlen h0
    subst hop
    simp only [priority_bounded] at hq
    have hb0 : ∀ h ∈ hs0, -1073741824 < h.priority ∧ h.priority < 1073741824 := by
      rcases h0 with h0 | ⟨e, he, h0⟩
      · subst h0
        simp
      · subst h0
        exact (hP e he).2
    have hs0p : hs0.Pairwise (fun x y => y.priority ≤ x.priority) := by
      rcases h0 with h0 | ⟨e, he, h0⟩
      · subst h0
        simp
      · subst h0
        have := (hP e he).1
        rw [List.pairwise_map] at this
        exact this
    have hcmp : ∀ y ∈ hs0, _event_insert_handler ⟨b.next_id, p, addr, f, st, u⟩ y =
        y.priority - p := by
      intro y hy
      have := hb0 y hy
      exact wrap32_of_range ⟨by simp only; omega, by simp only; omega⟩
    rw [List.pairwise_map]
    apply pairwise_insert hs0p
    · intro y hy hpos
      rw [hcmp y hy] at hpos
      simp only [key]
      omega
    · have hdw : hs0.dropWhile (fun y => decide
          (_event_insert_handler ⟨b.next_id, p, addr, f, st, u⟩ y > 0)) =
          hs0.dropWhile (fun y => decide (p < y.priority)) := by
        apply dropWhile_congr_mem
        intro y hy
        rw [hcmp y hy]
        simp only [decide_eq_decide]
        omega
      rw [hdw]
      exact sorted_dropWhile hs0p)
  intro e he
  exact ⟨hpw e he, hbd e he⟩

/-- Among equal priorities the later subscription stands first: kept by every call. -/
theorem lifo_step {n : Nat} {b b1 : Bus} {op : Op} {o : Out} (hw : WF n b)
    (hn : n + connects [op] < 2147483648)
    (hP : ∀ e ∈ b.l_events,
      (e.l_event_handlers.map key).Pairwise (fun x y => x.1 = y.1 → y.2 < x.2))
    (hs : step b op = some (o, b1)) :
    ∀ e ∈ b1.l_events,
      (e.l_event_handlers.map key).Pairwise (fun x y => x.1 = y.1 → y.2 < x.2) := by
  refine pairwise_key_step hs hP ?_
  intro hs0 name p f u st addr hop hlen h0
  subst hop
  have hc : connects [Op.connect name p f u st] = 1 := by simp [connects, hlen]
  rw [hc] at hn
  have hnext : b.next_id = (n : Int) + 1 := by
    rw [hw.next]
    exact wrap32_of_range ⟨by omega, by omega⟩
  have hid : ∀ y ∈ hs0, y.id < b.next_id := by
    intro y hy
    rcases h0 with h0 | ⟨e, he, h0⟩
    · subst h0
      simp at hy
    · subst h0
      have := hw.ids_range e he y hy
      omega
  have hs0p : hs0.Pairwise (fun x y => x.priority = y.priority → y.id < x.id) := by
    rcases h0 with h0 | ⟨e, he, h0⟩
    · subst h0
      simp
    · subst h0
      have := hP e he
      rw [List.pairwise_map] at this
      exact this
  rw [List.pairwise_map]
  apply pairwise_insert hs0p
  · intro y _ hpos heq
    exact absurd heq (wrap32_sub_pos_ne hpos)
  · intro y hy _
    exact hid y ((List.dropWhile_sublist _).subset hy)

theorem run_lifo (ops : List Op) {n : Nat} {b b1 : Bus} {outs : List Out} (hw : WF n b)
    (hP : ∀ e ∈ b.l_events,
      (e.l_event_handlers.map key).Pairwise (fun x y => x.1 = y.1 → y.2 < x.2))
    (hn : n + connects ops < 2147483648) (hr : run b ops = some (outs, b1)) :
    ∀ e ∈ b1.l_events,
      (e.l_event_handlers.map key).Pairwise (fun x y => x.1 = y.1 → y.2 < x.2) := by
  induction ops generalizing n b outs with
  | nil =>
    simp only [run, Option.some.injEq, Prod.mk.injEq] at hr
    exact hr.2 ▸ hP
  | cons op rest ih =>
    obtain ⟨o, b2, outs1, hs, hr2, _⟩ := run_cons hr
    rw [connects_cons] at hn
    exact ih (step_WF hw (by omega) hs) (lifo_step hw (by omega) hP hs) (by omega) hr2

/-! ## The claims -/

/-- C1: in every bus state, when `name` denotes a channel (the channel lookup finds the record
`e`), `event_raise(name, d)` calls exactly the enabled subscriptions of `e`, each once, front
to back in the order of the subscriber list, each with the payload `d` and the user data the
subscription holds. After subscribe("score", 5, A) and subscribe("score", 10, B) on a fresh
bus, raise("score", 7) calls B and then A, both with payload 7. -/
theorem event_raise_invokes_enabled_in_order :
    (∀ (b : Bus) (name : String) (d : Nat) (i : Nat) (e : EventInfo),
      _event_get_event_link b.l_events name = some (i, e) →
      (event_raise b name d).1 =
        (e.l_event_handlers.filter
          (fun h => decide (h.state = .EVENT_HANDLER_ENABLED))).map (call_of d)) ∧
    (∀ (A B uA uB : Nat),
      (event_raise
        (event_connect (event_connect Bus.init "score" 5 A uA .EVENT_HANDLER_ENABLED).2
          "score" 10 B uB .EVENT_HANDLER_ENABLED).2 "score" 7).1 =
        [⟨2, B, 7, uB⟩, ⟨1, A, 7, uA⟩]) := by
  constructor
  · intro b name d i e hf
    rw [event_raise_calls d hf, raise_handlers_eq]
  · intro A B uA uB
    rfl

theorem event_raise_invokes_enabled_in_order_witness :
    (event_raise ⟨[⟨0, "gfx-draw", 3, [⟨4, 9, 0, 70, .EVENT_HANDLER_ENABLED, 11⟩,
        ⟨2, 5, 0, 71, .EVENT_HANDLER_DISABLED, 12⟩, ⟨1, 5, 0, 72, .EVENT_HANDLER_ENABLED, 13⟩]⟩], 5⟩
      "gfx-draw" 8).1 = [⟨4, 70, 8, 11⟩, ⟨1, 72, 8, 13⟩] :=
  event_raise_invokes_enabled_in_order.1
    ⟨[⟨0, "gfx-draw", 3, [⟨4, 9, 0, 70, .EVENT_HANDLER_ENABLED, 11⟩,
      ⟨2, 5, 0, 71, .EVENT_HANDLER_DISABLED, 12⟩, ⟨1, 5, 0, 72, .EVENT_HANDLER_ENABLED, 13⟩]⟩], 5⟩
    "gfx-draw" 8 0 ⟨0, "gfx-draw", 3, [⟨4, 9, 0, 70, .EVENT_HANDLER_ENABLED, 11⟩,
      ⟨2, 5, 0, 71, .EVENT_HANDLER_DISABLED, 12⟩, ⟨1, 5, 0, 72, .EVENT_HANDLER_ENABLED, 13⟩]⟩
    (by decide)

/-- C2: in every state reached from program start by calls of `event_connect` (priorities
of magnitude below 2^30), `event_disconnect`, `event_handler_set_state`,
`event_handler_set_user_data` and `event_raise`, the subscriber list of every channel is
sorted by non-increasing priority; and a raise of a channel `e` of that state calls exactly
the enabled records of the subscriber list of `e`, in the order of that list, which is an
order of non-increasing priority: of two calls the earlier one is for a record of `e` whose
priority is not below that of the record of the later one. A raise of a name that is no
channel makes no call. -/
theorem subscriber_lists_sorted_by_priority (ops : List Op) (outs : List Out) (b : Bus)
    (hq : ∀ op ∈ ops, priority_bounded op) (hr : run Bus.init ops = some (outs, b)) :
    (∀ e ∈ b.l_events, e.l_event_handlers.Pairwise (fun x y => y.priority ≤ x.priority)) ∧
    (∀ (name : String) (d : Nat) (i : Nat) (e : EventInfo),
      _event_get_event_link b.l_events name = some (i, e) →
      e ∈ b.l_events ∧
      (event_raise b name d).1 =
        (e.l_event_handlers.filter
          (fun h => decide (h.state = .EVENT_HANDLER_ENABLED))).map (call_of d) ∧
      (e.l_event_handlers.filter (fun h => decide (h.state = .EVENT_HANDLER_ENABLED))).Sublist
        e.l_event_handlers ∧
      (e.l_event_handlers.filter
        (fun h => decide (h.state = .EVENT_HANDLER_ENABLED))).Pairwise
          (fun x y => y.priority ≤ x.priority)) ∧
    (∀ (name : String) (d : Nat), _event_get_event_link b.l_events name = none →
      (event_raise b name d).1 = []) := by
  have hinv := run_invariant
    (P := fun b => ∀ e ∈ b.l_events,
      (e.l_event_handlers.map key).Pairwise (fun x y => y.1 ≤ x.1) ∧
      ∀ h ∈ e.l_event_handlers, -1073741824 < (key h).1 ∧ (key h).1 < 1073741824)
    (Q := priority_bounded)
    (fun b op o b1 hp hq hs => sorted_step hp hq hs) ops Bus.init b outs
    (by simp [Bus.init]) hq hr
  have hsorted : ∀ e ∈ b.l_events,
      e.l_event_handlers.Pairwise (fun x y => y.priority ≤ x.priority) := by
    intro e he
    have := (hinv e he).1
    rw [List.pairwise_map] at this
    exact this
  refine ⟨hsorted, ?_, ?_⟩
  · intro name d i e hf
    obtain ⟨l1, l2, hb, _, _, _⟩ := get_event_link_some hf
    have hmem : e ∈ b.l_events := by simp [hb]
    refine ⟨hmem, ?_, List.filter_sublist _, ?_⟩
    · rw [event_raise_calls d hf, raise_handlers_eq]
    · exact (hsorted e hmem).sublist (List.filter_sublist _)
  · intro name d hf
    simp [event_raise, hf]

theorem subscriber_lists_sorted_by_priority_witness :
    (event_raise
      ⟨[⟨0, "a", 0, [⟨2, 9, 0, 8, .EVENT_HANDLER_ENABLED, 0⟩,
        ⟨3, 7, 0, 8, .EVENT_HANDLER_DISABLED, 0⟩, ⟨1, 5, 0, 7, .EVENT_HANDLER_ENABLED, 0⟩]⟩], 4⟩
      "a" 6).1 =
      (List.filter (fun h => decide (h.state = .EVENT_HANDLER_ENABLED))
        (EventInfo.mk 0 "a" 0 [⟨2, 9, 0, 8, .EVENT_HANDLER_ENABLED, 0⟩,
          ⟨3, 7, 0, 8, .EVENT_HANDLER_DISABLED, 0⟩,
          ⟨1, 5, 0, 7, .EVENT_HANDLER_ENABLED, 0⟩]).l_event_handlers).map (call_of 6) ∧
    List.Pairwise (fun x y => y.priority ≤ x.priority)
      (List.filter (fun h => decide (h.state = .EVENT_HANDLER_ENABLED))
        (EventInfo.mk 0 "a" 0 [⟨2, 9, 0, 8, .EVENT_HANDLER_ENABLED, 0⟩,
          ⟨3, 7, 0, 8, .EVENT_HANDLER_DISABLED, 0⟩,
          ⟨1, 5, 0, 7, .EVENT_HANDLER_ENABLED, 0⟩]).l_event_handlers) :=
  ⟨((subscriber_lists_sorted_by_priority
    [.connect "a" 5 7 0 .EVENT_HANDLER_ENABLED, .connect "a" 9 8 0 .EVENT_HANDLER_ENABLED,
      .connect "a" 7 8 0 .EVENT_HANDLER_DISABLED]
    [.handle 1, .handle 2, .handle 3]
    ⟨[⟨0, "a", 0, [⟨2, 9, 0, 8, .EVENT_HANDLER_ENABLED, 0⟩,
      ⟨3, 7, 0, 8, .EVENT_HANDLER_DISABLED, 0⟩, ⟨1, 5, 0, 7, .EVENT_HANDLER_ENABLED, 0⟩]⟩], 4⟩
    (by decide) (by decide)).2.1 "a" 6 0 _ (by decide)).2.1,
   ((subscriber_lists_sorted_by_priority
    [.connect "a" 5 7 0 .EVENT_HANDLER_ENABLED, .connect "a" 9 8 0 .EVENT_HANDLER_ENABLED,
      .connect "a" 7 8 0 .EVENT_HANDLER_DISABLED]
    [.handle 1, .handle 2, .handle 3]
    ⟨[⟨0, "a", 0, [⟨2, 9, 0, 8, .EVENT_HANDLER_ENABLED, 0⟩,
      ⟨3, 7, 0, 8, .EVENT_HANDLER_DISABLED, 0⟩, ⟨1, 5, 0, 7, .EVENT_HANDLER_ENABLED, 0⟩]⟩], 4⟩
    (by decide) (by decide)).2.1 "a" 6 0 _ (by decide)).2.2.2⟩

/-- The first item left by `dropWhile` fails the test. -/
theorem head_dropWhile_false {α : Type} (p : α → Bool) :
    ∀ (l : List α) (y : α), (l.dropWhile p).head? = some y → p y = false := by
  intro l
  induction l with
  | nil => intro y h; simp at h
  | cons x rest ih =>
    intro y h
    cases hx : p x with
    | true =>
      rw [List.dropWhile_cons_of_pos hx] at h
      exact ih y h
    | false =>
      rw [List.dropWhile_cons_of_neg (by simp [hx])] at h
      simp only [List.head?_cons, Option.some.injEq] at h
      exact h ▸ hx

/-- C3, as the code has it: among subscriptions of equal priority the one subscribed later
stands first. In every state of a run (below 2^31 subscriptions, where a later subscription
has the larger handle) a record standing before another one of the same priority has the
larger handle, and a raise of a channel calls the enabled records of its list in list
order, so of two called subscriptions of the same priority the one subscribed later is
called first; and `list_insert_sorted` puts the new item right after the leading run of
old items whose comparator result is positive: the old list is split into that run `l1`
(the longest prefix of items with a positive result: every item of `l1` has a positive
result and the first item after it, if any, has not) and the rest `l2`, the new item goes in
between, and every old item with comparator result 0 stands in `l2`, after the new item,
and not in `l1`. -/
theorem equal_priority_newest_first :
    (∀ (ops : List Op) (outs : List Out) (b : Bus), run Bus.init ops = some (outs, b) →
      connects ops < 2147483648 →
      ∀ e ∈ b.l_events,
        e.l_event_handlers.Pairwise (fun x y => x.priority = y.priority → y.id < x.id)) ∧
    (∀ (ops : List Op) (outs : List Out) (b : Bus), run Bus.init ops = some (outs, b) →
      connects ops < 2147483648 →
      ∀ (name : String) (d : Nat) (i : Nat) (e : EventInfo),
        _event_get_event_link b.l_events name = some (i, e) →
        (event_raise b name d).1 =
          (e.l_event_handlers.filter
            (fun h => decide (h.state = .EVENT_HANDLER_ENABLED))).map (call_of d) ∧
        (e.l_event_handlers.filter
          (fun h => decide (h.state = .EVENT_HANDLER_ENABLED))).Pairwise
            (fun x y => x.priority = y.priority → y.id < x.id)) ∧
    (∀ (α : Type) (l : List α) (d : α) (f : α → α → Int),
      ∃ l1 l2, l = l1 ++ l2 ∧ list_insert_sorted l d f = l1 ++ d :: l2 ∧
        l1 = l.takeWhile (fun y => decide (f d y > 0)) ∧
        l2 = l.dropWhile (fun y => decide (f d y > 0)) ∧
        (∀ y ∈ l1, f d y > 0) ∧ (∀ y, l2.head? = some y → f d y ≤ 0) ∧
        (∀ y ∈ l, f d y = 0 → y ∈ l2 ∧ y ∉ l1)) := by
  have hlist : ∀ (ops : List Op) (outs : List Out) (b : Bus),
      run Bus.init ops = some (outs, b) → connects ops < 2147483648 →
      ∀ e ∈ b.l_events,
        e.l_event_handlers.Pairwise (fun x y => x.priority = y.priority → y.id < x.id) := by
    intro ops outs b hr hn e he
    have := run_lifo ops WF_init (by simp [Bus.init]) (by simpa using hn) hr e he
    rw [List.pairwise_map] at this
    exact this
  refine ⟨hlist, ?_, ?_⟩
  · intro ops outs b hr hn name d i e hf
    obtain ⟨l1, l2, hb, _, _, _⟩ := get_event_link_some hf
    refine ⟨?_, (hlist ops outs b hr hn e (by simp [hb])).sublist (List.filter_sublist _)⟩
    rw [event_raise_calls d hf, raise_handlers_eq]
  · intro α l d f
    have hpos : ∀ y ∈ l.takeWhile (fun y => decide (f d y > 0)), f d y > 0 := by
      intro y hy
      simpa using List.mem_takeWhile_imp hy
    refine ⟨l.takeWhile (fun y => decide (f d y > 0)), l.dropWhile (fun y => decide (f d y > 0)),
      (List.takeWhile_append_dropWhile _ l).symm, list_insert_sorted_eq l d f, rfl, rfl, hpos,
      ?_, ?_⟩
    · intro y hy
      have := head_dropWhile_false (fun y => decide (f d y > 0)) l y hy
      simpa using this
    · intro y hy h0
      have hnot : y ∉ l.takeWhile (fun y => decide (f d y > 0)) := by
        intro hin
        have := hpos y hin
        omega
      have hsplit := List.takeWhile_append_dropWhile (fun y => decide (f d y > 0)) l
      rw [← hsplit] at hy
      rcases List.mem_append.mp hy with hy | hy
      · exact absurd hy hnot
      · exact ⟨hy, hnot⟩

theorem equal_priority_newest_first_witness :
    List.Pairwise (fun x y => x.priority = y.priority → y.id < x.id)
      (EventInfo.mk 0 "c" 0 [⟨2, 5, 0, 200, .EVENT_HANDLER_ENABLED, 0⟩,
        ⟨1, 5, 0, 100, .EVENT_HANDLER_ENABLED, 0⟩]).l_event_handlers :=
  equal_priority_newest_first.1
    [.connect "c" 5 100 0 .EVENT_HANDLER_ENABLED, .connect "c" 5 200 0 .EVENT_HANDLER_ENABLED]
    [.handle 1, .handle 2]
    ⟨[⟨0, "c", 0, [⟨2, 5, 0, 200, .EVENT_HANDLER_ENABLED, 0⟩,
      ⟨1, 5, 0, 100, .EVENT_HANDLER_ENABLED, 0⟩]⟩], 3⟩
    (by decide) (by decide) _ (List.mem_singleton.mpr rfl)

/-- C3 as stated fails: two subscriptions of priority 5 on one channel, handle 1 made before
handle 2, leave the subscriber list as handle 2, handle 1, and a raise calls handle 2 first;
`list_insert_sorted` puts a new item before an old one whose comparator result is 0. -/
theorem equal_priority_order_counterexample :
    run Bus.init [.connect "c" 5 100 0 .EVENT_HANDLER_ENABLED,
        .connect "c" 5 200 0 .EVENT_HANDLER_ENABLED, .raise "c" 0] =
      some ([.handle 1, .handle 2, .calls [⟨2, 200, 0, 0⟩, ⟨1, 100, 0, 0⟩]],
        ⟨[⟨0, "c", 1, [⟨2, 5, 0, 200, .EVENT_HANDLER_ENABLED, 0⟩,
          ⟨1, 5, 0, 100, .EVENT_HANDLER_ENABLED, 0⟩]⟩], 3⟩) ∧
      list_insert_sorted [(10 : Int)] 20 (fun _ _ => 0) = [20, 10] := by
  decide

/-- C6: handles are assigned sequentially and never reused. In a run from program start
with fewer than 2^31 subscriptions the k-th `event_connect` that passes the name check
returns k (the list of returned handles is 1, 2, 3, ...), so the handles are pairwise
distinct (none is returned twice, whether or not it was disconnected in between) and none
is the invalid handle 0; an `event_connect` that fails returns 0 and leaves the state, with
the next handle, as it was. -/
theorem event_connect_handles_sequential (ops : List Op) (outs : List Out) (b : Bus)
    (hr : run Bus.init ops = some (outs, b)) (hn : connects ops < 2147483648) :
    handles ops outs = (List.range (connects ops)).map (fun (k : Nat) => (k : Int) + 1) ∧
      (handles ops outs).Nodup ∧ (0 : Int) ∉ handles ops outs ∧
      b.next_id = wrap32 ((connects ops : Int) + 1) ∧
      ∀ (b0 : Bus) (name : String) (p : Int) (f u : Nat) (st : EventHandlerState),
        strlen name > EVENT_NAME_MAX_LENGTH - 1 → event_connect b0 name p f u st = (0, b0) := by
  obtain ⟨outs1, b1, h1, h2, h3⟩ := run_WF ops WF_init (by simpa using hn)
  rw [h1] at hr
  simp only [Option.some.injEq, Prod.mk.injEq] at hr
  obtain ⟨ho, hb⟩ := hr
  subst ho hb
  have hh : handles ops outs1 =
      (List.range (connects ops)).map (fun (k : Nat) => (k : Int) + 1) := by
    rw [h3]
    apply List.map_congr_left
    intro k _
    push_cast
    ring
  refine ⟨hh, ?_, ?_, ?_, ?_⟩
  · rw [hh]
    refine (List.nodup_range _).map ?_
    intro x y hxy
    simp only at hxy
    omega
  · rw [hh]
    intro h0
    obtain ⟨k, _, hk⟩ := List.mem_map.mp h0
    omega
  · simpa using h2.next
  · intro b0 name p f u st hlen
    exact event_connect_long b0 name p f u st hlen

theorem event_connect_handles_sequential_witness :
    handles [.connect "a" 0 7 0 .EVENT_HANDLER_ENABLED, .disconnect 1,
        .connect "0123456789012345678901234567890123456789" 0 7 0 .EVENT_HANDLER_ENABLED,
        .connect "b" 3 7 0 .EVENT_HANDLER_DISABLED]
      [.handle 1, .unit, .handle 0, .handle 2] = [1, 2] :=
  (event_connect_handles_sequential
    [.connect "a" 0 7 0 .EVENT_HANDLER_ENABLED, .disconnect 1,
      .connect "0123456789012345678901234567890123456789" 0 7 0 .EVENT_HANDLER_ENABLED,
      .connect "b" 3 7 0 .EVENT_HANDLER_DISABLED]
    [.handle 1, .unit, .handle 0, .handle 2]
    ⟨[⟨0, "a", 0, []⟩, ⟨1, "b", 0, [⟨2, 3, 1, 7, .EVENT_HANDLER_DISABLED, 0⟩]⟩], 3⟩
    (by decide) (by decide)).1

/-- C7: `event_connect` with a name longer than 31 bytes returns the invalid handle 0 and
leaves the whole bus state unchanged (no channel, no subscription, same next handle); with
a name of at most 31 bytes, in any state of a run that stays below 2^31 subscriptions, it
returns the non-zero handle `next_id`, moves the counter on by one (as an `int`) and the channel of that
name then holds the new subscription. -/
theorem event_connect_name_length :
    (∀ (b : Bus) (name : String) (p : Int) (f u : Nat) (st : EventHandlerState),
      strlen name > 31 → event_connect b name p f u st = (0, b)) ∧
    (∀ (ops : List Op) (outs : List Out) (b : Bus), run Bus.init ops = some (outs, b) →
      connects ops + 1 < 2147483648 →
      ∀ (name : String) (p : Int) (f u : Nat) (st : EventHandlerState), strlen name ≤ 31 →
        (event_connect b name p f u st).1 ≠ 0 ∧
        (event_connect b name p f u st).1 = b.next_id ∧
        (event_connect b name p f u st).2.next_id = wrap32 (b.next_id + 1) ∧
        ∃ e ∈ (event_connect b name p f u st).2.l_events, e.name = name ∧
          (⟨b.next_id, p, e.addr, f, st, u⟩ : EventHandlerInfo) ∈ e.l_event_handlers) := by
  constructor
  · intro b name p f u st hlen
    exact event_connect_long b name p f u st (by simpa [EVENT_NAME_MAX_LENGTH] using hlen)
  · intro ops outs b hr hn name p f u st hlen
    have hlen1 : ¬ strlen name > EVENT_NAME_MAX_LENGTH - 1 := by
      unfold EVENT_NAME_MAX_LENGTH
      omega
    have hw := run_init_WF hr (by omega)
    have hnext : b.next_id = (connects ops : Int) + 1 := by
      rw [hw.next]
      exact wrap32_of_range ⟨by omega, by omega⟩
    obtain ⟨a1, a2, a3⟩ := event_connect_adds b name p f u st hlen1
    refine ⟨?_, a1, a2, a3⟩
    rw [a1, hnext]
    omega

theorem event_connect_name_length_witness :
    event_connect Bus.init "0123456789012345678901234567890123456789" 5 7 0
        .EVENT_HANDLER_ENABLED = (0, Bus.init) ∧
      (event_connect ⟨[⟨0, "a", 0, []⟩], 2⟩ "score" 5 7 0 .EVENT_HANDLER_ENABLED).1 ≠ 0 :=
  ⟨event_connect_name_length.1 Bus.init "0123456789012345678901234567890123456789" 5 7 0
      .EVENT_HANDLER_ENABLED (by decide),
    (event_connect_name_length.2
      [.connect "a" 0 7 0 .EVENT_HANDLER_ENABLED, .disconnect 1] [.handle 1, .unit]
      ⟨[⟨0, "a", 0, []⟩], 2⟩ (by decide) (by decide) "score" 5 7 0 .EVENT_HANDLER_ENABLED
      (by decide)).1⟩

/-- C8: in every bus state (handles being C `int` values), `event_raise` on a name that no
channel carries, and `event_disconnect`, `event_handler_set_state` and
`event_handler_set_user_data` on a handle that no subscription carries, call no handler and
return the state exactly as it was: no channel is created, nothing is reordered or
counted, the next handle stays. -/
theorem unknown_name_or_handle_is_noop (b : Bus)
    (hty : ∀ e ∈ b.l_events, ∀ h ∈ e.l_event_handlers, IsInt32 h.id) :
    (∀ (name : String) (d : Nat), (∀ e ∈ b.l_events, e.name ≠ name) →
      event_raise b name d = ([], b)) ∧
    (∀ (id : Int), IsInt32 id → (∀ e ∈ b.l_events, ∀ h ∈ e.l_event_handlers, h.id ≠ id) →
      event_disconnect b id = some b ∧
      (∀ st, event_handler_set_state b id st = b) ∧
      (∀ u, event_handler_set_user_data b id u = b)) := by
  constructor
  · intro name d hno
    have hf := get_event_link_none.mpr hno
    simp [event_raise, hf]
  · intro id hid hno
    have hf : _event_get_handler_link b.l_events id = none := by
      rw [get_handler_link_none]
      intro e he h hh h0
      exact hno e he h hh ((wrap32_sub_eq_zero (hty e he h hh) hid).mp h0)
    refine ⟨by simp [event_disconnect, hf], ?_, ?_⟩
    · intro st
      simp [event_handler_set_state, hf]
    · intro u
      simp [event_handler_set_user_data, hf]

theorem unknown_name_or_handle_is_noop_witness :
    event_raise ⟨[⟨0, "tick", 2, [⟨1, 0, 0, 70, .EVENT_HANDLER_ENABLED, 11⟩]⟩], 2⟩ "tock" 8 =
        ([], ⟨[⟨0, "tick", 2, [⟨1, 0, 0, 70, .EVENT_HANDLER_ENABLED, 11⟩]⟩], 2⟩) ∧
      event_disconnect ⟨[⟨0, "tick", 2, [⟨1, 0, 0, 70, .EVENT_HANDLER_ENABLED, 11⟩]⟩], 2⟩ 5 =
        some ⟨[⟨0, "tick", 2, [⟨1, 0, 0, 70, .EVENT_HANDLER_ENABLED, 11⟩]⟩], 2⟩ :=
  ⟨(unknown_name_or_handle_is_noop
      ⟨[⟨0, "tick", 2, [⟨1, 0, 0, 70, .EVENT_HANDLER_ENABLED, 11⟩]⟩], 2⟩ (by decide)).1
      "tock" 8 (by decide),
    ((unknown_name_or_handle_is_noop
      ⟨[⟨0, "tick", 2, [⟨1, 0, 0, 70, .EVENT_HANDLER_ENABLED, 11⟩]⟩], 2⟩ (by decide)).2
      5 (by decide) (by decide)).1⟩

/-- C10: for the channel `e` that its name denotes (no earlier channel carries the name) and
whose counter is below `ULONG_MAX`, `event_raise` leaves the next handle alone, raises the
counter of `e` by exactly 1 and changes no other counter and no subscriber list. A first
channel stays first; otherwise `e` changes places with the channel `q` directly before it
exactly when the counter of `q` is smaller than the new counter of `e`, and the order of the
list is unchanged when it is not. The new channel list is a rearrangement of the old one
with `e` counted up. -/
theorem event_raise_counts_and_swaps_once (b : Bus) (d : Nat) (l1 l2 : List EventInfo)
    (e : EventInfo) (hb : b.l_events = l1 ++ e :: l2) (h1 : ∀ y ∈ l1, y.name ≠ e.name)
    (hc : e.raise_count + 1 < ULONG_MOD) :
    (event_raise b e.name d).2.next_id = b.next_id ∧
    (l1 = [] → (event_raise b e.name d).2.l_events = count_up e :: l2) ∧
    (∀ l0 q, l1 = l0 ++ [q] →
      (q.raise_count < e.raise_count + 1 →
        (event_raise b e.name d).2.l_events = l0 ++ count_up e :: q :: l2) ∧
      (¬ q.raise_count < e.raise_count + 1 →
        (event_raise b e.name d).2.l_events = l0 ++ q :: count_up e :: l2)) ∧
    ((event_raise b e.name d).2.l_events).Perm (l1 ++ count_up e :: l2) := by
  have hmod : (e.raise_count + 1) % ULONG_MOD = e.raise_count + 1 := Nat.mod_eq_of_lt hc
  have hbump := bump_eq_count_up hc
  rcases eq_nil_or_snoc l1 with hl | ⟨l0, q, hl⟩
  · subst hl
    have hr := event_raise_first b d l2 e (by simpa using hb)
    rw [hbump] at hr
    rw [hr]
    refine ⟨rfl, fun _ => rfl, ?_, by simp⟩
    intro l0 q hl
    simp at hl
  · subst hl
    have hb1 : b.l_events = l0 ++ q :: e :: l2 := by simpa using hb
    have hr := event_raise_inner b d hb1 (fun y hy => h1 y (by simp [hy])) (h1 q (by simp))
    rw [hbump, hmod] at hr
    rw [hr]
    refine ⟨rfl, ?_, ?_, ?_⟩
    · intro hl
      simp at hl
    · intro l3 q3 hl
      obtain ⟨hl1, hl2⟩ := List.append_inj' hl rfl
      simp only [List.cons.injEq, and_true] at hl2
      subst hl1 hl2
      constructor
      · intro hlt
        simp only [hlt, if_true]
      · intro hlt
        simp only [hlt, if_false]
    · by_cases hlt : q.raise_count < e.raise_count + 1
      · simp only [hlt, if_true, List.append_assoc, List.singleton_append]
        exact (List.Perm.swap _ _ _).append_left l0
      · simp only [hlt, if_false, List.append_assoc, List.singleton_append]
        exact List.Perm.refl _

theorem event_raise_counts_and_swaps_once_witness :
    (event_raise ⟨[⟨0, "a", 1, []⟩, ⟨1, "b", 1, []⟩], 1⟩ "b" 0).2.l_events =
      [⟨1, "b", 2, []⟩, ⟨0, "a", 1, []⟩] :=
  ((event_raise_counts_and_swaps_once ⟨[⟨0, "a", 1, []⟩, ⟨1, "b", 1, []⟩], 1⟩ 0
    [⟨0, "a", 1, []⟩] [] ⟨1, "b", 1, []⟩ rfl (by decide) (by decide)).2.2.1
    [] ⟨0, "a", 1, []⟩ rfl).1 (by decide)


/-! ## Two channels raised at different rates -/

theorem printed_names_events (l : List EventInfo) :
    printed_names (print_events l) = l.map (fun e => e.name) := by
  induction l with
  | nil => rfl
  | cons e rest ih =>
    have hh : ∀ (hs : List EventHandlerInfo) (tl : List Line),
        printed_names (hs.map (fun handler_info => Line.handler handler_info.id
          handler_info.priority handler_info.state handler_info.handler) ++ tl) =
          printed_names tl := by
      intro hs tl
      induction hs with
      | nil => rfl
      | cons h hs ih2 => simpa [printed_names] using ih2
    simp only [print_events, printed_names, hh, ih, List.map_cons]

/-- The state of two channels `A` (raised `a` times) and `B` (raised `b` times): `A` is
first, or `B` is first and has been raised at least as often. -/
theorem two_channels_run (A B : EventInfo) (hne : A.name ≠ B.name) (nx : Int)
    (ops : List Op) :
    ∀ (a c : Nat) (l : List EventInfo),
      (l = [with_count A a, with_count B c] ∨ (l = [with_count B c, with_count A a] ∧ a ≤ c)) →
      (∀ op ∈ ops, ∃ d, op = .raise A.name d ∨ op = .raise B.name d) →
      a + raises A.name ops < ULONG_MOD → c + raises B.name ops < ULONG_MOD →
      ∃ outs l1, run ⟨l, nx⟩ ops = some (outs, ⟨l1, nx⟩) ∧
        (l1 = [with_count A (a + raises A.name ops), with_count B (c + raises B.name ops)] ∨
          (l1 = [with_count B (c + raises B.name ops), with_count A (a + raises A.name ops)] ∧
            a + raises A.name ops ≤ c + raises B.name ops)) := by
  induction ops with
  | nil =>
    intro a c l hl _ _ _
    exact ⟨[], l, rfl, by simpa [raises] using hl⟩
  | cons op rest ih =>
    intro a c l hl hops ha hc
    have hrest : ∀ op ∈ rest, ∃ d, op = .raise A.name d ∨ op = .raise B.name d :=
      fun op1 h1 => hops op1 (by simp [h1])
    obtain ⟨d, hop⟩ := hops op (by simp)
    have hne2 : B.name ≠ A.name := fun h => hne h.symm
    rcases hop with hop | hop
    · subst hop
      have hrA : raises A.name (Op.raise A.name d :: rest) = raises A.name rest + 1 := by
        simp [raises]
      have hrB : raises B.name (Op.raise A.name d :: rest) = raises B.name rest := by
        simp [raises, hne]
      rw [hrA] at ha ⊢
      rw [hrB] at hc ⊢
      have hmod : (a + 1) % ULONG_MOD = a + 1 := Nat.mod_eq_of_lt (by omega)
      have key : ∃ l2, event_raise ⟨l, nx⟩ A.name d =
          (raise_handlers A.l_event_handlers d, ⟨l2, nx⟩) ∧
          (l2 = [with_count A (a + 1), with_count B c] ∨
            (l2 = [with_count B c, with_count A (a + 1)] ∧ a + 1 ≤ c)) := by
        rcases hl with hl | ⟨hl, hac⟩
        · subst hl
          have := event_raise_first ⟨[with_count A a, with_count B c], nx⟩ d
            [with_count B c] (with_count A a) rfl
          refine ⟨_, this, Or.inl ?_⟩
          simp only [bump, with_count, hmod]
        · subst hl
          have := @event_raise_inner ⟨[with_count B c, with_count A a], nx⟩ d
            [] [] (with_count B c) (with_count A a) rfl (by simp) hne2
          simp only [bump, with_count, hmod, List.nil_append] at this
          by_cases hlt : c < a + 1
          · simp only [hlt, if_true] at this
            exact ⟨_, this, Or.inl rfl⟩
          · simp only [hlt, if_false] at this
            exact ⟨_, this, Or.inr ⟨rfl, by omega⟩⟩
      obtain ⟨l2, hraise, hl2⟩ := key
      obtain ⟨outs, l1, hrun, hfin⟩ := ih (a + 1) c l2 hl2 hrest (by omega) hc
      refine ⟨Out.calls (raise_handlers A.l_event_handlers d) :: outs, l1, ?_, ?_⟩
      · simp [run, step, hraise, hrun]
      · have e1 : a + (raises A.name rest + 1) = a + 1 + raises A.name rest := by omega
        rw [e1]
        exact hfin
    · subst hop
      have hrA : raises A.name (Op.raise B.name d :: rest) = raises A.name rest := by
        simp [raises, hne2]
      have hrB : raises B.name (Op.raise B.name d :: rest) = raises B.name rest + 1 := by
        simp [raises]
      rw [hrA] at ha ⊢
      rw [hrB] at hc ⊢
      have hmod : (c + 1) % ULONG_MOD = c + 1 := Nat.mod_eq_of_lt (by omega)
      have key : ∃ l2, event_raise ⟨l, nx⟩ B.name d =
          (raise_handlers B.l_event_handlers d, ⟨l2, nx⟩) ∧
          (l2 = [with_count A a, with_count B (c + 1)] ∨
            (l2 = [with_count B (c + 1), with_count A a] ∧ a ≤ c + 1)) := by
        rcases hl with hl | ⟨hl, hac⟩
        · subst hl
          have := @event_raise_inner ⟨[with_count A a, with_count B c], nx⟩ d
            [] [] (with_count A a) (with_count B c) rfl (by simp) hne
          simp only [bump, with_count, hmod, List.nil_append] at this
          by_cases hlt : a < c + 1
          · simp only [hlt, if_true] at this
            exact ⟨_, this, Or.inr ⟨rfl, by omega⟩⟩
          · simp only [hlt, if_false] at this
            exact ⟨_, this, Or.inl rfl⟩
        · subst hl
          have := event_raise_first ⟨[with_count B c, with_count A a], nx⟩ d
            [with_count A a] (with_count B c) rfl
          refine ⟨_, this, Or.inr ⟨?_, by omega⟩⟩
          simp only [bump, with_count, hmod]
      obtain ⟨l2, hraise, hl2⟩ := key
      obtain ⟨outs, l1, hrun, hfin⟩ := ih a (c + 1) l2 hl2 hrest ha (by omega)
      refine ⟨Out.calls (raise_handlers B.l_event_handlers d) :: outs, l1, ?_, ?_⟩
      · simp [run, step, hraise, hrun]
      · have e1 : c + (raises B.name rest + 1) = c + 1 + raises B.name rest := by omega
        rw [e1]
        exact hfin


/-- C11: on a bus whose only channels are `A` and `B`, both never raised yet and in either
order, every sequence of raises that raises `A` ten times and `B` once (nothing else) goes
through and leaves `A` before `B` in the channel list, with counters 10 and 1 and the
subscriber lists as they were; the dump of `event_print_structure` names `A` first. -/
theorem frequent_channel_precedes (A B : EventInfo) (nx : Int) (l : List EventInfo)
    (hl : l = [A, B] ∨ l = [B, A]) (hne : A.name ≠ B.name) (hA : A.raise_count = 0)
    (hB : B.raise_count = 0) (ops : List Op)
    (hops : ∀ op ∈ ops, raise_of A.name B.name op)
    (hcA : raises A.name ops = 10) (hcB : raises B.name ops = 1) :
    ∃ outs b, run ⟨l, nx⟩ ops = some (outs, b) ∧
      b.l_events = [with_count A 10, with_count B 1] ∧
      printed_names (event_print_structure b) = [A.name, B.name] := by
  have hA0 : with_count A 0 = A := by
    cases A
    simp only at hA
    simp [with_count, hA]
  have hB0 : with_count B 0 = B := by
    cases B
    simp only at hB
    simp [with_count, hB]
  have hstart : l = [with_count A 0, with_count B 0] ∨
      (l = [with_count B 0, with_count A 0] ∧ 0 ≤ 0) := by
    rw [hA0, hB0]
    rcases hl with hl | hl
    · exact Or.inl hl
    · exact Or.inr ⟨hl, le_refl 0⟩
  have hops1 : ∀ op ∈ ops, ∃ d, op = .raise A.name d ∨ op = .raise B.name d := by
    intro op hop
    have := hops op hop
    cases op with
    | raise n d =>
      simp only [raise_of] at this
      rcases this with h | h
      · exact ⟨d, Or.inl (by rw [h])⟩
      · exact ⟨d, Or.inr (by rw [h])⟩
    | connect name p f u st => simp [raise_of] at this
    | set_state id st => simp [raise_of] at this
    | set_user_data id u => simp [raise_of] at this
    | disconnect id => simp [raise_of] at this
  obtain ⟨outs, l1, hrun, hfin⟩ := two_channels_run A B hne nx ops 0 0 l hstart hops1
    (by rw [hcA]; decide) (by rw [hcB]; decide)
  rw [hcA, hcB] at hfin
  have hl1 : l1 = [with_count A 10, with_count B 1] := by
    rcases hfin with hfin | ⟨_, hle⟩
    · simpa using hfin
    · omega
  refine ⟨outs, ⟨l1, nx⟩, hrun, hl1, ?_⟩
  rw [event_print_structure, printed_names_events]
  simp [hl1]

theorem frequent_channel_precedes_witness :
    ∃ outs b, run ⟨[⟨1, "b", 0, []⟩, ⟨0, "a", 0, []⟩], 1⟩
        [.raise "b" 0, .raise "a" 0, .raise "a" 0, .raise "a" 0, .raise "a" 0, .raise "a" 0,
          .raise "a" 0, .raise "a" 0, .raise "a" 0, .raise "a" 0, .raise "a" 0] =
          some (outs, b) ∧
      b.l_events = [with_count ⟨0, "a", 0, []⟩ 10, with_count ⟨1, "b", 0, []⟩ 1] ∧
      printed_names (event_print_structure b) = ["a", "b"] :=
  frequent_channel_precedes ⟨0, "a", 0, []⟩ ⟨1, "b", 0, []⟩ 1
    [⟨1, "b", 0, []⟩, ⟨0, "a", 0, []⟩] (Or.inr rfl) (by decide) rfl rfl
    [.raise "b" 0, .raise "a" 0, .raise "a" 0, .raise "a" 0, .raise "a" 0, .raise "a" 0,
      .raise "a" 0, .raise "a" 0, .raise "a" 0, .raise "a" 0, .raise "a" 0]
    (by decide) (by decide) (by decide)


/-! ## A raise whose handlers change subscriptions -/

theorem load_eq_getElem? {α : Type} (l : List α) (i : Nat) : load l i = l[i]? := by
  induction l generalizing i with
  | nil => simp [load]
  | cons x xs ih =>
    cases i with
    | zero => simp [load]
    | succ k => simpa [load] using ih k

theorem load_map {α β : Type} (f : α → β) (l : List α) (i : Nat) :
    load (l.map f) i = (load l i).map f := by
  simp [load_eq_getElem?]

theorem wrap32_match_unique {a c k : Int} (ha : IsInt32 a) (hc : IsInt32 c)
    (h1 : wrap32 (a - k) = 0) (h2 : wrap32 (c - k) = 0) : a = c := by
  unfold IsInt32 at ha hc
  unfold wrap32 at h1 h2
  omega

theorem set_handlers_self (e : EventInfo) : set_handlers e e.l_event_handlers = e := by
  cases e
  rfl

theorem map_events_unchanged {l : List EventInfo} {g : EventHandlerInfo → EventHandlerInfo}
    (hg : ∀ e ∈ l, ∀ y ∈ e.l_event_handlers, g y = y) :
    l.map (fun e => set_handlers e (e.l_event_handlers.map g)) = l := by
  induction l with
  | nil => rfl
  | cons e rest ih =>
    have h1 : e.l_event_handlers.map g = e.l_event_handlers := by
      conv_rhs => rw [← List.map_id e.l_event_handlers]
      exact List.map_congr_left (fun y hy => by simpa using hg e (by simp) y hy)
    have h2 := ih (fun e1 he1 => hg e1 (by simp [he1]))
    simp only [List.map_cons, h1, h2, set_handlers_self]

/-- In a well-formed state a handle matches at most the one record found by the lookup, so
an in-place update through the lookup is the update of every matching record. -/
theorem update_found_eq_map {n : Nat} {b : Bus} (hw : WF n b) (hn : n < 2147483648) (id : Int)
    (g : EventHandlerInfo → EventHandlerInfo)
    {l1 l2 : List EventInfo} {e : EventInfo} {h1 h2 : List EventHandlerInfo}
    {h : EventHandlerInfo} (hb : b.l_events = l1 ++ e :: l2)
    (he : e.l_event_handlers = h1 ++ h :: h2)
    (hl1 : ∀ e1 ∈ l1, ∀ y ∈ e1.l_event_handlers, _event_find_handler y id ≠ 0)
    (hh1 : ∀ y ∈ h1, _event_find_handler y id ≠ 0) (hh : _event_find_handler h id = 0) :
    b.l_events.map (fun e => set_handlers e (e.l_event_handlers.map
      (fun y => if _event_find_handler y id = 0 then g y else y))) =
      l1 ++ set_handlers e (h1 ++ g h :: h2) :: l2 := by
  have hrange : ∀ e1 ∈ b.l_events, ∀ y ∈ e1.l_event_handlers, IsInt32 y.id := by
    intro e1 he1 y hy
    have := hw.ids_range e1 he1 y hy
    exact ⟨by omega, by omega⟩
  have hx : IsInt32 h.id := hrange e (by simp [hb]) h (by simp [he])
  obtain ⟨_, i2, _, i4⟩ := WF_ids_distinct hw hb he
  have hh2 : ∀ y ∈ h2, _event_find_handler y id ≠ 0 := by
    intro y hy h0
    exact i2 y hy (wrap32_match_unique (hrange e (by simp [hb]) y (by simp [he, hy])) hx h0 hh)
  have hl2 : ∀ e1 ∈ l2, ∀ y ∈ e1.l_event_handlers, _event_find_handler y id ≠ 0 := by
    intro e1 he1 y hy h0
    have heq := wrap32_match_unique (hrange e1 (by simp [hb, he1]) y hy) hx h0 hh
    exact i4 (mem_all_ids.mpr ⟨e1, he1, y, hy, heq⟩)
  have m1 := @map_events_unchanged l1
    (fun y => if _event_find_handler y id = 0 then g y else y)
    (fun e1 he1 y hy => by simp [hl1 e1 he1 y hy])
  have m2 := @map_events_unchanged l2
    (fun y => if _event_find_handler y id = 0 then g y else y)
    (fun e1 he1 y hy => by simp [hl2 e1 he1 y hy])
  have m3 : h1.map (fun y => if _event_find_handler y id = 0 then g y else y) = h1 := by
    conv_rhs => rw [← List.map_id h1]
    exact List.map_congr_left (fun y hy => by simp [hh1 y hy])
  have m4 : h2.map (fun y => if _event_find_handler y id = 0 then g y else y) = h2 := by
    conv_rhs => rw [← List.map_id h2]
    exact List.map_congr_left (fun y hy => by simp [hh2 y hy])
  rw [hb, List.map_append, List.map_cons, m1, m2, he, List.map_append, List.map_cons, m3, m4]
  simp [hh]

theorem set_state_eq_map {n : Nat} {b : Bus} (hw : WF n b) (hn : n < 2147483648) (id : Int)
    (st : EventHandlerState) :
    (event_handler_set_state b id st).l_events =
      b.l_events.map (fun e => set_handlers e
        (e.l_event_handlers.map (act_record (.set_state id st)))) := by
  cases hf : _event_get_handler_link b.l_events id with
  | none =>
    have hno := get_handler_link_none.mp hf
    simp only [event_handler_set_state, hf]
    exact (map_events_unchanged (fun e he y hy => by simp [act_record, hno e he y hy])).symm
  | some r =>
    obtain ⟨i, j, h⟩ := r
    obtain ⟨l1, e, l2, h1, h2, hb, _, he, _, d5, d6, d7⟩ := get_handler_link_some hf
    rw [event_handler_set_state_found b id st hb he d6 d7 d5]
    exact (update_found_eq_map hw hn id (fun y => set_state_of y st) hb he d6 d7 d5).symm

theorem set_user_data_eq_map {n : Nat} {b : Bus} (hw : WF n b) (hn : n < 2147483648) (id : Int)
    (u : Nat) :
    (event_handler_set_user_data b id u).l_events =
      b.l_events.map (fun e => set_handlers e
        (e.l_event_handlers.map (act_record (.set_user_data id u)))) := by
  cases hf : _event_get_handler_link b.l_events id with
  | none =>
    have hno := get_handler_link_none.mp hf
    simp only [event_handler_set_user_data, hf]
    exact (map_events_unchanged (fun e he y hy => by simp [act_record, hno e he y hy])).symm
  | some r =>
    obtain ⟨i, j, h⟩ := r
    obtain ⟨l1, e, l2, h1, h2, hb, _, he, _, d5, d6, d7⟩ := get_handler_link_some hf
    rw [event_handler_set_user_data_found b id u hb he d6 d7 d5]
    exact (update_found_eq_map hw hn id (fun y => set_user_data_of y u) hb he d6 d7 d5).symm

/-- The calls of a handler keep the state well-formed and rewrite the matching records. -/
theorem run_actions_eq_map (acts : List CbAction) {n : Nat} {b : Bus} (hw : WF n b)
    (hn : n < 2147483648) :
    WF n (run_actions b acts) ∧
      (run_actions b acts).l_events =
        b.l_events.map (fun e => set_handlers e (e.l_event_handlers.map (acts_record acts))) := by
  induction acts generalizing b with
  | nil =>
    refine ⟨hw, ?_⟩
    exact (map_events_unchanged (fun e _ y _ => rfl)).symm
  | cons a rest ih =>
    cases a with
    | set_state id st =>
      obtain ⟨w, hm⟩ := ih (WF_set_state hw id st)
      refine ⟨w, ?_⟩
      simp only [run_actions]
      rw [hm, set_state_eq_map hw hn id st, List.map_map]
      apply List.map_congr_left
      intro e _
      simp [set_handlers, acts_record, Function.comp]
    | set_user_data id u =>
      obtain ⟨w, hm⟩ := ih (WF_set_user_data hw id u)
      refine ⟨w, ?_⟩
      simp only [run_actions]
      rw [hm, set_user_data_eq_map hw hn id u, List.map_map]
      apply List.map_congr_left
      intro e _
      simp [set_handlers, acts_record, Function.comp]

theorem acts_record_append (p q : List CbAction) (h : EventHandlerInfo) :
    acts_record (p ++ q) h = acts_record q (acts_record p h) := by
  induction p generalizing h with
  | nil => rfl
  | cons a rest ih => simp [acts_record, ih]


/-- The loop of `event_raise` with acting handlers, started at link `j` of the list in a
well-formed state, makes the calls of `dispatch_live`, whatever fuel is left beyond the
number of links to go. -/
theorem raise_loop_calls (body : Nat → Nat → Nat → List CbAction) (d i : Nat) {n : Nat}
    (hn : n < 2147483648) (rest0 : List EventHandlerInfo) :
    ∀ (pend : List CbAction) (k j : Nat) (b : Bus) (e : EventInfo)
      (done : List EventHandlerInfo), WF n b → load b.l_events i = some e →
      e.l_event_handlers = done ++ rest0.map (acts_record pend) → done.length = j →
      rest0.length ≤ k →
      (raise_loop body d i k j b).1 = dispatch_live body d pend rest0 := by
  induction rest0 with
  | nil =>
    intro pend k j b e done hw hl he hj hk
    simp only [List.map_nil, List.append_nil] at he
    cases k with
    | zero => rfl
    | succ k1 =>
      have hnone : load e.l_event_handlers j = none := by
        rw [load_eq_getElem?, he, ← hj]
        simp
      simp [raise_loop, hl, hnone, dispatch_live]
  | cons h0 rest ih =>
    intro pend k j b e done hw hl he hj hk
    cases k with
    | zero => simp at hk
    | succ k1 =>
      simp only [List.length_cons, Nat.add_le_add_iff_right] at hk
      simp only [List.map_cons] at he
      have hsome : load e.l_event_handlers j = some (acts_record pend h0) := by
        rw [he, ← hj]
        exact load_append_cons _ _ _
      by_cases hst : (acts_record pend h0).state = .EVENT_HANDLER_ENABLED
      · obtain ⟨hw1, hm⟩ := run_actions_eq_map
          (body (acts_record pend h0).handler d (acts_record pend h0).user_data) hw hn
        have hl1 : load (run_actions b
            (body (acts_record pend h0).handler d (acts_record pend h0).user_data)).l_events i =
            some (set_handlers e (e.l_event_handlers.map (acts_record
              (body (acts_record pend h0).handler d (acts_record pend h0).user_data)))) := by
          rw [hm, load_map, hl]
          rfl
        have he1 : (set_handlers e (e.l_event_handlers.map (acts_record
              (body (acts_record pend h0).handler d
                (acts_record pend h0).user_data)))).l_event_handlers =
            (done ++ [acts_record pend h0]).map (acts_record
              (body (acts_record pend h0).handler d (acts_record pend h0).user_data)) ++
            rest.map (acts_record (pend ++
              body (acts_record pend h0).handler d (acts_record pend h0).user_data)) := by
          simp only [he, List.map_append, List.map_cons, List.map_nil, List.map_map,
            List.append_assoc, List.singleton_append]
          congr 2
          apply List.map_congr_left
          intro y _
          simp [acts_record_append]
        have := ih _ k1 (j + 1) _ _ _ hw1 hl1 he1 (by simp [hj]) hk
        simp only [raise_loop, hl, hsome, hst, if_true, dispatch_live, this]
      · have he1 : e.l_event_handlers =
            (done ++ [acts_record pend h0]) ++ rest.map (acts_record pend) := by
          simp [he]
        have := ih pend k1 (j + 1) b e _ hw hl he1 (by simp [hj]) hk
        simp only [raise_loop, hl, hsome, hst, if_false, dispatch_live, this]

theorem event_raise_with_calls (body : Nat → Nat → Nat → List CbAction) {b : Bus}
    {name : String} {i : Nat} {e : EventInfo} (d : Nat)
    (hf : _event_get_event_link b.l_events name = some (i, e)) :
    (event_raise_with body b name d).1 =
      (raise_loop body d i e.l_event_handlers.length 0 b).1 := by
  unfold event_raise_with
  simp only [hf]
  split
  · rfl
  · split
    · rfl
    · split
      · rfl
      · split <;> rfl

/-- With handlers that leave the bus alone the loop makes the calls of `raise_handlers` for
the links from `j` on and returns the state it was given. -/
theorem raise_loop_quiet (d i : Nat) :
    ∀ (k j : Nat) (b : Bus) (e : EventInfo), load b.l_events i = some e →
      e.l_event_handlers.length ≤ j + k →
      raise_loop (fun _ _ _ => []) d i k j b =
        (raise_handlers (e.l_event_handlers.drop j) d, b) := by
  intro k
  induction k with
  | zero =>
    intro j b e _ hk
    have : e.l_event_handlers.drop j = [] := List.drop_eq_nil_of_le (by omega)
    simp [raise_loop, this, raise_handlers]
  | succ k1 ih =>
    intro j b e hl hk
    cases hj : load e.l_event_handlers j with
    | none =>
      rw [load_eq_getElem?, List.getElem?_eq_none_iff] at hj
      have : e.l_event_handlers.drop j = [] := List.drop_eq_nil_of_le hj
      simp [raise_loop, hl, load_eq_getElem?, List.getElem?_eq_none_iff.mpr hj, this,
        raise_handlers]
    | some h =>
      have hj2 := hj
      rw [load_eq_getElem?] at hj2
      obtain ⟨hlt, hget⟩ := List.getElem?_eq_some_iff.mp hj2
      have hdrop : e.l_event_handlers.drop j = h :: e.l_event_handlers.drop (j + 1) := by
        rw [← hget]
        exact List.drop_eq_getElem_cons hlt
      have := ih (j + 1) b e hl (by omega)
      by_cases hst : h.state = .EVENT_HANDLER_ENABLED
      · simp [raise_loop, hl, hj, hst, run_actions, this, hdrop, raise_handlers]
      · simp [raise_loop, hl, hj, hst, this, hdrop, raise_handlers]

/-- The raise with acting handlers is the raise of `event_raise` when no handler acts. -/
theorem event_raise_with_quiet (b : Bus) (name : String) (d : Nat) :
    event_raise_with (fun _ _ _ => []) b name d = event_raise b name d := by
  cases hf : _event_get_event_link b.l_events name with
  | none => simp [event_raise_with, event_raise, hf]
  | some r =>
    obtain ⟨i, e⟩ := r
    obtain ⟨l1, l2, hb, hi, _, _⟩ := get_event_link_some hf
    have hl : load b.l_events i = some e := by
      rw [hb, ← hi]
      exact load_append_cons l1 e l2
    have hq := raise_loop_quiet d i e.l_event_handlers.length 0 b e hl (by omega)
    simp only [List.drop_zero] at hq
    simp only [event_raise_with, event_raise, hf, hq, hl]


theorem run_actions_append (b : Bus) (p q : List CbAction) :
    run_actions b (p ++ q) = run_actions (run_actions b p) q := by
  induction p generalizing b with
  | nil => rfl
  | cons a rest ih =>
    cases a with
    | set_state id st =>
      simp only [List.cons_append, run_actions]
      exact ih _
    | set_user_data id u =>
      simp only [List.cons_append, run_actions]
      exact ih _

/-- The state the handler loop ends in is the state it began in after the calls that the
handler functions it called have made. -/
theorem raise_loop_state (body : Nat → Nat → Nat → List CbAction) (d i : Nat) :
    ∀ (k j : Nat) (b : Bus),
      (raise_loop body d i k j b).2 =
        run_actions b (calls_acts body (raise_loop body d i k j b).1) := by
  intro k
  induction k with
  | zero =>
    intro j b
    rfl
  | succ k1 ih =>
    intro j b
    simp only [raise_loop]
    split
    · rfl
    · split
      · rfl
      · split
        · simp only [calls_acts, run_actions_append]
          exact ih _ _
        · exact ih _ _

/-- A rewriting of the channel records that keeps the names keeps the result of the lookup
by name. -/
theorem get_event_link_map {l : List EventInfo} {name : String} {i : Nat} {e : EventInfo}
    (g : EventInfo → EventInfo) (hg : ∀ x, (g x).name = x.name)
    (h : _event_get_event_link l name = some (i, e)) :
    _event_get_event_link (l.map g) name = some (i, g e) := by
  obtain ⟨l1, l2, hl, hi, hname, h1⟩ := get_event_link_some h
  subst hl
  subst hi
  have := get_event_link_append (l1.map g) (l2.map g) (g e) (by
    intro y hy
    obtain ⟨z, hz, rfl⟩ := List.mem_map.mp hy
    rw [hg, hg, hname]
    exact h1 z hz)
  rw [hg, hname] at this
  simpa using this

/-- The raise with acting handlers ends in the state in which `event_raise` with quiet
handlers ends when the calls of the handlers are all made before it. -/
theorem event_raise_with_state (body : Nat → Nat → Nat → List CbAction) {n : Nat} {b : Bus}
    (hw : WF n b) (hn : n < 2147483648) {name : String} {i : Nat} {e : EventInfo} (d : Nat)
    (hf : _event_get_event_link b.l_events name = some (i, e)) :
    (event_raise_with body b name d).2 =
      (event_raise (run_actions b (calls_acts body (event_raise_with body b name d).1))
        name d).2 ∧
    _event_get_event_link
      (run_actions b (calls_acts body (event_raise_with body b name d).1)).l_events name =
        some (i, set_handlers e (e.l_event_handlers.map
          (acts_record (calls_acts body (event_raise_with body b name d).1)))) := by
  rw [event_raise_with_calls body d hf]
  have hstate := raise_loop_state body d i e.l_event_handlers.length 0 b
  generalize calls_acts body (raise_loop body d i e.l_event_handlers.length 0 b).1 = acts
    at hstate
  obtain ⟨_, hmap⟩ := run_actions_eq_map acts hw hn
  have hf2 : _event_get_event_link (run_actions b acts).l_events name =
      some (i, set_handlers e (e.l_event_handlers.map (acts_record acts))) := by
    rw [hmap]
    exact get_event_link_map _ (fun _ => rfl) hf
  refine ⟨?_, hf2⟩
  have hl : load (run_actions b acts).l_events i =
      some (set_handlers e (e.l_event_handlers.map (acts_record acts))) := by
    obtain ⟨l1, l2, hb, hi, _, _⟩ := get_event_link_some hf2
    rw [hb, ← hi]
    exact load_append_cons l1 _ l2
  unfold event_raise_with event_raise
  simp only [hf, hf2, hstate, hl]
  split
  · rfl
  · split
    · rfl
    · split <;> rfl

/-- After a raise of a channel the lookup by its name finds the record of the channel with
the counter moved on by one. -/
theorem raise_lookup_after {b : Bus} {name : String} {i : Nat} {e : EventInfo} (d : Nat)
    (hf : _event_get_event_link b.l_events name = some (i, e)) :
    ∃ k, _event_get_event_link (event_raise b name d).2.l_events name = some (k, bump e) := by
  obtain ⟨l1, l2, hb, _, hname, h1⟩ := get_event_link_some hf
  subst hname
  rcases eq_nil_or_snoc l1 with hl | ⟨l0, q, hl⟩
  · subst hl
    rw [event_raise_first b d l2 e (by simpa using hb)]
    exact ⟨0, get_event_link_append [] l2 (bump e) (by simp)⟩
  · subst hl
    have hb1 : b.l_events = l0 ++ q :: e :: l2 := by simpa using hb
    have h0 : ∀ y ∈ l0, y.name ≠ e.name := fun y hy => h1 y (by simp [hy])
    have hq : q.name ≠ e.name := h1 q (by simp)
    rw [event_raise_inner b d hb1 h0 hq]
    by_cases hc : q.raise_count < (e.raise_count + 1) % ULONG_MOD
    · simp only [hc, if_true]
      exact ⟨l0.length, get_event_link_append l0 (q :: l2) (bump e) h0⟩
    · simp only [hc, if_false]
      have := get_event_link_append (l0 ++ [q]) l2 (bump e) (by
        intro y hy
        rcases List.mem_append.mp hy with hy | hy
        · exact h0 y hy
        · simp only [List.mem_singleton] at hy
          exact hy ▸ hq)
      exact ⟨(l0 ++ [q]).length, by simpa using this⟩

/-- In a well-formed state the calls of a raise with acting handlers are those of
`dispatch_live` on the subscriber list of the channel. -/
theorem event_raise_with_dispatch (body : Nat → Nat → Nat → List CbAction) {n : Nat} {b : Bus}
    (hw : WF n b) (hn : n < 2147483648) {name : String} {i : Nat} {e : EventInfo} (d : Nat)
    (hf : _event_get_event_link b.l_events name = some (i, e)) :
    (event_raise_with body b name d).1 = dispatch_live body d [] e.l_event_handlers := by
  obtain ⟨l1, l2, hb, hi, _, _⟩ := get_event_link_some hf
  have hl : load b.l_events i = some e := by
    rw [hb, ← hi]
    exact load_append_cons l1 e l2
  rw [event_raise_with_calls body d hf]
  refine raise_loop_calls body d i hn e.l_event_handlers [] _ 0 b e [] hw hl ?_ rfl
    (le_refl _)
  have : e.l_event_handlers.map (acts_record []) = e.l_event_handlers := by
    conv_rhs => rw [← List.map_id e.l_event_handlers]
    exact List.map_congr_left (fun y _ => rfl)
  simp [this]

/-- The next raise after a raise with acting handlers starts from the records with every
call of those handlers applied. -/
theorem event_raise_with_next (body body2 : Nat → Nat → Nat → List CbAction) {n : Nat}
    {b : Bus} (hw : WF n b) (hn : n < 2147483648) {name : String} {i : Nat} {e : EventInfo}
    (d d2 : Nat) (hf : _event_get_event_link b.l_events name = some (i, e)) :
    (event_raise_with body2 (event_raise_with body b name d).2 name d2).1 =
      dispatch_live body2 d2 []
        (e.l_event_handlers.map
          (acts_record (calls_acts body (event_raise_with body b name d).1))) := by
  obtain ⟨hst, hf2⟩ := event_raise_with_state body hw hn d hf
  generalize calls_acts body (event_raise_with body b name d).1 = acts at hst hf2
  have hw2 : WF n (run_actions b acts) := (run_actions_eq_map acts hw hn).1
  obtain ⟨k, hf3⟩ := raise_lookup_after d hf2
  have hw3 : WF n (event_raise (run_actions b acts) name d).2 := WF_raise hw2 name d
  rw [hst]
  exact event_raise_with_dispatch body2 hw3 hn d2 hf3

/-- C12, as the code has it: a change a handler makes to the enabled flag or the user data
of a subscription of the same channel that the traversal has not reached yet takes effect
in the raise in progress. In every state of a run (below 2^31 subscriptions) the calls of a
raise are those of `dispatch_live`: each subscription is called or skipped by the flag, and
gets the user data, that it holds when the traversal reaches it. With two subscriptions `x`
(enabled) and `y` where the handler of `x` sets the state of `y` to `st` and its user data
to `u`, the raise calls `x` and then calls `y` exactly when `st` is enabled, with `u`.
A change to a subscription already passed takes effect on the next raise: the raise ends in
the state that `event_raise` with quiet handlers ends in when all the calls of the handlers
are made before it, so every record holds every change when the raise is over; the next
raise of the channel, with whatever handlers, makes the calls of `dispatch_live` on the
records so changed. With two enabled subscriptions `x` and `y` where the handler of `x` is
quiet and the handler of `y` sets the state of `x` to `st`, the raise in progress calls `x`
and `y`, and the next raise calls `x` exactly when `st` is enabled. -/
theorem raise_takes_subscriptions_as_reached (ops : List Op) (outs : List Out) (b : Bus)
    (hr : run Bus.init ops = some (outs, b)) (hn : connects ops < 2147483648)
    (body : Nat → Nat → Nat → List CbAction) (name : String) (d i : Nat) (e : EventInfo)
    (hf : _event_get_event_link b.l_events name = some (i, e)) :
    (event_raise_with body b name d).1 = dispatch_live body d [] e.l_event_handlers ∧
    (∀ (x y : EventHandlerInfo) (st : EventHandlerState) (u : Nat),
      e.l_event_handlers = [x, y] → x.state = .EVENT_HANDLER_ENABLED →
      body x.handler d x.user_data = [.set_state y.id st, .set_user_data y.id u] →
      (event_raise_with body b name d).1 =
        call_of d x ::
          (if st = .EVENT_HANDLER_ENABLED then [⟨y.id, y.handler, d, u⟩] else [])) ∧
    (event_raise_with body b name d).2 =
      (event_raise (run_actions b (calls_acts body (event_raise_with body b name d).1))
        name d).2 ∧
    (∀ (body2 : Nat → Nat → Nat → List CbAction) (d2 : Nat),
      (event_raise_with body2 (event_raise_with body b name d).2 name d2).1 =
        dispatch_live body2 d2 []
          (e.l_event_handlers.map
            (acts_record (calls_acts body (event_raise_with body b name d).1)))) ∧
    (∀ (x y : EventHandlerInfo) (st : EventHandlerState),
      e.l_event_handlers = [x, y] → x.state = .EVENT_HANDLER_ENABLED →
      y.state = .EVENT_HANDLER_ENABLED → body x.handler d x.user_data = [] →
      body y.handler d y.user_data = [.set_state x.id st] →
      (event_raise_with body b name d).1 = [call_of d x, call_of d y] ∧
      ∀ d2 : Nat, (event_raise (event_raise_with body b name d).2 name d2).1 =
        (if st = .EVENT_HANDLER_ENABLED then [call_of d2 x] else []) ++ [call_of d2 y]) := by
  have hw := run_init_WF hr hn
  have hmain := event_raise_with_dispatch body hw hn d hf
  have hnext := fun body2 d2 => event_raise_with_next body body2 hw hn d d2 hf
  refine ⟨hmain, ?_, (event_raise_with_state body hw hn d hf).1, hnext, ?_⟩
  · intro x y st u he hx hbody
    rw [hmain, he]
    have h0 : _event_find_handler y y.id = 0 := wrap32_sub_self y.id
    have h1 : _event_find_handler { y with state := st } y.id = 0 := wrap32_sub_self y.id
    have hrec : acts_record [.set_state y.id st, .set_user_data y.id u] y =
        { y with state := st, user_data := u } := by
      simp only [acts_record, act_record, h0, h1, if_true]
    have e1 : dispatch_live body d [] [x, y] =
        call_of d x ::
          dispatch_live body d [.set_state y.id st, .set_user_data y.id u] [y] := by
      simp only [dispatch_live, acts_record, hx, hbody, if_true, List.nil_append]
    have e2 : dispatch_live body d [.set_state y.id st, .set_user_data y.id u] [y] =
        if st = .EVENT_HANDLER_ENABLED then [⟨y.id, y.handler, d, u⟩] else [] := by
      simp only [dispatch_live, hrec]
    rw [e1, e2]
  · intro x y st he hx hy hbx hby
    have hcalls : (event_raise_with body b name d).1 = [call_of d x, call_of d y] := by
      rw [hmain, he]
      simp only [dispatch_live, acts_record, hx, hy, hbx, hby, if_true, List.nil_append]
    refine ⟨hcalls, ?_⟩
    intro d2
    obtain ⟨l1, l2, hb, _, _, _⟩ := get_event_link_some hf
    have he1 : e.l_event_handlers = [] ++ x :: [y] := by simp [he]
    obtain ⟨_, i2, _, _⟩ := WF_ids_distinct hw hb he1
    have hrange : ∀ z ∈ e.l_event_handlers, IsInt32 z.id := by
      intro z hz
      have := hw.ids_range e (by simp [hb]) z hz
      exact ⟨by omega, by omega⟩
    have hxx : _event_find_handler x x.id = 0 := wrap32_sub_self x.id
    have hyx : _event_find_handler y x.id ≠ 0 := by
      intro h0
      exact i2 y (by simp)
        (wrap32_match_unique (hrange y (by simp [he])) (hrange x (by simp [he])) h0 hxx)
    have hacts : calls_acts body [call_of d x, call_of d y] = [.set_state x.id st] := by
      simp only [calls_acts, hbx, hby, List.nil_append, List.append_nil]
    have hq := hnext (fun _ _ _ => []) d2
    rw [event_raise_with_quiet, hcalls, hacts, he] at hq
    rw [hq]
    by_cases hst : st = .EVENT_HANDLER_ENABLED
    · simp [dispatch_live, acts_record, act_record, hxx, hyx, hst, hy]
    · simp [dispatch_live, acts_record, act_record, hxx, hyx, hst, hy]

theorem raise_takes_subscriptions_as_reached_witness :
    (event_raise_with
        (fun f _ _ => if f = 100 then [.set_state 1 .EVENT_HANDLER_DISABLED] else [])
        ⟨[⟨0, "c", 0, [⟨2, 9, 0, 100, .EVENT_HANDLER_ENABLED, 0⟩,
          ⟨1, 5, 0, 200, .EVENT_HANDLER_ENABLED, 7⟩]⟩], 3⟩ "c" 4).1 =
      dispatch_live
        (fun f _ _ => if f = 100 then [.set_state 1 .EVENT_HANDLER_DISABLED] else []) 4 []
        (EventInfo.mk 0 "c" 0 [⟨2, 9, 0, 100, .EVENT_HANDLER_ENABLED, 0⟩,
          ⟨1, 5, 0, 200, .EVENT_HANDLER_ENABLED, 7⟩]).l_event_handlers :=
  (raise_takes_subscriptions_as_reached
    [.connect "c" 5 200 7 .EVENT_HANDLER_ENABLED, .connect "c" 9 100 0 .EVENT_HANDLER_ENABLED]
    [.handle 1, .handle 2]
    ⟨[⟨0, "c", 0, [⟨2, 9, 0, 100, .EVENT_HANDLER_ENABLED, 0⟩,
      ⟨1, 5, 0, 200, .EVENT_HANDLER_ENABLED, 7⟩]⟩], 3⟩
    (by decide) (by decide)
    (fun f _ _ => if f = 100 then [.set_state 1 .EVENT_HANDLER_DISABLED] else []) "c" 4 0
    ⟨0, "c", 0, [⟨2, 9, 0, 100, .EVENT_HANDLER_ENABLED, 0⟩,
      ⟨1, 5, 0, 200, .EVENT_HANDLER_ENABLED, 7⟩]⟩ (by decide)).1

/-- C12 as stated fails: on the channel "c" with the enabled subscriptions 2 (priority 9)
and 1 (priority 5, user data 7), made by two `event_connect` calls, the handler of
subscription 2 disables subscription 1; the raise in progress then does not call
subscription 1, although it was enabled when the raise began. When the handler of
subscription 2 instead sets the user data of subscription 1 to 99, the raise in progress
calls subscription 1 with 99, not with 7. -/
theorem raise_in_progress_sees_change_counterexample :
    run Bus.init [.connect "c" 5 200 7 .EVENT_HANDLER_ENABLED,
        .connect "c" 9 100 0 .EVENT_HANDLER_ENABLED] =
      some ([.handle 1, .handle 2],
        ⟨[⟨0, "c", 0, [⟨2, 9, 0, 100, .EVENT_HANDLER_ENABLED, 0⟩,
          ⟨1, 5, 0, 200, .EVENT_HANDLER_ENABLED, 7⟩]⟩], 3⟩) ∧
    (event_raise_with
        (fun f _ _ => if f = 100 then [.set_state 1 .EVENT_HANDLER_DISABLED] else [])
        ⟨[⟨0, "c", 0, [⟨2, 9, 0, 100, .EVENT_HANDLER_ENABLED, 0⟩,
          ⟨1, 5, 0, 200, .EVENT_HANDLER_ENABLED, 7⟩]⟩], 3⟩ "c" 4).1 = [⟨2, 100, 4, 0⟩] ∧
    (event_raise_with
        (fun f _ _ => if f = 100 then [.set_user_data 1 99] else [])
        ⟨[⟨0, "c", 0, [⟨2, 9, 0, 100, .EVENT_HANDLER_ENABLED, 0⟩,
          ⟨1, 5, 0, 200, .EVENT_HANDLER_ENABLED, 7⟩]⟩], 3⟩ "c" 4).1 =
      [⟨2, 100, 4, 0⟩, ⟨1, 200, 4, 99⟩] := by
  decide


/-! ## Memory of links -/

theorem store_eq_set {α : Type} (l : List α) (i : Nat) (v : α) : store l i v = l.set i v := by
  induction l generalizing i with
  | nil => simp [store]
  | cons x xs ih =>
    cases i with
    | zero => simp [store]
    | succ k => simp [store, ih]

theorem heap_get_eq (m : ptr.Heap) (a : Nat) : m.get a = (m.cells[a]?).join := by
  unfold ptr.Heap.get
  rw [load_eq_getElem?]
  cases h : m.cells[a]? with
  | none => rfl
  | some v =>
    cases v with
    | none => rfl
    | some l => rfl

theorem heap_get_lt {m : ptr.Heap} {a : Nat} {l : ptr.Link} (h : m.get a = some l) :
    a < m.cells.length := by
  rw [heap_get_eq] at h
  by_contra hlt
  rw [List.getElem?_eq_none (by omega)] at h
  simp at h

theorem heap_get_set_same {m : ptr.Heap} {a : Nat} (l : ptr.Link) (h : a < m.cells.length) :
    (m.set a l).get a = some l := by
  rw [heap_get_eq]
  simp only [ptr.Heap.set, store_eq_set]
  rw [List.getElem?_set_self h]
  rfl

theorem heap_get_set_ne {m : ptr.Heap} {a c : Nat} (l : ptr.Link) (h : a ≠ c) :
    (m.set a l).get c = m.get c := by
  rw [heap_get_eq, heap_get_eq]
  simp only [ptr.Heap.set, store_eq_set]
  rw [List.getElem?_set_ne h]

theorem heap_set_length (m : ptr.Heap) (a : Nat) (l : ptr.Link) :
    (m.set a l).cells.length = m.cells.length := by
  simp [ptr.Heap.set, store_eq_set]

theorem heap_get_alloc_new (m : ptr.Heap) :
    (ptr._list_alloc_link m).2.get m.cells.length =
      some { data := 0, next := none, prev := none } := by
  rw [heap_get_eq]
  simp [ptr._list_alloc_link]

theorem heap_get_alloc_ne {m : ptr.Heap} {a : Nat} (h : a ≠ m.cells.length) :
    (ptr._list_alloc_link m).2.get a = m.get a := by
  rw [heap_get_eq, heap_get_eq]
  simp only [ptr._list_alloc_link]
  by_cases hlt : a < m.cells.length
  · rw [List.getElem?_append_left hlt]
  · rw [List.getElem?_eq_none (by simp; omega), List.getElem?_eq_none (by omega)]

theorem heap_alloc_length (m : ptr.Heap) :
    (ptr._list_alloc_link m).2.cells.length = m.cells.length + 1 := by
  simp [ptr._list_alloc_link]

theorem heap_get_free_same (m : ptr.Heap) (a : Nat) : (ptr._list_free_link m a).get a = none := by
  rw [heap_get_eq]
  simp only [ptr._list_free_link, store_eq_set]
  by_cases hlt : a < m.cells.length
  · rw [List.getElem?_set_self hlt]
    rfl
  · rw [List.getElem?_eq_none (by simp; omega)]
    rfl

theorem heap_get_free_ne {m : ptr.Heap} {a c : Nat} (h : a ≠ c) :
    (ptr._list_free_link m a).get c = m.get c := by
  rw [heap_get_eq, heap_get_eq]
  simp only [ptr._list_free_link, store_eq_set]
  rw [List.getElem?_set_ne h]

theorem set_data_eq {m : ptr.Heap} {a : Nat} {l : ptr.Link} (v : Nat) (h : m.get a = some l) :
    ptr.set_data m a v = some (m.set a { l with data := v }) := by
  simp [ptr.set_data, h]

theorem set_next_eq {m : ptr.Heap} {a : Nat} {l : ptr.Link} (v : Option Nat)
    (h : m.get a = some l) : ptr.set_next m a v = some (m.set a { l with next := v }) := by
  simp [ptr.set_next, h]

theorem set_prev_eq {m : ptr.Heap} {a : Nat} {l : ptr.Link} (v : Option Nat)
    (h : m.get a = some l) : ptr.set_prev m a v = some (m.set a { l with prev := v }) := by
  simp [ptr.set_prev, h]

/-! ## Doubly linked segments -/

theorem dlseg_frame {m m1 : ptr.Heap} {nodes : List (Nat × Nat)} {prev q : Option Nat}
    (hf : ∀ a ∈ nodes.map (fun n => n.1), m1.get a = m.get a) (h : ptr.dlseg m prev nodes q) :
    ptr.dlseg m1 prev nodes q := by
  induction nodes generalizing prev with
  | nil => trivial
  | cons n rest ih =>
    obtain ⟨a, x⟩ := n
    simp only [ptr.dlseg] at h ⊢
    refine ⟨?_, ih (fun c hc => hf c (by simp only [List.map_cons, List.mem_cons]; exact Or.inr hc)) h.2⟩
    rw [hf a (by simp)]
    exact h.1

theorem first_or_append (l1 l2 : List (Nat × Nat)) (q : Option Nat) :
    ptr.first_or (l1 ++ l2) q = ptr.first_or l1 (ptr.first_or l2 q) := by
  cases l1 with
  | nil => rfl
  | cons n rest =>
    obtain ⟨a, x⟩ := n
    rfl

theorem last_or_cons (n : Nat × Nat) (rest : List (Nat × Nat)) (p : Option Nat) :
    ptr.last_or (n :: rest) p = ptr.last_or rest (some n.1) := by
  induction rest generalizing n p with
  | nil =>
    obtain ⟨a, x⟩ := n
    rfl
  | cons n2 rest2 ih =>
    have e1 : ptr.last_or (n :: n2 :: rest2) p = ptr.last_or (n2 :: rest2) p := by
      obtain ⟨a, x⟩ := n
      rfl
    rw [e1, ih n2 p, ih n2 (some n.1)]

theorem last_or_append (l1 l2 : List (Nat × Nat)) (p : Option Nat) :
    ptr.last_or (l1 ++ l2) p = ptr.last_or l2 (ptr.last_or l1 p) := by
  induction l1 generalizing p with
  | nil => rfl
  | cons n rest ih =>
    rw [List.cons_append, last_or_cons, last_or_cons, ih]

theorem dlseg_cons {m : ptr.Heap} {a x : Nat} {rest : List (Nat × Nat)} {prev q : Option Nat} :
    ptr.dlseg m prev ((a, x) :: rest) q ↔
      m.get a = some { data := x, next := ptr.first_or rest q, prev := prev } ∧
        ptr.dlseg m (some a) rest q := by
  rfl

theorem dlseg_append {m : ptr.Heap} {l1 l2 : List (Nat × Nat)} {prev q : Option Nat} :
    ptr.dlseg m prev (l1 ++ l2) q ↔
      ptr.dlseg m prev l1 (ptr.first_or l2 q) ∧ ptr.dlseg m (ptr.last_or l1 prev) l2 q := by
  induction l1 generalizing prev with
  | nil => simp [ptr.dlseg, ptr.last_or]
  | cons n rest ih =>
    obtain ⟨a, x⟩ := n
    rw [List.cons_append, dlseg_cons, dlseg_cons, ih, first_or_append, last_or_cons]
    tauto


theorem dlseg_get {m : ptr.Heap} {l1 l2 : List (Nat × Nat)} {a x : Nat} {prev q : Option Nat}
    (h : ptr.dlseg m prev (l1 ++ (a, x) :: l2) q) :
    m.get a = some { data := x, next := ptr.first_or l2 q, prev := ptr.last_or l1 prev } := by
  rw [dlseg_append, dlseg_cons] at h
  exact h.2.1

theorem dlseg_addr_lt {m : ptr.Heap} {nodes : List (Nat × Nat)} {prev q : Option Nat}
    (h : ptr.dlseg m prev nodes q) : ∀ a ∈ nodes.map (fun n => n.1), a < m.cells.length := by
  intro a ha
  obtain ⟨n, hn, rfl⟩ := List.mem_map.mp ha
  obtain ⟨l1, l2, rfl⟩ := List.append_of_mem hn
  obtain ⟨c, x⟩ := n
  exact heap_get_lt (dlseg_get h)

/-- A chain that ends in NULL passes through no link twice. -/
theorem dlseg_nodup {m : ptr.Heap} {nodes : List (Nat × Nat)} {prev : Option Nat}
    (h : ptr.dlseg m prev nodes none) : (nodes.map (fun n => n.1)).Nodup := by
  induction nodes generalizing prev with
  | nil => simp
  | cons n rest ih =>
    obtain ⟨a, x⟩ := n
    rw [dlseg_cons] at h
    obtain ⟨h1, h2⟩ := h
    have hnd := ih h2
    rw [List.map_cons, List.nodup_cons]
    refine ⟨?_, hnd⟩
    intro ha
    obtain ⟨n, hn, hna⟩ := List.mem_map.mp ha
    obtain ⟨r1, r2, hr⟩ := List.append_of_mem hn
    obtain ⟨c, y⟩ := n
    simp only at hna
    subst hna
    subst hr
    have h3 := dlseg_get h2
    rw [h1] at h3
    simp only [Option.some.injEq, ptr.Link.mk.injEq] at h3
    obtain ⟨_, hnext, _⟩ := h3
    rw [first_or_append] at hnext
    cases r1 with
    | nil =>
      cases r2 with
      | nil => simp [ptr.first_or] at hnext
      | cons n2 r2b =>
        obtain ⟨c2, y2⟩ := n2
        simp only [ptr.first_or, Option.some.injEq] at hnext
        subst hnext
        simp at hnd
    | cons n1 r1b =>
      obtain ⟨c1, y1⟩ := n1
      cases r2 with
      | nil => simp [ptr.first_or] at hnext
      | cons n2 r2b =>
        obtain ⟨c2, y2⟩ := n2
        simp only [ptr.first_or, Option.some.injEq] at hnext
        subst hnext
        simp at hnd

theorem nodup_length_le {l : List Nat} {n : Nat} (hnd : l.Nodup) (hlt : ∀ a ∈ l, a < n) :
    l.length ≤ n := by
  have h1 : l.toFinset ⊆ Finset.range n := by
    intro a ha
    rw [List.mem_toFinset] at ha
    exact Finset.mem_range.mpr (hlt a ha)
  have h2 := Finset.card_le_card h1
  rw [List.toFinset_card_of_nodup hnd, Finset.card_range] at h2
  exact h2

theorem dlseg_length_le {m : ptr.Heap} {nodes : List (Nat × Nat)} {prev : Option Nat}
    (h : ptr.dlseg m prev nodes none) : nodes.length ≤ m.cells.length := by
  have := nodup_length_le (dlseg_nodup h) (dlseg_addr_lt h)
  simpa using this

theorem last_loop_spec {m : ptr.Heap} {rest : List (Nat × Nat)} :
    ∀ {a x : Nat} {prev : Option Nat} {fuel : Nat},
      ptr.dlseg m prev ((a, x) :: rest) none → rest.length < fuel →
      ptr.last_loop m fuel a = ptr.last_or ((a, x) :: rest) prev := by
  induction rest with
  | nil =>
    intro a x prev fuel h hf
    rw [dlseg_cons] at h
    cases fuel with
    | zero => omega
    | succ k => simp [ptr.last_loop, h.1, ptr.first_or, ptr.last_or]
  | cons n rest2 ih =>
    intro a x prev fuel h hf
    obtain ⟨c, y⟩ := n
    rw [dlseg_cons] at h
    cases fuel with
    | zero => omega
    | succ k =>
      simp only [List.length_cons, Nat.add_lt_add_iff_right] at hf
      have := ih h.2 hf
      rw [last_or_cons] at this
      simp only [ptr.last_loop, h.1, ptr.first_or, this]
      rw [last_or_cons, last_or_cons]

theorem last_or_cons_some (n : Nat × Nat) (rest : List (Nat × Nat)) (p : Option Nat) :
    ∃ c, ptr.last_or (n :: rest) p = some c := by
  induction rest generalizing n with
  | nil =>
    obtain ⟨a, x⟩ := n
    exact ⟨a, rfl⟩
  | cons n2 rest2 ih =>
    obtain ⟨c, hc⟩ := ih n2
    refine ⟨c, ?_⟩
    rw [last_or_cons, ← hc, last_or_cons, last_or_cons]

theorem list_last_spec {m : ptr.Heap} {list : Option Nat} {nodes : List (Nat × Nat)}
    (h : ptr.is_list m list nodes) : ptr.list_last m list = some (ptr.last_or nodes none) := by
  obtain ⟨hl, hd⟩ := h
  cases nodes with
  | nil =>
    simp only [ptr.first_or] at hl
    subst hl
    rfl
  | cons n rest =>
    obtain ⟨a, x⟩ := n
    simp only [ptr.first_or] at hl
    subst hl
    have hlen := dlseg_length_le hd
    simp only [List.length_cons] at hlen
    have hlt : rest.length < m.cells.length := by omega
    have := last_loop_spec hd hlt
    obtain ⟨c, hc⟩ := last_or_cons_some (a, x) rest none
    simp only [ptr.list_last, this, hc, Option.map_some']


/-! ## list.c on links: what each function does to a well-formed list -/

theorem is_list_addr_ne_new {m : ptr.Heap} {list : Option Nat} {nodes : List (Nat × Nat)}
    (h : ptr.is_list m list nodes) : ∀ a ∈ nodes.map (fun n => n.1), a ≠ m.cells.length := by
  intro a ha
  have := dlseg_addr_lt h.2 a ha
  omega

/-- The new link of an insertion, before it is linked: memory `m2` after `_list_alloc_link`
and the write of the data. -/
theorem alloc_data_spec (m : ptr.Heap) (data : Nat) :
    ∃ m2, ptr.set_data (ptr._list_alloc_link m).2 m.cells.length data = some m2 ∧
      m2.get m.cells.length = some { data := data, next := none, prev := none } ∧
      (∀ a, a ≠ m.cells.length → m2.get a = m.get a) ∧
      m2.cells.length = m.cells.length + 1 ∧
      m2.list_alloc_count = wrap32 (m.list_alloc_count + 1) ∧
      m2.list_free_count = m.list_free_count := by
  have h1 := heap_get_alloc_new m
  refine ⟨(ptr._list_alloc_link m).2.set m.cells.length (ptr.Link.mk data none none),
    set_data_eq data h1, ?_, ?_, ?_, rfl, rfl⟩
  · exact heap_get_set_same _ (by rw [heap_alloc_length]; omega)
  · intro a ha
    rw [heap_get_set_ne _ (Ne.symm ha), heap_get_alloc_ne ha]
  · rw [heap_set_length, heap_alloc_length]

theorem ptr_list_append_spec {m : ptr.Heap} {list : Option Nat} {nodes : List (Nat × Nat)}
    (h : ptr.is_list m list nodes) (data : Nat) :
    ∃ m1, ptr.list_append m list data =
        some (ptr.first_or (nodes ++ [(m.cells.length, data)]) none, m1) ∧
      ptr.is_list m1 (ptr.first_or (nodes ++ [(m.cells.length, data)]) none)
        (nodes ++ [(m.cells.length, data)]) ∧
      m1.cells.length = m.cells.length + 1 ∧
      m1.list_alloc_count = wrap32 (m.list_alloc_count + 1) ∧
      m1.list_free_count = m.list_free_count := by
  obtain ⟨m2, hm2, g2new, g2old, len2, ac2, fc2⟩ := alloc_data_spec m data
  have hne := is_list_addr_ne_new h
  obtain ⟨hl, hd⟩ := h
  have hfst : (ptr._list_alloc_link m).1 = m.cells.length := rfl
  rcases eq_nil_or_snoc nodes with hn | ⟨init, n, hn⟩
  · subst hn
    simp only [ptr.first_or] at hl
    subst hl
    refine ⟨m2, ?_, ⟨rfl, ?_⟩, len2, ac2, fc2⟩
    · simp only [ptr.list_append, hm2, hfst, List.nil_append, ptr.first_or]
    · simp only [List.nil_append, dlseg_cons, ptr.first_or, g2new, true_and]
      trivial
  · obtain ⟨c, y⟩ := n
    subst hn
    have hnd := dlseg_nodup hd
    have hd2 : ptr.dlseg m2 none (init ++ [(c, y)]) none :=
      dlseg_frame (fun a ha => g2old a (hne a ha)) hd
    have hlast : ptr.last_or (init ++ [(c, y)]) none = some c := by
      rw [last_or_append]
      rfl
    have hll : ptr.list_last m2 list = some (ptr.last_or (init ++ [(c, y)]) none) :=
      list_last_spec ⟨hl, hd2⟩
    rw [hlast] at hll
    have gc := dlseg_get hd2
    simp only [ptr.first_or] at gc
    have hcne : c ≠ m.cells.length := hne c (by simp)
    have hclt := heap_get_lt gc
    have hs3 := set_next_eq (some m.cells.length) gc
    have g3new : (m2.set c (ptr.Link.mk y (some m.cells.length)
        (ptr.last_or init none))).get m.cells.length =
        some { data := data, next := none, prev := none } := by
      rw [heap_get_set_ne _ hcne, g2new]
    have hs4 := set_prev_eq (some c) g3new
    have hsome : ∃ a, list = some a := by
      rw [hl, first_or_append]
      cases init with
      | nil => exact ⟨c, rfl⟩
      | cons n0 r0 =>
        obtain ⟨a0, x0⟩ := n0
        exact ⟨a0, rfl⟩
    obtain ⟨a0, ha0⟩ := hsome
    have hfo : ptr.first_or (init ++ [(c, y)] ++ [(m.cells.length, data)]) none = list := by
      rw [hl, first_or_append, first_or_append]
      cases init with
      | nil => rfl
      | cons n0 r0 =>
        obtain ⟨a1, x1⟩ := n0
        rfl
    rw [hfo]
    refine ⟨(m2.set c (ptr.Link.mk y (some m.cells.length) (ptr.last_or init none))).set
      m.cells.length (ptr.Link.mk data none (some c)), ?_, ⟨hfo.symm, ?_⟩, ?_, ac2, fc2⟩
    · subst ha0
      simp only [ptr.list_append, hm2, hfst, hll, hs3, hs4]
    · rw [List.append_assoc, dlseg_append]
      constructor
      · have hd3 : ptr.dlseg m none init (some c) := by
          have := (dlseg_append.mp hd).1
          simpa [ptr.first_or] using this
        refine dlseg_frame ?_ hd3
        intro a ha
        have ha1 : a ≠ m.cells.length := hne a (by simp [List.mem_map] at ha ⊢; tauto)
        have ha2 : a ≠ c := by
          intro hac
          subst hac
          rw [List.map_append, List.nodup_append] at hnd
          exact hnd.2.2 ha (by simp)
        rw [heap_get_set_ne _ (Ne.symm ha1), heap_get_set_ne _ (Ne.symm ha2), g2old a ha1]
      · simp only [List.singleton_append, dlseg_cons, ptr.first_or, ptr.dlseg, and_true]
        constructor
        · rw [heap_get_set_ne _ (Ne.symm hcne)]
          exact heap_get_set_same _ hclt
        · exact heap_get_set_same _ (by rw [heap_set_length]; omega)
    · rw [heap_set_length, heap_set_length, len2]


theorem dlseg_set_frame {m : ptr.Heap} {nodes : List (Nat × Nat)} {prev q : Option Nat}
    {a : Nat} (l : ptr.Link) (ha : a ∉ nodes.map (fun n => n.1))
    (h : ptr.dlseg m prev nodes q) : ptr.dlseg (m.set a l) prev nodes q := by
  refine dlseg_frame ?_ h
  intro c hc
  exact heap_get_set_ne l (fun hac => ha (hac ▸ hc))

/-- Writing the `prev` field of the first node of a segment gives the segment a new
predecessor. -/
theorem dlseg_set_prev_first {m : ptr.Heap} {rest : List (Nat × Nat)} {prev q : Option Nat}
    {c y : Nat} (p1 : Option Nat) (hc : c ∉ rest.map (fun n => n.1))
    (h : ptr.dlseg m prev ((c, y) :: rest) q) :
    ptr.dlseg (m.set c (ptr.Link.mk y (ptr.first_or rest q) p1)) p1 ((c, y) :: rest) q := by
  rw [dlseg_cons] at h ⊢
  exact ⟨heap_get_set_same _ (heap_get_lt h.1), dlseg_set_frame _ hc h.2⟩

/-- Writing the `next` field of the last node of a segment gives the segment a new
successor. -/
theorem dlseg_set_next_last {m : ptr.Heap} {init : List (Nat × Nat)} {prev q : Option Nat}
    {c y : Nat} (q1 : Option Nat) (hc : c ∉ init.map (fun n => n.1))
    (h : ptr.dlseg m prev (init ++ [(c, y)]) q) :
    ptr.dlseg (m.set c (ptr.Link.mk y q1 (ptr.last_or init prev))) prev (init ++ [(c, y)])
      q1 := by
  rw [dlseg_append] at h ⊢
  obtain ⟨h1, h2⟩ := h
  rw [dlseg_cons] at h2
  constructor
  · exact dlseg_set_frame _ hc h1
  · rw [dlseg_cons]
    exact ⟨heap_get_set_same _ (heap_get_lt h2.1), trivial⟩

theorem nodup_cons_not_mem {a x : Nat} {rest : List (Nat × Nat)}
    (h : (((a, x) :: rest).map (fun n => n.1)).Nodup) : a ∉ rest.map (fun n => n.1) := by
  rw [List.map_cons, List.nodup_cons] at h
  exact h.1

theorem nodup_snoc_not_mem {c y : Nat} {init : List (Nat × Nat)}
    (h : ((init ++ [(c, y)]).map (fun n => n.1)).Nodup) : c ∉ init.map (fun n => n.1) := by
  rw [List.map_append, List.nodup_append] at h
  intro hc
  exact h.2.2 hc (by simp)

theorem ptr_list_prepend_spec {m : ptr.Heap} {list : Option Nat} {nodes : List (Nat × Nat)}
    (h : ptr.is_list m list nodes) (data : Nat) :
    ∃ m1, ptr.list_prepend m list data = some (some m.cells.length, m1) ∧
      ptr.is_list m1 (some m.cells.length) ((m.cells.length, data) :: nodes) ∧
      m1.cells.length = m.cells.length + 1 ∧
      m1.list_alloc_count = wrap32 (m.list_alloc_count + 1) ∧
      m1.list_free_count = m.list_free_count := by
  obtain ⟨m2, hm2, g2new, g2old, len2, ac2, fc2⟩ := alloc_data_spec m data
  have hne := is_list_addr_ne_new h
  obtain ⟨hl, hd⟩ := h
  have hfst : (ptr._list_alloc_link m).1 = m.cells.length := rfl
  cases nodes with
  | nil =>
    simp only [ptr.first_or] at hl
    subst hl
    refine ⟨m2, ?_, ⟨rfl, ?_⟩, len2, ac2, fc2⟩
    · simp only [ptr.list_prepend, hfst, hm2]
    · rw [dlseg_cons]
      exact ⟨g2new, trivial⟩
  | cons n rest =>
    obtain ⟨a, x⟩ := n
    simp only [ptr.first_or] at hl
    subst hl
    have hnd := dlseg_nodup hd
    have hd2 : ptr.dlseg m2 none ((a, x) :: rest) none :=
      dlseg_frame (fun c hc => g2old c (hne c hc)) hd
    have ga := (dlseg_cons.mp hd2).1
    have hane : a ≠ m.cells.length := hne a (by simp)
    have hs3 := set_prev_eq (some m.cells.length) ga
    have g3new : (m2.set a (ptr.Link.mk x (ptr.first_or rest none)
        (some m.cells.length))).get m.cells.length =
        some { data := data, next := none, prev := none } := by
      rw [heap_get_set_ne _ hane, g2new]
    have hs4 := set_next_eq (some a) g3new
    refine ⟨(m2.set a (ptr.Link.mk x (ptr.first_or rest none) (some m.cells.length))).set
      m.cells.length (ptr.Link.mk data (some a) none), ?_, ⟨rfl, ?_⟩, ?_, ac2, fc2⟩
    · simp only [ptr.list_prepend, hfst, hm2, hs3, hs4]
    · rw [dlseg_cons]
      constructor
      · exact heap_get_set_same _ (by rw [heap_set_length]; omega)
      · refine dlseg_set_frame _ ?_ (dlseg_set_prev_first _ (nodup_cons_not_mem hnd) hd2)
        intro hmem
        exact hne _ hmem rfl
    · rw [heap_set_length, heap_set_length, len2]

theorem nth_loop_spec {m : ptr.Heap} (k : Nat) :
    ∀ {nodes : List (Nat × Nat)} {prev : Option Nat}, ptr.dlseg m prev nodes none →
      ptr.nth_loop m k (ptr.first_or nodes none) = some (ptr.first_or (nodes.drop k) none) := by
  induction k with
  | zero =>
    intro nodes prev _
    simp [ptr.nth_loop]
  | succ k1 ih =>
    intro nodes prev h
    cases nodes with
    | nil => simp [ptr.nth_loop, ptr.first_or]
    | cons n rest =>
      obtain ⟨a, x⟩ := n
      rw [dlseg_cons] at h
      simp only [ptr.first_or, ptr.nth_loop, h.1, List.drop_succ_cons]
      exact ih h.2

theorem list_nth_spec {m : ptr.Heap} {list : Option Nat} {nodes : List (Nat × Nat)}
    (h : ptr.is_list m list nodes) (n : Int) :
    ptr.list_nth m list n = some (ptr.first_or (nodes.drop n.toNat) none) := by
  obtain ⟨hl, hd⟩ := h
  unfold ptr.list_nth
  by_cases hn : n ≤ 0
  · have : n.toNat = 0 := by omega
    simp [hn, this, hl]
  · simp only [hn, if_false, hl]
    exact nth_loop_spec n.toNat hd


/-- The four pointer writes that link the fresh node `nw` between the neighbours `tp` and
`t`, as `list_insert` and `list_insert_sorted` make them. -/
theorem link_mid {m2 : ptr.Heap} {l1 l2 : List (Nat × Nat)} {tp y t xt nw data : Nat}
    (hd : ptr.dlseg m2 none (l1 ++ (tp, y) :: (t, xt) :: l2) none)
    (hnw : m2.get nw = some { data := data, next := none, prev := none })
    (hfresh : nw ∉ (l1 ++ (tp, y) :: (t, xt) :: l2).map (fun n => n.1)) :
    ∃ m3 m4 m5 m6,
      m2.get t = some { data := xt, next := ptr.first_or l2 none, prev := some tp } ∧
      ptr.set_next m2 tp (some nw) = some m3 ∧
      m3.get t = some { data := xt, next := ptr.first_or l2 none, prev := some tp } ∧
      ptr.set_prev m3 nw (some tp) = some m4 ∧
      ptr.set_next m4 nw (some t) = some m5 ∧
      ptr.set_prev m5 t (some nw) = some m6 ∧
      ptr.dlseg m6 none (l1 ++ (tp, y) :: (nw, data) :: (t, xt) :: l2) none ∧
      m6.cells.length = m2.cells.length ∧
      m6.list_alloc_count = m2.list_alloc_count ∧
      m6.list_free_count = m2.list_free_count := by
  have hnd := dlseg_nodup hd
  have hsplit : l1 ++ (tp, y) :: (t, xt) :: l2 = (l1 ++ [(tp, y)]) ++ (t, xt) :: l2 := by simp
  have hd0 := hd
  rw [hsplit, dlseg_append] at hd0
  obtain ⟨hpre, hsuf⟩ := hd0
  have hlast : ptr.last_or (l1 ++ [(tp, y)]) none = some tp := by
    rw [last_or_append]
    rfl
  rw [hlast] at hsuf
  simp only [ptr.first_or] at hpre
  have gt : m2.get t = some { data := xt, next := ptr.first_or l2 none, prev := some tp } :=
    (dlseg_cons.mp hsuf).1
  have gtp : m2.get tp = some { data := y, next := some t, prev := ptr.last_or l1 none } := by
    have := (dlseg_append.mp hpre).2
    rw [dlseg_cons] at this
    exact this.1
  -- address facts
  have hmem : ∀ a, a ∈ (l1 ++ (tp, y) :: (t, xt) :: l2).map (fun n => n.1) → a ≠ nw :=
    fun a ha hanw => hfresh (hanw ▸ ha)
  have htp_nw : tp ≠ nw := hmem tp (by simp)
  have ht_nw : t ≠ nw := hmem t (by simp)
  have hnd2 := hnd
  rw [hsplit, List.map_append, List.nodup_append] at hnd2
  obtain ⟨ndpre, ndsuf, hdisj⟩ := hnd2
  have htp_t : tp ≠ t := by
    intro h
    exact hdisj (a := tp) (by simp) (by simp [h])
  have htp_l1 : tp ∉ l1.map (fun n => n.1) := nodup_snoc_not_mem ndpre
  have ht_l2 : t ∉ l2.map (fun n => n.1) := nodup_cons_not_mem ndsuf
  have hs3 := set_next_eq (some nw) gtp
  have g3t : (m2.set tp (ptr.Link.mk y (some nw) (ptr.last_or l1 none))).get t =
      some { data := xt, next := ptr.first_or l2 none, prev := some tp } := by
    rw [heap_get_set_ne _ htp_t, gt]
  have g3nw : (m2.set tp (ptr.Link.mk y (some nw) (ptr.last_or l1 none))).get nw =
      some { data := data, next := none, prev := none } := by
    rw [heap_get_set_ne _ htp_nw, hnw]
  have hs4 := set_prev_eq (some tp) g3nw
  have hnwlt := heap_get_lt hnw
  have g4nw : ((m2.set tp (ptr.Link.mk y (some nw) (ptr.last_or l1 none))).set nw
      (ptr.Link.mk data none (some tp))).get nw =
      some { data := data, next := none, prev := some tp } :=
    heap_get_set_same _ (by rw [heap_set_length]; exact hnwlt)
  have hs5 := set_next_eq (some t) g4nw
  have g5t : (((m2.set tp (ptr.Link.mk y (some nw) (ptr.last_or l1 none))).set nw
      (ptr.Link.mk data none (some tp))).set nw (ptr.Link.mk data (some t) (some tp))).get t =
      some { data := xt, next := ptr.first_or l2 none, prev := some tp } := by
    rw [heap_get_set_ne _ (Ne.symm ht_nw), heap_get_set_ne _ (Ne.symm ht_nw), g3t]
  have hs6 := set_prev_eq (some nw) g5t
  refine ⟨_, _, _, _, gt, hs3, g3t, hs4, hs5, hs6, ?_, ?_, rfl, rfl⟩
  · have hsplit2 : l1 ++ (tp, y) :: (nw, data) :: (t, xt) :: l2 =
        (l1 ++ [(tp, y)]) ++ (nw, data) :: (t, xt) :: l2 := by simp
    rw [hsplit2, dlseg_append, hlast]
    simp only [ptr.first_or]
    constructor
    · have h3 := dlseg_set_next_last (some nw) htp_l1 hpre
      refine dlseg_set_frame _ ?_ (dlseg_set_frame _ ?_ (dlseg_set_frame _ ?_ h3))
      · intro h
        exact hdisj h (by simp)
      · intro h
        exact hfresh (by rw [hsplit, List.map_append]; exact List.mem_append_left _ h)
      · intro h
        exact hfresh (by rw [hsplit, List.map_append]; exact List.mem_append_left _ h)
    · rw [dlseg_cons]
      constructor
      · rw [heap_get_set_ne _ ht_nw]
        exact heap_get_set_same _ (by rw [heap_set_length, heap_set_length]; exact hnwlt)
      · have hsuf5 : ptr.dlseg (((m2.set tp (ptr.Link.mk y (some nw) (ptr.last_or l1 none))).set
            nw (ptr.Link.mk data none (some tp))).set nw
              (ptr.Link.mk data (some t) (some tp))) (some tp) ((t, xt) :: l2) none := by
          refine dlseg_set_frame _ ?_ (dlseg_set_frame _ ?_ (dlseg_set_frame _ ?_ hsuf))
          · intro h
            exact hfresh (by rw [hsplit, List.map_append]; exact List.mem_append_right _ h)
          · intro h
            exact hfresh (by rw [hsplit, List.map_append]; exact List.mem_append_right _ h)
          · intro h
            exact hdisj (a := tp) (by simp) h
        exact dlseg_set_prev_first (some nw) ht_l2 hsuf5
  · simp only [heap_set_length]


theorem is_list_alloc_data {m m2 : ptr.Heap} {list : Option Nat} {nodes : List (Nat × Nat)}
    (h : ptr.is_list m list nodes) (g2old : ∀ a, a ≠ m.cells.length → m2.get a = m.get a) :
    ptr.is_list m2 list nodes :=
  ⟨h.1, dlseg_frame (fun a ha => g2old a (is_list_addr_ne_new h a ha)) h.2⟩

theorem ptr_list_insert_spec {m : ptr.Heap} {list : Option Nat} {nodes : List (Nat × Nat)}
    (h : ptr.is_list m list nodes) (data : Nat) (position : Int) :
    ∃ head1 m1 nw, ptr.list_insert m list data position = some (head1, m1) ∧
      m.cells.length ≤ nw ∧
      ptr.is_list m1 head1
        (if position < 0 ∨ (nodes.length : Int) ≤ position then nodes ++ [(nw, data)]
         else nodes.take position.toNat ++ (nw, data) :: nodes.drop position.toNat) := by
  by_cases hneg : position < 0
  · obtain ⟨m1, h1, h2, _⟩ := ptr_list_append_spec h data
    refine ⟨ptr.first_or (nodes ++ [(m.cells.length, data)]) none, m1, m.cells.length, ?_,
      le_refl _, ?_⟩
    · simp only [ptr.list_insert, hneg, if_true, h1]
    · simpa [hneg] using h2
  · by_cases hzero : position = 0
    · obtain ⟨m1, h1, h2, _⟩ := ptr_list_prepend_spec h data
      refine ⟨some m.cells.length, m1, m.cells.length, ?_, le_refl _, ?_⟩
      · simp only [ptr.list_insert, hzero, lt_self_iff_false, if_false, if_true, h1]
      · subst hzero
        by_cases hn : nodes = []
        · subst hn
          simpa using h2
        · have : ¬ ((nodes.length : Int) ≤ 0) := by
            have := List.length_pos.mpr hn
            omega
          simpa [this] using h2
    · have hpos : 0 < position := by omega
      obtain ⟨m2, hm2, g2new, g2old, len2, ac2, fc2⟩ := alloc_data_spec m data
      have hfst : (ptr._list_alloc_link m).1 = m.cells.length := rfl
      have hl2 := is_list_alloc_data h g2old
      have hnth := list_nth_spec hl2 position
      by_cases hlen : (nodes.length : Int) ≤ position
      · have hdrop : nodes.drop position.toNat = [] := List.drop_eq_nil_of_le (by omega)
        rw [hdrop] at hnth
        simp only [ptr.first_or] at hnth
        obtain ⟨m1, h1, h2, _⟩ := ptr_list_append_spec hl2 data
        refine ⟨ptr.first_or (nodes ++ [(m2.cells.length, data)]) none, m1, m2.cells.length,
          ?_, by omega, ?_⟩
        · simp only [ptr.list_insert, hneg, hzero, if_false, hfst, hm2, hnth, h1]
        · simpa [hlen] using h2
      · have hk : position.toNat < nodes.length := by omega
        have hk0 : 0 < position.toNat := by omega
        obtain ⟨l1, l2r, hsplit, hl1len⟩ : ∃ l1 l2r, nodes = l1 ++ l2r ∧
            l1.length = position.toNat :=
          ⟨nodes.take position.toNat, nodes.drop position.toNat,
            (List.take_append_drop _ _).symm, by simp; omega⟩
        have htake : nodes.take position.toNat = l1 := by
          rw [hsplit, ← hl1len]
          simp
        have hdrop : nodes.drop position.toNat = l2r := by
          rw [hsplit, ← hl1len]
          simp
        rcases eq_nil_or_snoc l1 with hl1 | ⟨l1a, n1, hl1⟩
        · subst hl1
          simp at hl1len
          omega
        · obtain ⟨tp, y⟩ := n1
          cases l2r with
          | nil =>
            rw [hsplit] at hk
            simp at hk
            omega
          | cons n2 l2 =>
            obtain ⟨t, xt⟩ := n2
            subst hl1
            have hnodes : nodes = l1a ++ (tp, y) :: (t, xt) :: l2 := by simp [hsplit]
            rw [hdrop] at hnth
            simp only [ptr.first_or] at hnth
            have hd2 := hl2.2
            rw [hnodes] at hd2
            have hfresh : m.cells.length ∉
                (l1a ++ (tp, y) :: (t, xt) :: l2).map (fun n => n.1) := by
              intro hmem
              rw [← hnodes] at hmem
              exact is_list_addr_ne_new h _ hmem rfl
            obtain ⟨m3, m4, m5, m6, gt, hs3, g3t, hs4, hs5, hs6, hd6, _, _, _⟩ :=
              link_mid hd2 g2new hfresh
            refine ⟨list, m6, m.cells.length, ?_, le_refl _, ?_⟩
            · simp only [ptr.list_insert, hneg, hzero, if_false, hfst, hm2, hnth, gt, hs3, g3t,
                hs4, hs5, hs6]
            · have hcond : ¬ (position < 0 ∨ (nodes.length : Int) ≤ position) := by omega
              rw [if_neg hcond, htake, hdrop]
              refine ⟨?_, by simpa using hd6⟩
              rw [hl2.1, hnodes, first_or_append, first_or_append, first_or_append]
              cases l1a with
              | nil => rfl
              | cons n0 r0 =>
                obtain ⟨a0, x0⟩ := n0
                rfl


theorem scan_loop_spec {m : ptr.Heap} {f : Nat → Nat → Int} {d : Nat}
    {rest : List (Nat × Nat)} :
    ∀ {a x : Nat} {prev : Option Nat} {fuel : Nat},
      ptr.dlseg m prev ((a, x) :: rest) none → rest.length < fuel →
      ∃ l1 t xt l2, (a, x) :: rest = l1 ++ (t, xt) :: l2 ∧
        ptr.scan_loop m f d fuel a = some t ∧ (∀ n ∈ l1, f d n.2 > 0) ∧
        (l2 ≠ [] → ¬ f d xt > 0) := by
  induction rest with
  | nil =>
    intro a x prev fuel h hf
    rw [dlseg_cons] at h
    cases fuel with
    | zero => omega
    | succ k =>
      refine ⟨[], a, x, [], rfl, ?_, by simp, by simp⟩
      simp [ptr.scan_loop, h.1, ptr.first_or]
  | cons n rest2 ih =>
    intro a x prev fuel h hf
    obtain ⟨c, y⟩ := n
    rw [dlseg_cons] at h
    cases fuel with
    | zero => omega
    | succ k =>
      simp only [List.length_cons, Nat.add_lt_add_iff_right] at hf
      by_cases hpos : f d x > 0
      · obtain ⟨l1, t, xt, l2, e1, e2, e3, e4⟩ := ih h.2 hf
        refine ⟨(a, x) :: l1, t, xt, l2, by simp [e1], ?_, ?_, e4⟩
        · simp only [ptr.scan_loop, h.1, ptr.first_or, hpos, if_true, e2]
        · intro n hn
          rcases List.mem_cons.mp hn with hn | hn
          · subst hn
            exact hpos
          · exact e3 n hn
      · refine ⟨[], a, x, (c, y) :: rest2, rfl, ?_, by simp, fun _ => hpos⟩
        simp only [ptr.scan_loop, h.1, ptr.first_or, hpos, if_false]

theorem takeWhile_all {α : Type} {p : α → Bool} {l : List α} (h : ∀ n ∈ l, p n = true) :
    l.takeWhile p = l ∧ l.dropWhile p = [] := by
  induction l with
  | nil => simp
  | cons n rest ih =>
    have h1 := h n (by simp)
    have h2 := ih (fun k hk => h k (by simp [hk]))
    simp [List.takeWhile_cons, List.dropWhile_cons, h1, h2]

theorem takeWhile_stop {α : Type} {p : α → Bool} {l1 l2 : List α} {s : α}
    (h : ∀ n ∈ l1, p n = true) (hs : p s = false) :
    (l1 ++ s :: l2).takeWhile p = l1 ∧ (l1 ++ s :: l2).dropWhile p = s :: l2 := by
  induction l1 with
  | nil => simp [List.takeWhile_cons, List.dropWhile_cons, hs]
  | cons n rest ih =>
    have h1 := h n (by simp)
    have h2 := ih (fun k hk => h k (by simp [hk]))
    simp [List.takeWhile_cons, List.dropWhile_cons, h1, h2]

/-- The two pointer writes that link the fresh node `nw` behind the last node `t`. -/
theorem link_last {m2 : ptr.Heap} {l1 : List (Nat × Nat)} {t xt nw data : Nat}
    (hd : ptr.dlseg m2 none (l1 ++ [(t, xt)]) none)
    (hnw : m2.get nw = some { data := data, next := none, prev := none })
    (hfresh : nw ∉ (l1 ++ [(t, xt)]).map (fun n => n.1)) :
    ∃ m3 m4,
      m2.get t = some { data := xt, next := none, prev := ptr.last_or l1 none } ∧
      ptr.set_next m2 t (some nw) = some m3 ∧
      ptr.set_prev m3 nw (some t) = some m4 ∧
      ptr.dlseg m4 none (l1 ++ [(t, xt), (nw, data)]) none ∧
      m4.cells.length = m2.cells.length ∧
      m4.list_alloc_count = m2.list_alloc_count ∧
      m4.list_free_count = m2.list_free_count := by
  have hnd := dlseg_nodup hd
  have gt := dlseg_get hd
  simp only [ptr.first_or] at gt
  have ht_nw : t ≠ nw := fun h => hfresh (by simp [h])
  have hs3 := set_next_eq (some nw) gt
  have g3nw : (m2.set t (ptr.Link.mk xt (some nw) (ptr.last_or l1 none))).get nw =
      some { data := data, next := none, prev := none } := by
    rw [heap_get_set_ne _ ht_nw, hnw]
  have hs4 := set_prev_eq (some t) g3nw
  refine ⟨_, _, gt, hs3, hs4, ?_, ?_, rfl, rfl⟩
  · have hsplit : l1 ++ [(t, xt), (nw, data)] = (l1 ++ [(t, xt)]) ++ [(nw, data)] := by simp
    have hlast : ptr.last_or (l1 ++ [(t, xt)]) none = some t := by
      rw [last_or_append]
      rfl
    rw [hsplit, dlseg_append, hlast]
    simp only [ptr.first_or]
    constructor
    · refine dlseg_set_frame _ hfresh ?_
      exact dlseg_set_next_last (some nw) (nodup_snoc_not_mem hnd) hd
    · rw [dlseg_cons]
      refine ⟨?_, trivial⟩
      exact heap_get_set_same _ (by rw [heap_set_length]; exact heap_get_lt hnw)
  · simp only [heap_set_length]

/-- The two pointer writes that link the fresh node `nw` before the first node `t`. -/
theorem link_head {m2 : ptr.Heap} {l2 : List (Nat × Nat)} {t xt nw data : Nat}
    (hd : ptr.dlseg m2 none ((t, xt) :: l2) none)
    (hnw : m2.get nw = some { data := data, next := none, prev := none })
    (hfresh : nw ∉ ((t, xt) :: l2).map (fun n => n.1)) :
    ∃ m5 m6,
      m2.get t = some { data := xt, next := ptr.first_or l2 none, prev := none } ∧
      ptr.set_next m2 nw (some t) = some m5 ∧
      ptr.set_prev m5 t (some nw) = some m6 ∧
      ptr.dlseg m6 none ((nw, data) :: (t, xt) :: l2) none ∧
      m6.cells.length = m2.cells.length ∧
      m6.list_alloc_count = m2.list_alloc_count ∧
      m6.list_free_count = m2.list_free_count := by
  have hnd := dlseg_nodup hd
  have gt := (dlseg_cons.mp hd).1
  have ht_nw : t ≠ nw := fun h => hfresh (by simp [h])
  have hs5 := set_next_eq (some t) hnw
  have g5t : (m2.set nw (ptr.Link.mk data (some t) none)).get t =
      some { data := xt, next := ptr.first_or l2 none, prev := none } := by
    rw [heap_get_set_ne _ (Ne.symm ht_nw), gt]
  have hs6 := set_prev_eq (some nw) g5t
  refine ⟨_, _, gt, hs5, hs6, ?_, ?_, rfl, rfl⟩
  · rw [dlseg_cons]
    constructor
    · rw [heap_get_set_ne _ ht_nw]
      exact heap_get_set_same _ (heap_get_lt hnw)
    · exact dlseg_set_prev_first (some nw) (nodup_cons_not_mem hnd)
        (dlseg_set_frame _ hfresh hd)
  · simp only [heap_set_length]


theorem first_or_some_of_ne_nil {nodes : List (Nat × Nat)} {q : Option Nat}
    (h : nodes ≠ []) : ∃ a x rest, nodes = (a, x) :: rest ∧ ptr.first_or nodes q = some a := by
  cases nodes with
  | nil => exact absurd rfl h
  | cons n rest =>
    obtain ⟨a, x⟩ := n
    exact ⟨a, x, rest, rfl, rfl⟩

theorem first_or_append_ne_nil {l r : List (Nat × Nat)} {q : Option Nat} (h : l ≠ []) :
    ptr.first_or (l ++ r) q = ptr.first_or l none := by
  cases l with
  | nil => exact absurd rfl h
  | cons n rest =>
    obtain ⟨a, x⟩ := n
    rfl

theorem ptr_list_insert_sorted_spec {m : ptr.Heap} {list : Option Nat}
    {nodes : List (Nat × Nat)} (h : ptr.is_list m list nodes) (data : Nat)
    (func : Nat → Nat → Int) :
    ∃ head1 m1, ptr.list_insert_sorted m list data func = some (head1, m1) ∧
      ptr.is_list m1 head1
        (nodes.takeWhile (fun n => decide (func data n.2 > 0)) ++
          (m.cells.length, data) :: nodes.dropWhile (fun n => decide (func data n.2 > 0))) ∧
      head1 = (if nodes.takeWhile (fun n => decide (func data n.2 > 0)) = []
        then some m.cells.length else list) ∧
      m1.cells.length = m.cells.length + 1 := by
  obtain ⟨m2, hm2, g2new, g2old, len2, ac2, fc2⟩ := alloc_data_spec m data
  have hfst : (ptr._list_alloc_link m).1 = m.cells.length := rfl
  have hl2 := is_list_alloc_data h g2old
  have hfreshall : m.cells.length ∉ nodes.map (fun n => n.1) :=
    fun hmem => is_list_addr_ne_new h _ hmem rfl
  cases nodes with
  | nil =>
    have hl := h.1
    simp only [ptr.first_or] at hl
    subst hl
    refine ⟨some m.cells.length, m2, ?_, ⟨rfl, ?_⟩, by simp, len2⟩
    · simp only [ptr.list_insert_sorted, hfst, hm2]
    · simp only [List.takeWhile_nil, List.dropWhile_nil, List.nil_append, dlseg_cons,
        ptr.first_or, g2new, true_and]
      trivial
  | cons n0 rest =>
    obtain ⟨a, x⟩ := n0
    have hl := h.1
    simp only [ptr.first_or] at hl
    subst hl
    have hd2 := hl2.2
    have hfuel : rest.length < m2.cells.length := by
      have := dlseg_length_le hd2
      simp only [List.length_cons] at this
      omega
    obtain ⟨l1, t, xt, l2, hsplit, hscan, hpre, hstop⟩ :=
      scan_loop_spec (f := func) (d := data) hd2 hfuel
    rw [hsplit] at hd2 hfreshall ⊢
    have hnd := dlseg_nodup hd2
    by_cases hlast : l2 = [] ∧ func data xt > 0
    · -- the item goes behind the last element
      obtain ⟨hl2nil, hxt⟩ := hlast
      subst hl2nil
      obtain ⟨m3, m4, gt, hs3, hs4, hd4, hlen4, _, _⟩ := link_last hd2 g2new hfreshall
      have hall : ∀ n ∈ l1 ++ [(t, xt)],
          (fun n : Nat × Nat => decide (func data n.2 > 0)) n = true := by
        intro n hn
        rcases List.mem_append.mp hn with hn | hn
        · simpa using hpre n hn
        · simp only [List.mem_singleton] at hn
          subst hn
          simpa using hxt
      obtain ⟨htw, hdw⟩ := takeWhile_all hall
      rw [htw, hdw]
      refine ⟨some a, m4, ?_, ⟨?_, by simpa using hd4⟩, ?_, by omega⟩
      · simp only [ptr.list_insert_sorted, hfst, hm2, hscan, gt, hxt, and_self, if_true, hs3,
          hs4]
      · rw [first_or_append_ne_nil (by simp), ← hsplit]
        rfl
      · have : l1 ++ [(t, xt)] ≠ [] := by simp
        rw [if_neg this]
    · -- the item goes before the element at which the scan stopped
      have hxt : ¬ func data xt > 0 := by
        by_cases hl2nil : l2 = []
        · exact fun hx => hlast ⟨hl2nil, hx⟩
        · exact hstop hl2nil
      have hcond : ¬ (ptr.first_or l2 none = none ∧ func data xt > 0) := fun hc => hxt hc.2
      obtain ⟨htw, hdw⟩ := @takeWhile_stop (Nat × Nat)
        (fun n : Nat × Nat => decide (func data n.2 > 0)) l1 l2 (t, xt)
        (fun n hn => by simpa using hpre n hn) (by simpa using hxt)
      rw [htw, hdw]
      rcases eq_nil_or_snoc l1 with hl1 | ⟨l1a, n1, hl1⟩
      · subst hl1
        simp only [List.nil_append, List.cons.injEq, Prod.mk.injEq] at hsplit
        obtain ⟨⟨hat, _⟩, _⟩ := hsplit
        subst hat
        simp only [List.nil_append] at hd2 hfreshall
        obtain ⟨m5, m6, gt, hs5, hs6, hd6, hlen6, _, _⟩ := link_head hd2 g2new hfreshall
        refine ⟨some m.cells.length, m6, ?_, ⟨rfl, by simpa using hd6⟩, by simp, by omega⟩
        simp only [ptr.list_insert_sorted, hfst, hm2, hscan, gt, hcond, if_false, hs5, hs6,
          if_true]
      · obtain ⟨tp, y⟩ := n1
        subst hl1
        have hd2b : ptr.dlseg m2 none (l1a ++ (tp, y) :: (t, xt) :: l2) none := by
          simpa using hd2
        have hfreshb : m.cells.length ∉
            (l1a ++ (tp, y) :: (t, xt) :: l2).map (fun n => n.1) := by
          simpa using hfreshall
        obtain ⟨m3, m4, m5, m6, gt, hs3, g3t, hs4, hs5, hs6, hd6, hlen6, _, _⟩ :=
          link_mid hd2b g2new hfreshb
        have hta : t ≠ a := by
          intro hta
          have hfo : ptr.first_or (l1a ++ [(tp, y)] ++ (t, xt) :: l2) none = some a := by
            rw [← hsplit]
            rfl
          have hmem : a ∈ (l1a ++ [(tp, y)]).map (fun n => n.1) := by
            rw [first_or_append] at hfo
            cases l1a with
            | nil =>
              simp only [List.nil_append, ptr.first_or, Option.some.injEq] at hfo
              simp [hfo]
            | cons n0 r0 =>
              obtain ⟨a0, x0⟩ := n0
              simp only [List.cons_append, ptr.first_or, Option.some.injEq] at hfo
              simp [hfo]
          rw [List.map_append, List.nodup_append] at hnd
          exact hnd.2.2 hmem (by simp [hta])
        refine ⟨some a, m6, ?_, ⟨?_, by simpa using hd6⟩, ?_, by omega⟩
        · simp only [ptr.list_insert_sorted, hfst, hm2, hscan, gt, hcond, if_false, hs3, hs4,
            hs5, hs6, hta]
        · have hfo : ptr.first_or (l1a ++ [(tp, y)] ++ (t, xt) :: l2) none = some a := by
            rw [← hsplit]
            rfl
          rw [first_or_append_ne_nil (by simp)] at hfo ⊢
          exact hfo.symm
        · have : l1a ++ [(tp, y)] ≠ [] := by simp
          rw [if_neg this]


theorem is_list_head_ne_new {m : ptr.Heap} {list : Option Nat} {nodes : List (Nat × Nat)}
    (h : ptr.is_list m list nodes) : list ≠ some m.cells.length := by
  intro hl
  cases nodes with
  | nil =>
    have := h.1
    rw [hl] at this
    simp [ptr.first_or] at this
  | cons n rest =>
    obtain ⟨a, x⟩ := n
    have h1 := h.1
    rw [hl] at h1
    simp only [ptr.first_or, Option.some.injEq] at h1
    exact is_list_addr_ne_new h a (by simp) h1.symm

/-! ## Sorted insertion into a list of links -/

/-- C13: on a well-formed list, `list_insert_sorted(list, item, compare)` returns a
well-formed list holding `pre ++ [item] ++ suf`, where `pre ++ suf` are the old nodes in
their old order, `compare(item, e) > 0` for every element of `pre` and
`compare(item, e) <= 0` for the first element of `suf` (if there is one); the new node is a
fresh link, and the returned head is the new node when `pre` is empty and the old head
otherwise. -/
theorem list_insert_sorted_after_greater_run {m : ptr.Heap} {list : Option Nat}
    {nodes : List (Nat × Nat)} (h : ptr.is_list m list nodes) (item : Nat)
    (compare : Nat → Nat → Int) :
    ∃ head1 m1 pre suf,
      ptr.list_insert_sorted m list item compare = some (head1, m1) ∧
      nodes = pre ++ suf ∧
      (∀ e ∈ pre, compare item e.2 > 0) ∧
      (∀ s rest, suf = s :: rest → compare item s.2 ≤ 0) ∧
      ptr.is_list m1 head1 (pre ++ (m.cells.length, item) :: suf) ∧
      head1 = (if pre = [] then some m.cells.length else list) ∧
      list ≠ some m.cells.length ∧
      (pre ++ (m.cells.length, item) :: suf).map (fun n => n.2) =
        list_insert_sorted (nodes.map (fun n => n.2)) item compare := by
  obtain ⟨head1, m1, h1, h2, h3, _⟩ := ptr_list_insert_sorted_spec h item compare
  refine ⟨head1, m1, nodes.takeWhile (fun n => decide (compare item n.2 > 0)),
    nodes.dropWhile (fun n => decide (compare item n.2 > 0)), h1,
    (List.takeWhile_append_dropWhile _ _).symm, ?_, ?_, h2, h3, is_list_head_ne_new h, ?_⟩
  · intro e he
    simpa using List.mem_takeWhile_imp he
  · intro s rest hs
    have := List.head_dropWhile_not (fun n : Nat × Nat => decide (compare item n.2 > 0)) nodes
    simp only [hs, List.head_cons] at this
    have := this (by simp)
    simpa using this
  · rw [list_insert_sorted_eq, List.takeWhile_map, List.dropWhile_map]
    simp only [List.map_append, List.map_cons]
    rfl

theorem list_insert_sorted_after_greater_run_witness :
    ptr.is_list ⟨[some ⟨5, some 1, none⟩, some ⟨9, none, some 0⟩], 2, 0⟩ (some 0)
        [(0, 5), (1, 9)] ∧
      ∃ head1 m1 pre suf,
        ptr.list_insert_sorted ⟨[some ⟨5, some 1, none⟩, some ⟨9, none, some 0⟩], 2, 0⟩
          (some 0) 7 (fun (a b : Nat) => (a : Int) - (b : Int)) = some (head1, m1) ∧
        [(0, 5), (1, 9)] = pre ++ suf ∧
        (∀ e ∈ pre, (fun (a b : Nat) => (a : Int) - (b : Int)) 7 e.2 > 0) ∧
        (∀ s rest, suf = s :: rest → (fun (a b : Nat) => (a : Int) - (b : Int)) 7 s.2 ≤ 0) ∧
        ptr.is_list m1 head1 (pre ++
          ((⟨[some ⟨5, some 1, none⟩, some ⟨9, none, some 0⟩], 2, 0⟩ : ptr.Heap).cells.length,
            7) :: suf) ∧
        head1 = (if pre = [] then
          some (⟨[some ⟨5, some 1, none⟩, some ⟨9, none, some 0⟩], 2, 0⟩ : ptr.Heap).cells.length
          else some 0) ∧
        some 0 ≠
          some (⟨[some ⟨5, some 1, none⟩, some ⟨9, none, some 0⟩], 2, 0⟩ : ptr.Heap).cells.length ∧
        (pre ++
          ((⟨[some ⟨5, some 1, none⟩, some ⟨9, none, some 0⟩], 2, 0⟩ : ptr.Heap).cells.length,
            7) :: suf).map (fun n => n.2) =
          list_insert_sorted ([(0, 5), (1, 9)].map (fun n => n.2)) 7
            (fun (a b : Nat) => (a : Int) - (b : Int)) :=
  ⟨And.intro rfl (And.intro rfl (And.intro rfl True.intro)),
    @list_insert_sorted_after_greater_run
      ⟨[some ⟨5, some 1, none⟩, some ⟨9, none, some 0⟩], 2, 0⟩ (some 0) [(0, 5), (1, 9)]
      (And.intro rfl (And.intro rfl (And.intro rfl True.intro))) 7 (fun (a b : Nat) => (a : Int) - (b : Int))⟩


/-! ## Insertion by position into a list of links -/

/-- C14: on a well-formed list of `n` nodes, `list_insert(list, item, p)` returns a
well-formed list of `n + 1` nodes whose head is its first node, made of the old nodes in
their old order and one fresh node holding `item`: last when `p < 0` or `p >= n` (the
sequence `list_append` gives), first when `p = 0` (the sequence `list_prepend` gives), and
at index `p` when `0 < p < n`. -/
theorem list_insert_by_position {m : ptr.Heap} {list : Option Nat} {nodes : List (Nat × Nat)}
    (h : ptr.is_list m list nodes) (item : Nat) (p : Int) :
    ∃ head1 m1 nw out,
      ptr.list_insert m list item p = some (head1, m1) ∧
      ptr.is_list m1 head1 out ∧
      head1 = ptr.first_or out none ∧
      out.length = nodes.length + 1 ∧
      nw ∉ nodes.map (fun n => n.1) ∧
      (p < 0 ∨ (nodes.length : Int) ≤ p →
        out = nodes ++ [(nw, item)] ∧
        ∃ ha ma outa, ptr.list_append m list item = some (ha, ma) ∧ ptr.is_list ma ha outa ∧
          outa.map (fun n => n.2) = out.map (fun n => n.2)) ∧
      (p = 0 →
        out = (nw, item) :: nodes ∧
        ∃ hp mp outp, ptr.list_prepend m list item = some (hp, mp) ∧ ptr.is_list mp hp outp ∧
          outp.map (fun n => n.2) = out.map (fun n => n.2)) ∧
      (0 < p → p < (nodes.length : Int) →
        out = nodes.take p.toNat ++ (nw, item) :: nodes.drop p.toNat ∧
        load (out.map (fun n => n.2)) p.toNat = some item) := by
  obtain ⟨head1, m1, nw, h1, hnw, h2⟩ := ptr_list_insert_spec h item p
  have hfresh : nw ∉ nodes.map (fun n => n.1) := by
    intro hmem
    have := dlseg_addr_lt h.2 nw hmem
    omega
  refine ⟨head1, m1, nw, _, h1, h2, h2.1, ?_, hfresh, ?_, ?_, ?_⟩
  · split
    · simp
    · rename_i hc
      have : p.toNat ≤ nodes.length := by omega
      simp only [List.length_append, List.length_take, List.length_cons, List.length_drop]
      omega
  · intro hc
    rw [if_pos hc]
    refine ⟨rfl, ?_⟩
    obtain ⟨ma, ha1, ha2, _⟩ := ptr_list_append_spec h item
    exact ⟨_, ma, _, ha1, ha2, by simp⟩
  · intro hp
    subst hp
    obtain ⟨mp, hp1, hp2, _⟩ := ptr_list_prepend_spec h item
    by_cases hn : nodes = []
    · subst hn
      refine ⟨by simp, _, mp, _, hp1, hp2, by simp⟩
    · have hc : ¬ ((0 : Int) < 0 ∨ (nodes.length : Int) ≤ 0) := by
        have := List.length_pos.mpr hn
        omega
      rw [if_neg hc]
      refine ⟨by simp, _, mp, _, hp1, hp2, by simp⟩
  · intro hp0 hpn
    have hc : ¬ (p < 0 ∨ (nodes.length : Int) ≤ p) := by omega
    rw [if_neg hc]
    refine ⟨rfl, ?_⟩
    rw [load_eq_getElem?]
    have hlen : (nodes.take p.toNat).length = p.toNat := by
      rw [List.length_take]
      omega
    simp only [List.map_append, List.map_cons]
    rw [List.getElem?_append_right (by simp [hlen])]
    have hmin : p.toNat - min p.toNat nodes.length = 0 := by omega
    simp [hmin]

theorem list_insert_by_position_witness :
    ptr.is_list ⟨[some ⟨5, some 1, none⟩, some ⟨9, none, some 0⟩], 2, 0⟩ (some 0)
        [(0, 5), (1, 9)] ∧
      ∃ head1 m1 nw out,
        ptr.list_insert ⟨[some ⟨5, some 1, none⟩, some ⟨9, none, some 0⟩], 2, 0⟩ (some 0) 7 1 =
          some (head1, m1) ∧
        ptr.is_list m1 head1 out ∧
        head1 = ptr.first_or out none ∧
        out.length = [(0, 5), (1, 9)].length + 1 ∧
        nw ∉ [(0, 5), (1, 9)].map (fun n => n.1) ∧
        ((1 : Int) < 0 ∨ (([(0, 5), (1, 9)] : List (Nat × Nat)).length : Int) ≤ 1 →
          out = [(0, 5), (1, 9)] ++ [(nw, 7)] ∧
          ∃ ha ma outa,
            ptr.list_append ⟨[some ⟨5, some 1, none⟩, some ⟨9, none, some 0⟩], 2, 0⟩ (some 0) 7 =
              some (ha, ma) ∧ ptr.is_list ma ha outa ∧
            outa.map (fun n => n.2) = out.map (fun n => n.2)) ∧
        ((1 : Int) = 0 →
          out = (nw, 7) :: [(0, 5), (1, 9)] ∧
          ∃ hp mp outp,
            ptr.list_prepend ⟨[some ⟨5, some 1, none⟩, some ⟨9, none, some 0⟩], 2, 0⟩ (some 0) 7 =
              some (hp, mp) ∧ ptr.is_list mp hp outp ∧
            outp.map (fun n => n.2) = out.map (fun n => n.2)) ∧
        ((0 : Int) < 1 → (1 : Int) < (([(0, 5), (1, 9)] : List (Nat × Nat)).length : Int) →
          out = [(0, 5), (1, 9)].take (1 : Int).toNat ++
            (nw, 7) :: [(0, 5), (1, 9)].drop (1 : Int).toNat ∧
          load (out.map (fun n => n.2)) (1 : Int).toNat = some 7) :=
  ⟨And.intro rfl (And.intro rfl (And.intro rfl True.intro)),
    @list_insert_by_position
      ⟨[some ⟨5, some 1, none⟩, some ⟨9, none, some 0⟩], 2, 0⟩ (some 0) [(0, 5), (1, 9)]
      (And.intro rfl (And.intro rfl (And.intro rfl True.intro))) 7 1⟩


/-! ## Removing a link -/

/-- The write of `list_delete_link` to the link before the deleted one. -/
theorem unlink_prev {m : ptr.Heap} {l1 : List (Nat × Nat)} {q0 : Option Nat} (q1 : Option Nat)
    (hd : ptr.dlseg m none l1 q0) (hnd : (l1.map (fun n => n.1)).Nodup) :
    ∃ m1, ((ptr.last_or l1 none = none ∧ m1 = m) ∨
        ∃ p, ptr.last_or l1 none = some p ∧ ptr.set_next m p q1 = some m1) ∧
      ptr.dlseg m1 none l1 q1 ∧
      (∀ a, a ∉ l1.map (fun n => n.1) → m1.get a = m.get a) ∧
      m1.cells.length = m.cells.length ∧
      m1.list_alloc_count = m.list_alloc_count ∧
      m1.list_free_count = m.list_free_count := by
  rcases eq_nil_or_snoc l1 with hl1 | ⟨init, n, hl1⟩
  · subst hl1
    exact ⟨m, Or.inl ⟨rfl, rfl⟩, trivial, fun _ _ => rfl, rfl, rfl, rfl⟩
  · obtain ⟨c, y⟩ := n
    subst hl1
    have hlast : ptr.last_or (init ++ [(c, y)]) none = some c := by
      rw [last_or_append]
      rfl
    have gc := dlseg_get hd
    simp only [ptr.first_or] at gc
    refine ⟨m.set c (ptr.Link.mk y q1 (ptr.last_or init none)),
      Or.inr ⟨c, hlast, set_next_eq q1 gc⟩,
      dlseg_set_next_last q1 (nodup_snoc_not_mem hnd) hd, ?_, heap_set_length _ _ _, rfl, rfl⟩
    intro a ha
    exact heap_get_set_ne _ (fun hca => ha (by simp [← hca]))

/-- The write of `list_delete_link` to the link after the deleted one. -/
theorem unlink_next {m : ptr.Heap} {l2 : List (Nat × Nat)} {p0 : Option Nat} (p1 : Option Nat)
    (hd : ptr.dlseg m p0 l2 none) :
    ∃ m2, ((ptr.first_or l2 none = none ∧ m2 = m) ∨
        ∃ nx, ptr.first_or l2 none = some nx ∧ ptr.set_prev m nx p1 = some m2) ∧
      ptr.dlseg m2 p1 l2 none ∧
      (∀ a, a ∉ l2.map (fun n => n.1) → m2.get a = m.get a) ∧
      m2.cells.length = m.cells.length ∧
      m2.list_alloc_count = m.list_alloc_count ∧
      m2.list_free_count = m.list_free_count := by
  cases l2 with
  | nil => exact ⟨m, Or.inl ⟨rfl, rfl⟩, trivial, fun _ _ => rfl, rfl, rfl, rfl⟩
  | cons n rest =>
    obtain ⟨c, y⟩ := n
    have hnd := dlseg_nodup hd
    have gc := (dlseg_cons.mp hd).1
    refine ⟨m.set c (ptr.Link.mk y (ptr.first_or rest none) p1),
      Or.inr ⟨c, rfl, set_prev_eq p1 gc⟩,
      dlseg_set_prev_first p1 (nodup_cons_not_mem hnd) hd, ?_, heap_set_length _ _ _, rfl, rfl⟩
    intro a ha
    exact heap_get_set_ne _ (fun hca => ha (by simp [← hca]))

theorem ptr_list_delete_link_spec {m : ptr.Heap} {list : Option Nat}
    {l1 l2 : List (Nat × Nat)} {t xt : Nat}
    (h : ptr.is_list m list (l1 ++ (t, xt) :: l2)) :
    ∃ m3, ptr.list_delete_link m list t = some (ptr.first_or (l1 ++ l2) none, m3) ∧
      ptr.is_list m3 (ptr.first_or (l1 ++ l2) none) (l1 ++ l2) ∧
      ptr.first_or (l1 ++ l2) none = (if l1 = [] then ptr.first_or l2 none else list) ∧
      m3.get t = none ∧
      m3.cells.length = m.cells.length ∧
      m3.list_alloc_count = m.list_alloc_count ∧
      m3.list_free_count = wrap32 (m.list_free_count + 1) := by
  obtain ⟨hl, hd⟩ := h
  have hnd := dlseg_nodup hd
  have gt := dlseg_get hd
  obtain ⟨hpre, hsuf⟩ := dlseg_append.mp hd
  have hsuf2 := (dlseg_cons.mp hsuf).2
  simp only [ptr.first_or] at hpre
  rw [List.map_append, List.nodup_append] at hnd
  obtain ⟨nd1, nd2, hdisj⟩ := hnd
  have ht1 : t ∉ l1.map (fun n => n.1) := fun hmem => hdisj hmem (by simp)
  have ht2 : t ∉ l2.map (fun n => n.1) := nodup_cons_not_mem nd2
  have hdis12 : ∀ a, a ∈ l2.map (fun n => n.1) → a ∉ l1.map (fun n => n.1) :=
    fun a ha2 ha1 => hdisj ha1 (by simp only [List.map_cons, List.mem_cons]; exact Or.inr ha2)
  obtain ⟨m1, hstep1, hd1, fr1, len1, ac1, fc1⟩ := unlink_prev (ptr.first_or l2 none) hpre nd1
  have g1t : m1.get t = some (ptr.Link.mk xt (ptr.first_or l2 none) (ptr.last_or l1 none)) := by
    rw [fr1 t ht1, gt]
  have hsuf1 : ptr.dlseg m1 (some t) l2 none :=
    dlseg_frame (fun a ha => fr1 a (hdis12 a ha)) hsuf2
  obtain ⟨m2, hstep2, hd2, fr2, len2, ac2, fc2⟩ := unlink_next (ptr.last_or l1 none) hsuf1
  have g2t : m2.get t = some (ptr.Link.mk xt (ptr.first_or l2 none) (ptr.last_or l1 none)) := by
    rw [fr2 t ht2, g1t]
  have hpre2 : ptr.dlseg m2 none l1 (ptr.first_or l2 none) :=
    dlseg_frame (fun a ha => fr2 a (fun ha2 => hdis12 a ha2 ha)) hd1
  have hhead : (if list = some t then ptr.first_or l2 none else list) =
      ptr.first_or (l1 ++ l2) none := by
    rw [hl]
    cases l1 with
    | nil => simp [ptr.first_or]
    | cons n0 r0 =>
      obtain ⟨a0, x0⟩ := n0
      have : a0 ≠ t := fun hat => ht1 (by simp [hat])
      simp [ptr.first_or, this]
  have hcall : ptr.list_delete_link m list t =
      some (ptr.first_or (l1 ++ l2) none, ptr._list_free_link m2 t) := by
    rw [← hhead]
    rcases hstep1 with ⟨e1, rfl⟩ | ⟨p, e1, s1⟩ <;> rcases hstep2 with ⟨e2, rfl⟩ | ⟨nx, e2, s2⟩
    · rw [e1, e2] at gt
      simp only [ptr.list_delete_link, gt, e2]
    · rw [e1, e2] at gt g2t
      rw [e1] at s2
      simp only [ptr.list_delete_link, gt, e2, s2, g2t]
    · rw [e1, e2] at gt g1t
      rw [e2] at s1
      simp only [ptr.list_delete_link, gt, e2, s1, g1t]
    · rw [e1, e2] at gt g1t g2t
      rw [e1] at s2
      rw [e2] at s1
      simp only [ptr.list_delete_link, gt, e2, s1, g1t, s2, g2t]
  refine ⟨ptr._list_free_link m2 t, hcall, ⟨rfl, ?_⟩, ?_, heap_get_free_same _ _, ?_, ?_, ?_⟩
  · rw [dlseg_append]
    constructor
    · exact dlseg_frame (fun a ha => heap_get_free_ne (fun hta => ht1 (hta ▸ ha))) hpre2
    · exact dlseg_frame (fun a ha => heap_get_free_ne (fun hta => ht2 (hta ▸ ha))) hd2
  · cases l1 with
    | nil => simp
    | cons n0 r0 =>
      obtain ⟨a0, x0⟩ := n0
      simp [hl, ptr.first_or]
  · simp only [ptr._list_free_link, store_eq_set, List.length_set]
    omega
  · show m2.list_alloc_count = m.list_alloc_count
    rw [ac2, ac1]
  · show wrap32 (m2.list_free_count + 1) = wrap32 (m.list_free_count + 1)
    rw [fc2, fc1]

theorem find_loop_absent {m : ptr.Heap} {data : Nat} {nodes : List (Nat × Nat)} :
    ∀ {prev : Option Nat} {fuel : Nat}, ptr.dlseg m prev nodes none → nodes.length < fuel →
      (∀ n ∈ nodes, n.2 ≠ data) →
      ptr.find_loop m data fuel (ptr.first_or nodes none) = some none := by
  induction nodes with
  | nil =>
    intro prev fuel _ hf _
    cases fuel with
    | zero => omega
    | succ k => rfl
  | cons n rest ih =>
    intro prev fuel hd hf hne
    obtain ⟨a, x⟩ := n
    cases fuel with
    | zero => omega
    | succ k =>
      rw [dlseg_cons] at hd
      have hx : x ≠ data := hne (a, x) (by simp)
      simp only [List.length_cons, Nat.add_lt_add_iff_right] at hf
      simp only [ptr.first_or, ptr.find_loop, hd.1, hx, if_false]
      exact ih hd.2 hf (fun n hn => hne n (by simp [hn]))

theorem find_loop_present {m : ptr.Heap} {data t : Nat} {l1 l2 : List (Nat × Nat)} :
    ∀ {prev : Option Nat} {fuel : Nat}, ptr.dlseg m prev (l1 ++ (t, data) :: l2) none →
      l1.length < fuel → (∀ n ∈ l1, n.2 ≠ data) →
      ptr.find_loop m data fuel (ptr.first_or (l1 ++ (t, data) :: l2) none) =
        some (some t) := by
  induction l1 with
  | nil =>
    intro prev fuel hd hf _
    cases fuel with
    | zero => omega
    | succ k =>
      rw [List.nil_append, dlseg_cons] at hd
      simp only [List.nil_append, ptr.first_or, ptr.find_loop, hd.1, if_true]
  | cons n rest ih =>
    intro prev fuel hd hf hne
    obtain ⟨a, x⟩ := n
    cases fuel with
    | zero => omega
    | succ k =>
      rw [List.cons_append, dlseg_cons] at hd
      have hx : x ≠ data := hne (a, x) (by simp)
      simp only [List.length_cons, Nat.add_lt_add_iff_right] at hf
      simp only [List.cons_append, ptr.first_or, ptr.find_loop, hd.1, hx, if_false]
      exact ih hd.2 hf (fun n hn => hne n (by simp [hn]))

theorem ptr_list_find_absent {m : ptr.Heap} {list : Option Nat} {nodes : List (Nat × Nat)}
    {data : Nat} (h : ptr.is_list m list nodes) (hne : ∀ n ∈ nodes, n.2 ≠ data) :
    ptr.list_find m list data = some none := by
  rw [ptr.list_find, h.1]
  exact find_loop_absent h.2 (by have := dlseg_length_le h.2; omega) hne

theorem ptr_list_find_present {m : ptr.Heap} {list : Option Nat} {l1 l2 : List (Nat × Nat)}
    {data t : Nat} (h : ptr.is_list m list (l1 ++ (t, data) :: l2))
    (hne : ∀ n ∈ l1, n.2 ≠ data) : ptr.list_find m list data = some (some t) := by
  rw [ptr.list_find, h.1]
  refine find_loop_present h.2 ?_ hne
  have := dlseg_length_le h.2
  simp only [List.length_append, List.length_cons] at this
  omega


theorem ptr_list_remove_spec {m : ptr.Heap} {list : Option Nat} {nodes : List (Nat × Nat)}
    (h : ptr.is_list m list nodes) (data : Nat) :
    ∃ head2 m2, ptr.list_remove m list data = some (head2, m2) ∧
      ptr.is_list m2 head2 (nodes.eraseP (fun n => decide (n.2 = data))) ∧
      ((∀ n ∈ nodes, n.2 ≠ data) → head2 = list ∧ m2 = m) := by
  by_cases hex : ∃ n ∈ nodes, n.2 = data
  · obtain ⟨n, hn, hnd⟩ := hex
    obtain ⟨n1, l1, l2, hpre, hp, hsplit, herase⟩ :=
      List.exists_of_eraseP (p := fun n : Nat × Nat => decide (n.2 = data)) hn (by simpa using hnd)
    obtain ⟨t, xt⟩ := n1
    have hxt : xt = data := by simpa using hp
    subst hxt
    rw [herase]
    rw [hsplit] at h
    have hfind := ptr_list_find_present h (fun n hn1 => by simpa using hpre n hn1)
    obtain ⟨m3, hdel, hlist, _⟩ := ptr_list_delete_link_spec h
    refine ⟨_, m3, ?_, hlist, ?_⟩
    · simp only [ptr.list_remove, hfind, hdel]
    · intro hall
      exact absurd rfl (hall (t, xt) (by simp [hsplit]))
  · have hall : ∀ n ∈ nodes, n.2 ≠ data := fun n hn hnd => hex ⟨n, hn, hnd⟩
    have hfind := ptr_list_find_absent h hall
    rw [List.eraseP_of_forall_not (fun n hn => by simpa using hall n hn)]
    refine ⟨list, m, ?_, h, fun _ => ⟨rfl, rfl⟩⟩
    simp only [ptr.list_remove, hfind]

theorem map_eraseP_snd (nodes : List (Nat × Nat)) (data : Nat) :
    (nodes.eraseP (fun n => decide (n.2 = data))).map (fun n => n.2) =
      (nodes.map (fun n => n.2)).erase data := by
  induction nodes with
  | nil => rfl
  | cons n rest ih =>
    by_cases hn : n.2 = data
    · simp [List.eraseP_cons, hn]
    · simp [List.eraseP_cons, List.erase_cons, hn, ih]

/-- C15: on a well-formed list, `list_delete_link(list, node)` for the node at index `i`
returns a well-formed list holding the old nodes without the one at index `i`, in unchanged
order; the returned head is the old second node when `i = 0` (NULL when there was no other
node) and the old head otherwise, and the link of the node is freed. `list_remove(list,
data)` returns the list without the first node holding `data`, and returns the list and the
memory unchanged when no node holds it. -/
theorem list_delete_link_removes_exactly {m : ptr.Heap} {list : Option Nat}
    {nodes : List (Nat × Nat)} (h : ptr.is_list m list nodes) (i : Nat)
    (hi : i < nodes.length) (data : Nat) :
    (∃ head1 m1, ptr.list_delete_link m list (nodes.get ⟨i, hi⟩).1 = some (head1, m1) ∧
      ptr.is_list m1 head1 (nodes.eraseIdx i) ∧
      head1 = (if i = 0 then ptr.first_or (nodes.drop 1) none else list) ∧
      m1.get (nodes.get ⟨i, hi⟩).1 = none) ∧
    (∃ head2 m2, ptr.list_remove m list data = some (head2, m2) ∧
      ptr.is_list m2 head2 (nodes.eraseP (fun n => decide (n.2 = data))) ∧
      (nodes.eraseP (fun n => decide (n.2 = data))).map (fun n => n.2) =
        (nodes.map (fun n => n.2)).erase data ∧
      ((∀ n ∈ nodes, n.2 ≠ data) → head2 = list ∧ m2 = m)) := by
  constructor
  · have hsplit : nodes = nodes.take i ++ nodes.get ⟨i, hi⟩ :: nodes.drop (i + 1) := by
      rw [List.get_eq_getElem, ← List.drop_eq_getElem_cons hi, List.take_append_drop]
    have ht : nodes.eraseIdx i = nodes.take i ++ nodes.drop (i + 1) :=
      List.eraseIdx_eq_take_drop_succ nodes i
    generalize nodes.get ⟨i, hi⟩ = n at hsplit ⊢
    obtain ⟨t, xt⟩ := n
    have h0 := h
    rw [hsplit] at h0
    obtain ⟨m3, hdel, hlist, hhead, hfree, _⟩ := ptr_list_delete_link_spec h0
    rw [← ht] at hlist hdel hhead
    refine ⟨_, m3, hdel, hlist, ?_, hfree⟩
    rw [hhead]
    cases i with
    | zero => simp
    | succ k =>
      have : nodes.take (k + 1) ≠ [] := by
        cases nodes with
        | nil => simp at hi
        | cons n0 r0 => simp
      simp [this]
  · obtain ⟨head2, m2, h1, h2, h3⟩ := ptr_list_remove_spec h data
    exact ⟨head2, m2, h1, h2, map_eraseP_snd nodes data, h3⟩

theorem list_delete_link_removes_exactly_witness :
    ptr.is_list ⟨[some ⟨5, some 1, none⟩, some ⟨9, none, some 0⟩], 2, 0⟩ (some 0)
        [(0, 5), (1, 9)] ∧
      (∃ head1 m1,
        ptr.list_delete_link ⟨[some ⟨5, some 1, none⟩, some ⟨9, none, some 0⟩], 2, 0⟩ (some 0)
            (([(0, 5), (1, 9)] : List (Nat × Nat)).get ⟨0, by decide⟩).1 = some (head1, m1) ∧
        ptr.is_list m1 head1 (([(0, 5), (1, 9)] : List (Nat × Nat)).eraseIdx 0) ∧
        head1 = (if 0 = 0 then ptr.first_or (([(0, 5), (1, 9)] : List (Nat × Nat)).drop 1) none
          else some 0) ∧
        m1.get (([(0, 5), (1, 9)] : List (Nat × Nat)).get ⟨0, by decide⟩).1 = none) ∧
      (∃ head2 m2,
        ptr.list_remove ⟨[some ⟨5, some 1, none⟩, some ⟨9, none, some 0⟩], 2, 0⟩ (some 0) 9 =
          some (head2, m2) ∧
        ptr.is_list m2 head2
          (([(0, 5), (1, 9)] : List (Nat × Nat)).eraseP (fun n => decide (n.2 = 9))) ∧
        (([(0, 5), (1, 9)] : List (Nat × Nat)).eraseP (fun n => decide (n.2 = 9))).map
            (fun n => n.2) =
          (([(0, 5), (1, 9)] : List (Nat × Nat)).map (fun n => n.2)).erase 9 ∧
        ((∀ n ∈ ([(0, 5), (1, 9)] : List (Nat × Nat)), n.2 ≠ 9) →
          head2 = some 0 ∧
            m2 = ⟨[some ⟨5, some 1, none⟩, some ⟨9, none, some 0⟩], 2, 0⟩)) :=
  ⟨And.intro rfl (And.intro rfl (And.intro rfl True.intro)),
    @list_delete_link_removes_exactly
      ⟨[some ⟨5, some 1, none⟩, some ⟨9, none, some 0⟩], 2, 0⟩ (some 0) [(0, 5), (1, 9)]
      (And.intro rfl (And.intro rfl (And.intro rfl True.intro))) 0 (by decide) 9⟩


/-! ## Facts about timer.c -/

theorem timer_get_link_some {l : List TimerInfo} {id : Int} {i : Nat} {t : TimerInfo}
    (h : _timer_get_link l id = some (i, t)) :
    ∃ l1 l2, l = l1 ++ t :: l2 ∧ l1.length = i ∧ t.id = id ∧ ∀ x ∈ l1, x.id ≠ id := by
  induction l generalizing i with
  | nil => simp [_timer_get_link] at h
  | cons y ys ih =>
    unfold _timer_get_link at h
    by_cases hy : y.id = id
    · simp only [hy, if_true, Option.some.injEq, Prod.mk.injEq] at h
      obtain ⟨h1, h2⟩ := h
      subst h1 h2
      exact ⟨[], ys, rfl, rfl, hy, by simp⟩
    · simp only [hy, if_false] at h
      cases hr : _timer_get_link ys id with
      | none => simp [hr] at h
      | some r =>
        obtain ⟨k, z⟩ := r
        simp only [hr, Option.map_some', Option.some.injEq, Prod.mk.injEq] at h
        obtain ⟨h1, h2⟩ := h
        subst h1 h2
        obtain ⟨l1, l2, e1, e2, e3, e4⟩ := ih hr
        refine ⟨y :: l1, l2, by simp [e1], by simp [e2], e3, ?_⟩
        intro w hw
        rcases List.mem_cons.mp hw with hw | hw
        · exact hw ▸ hy
        · exact e4 w hw

theorem timer_get_link_none {l : List TimerInfo} {id : Int} :
    _timer_get_link l id = none ↔ ∀ x ∈ l, x.id ≠ id := by
  induction l with
  | nil => simp [_timer_get_link]
  | cons y ys ih =>
    unfold _timer_get_link
    by_cases hy : y.id = id
    · simp [hy]
    · simp [hy, ih]

theorem timer_get_link_append {l1 l2 : List TimerInfo} {t : TimerInfo} {id : Int}
    (h1 : ∀ x ∈ l1, x.id ≠ id) (ht : t.id = id) :
    _timer_get_link (l1 ++ t :: l2) id = some (l1.length, t) := by
  induction l1 with
  | nil => simp [_timer_get_link, ht]
  | cons y ys ih =>
    have hy : y.id ≠ id := h1 y (by simp)
    have := ih (fun w hw => h1 w (by simp [hw]))
    simp [_timer_get_link, hy, this]

theorem timer_get_eq (l : List TimerInfo) (id : Int) : _timer_get l id = _timer_get_link l id := by
  unfold _timer_get
  cases _timer_get_link l id <;> rfl

theorem timer_set_state_same {t : TimerInfo} {st : TimerState} (tk : List Tick) (a : Nat)
    (h : t.state = st) : _timer_set_state t tk st a = (t, tk) := by
  cases st <;> simp [_timer_set_state, _timer_set_state_enable, _timer_set_state_disable, h]

theorem timer_set_state_enable {t : TimerInfo} (tk : List Tick) {a : Nat}
    (h : t.state = TIMER_DISABLED) (ha : a ≠ 0) :
    _timer_set_state t tk TIMER_ENABLED a =
      ({ t with sdl_id := a, state := TIMER_ENABLED },
        tk ++ [{ sdl_id := a, interval := to_uint32 t.interval, param := t.addr }]) := by
  simp [_timer_set_state, _timer_set_state_enable, _timer_set_state_disable, h, SDL_AddTimer, ha]

theorem timer_set_state_disable {t : TimerInfo} (tk : List Tick) (a : Nat)
    (h : t.state = TIMER_ENABLED) :
    _timer_set_state t tk TIMER_DISABLED a =
      ({ t with sdl_id := 0, state := TIMER_DISABLED }, SDL_RemoveTimer tk t.sdl_id) := by
  simp [_timer_set_state, _timer_set_state_enable, _timer_set_state_disable, h]

/-- The state a timer is left in is the state asked for, whatever the host answers. -/
theorem timer_set_state_state (t : TimerInfo) (tk : List Tick) (st : TimerState) (a : Nat) :
    (_timer_set_state t tk st a).1.state = st ∧ (_timer_set_state t tk st a).1.id = t.id ∧
      (_timer_set_state t tk st a).1.addr = t.addr ∧
      (_timer_set_state t tk st a).1.interval = t.interval ∧
      (_timer_set_state t tk st a).1.handler = t.handler ∧
      (_timer_set_state t tk st a).1.user_data = t.user_data := by
  cases hs : t.state <;> cases st <;>
    simp [_timer_set_state, _timer_set_state_enable, _timer_set_state_disable, hs]


/-! ## The invariant between the registry and the host -/

theorem TInv_init : TInv Timers.init := by
  refine ⟨?_, ?_, ?_, ?_, ?_⟩ <;> simp [Timers.init]

theorem TInv_same {l1 l2 : List TimerInfo} {t t1 : TimerInfo} {n n1 : Int} {b b1 : Nat}
    {tk : List Tick} (h : TInv ⟨l1 ++ t :: l2, n, b, tk⟩) (hs : t1.state = t.state)
    (hi : t1.sdl_id = t.sdl_id) (ha : t1.addr = t.addr) :
    TInv ⟨l1 ++ t1 :: l2, n1, b1, tk⟩ := by
  obtain ⟨hflag, hheld, hown, hnd, hpw⟩ := h
  simp only [List.mem_append, List.mem_cons] at hflag hheld hown
  refine ⟨?_, ?_, ?_, hnd, ?_⟩
  · intro x hx
    simp only [List.mem_append, List.mem_cons] at hx
    rcases hx with hx | rfl | hx
    · exact hflag x (Or.inl hx)
    · rw [hs, hi]
      exact hflag t (Or.inr (Or.inl rfl))
    · exact hflag x (Or.inr (Or.inr hx))
  · intro x hx
    simp only [List.mem_append, List.mem_cons] at hx
    rcases hx with hx | rfl | hx
    · exact hheld x (Or.inl hx)
    · rw [hs, hi, ha]
      exact hheld t (Or.inr (Or.inl rfl))
    · exact hheld x (Or.inr (Or.inr hx))
  · intro k hk
    obtain ⟨x, hx, h1, h2⟩ := hown k hk
    simp only [List.mem_append, List.mem_cons]
    rcases hx with hx | rfl | hx
    · exact ⟨x, Or.inl hx, h1, h2⟩
    · exact ⟨t1, Or.inr (Or.inl rfl), hs ▸ h1, hi ▸ h2⟩
    · exact ⟨x, Or.inr (Or.inr hx), h1, h2⟩
  · simp only [List.pairwise_append, List.pairwise_cons] at hpw ⊢
    obtain ⟨p1, ⟨p2, p3⟩, p4⟩ := hpw
    refine ⟨p1, ⟨?_, p3⟩, ?_⟩
    · intro c hc
      rw [hi]
      exact p2 c hc
    · intro a ha1 c hc
      rcases List.mem_cons.mp hc with rfl | hc
      · rw [hi]
        exact p4 a ha1 t (by simp)
      · exact p4 a ha1 c (by simp [hc])

theorem TInv_enable {l1 l2 : List TimerInfo} {t : TimerInfo} {n n1 : Int} {b b1 : Nat}
    {tk : List Tick} {a : Nat} (iv : Nat) (h : TInv ⟨l1 ++ t :: l2, n, b, tk⟩)
    (hs : t.state = TIMER_DISABLED) (hg : host_grants tk a) :
    TInv ⟨l1 ++ { t with sdl_id := a, state := TIMER_ENABLED } :: l2, n1, b1,
      tk ++ [{ sdl_id := a, interval := iv, param := t.addr }]⟩ := by
  obtain ⟨hflag, hheld, hown, hnd, hpw⟩ := h
  obtain ⟨ha0, hfresh⟩ := hg
  simp only [List.mem_append, List.mem_cons] at hflag hheld hown
  have hno : ∀ x, (x ∈ l1 ∨ x = t ∨ x ∈ l2) → x.sdl_id ≠ a := by
    intro x hx hxa
    have hen : x.state = TIMER_ENABLED := (hflag x hx).mpr (by rw [hxa]; exact ha0)
    obtain ⟨k, hk, hk1, _⟩ := hheld x hx hen
    exact hfresh k hk (by rw [hk1, hxa])
  refine ⟨?_, ?_, ?_, ?_, ?_⟩
  · intro x hx
    simp only [List.mem_append, List.mem_cons] at hx
    rcases hx with hx | rfl | hx
    · exact hflag x (Or.inl hx)
    · simpa using ha0
    · exact hflag x (Or.inr (Or.inr hx))
  · intro x hx hen
    simp only [List.mem_append, List.mem_cons] at hx
    simp only [List.mem_append, List.mem_singleton]
    rcases hx with hx | rfl | hx
    · obtain ⟨k, hk, hk1, hk2⟩ := hheld x (Or.inl hx) hen
      exact ⟨k, Or.inl hk, hk1, hk2⟩
    · exact ⟨_, Or.inr rfl, rfl, rfl⟩
    · obtain ⟨k, hk, hk1, hk2⟩ := hheld x (Or.inr (Or.inr hx)) hen
      exact ⟨k, Or.inl hk, hk1, hk2⟩
  · intro k hk
    simp only [List.mem_append, List.mem_singleton] at hk
    simp only [List.mem_append, List.mem_cons]
    rcases hk with hk | rfl
    · obtain ⟨x, hx, h1, h2⟩ := hown k hk
      rcases hx with hx | rfl | hx
      · exact ⟨x, Or.inl hx, h1, h2⟩
      · rw [hs] at h1
        exact absurd h1 (by decide)
      · exact ⟨x, Or.inr (Or.inr hx), h1, h2⟩
    · exact ⟨_, Or.inr (Or.inl rfl), rfl, rfl⟩
  · simp only [List.map_append, List.map_cons, List.map_nil]
    rw [List.nodup_append]
    refine ⟨hnd, by simp, ?_⟩
    intro c hc hc2
    simp only [List.mem_singleton] at hc2
    subst hc2
    obtain ⟨k, hk, hk1⟩ := List.mem_map.mp hc
    exact hfresh k hk hk1
  · simp only [List.pairwise_append, List.pairwise_cons] at hpw ⊢
    obtain ⟨p1, ⟨p2, p3⟩, p4⟩ := hpw
    refine ⟨p1, ⟨?_, p3⟩, ?_⟩
    · intro c hc hac
      exact absurd hac.symm (hno c (Or.inr (Or.inr hc)))
    · intro x hx c hc
      rcases List.mem_cons.mp hc with rfl | hc
      · intro hxa
        exact absurd hxa (hno x (Or.inl hx))
      · exact p4 x hx c (by simp [hc])

theorem TInv_disable {l1 l2 : List TimerInfo} {t : TimerInfo} {n n1 : Int} {b b1 : Nat}
    {tk : List Tick} (h : TInv ⟨l1 ++ t :: l2, n, b, tk⟩) (hs : t.state = TIMER_ENABLED) :
    TInv ⟨l1 ++ { t with sdl_id := 0, state := TIMER_DISABLED } :: l2, n1, b1,
      SDL_RemoveTimer tk t.sdl_id⟩ := by
  obtain ⟨hflag, hheld, hown, hnd, hpw⟩ := h
  simp only [List.mem_append, List.mem_cons] at hflag hheld hown
  simp only [List.pairwise_append, List.pairwise_cons] at hpw
  obtain ⟨p1, ⟨p2, p3⟩, p4⟩ := hpw
  have ht0 : t.sdl_id ≠ 0 := (hflag t (Or.inr (Or.inl rfl))).mp hs
  refine ⟨?_, ?_, ?_, ?_, ?_⟩
  · intro x hx
    simp only [List.mem_append, List.mem_cons] at hx
    rcases hx with hx | rfl | hx
    · exact hflag x (Or.inl hx)
    · simp
    · exact hflag x (Or.inr (Or.inr hx))
  · intro x hx hen
    simp only [List.mem_append, List.mem_cons] at hx
    simp only [SDL_RemoveTimer, List.mem_filter, decide_eq_true_eq]
    rcases hx with hx | rfl | hx
    · obtain ⟨k, hk, hk1, hk2⟩ := hheld x (Or.inl hx) hen
      refine ⟨k, ⟨hk, ?_⟩, hk1, hk2⟩
      intro hkt
      have h0 := p4 x hx t (by simp) (by rw [← hk1, hkt])
      exact (hflag x (Or.inl hx)).mp hen h0
    · exact absurd hen (by simp)
    · obtain ⟨k, hk, hk1, hk2⟩ := hheld x (Or.inr (Or.inr hx)) hen
      refine ⟨k, ⟨hk, ?_⟩, hk1, hk2⟩
      intro hkt
      exact ht0 (p2 x hx (by rw [← hk1, hkt]))
  · intro k hk
    simp only [SDL_RemoveTimer, List.mem_filter, decide_eq_true_eq] at hk
    simp only [List.mem_append, List.mem_cons]
    obtain ⟨x, hx, h1, h2⟩ := hown k hk.1
    rcases hx with hx | rfl | hx
    · exact ⟨x, Or.inl hx, h1, h2⟩
    · exact absurd h2.symm hk.2
    · exact ⟨x, Or.inr (Or.inr hx), h1, h2⟩
  · exact hnd.sublist ((List.filter_sublist _).map _)
  · simp only [List.pairwise_append, List.pairwise_cons]
    refine ⟨p1, ⟨by simp, p3⟩, ?_⟩
    intro x hx c hc
    rcases List.mem_cons.mp hc with rfl | hc
    · exact fun hxa => hxa
    · exact p4 x hx c (by simp [hc])

theorem TInv_delete {l1 l2 : List TimerInfo} {t : TimerInfo} {n n1 : Int} {b b1 : Nat}
    {tk : List Tick} (h : TInv ⟨l1 ++ t :: l2, n, b, tk⟩) (hs : t.state = TIMER_DISABLED) :
    TInv ⟨l1 ++ l2, n1, b1, tk⟩ := by
  obtain ⟨hflag, hheld, hown, hnd, hpw⟩ := h
  simp only [List.mem_append, List.mem_cons] at hflag hheld hown
  refine ⟨?_, ?_, ?_, hnd, ?_⟩
  · intro x hx
    simp only [List.mem_append] at hx
    exact hflag x (by tauto)
  · intro x hx
    simp only [List.mem_append] at hx
    exact hheld x (by tauto)
  · intro k hk
    obtain ⟨x, hx, h1, h2⟩ := hown k hk
    simp only [List.mem_append]
    rcases hx with hx | rfl | hx
    · exact ⟨x, Or.inl hx, h1, h2⟩
    · rw [hs] at h1
      exact absurd h1 (by decide)
    · exact ⟨x, Or.inr hx, h1, h2⟩
  · refine hpw.sublist ?_
    exact List.Sublist.append (List.Sublist.refl l1) (List.sublist_cons_self t l2)

theorem TInv_append {l : List TimerInfo} {t : TimerInfo} {n n1 : Int} {b b1 : Nat}
    {tk : List Tick} (h : TInv ⟨l, n, b, tk⟩) (hs : t.state = TIMER_DISABLED)
    (hi : t.sdl_id = 0) : TInv ⟨l ++ [t], n1, b1, tk⟩ := by
  obtain ⟨hflag, hheld, hown, hnd, hpw⟩ := h
  refine ⟨?_, ?_, ?_, hnd, ?_⟩
  · intro x hx
    simp only [List.mem_append, List.mem_singleton] at hx
    rcases hx with hx | rfl
    · exact hflag x hx
    · simp [hs, hi]
  · intro x hx hen
    simp only [List.mem_append, List.mem_singleton] at hx
    rcases hx with hx | rfl
    · exact hheld x hx hen
    · rw [hs] at hen
      exact absurd hen (by decide)
  · intro k hk
    obtain ⟨x, hx, h1, h2⟩ := hown k hk
    exact ⟨x, by simp [hx], h1, h2⟩
  · simp only [List.pairwise_append, List.pairwise_cons, List.Pairwise.nil, List.mem_singleton]
    refine ⟨hpw, ⟨by simp, trivial⟩, ?_⟩
    intro x _ c hc hxc
    rw [hxc, hc, hi]


/-! ## The calls of timer.c on a registry split at the timer found -/

theorem timer_lookup_cases (l : List TimerInfo) (id : Int) :
    (_timer_get_link l id = none ∧ ∀ x ∈ l, x.id ≠ id) ∨
      ∃ l1 t l2, l = l1 ++ t :: l2 ∧ t.id = id ∧ (∀ x ∈ l1, x.id ≠ id) ∧
        _timer_get_link l id = some (l1.length, t) := by
  cases h : _timer_get_link l id with
  | none => exact Or.inl ⟨rfl, timer_get_link_none.mp h⟩
  | some r =>
    obtain ⟨i, t⟩ := r
    obtain ⟨l1, l2, e1, e2, e3, e4⟩ := timer_get_link_some h
    subst e2
    exact Or.inr ⟨l1, t, l2, e1, e3, e4, rfl⟩

theorem timer_create_eq (s : Timers) (iv : Int) (hd u : Nat) (st : TimerState) (a : Nat) :
    timer_create s iv hd u st a =
      (s.next_id,
        ⟨s.l_timers ++
            [(_timer_set_state ⟨s.brk, s.next_id, 0, TIMER_DISABLED, iv, hd, u⟩ s.ticks st a).1],
          wrap32 (s.next_id + 1), s.brk + 1,
          (_timer_set_state ⟨s.brk, s.next_id, 0, TIMER_DISABLED, iv, hd, u⟩ s.ticks st a).2⟩) := by
  have hst := store_append_cons s.l_timers
    (⟨s.brk, s.next_id, 0, TIMER_DISABLED, iv, hd, u⟩ : TimerInfo)
    (_timer_set_state ⟨s.brk, s.next_id, 0, TIMER_DISABLED, iv, hd, u⟩ s.ticks st a).1 []
  have hid := (timer_set_state_state ⟨s.brk, s.next_id, 0, TIMER_DISABLED, iv, hd, u⟩ s.ticks
    st a).2.1
  simp only [timer_create, list_append_eq, hst, hid]

theorem timer_set_state_unknown {s : Timers} {id : Int} (st : TimerState) (a : Nat)
    (h : _timer_get_link s.l_timers id = none) : timer_set_state s id st a = s := by
  simp [timer_set_state, timer_get_eq, h]

theorem timer_set_interval_unknown {s : Timers} {id : Int} (iv : Int)
    (h : _timer_get_link s.l_timers id = none) : timer_set_interval s id iv = s := by
  simp [timer_set_interval, timer_get_eq, h]

theorem timer_set_user_data_unknown {s : Timers} {id : Int} (u : Nat)
    (h : _timer_get_link s.l_timers id = none) : timer_set_user_data s id u = s := by
  simp [timer_set_user_data, timer_get_eq, h]

theorem timer_free_unknown {s : Timers} {id : Int}
    (h : _timer_get_link s.l_timers id = none) : timer_free s id = s := by
  simp [timer_free, h]

theorem timer_set_state_found {l1 l2 : List TimerInfo} {t : TimerInfo} {id : Int} (n : Int)
    (b : Nat) (tk : List Tick) (st : TimerState) (a : Nat) (h1 : ∀ x ∈ l1, x.id ≠ id)
    (ht : t.id = id) :
    timer_set_state ⟨l1 ++ t :: l2, n, b, tk⟩ id st a =
      ⟨l1 ++ (_timer_set_state t tk st a).1 :: l2, n, b, (_timer_set_state t tk st a).2⟩ := by
  simp only [timer_set_state, timer_get_eq, timer_get_link_append h1 ht, store_append_cons]

theorem timer_set_interval_found {l1 l2 : List TimerInfo} {t : TimerInfo} {id : Int} (n : Int)
    (b : Nat) (tk : List Tick) (iv : Int) (h1 : ∀ x ∈ l1, x.id ≠ id) (ht : t.id = id) :
    timer_set_interval ⟨l1 ++ t :: l2, n, b, tk⟩ id iv =
      ⟨l1 ++ { t with interval := iv } :: l2, n, b, tk⟩ := by
  simp only [timer_set_interval, timer_get_eq, timer_get_link_append h1 ht, store_append_cons]

theorem timer_set_user_data_found {l1 l2 : List TimerInfo} {t : TimerInfo} {id : Int} (n : Int)
    (b : Nat) (tk : List Tick) (u : Nat) (h1 : ∀ x ∈ l1, x.id ≠ id) (ht : t.id = id) :
    timer_set_user_data ⟨l1 ++ t :: l2, n, b, tk⟩ id u =
      ⟨l1 ++ { t with user_data := u } :: l2, n, b, tk⟩ := by
  simp only [timer_set_user_data, timer_get_eq, timer_get_link_append h1 ht, store_append_cons]

theorem timer_free_found {l1 l2 : List TimerInfo} {t : TimerInfo} {id : Int} (n : Int)
    (b : Nat) (tk : List Tick) (h1 : ∀ x ∈ l1, x.id ≠ id) (ht : t.id = id) :
    timer_free ⟨l1 ++ t :: l2, n, b, tk⟩ id =
      ⟨l1 ++ l2, n, b, (_timer_set_state t tk TIMER_DISABLED 0).2⟩ := by
  simp only [timer_free, timer_get_link_append h1 ht, store_append_cons,
    list_delete_link_append_cons]

theorem state_of_found {l1 l2 : List TimerInfo} {t : TimerInfo} {id : Int} (n : Int)
    (b : Nat) (tk : List Tick) (h1 : ∀ x ∈ l1, x.id ≠ id) (ht : t.id = id) :
    state_of ⟨l1 ++ t :: l2, n, b, tk⟩ id = some t.state := by
  simp [state_of, timer_get_link_append h1 ht]

theorem state_of_unknown {s : Timers} {id : Int} (h : _timer_get_link s.l_timers id = none) :
    state_of s id = none := by
  simp [state_of, h]

theorem TInv_step {s : Timers} (h : TInv s) (op : TimerOp) (hg : granted s op) :
    TInv (timer_step s op).2 := by
  obtain ⟨l, n, b, tk⟩ := s
  cases op with
  | create iv hd u st a =>
    simp only [timer_step, timer_create_eq]
    have happ : TInv ⟨l ++ [(⟨b, n, 0, TIMER_DISABLED, iv, hd, u⟩ : TimerInfo)], wrap32 (n + 1),
        b + 1, tk⟩ := TInv_append h rfl rfl
    cases st with
    | TIMER_DISABLED =>
      rw [timer_set_state_same tk a rfl]
      exact happ
    | TIMER_ENABLED =>
      have hgr : host_grants tk a := hg rfl
      rw [timer_set_state_enable tk rfl hgr.1]
      exact TInv_enable _ happ rfl hgr
  | set_state id st a =>
    simp only [timer_step]
    rcases timer_lookup_cases l id with ⟨hnone, _⟩ | ⟨l1, t, l2, hl, ht, h1, hfound⟩
    · rw [timer_set_state_unknown st a hnone]
      exact h
    · subst hl
      rw [timer_set_state_found n b tk st a h1 ht]
      by_cases hsame : t.state = st
      · rw [timer_set_state_same tk a hsame]
        exact h
      · cases st with
        | TIMER_DISABLED =>
          have hen : t.state = TIMER_ENABLED := by
            cases hs : t.state with
            | TIMER_DISABLED => exact absurd hs hsame
            | TIMER_ENABLED => rfl
          rw [timer_set_state_disable tk a hen]
          exact TInv_disable h hen
        | TIMER_ENABLED =>
          have hdis : t.state = TIMER_DISABLED := by
            cases hs : t.state with
            | TIMER_DISABLED => rfl
            | TIMER_ENABLED => exact absurd hs hsame
          have hgr : host_grants tk a :=
            hg ⟨by rw [state_of_found n b tk h1 ht, hdis], rfl⟩
          rw [timer_set_state_enable tk hdis hgr.1]
          exact TInv_enable _ h hdis hgr
  | set_interval id iv =>
    simp only [timer_step]
    rcases timer_lookup_cases l id with ⟨hnone, _⟩ | ⟨l1, t, l2, hl, ht, h1, hfound⟩
    · rw [timer_set_interval_unknown iv hnone]
      exact h
    · subst hl
      rw [timer_set_interval_found n b tk iv h1 ht]
      exact TInv_same h rfl rfl rfl
  | set_user_data id u =>
    simp only [timer_step]
    rcases timer_lookup_cases l id with ⟨hnone, _⟩ | ⟨l1, t, l2, hl, ht, h1, hfound⟩
    · rw [timer_set_user_data_unknown u hnone]
      exact h
    · subst hl
      rw [timer_set_user_data_found n b tk u h1 ht]
      exact TInv_same h rfl rfl rfl
  | free id =>
    simp only [timer_step]
    rcases timer_lookup_cases l id with ⟨hnone, _⟩ | ⟨l1, t, l2, hl, ht, h1, hfound⟩
    · rw [timer_free_unknown hnone]
      exact h
    · subst hl
      rw [timer_free_found n b tk h1 ht]
      cases hs : t.state with
      | TIMER_DISABLED =>
        rw [timer_set_state_same tk 0 hs]
        exact TInv_delete h hs
      | TIMER_ENABLED =>
        rw [timer_set_state_disable tk 0 hs]
        have hdis : TInv ⟨l1 ++ { t with sdl_id := 0, state := TIMER_DISABLED } :: l2, n, b,
            SDL_RemoveTimer tk t.sdl_id⟩ := TInv_disable h hs
        exact TInv_delete hdis rfl

theorem timer_run_cons (s : Timers) (op : TimerOp) (rest : List TimerOp) :
    (timer_run s (op :: rest)).2 = (timer_run (timer_step s op).2 rest).2 := by
  simp only [timer_run]
  cases (timer_step s op).1 <;> rfl

theorem TInv_run {s : Timers} (h : TInv s) (ops : List TimerOp) (hg : run_granted s ops) :
    TInv (timer_run s ops).2 := by
  induction ops generalizing s with
  | nil => exact h
  | cons op rest ih =>
    rw [timer_run_cons]
    exact ih (TInv_step h op hg.1) hg.2


theorem SDL_RemoveTimer_length {tk : List Tick} {k : Tick}
    (hnd : (tk.map (fun k => k.sdl_id)).Nodup) (hk : k ∈ tk) :
    (SDL_RemoveTimer tk k.sdl_id).length + 1 = tk.length := by
  induction tk with
  | nil => simp at hk
  | cons x xs ih =>
    simp only [List.map_cons, List.nodup_cons] at hnd
    by_cases hx : x.sdl_id = k.sdl_id
    · have hall : ∀ y ∈ xs, decide (y.sdl_id ≠ k.sdl_id) = true := by
        intro y hy
        simp only [ne_eq, decide_not, Bool.not_eq_eq_eq_not, Bool.not_true, decide_eq_false_iff_not]
        intro hyk
        exact hnd.1 (List.mem_map.mpr ⟨y, hy, by rw [hyk, hx]⟩)
      simp only [SDL_RemoveTimer, List.filter_cons, hx, ne_eq, not_true_eq_false, decide_False,
        Bool.false_eq_true, if_false, List.length_cons]
      rw [List.filter_eq_self.mpr hall]
    · have hkxs : k ∈ xs := by
        rcases List.mem_cons.mp hk with rfl | hk1
        · exact absurd rfl hx
        · exact hk1
      have := ih hnd.2 hkxs
      simp only [SDL_RemoveTimer, List.filter_cons, hx, ne_eq, not_false_eq_true, decide_True,
        if_true, List.length_cons] at this ⊢
      omega

/-- What one call does to the timers of the host. -/
theorem timer_step_ticks {s : Timers} (h : TInv s) (op : TimerOp) (hg : granted s op) :
    (enabling s op → (timer_step s op).2.ticks.length = s.ticks.length + 1 ∧
      s.ticks <+: (timer_step s op).2.ticks) ∧
    (disabling s op → (timer_step s op).2.ticks.length + 1 = s.ticks.length ∧
      (timer_step s op).2.ticks.Sublist s.ticks) ∧
    (¬ enabling s op → ¬ disabling s op → (timer_step s op).2.ticks = s.ticks) := by
  obtain ⟨l, n, b, tk⟩ := s
  have hrem : ∀ {l1 l2 : List TimerInfo} {t : TimerInfo}, l = l1 ++ t :: l2 →
      t.state = TIMER_ENABLED →
      (SDL_RemoveTimer tk t.sdl_id).length + 1 = tk.length ∧
        (SDL_RemoveTimer tk t.sdl_id).Sublist tk := by
    intro l1 l2 t hl hen
    obtain ⟨k, hk, hk1, _⟩ := h.held t (by simp [hl]) hen
    have := SDL_RemoveTimer_length h.ticks_nodup hk
    rw [hk1] at this
    exact ⟨this, List.filter_sublist _⟩
  cases op with
  | create iv hd u st a =>
    simp only [timer_step, timer_create_eq]
    cases st with
    | TIMER_DISABLED =>
      rw [timer_set_state_same tk a rfl]
      simp [enabling, disabling]
    | TIMER_ENABLED =>
      have hgr : host_grants tk a := hg rfl
      rw [timer_set_state_enable tk rfl hgr.1]
      simp [enabling, disabling]
  | set_state id st a =>
    simp only [timer_step]
    rcases timer_lookup_cases l id with ⟨hnone, _⟩ | ⟨l1, t, l2, hl, ht, h1, hfound⟩
    · have hso : state_of (Timers.mk l n b tk) id = none := state_of_unknown hnone
      rw [timer_set_state_unknown st a hnone]
      simp [enabling, disabling, hso]
    · subst hl
      rw [timer_set_state_found n b tk st a h1 ht]
      simp only [enabling, disabling, state_of_found n b tk h1 ht, Option.some.injEq]
      cases hs : t.state <;> cases st
      · rw [timer_set_state_same tk a hs]
        simp
      · have hgr : host_grants tk a :=
          hg ⟨by rw [state_of_found n b tk h1 ht, hs], rfl⟩
        rw [timer_set_state_enable tk hs hgr.1]
        simp
      · rw [timer_set_state_disable tk a hs]
        have := hrem rfl hs
        simp [this]
      · rw [timer_set_state_same tk a hs]
        simp
  | set_interval id iv =>
    simp only [timer_step]
    rcases timer_lookup_cases l id with ⟨hnone, _⟩ | ⟨l1, t, l2, hl, ht, h1, hfound⟩
    · rw [timer_set_interval_unknown iv hnone]
      simp [enabling, disabling]
    · subst hl
      rw [timer_set_interval_found n b tk iv h1 ht]
      simp [enabling, disabling]
  | set_user_data id u =>
    simp only [timer_step]
    rcases timer_lookup_cases l id with ⟨hnone, _⟩ | ⟨l1, t, l2, hl, ht, h1, hfound⟩
    · rw [timer_set_user_data_unknown u hnone]
      simp [enabling, disabling]
    · subst hl
      rw [timer_set_user_data_found n b tk u h1 ht]
      simp [enabling, disabling]
  | free id =>
    simp only [timer_step]
    rcases timer_lookup_cases l id with ⟨hnone, _⟩ | ⟨l1, t, l2, hl, ht, h1, hfound⟩
    · have hso : state_of (Timers.mk l n b tk) id = none := state_of_unknown hnone
      rw [timer_free_unknown hnone]
      simp [enabling, disabling, hso]
    · subst hl
      rw [timer_free_found n b tk h1 ht]
      simp only [enabling, disabling, state_of_found n b tk h1 ht, Option.some.injEq]
      cases hs : t.state
      · rw [timer_set_state_same tk 0 hs]
        simp
      · rw [timer_set_state_disable tk 0 hs]
        have := hrem rfl hs
        simp [this]

/-! ## Timers and their background ticks -/

/-- Timers and host timers under a host that grants each timer asked for: in every state
reached from program start through `timer_create`, `timer_set_state`, `timer_set_interval`,
`timer_set_user_data` and `timer_free`, a timer has a running host timer (its `sdl_id` is not NULL and
a host timer with that id exists) if and only if its state is `TIMER_ENABLED`, and every
host timer belongs to an enabled timer. A call from such a state adds exactly one host timer
when it is an enable transition, takes exactly one away when it is a disable transition,
and leaves the host timers as they are otherwise. -/
theorem tick_iff_enabled (ops : List TimerOp) (hg : run_granted Timers.init ops) :
    (∀ t ∈ (timer_run Timers.init ops).2.l_timers,
      has_tick (timer_run Timers.init ops).2 t ↔ t.state = TIMER_ENABLED) ∧
    (∀ k ∈ (timer_run Timers.init ops).2.ticks,
      ∃ t ∈ (timer_run Timers.init ops).2.l_timers,
        t.state = TIMER_ENABLED ∧ t.sdl_id = k.sdl_id) ∧
    (∀ op, granted (timer_run Timers.init ops).2 op →
      (enabling (timer_run Timers.init ops).2 op →
        (timer_step (timer_run Timers.init ops).2 op).2.ticks.length =
            (timer_run Timers.init ops).2.ticks.length + 1 ∧
          (timer_run Timers.init ops).2.ticks <+:
            (timer_step (timer_run Timers.init ops).2 op).2.ticks) ∧
      (disabling (timer_run Timers.init ops).2 op →
        (timer_step (timer_run Timers.init ops).2 op).2.ticks.length + 1 =
            (timer_run Timers.init ops).2.ticks.length ∧
          (timer_step (timer_run Timers.init ops).2 op).2.ticks.Sublist
            (timer_run Timers.init ops).2.ticks) ∧
      (¬ enabling (timer_run Timers.init ops).2 op →
        ¬ disabling (timer_run Timers.init ops).2 op →
        (timer_step (timer_run Timers.init ops).2 op).2.ticks =
          (timer_run Timers.init ops).2.ticks)) := by
  have hinv := TInv_run TInv_init ops hg
  refine ⟨?_, hinv.owned, fun op hop => timer_step_ticks hinv op hop⟩
  intro t ht
  constructor
  · intro hh
    exact (hinv.flag t ht).mpr hh.1
  · intro hen
    exact ⟨(hinv.flag t ht).mp hen, hinv.held t ht hen⟩


theorem tick_iff_enabled_witness :
    run_granted Timers.init
        [.create 100 7 0 .TIMER_ENABLED 5, .create 50 8 0 .TIMER_DISABLED 0,
          .set_state 2 .TIMER_ENABLED 6, .set_interval 1 30, .free 1] ∧
      (has_tick
          (timer_run Timers.init
            [.create 100 7 0 .TIMER_ENABLED 5, .create 50 8 0 .TIMER_DISABLED 0,
              .set_state 2 .TIMER_ENABLED 6, .set_interval 1 30, .free 1]).2
          ⟨1, 2, 6, .TIMER_ENABLED, 50, 8, 0⟩ ↔
        TimerInfo.state ⟨1, 2, 6, .TIMER_ENABLED, 50, 8, 0⟩ = .TIMER_ENABLED) :=
  ⟨by decide,
    (tick_iff_enabled
      [.create 100 7 0 .TIMER_ENABLED 5, .create 50 8 0 .TIMER_DISABLED 0,
        .set_state 2 .TIMER_ENABLED 6, .set_interval 1 30, .free 1] (by decide)).1
      ⟨1, 2, 6, .TIMER_ENABLED, 50, 8, 0⟩ (by decide)⟩


/-- C17: for a live timer handle, `timer_set_state(h, s)` on a timer that is already in
state `s` leaves the registry and the host as they are (no host timer is added or removed,
the `sdl_id` stays), and `timer_set_state(h, s)` made twice gives the state one call gives,
whatever the host answers. -/
theorem timer_set_state_idempotent (s : Timers) (id : Int) (st : TimerState) (a a1 : Nat)
    (i : Nat) (t : TimerInfo) (hlive : _timer_get s.l_timers id = some (i, t)) :
    (t.state = st → timer_set_state s id st a = s) ∧
      timer_set_state (timer_set_state s id st a) id st a1 = timer_set_state s id st a := by
  obtain ⟨l, n, b, tk⟩ := s
  rw [timer_get_eq] at hlive
  obtain ⟨l1, l2, hl, _, ht, h1⟩ := timer_get_link_some hlive
  simp only at hl
  subst hl
  rw [timer_set_state_found n b tk st a h1 ht]
  constructor
  · intro hs
    rw [timer_set_state_same tk a hs]
  · have hr := timer_set_state_state t tk st a
    rw [timer_set_state_found n b _ st a1 h1 (hr.2.1.trans ht), timer_set_state_same _ a1 hr.1]

theorem timer_set_state_idempotent_witness :
    timer_set_state
        (timer_set_state ⟨[⟨0, 1, 0, .TIMER_DISABLED, 100, 7, 0⟩], 2, 1, []⟩ 1 .TIMER_ENABLED 5)
        1 .TIMER_ENABLED 9 =
      timer_set_state ⟨[⟨0, 1, 0, .TIMER_DISABLED, 100, 7, 0⟩], 2, 1, []⟩ 1 .TIMER_ENABLED 5 :=
  (timer_set_state_idempotent ⟨[⟨0, 1, 0, .TIMER_DISABLED, 100, 7, 0⟩], 2, 1, []⟩ 1
    .TIMER_ENABLED 5 9 0 ⟨0, 1, 0, .TIMER_DISABLED, 100, 7, 0⟩ rfl).2


/-! ## The handles of the timers -/

theorem TWF_init : TWF 0 Timers.init := by
  refine ⟨by decide, ?_, ?_, ?_, ?_⟩ <;> simp [Timers.init]

theorem TWF_same {n : Nat} {l1 l2 : List TimerInfo} {t t1 : TimerInfo} {nx : Int} {b : Nat}
    {tk tk1 : List Tick} (h : TWF n ⟨l1 ++ t :: l2, nx, b, tk⟩) (hi : t1.id = t.id)
    (ha : t1.addr = t.addr) : TWF n ⟨l1 ++ t1 :: l2, nx, b, tk1⟩ := by
  obtain ⟨hnext, hrange, hnd, hlt, hand⟩ := h
  refine ⟨hnext, ?_, ?_, ?_, ?_⟩
  · intro x hx
    simp only [List.mem_append, List.mem_cons] at hx
    rcases hx with hx | rfl | hx
    · exact hrange x (by simp [hx])
    · rw [hi]
      exact hrange t (by simp)
    · exact hrange x (by simp [hx])
  · simpa [hi] using hnd
  · intro x hx
    simp only [List.mem_append, List.mem_cons] at hx
    rcases hx with hx | rfl | hx
    · exact hlt x (by simp [hx])
    · rw [ha]
      exact hlt t (by simp)
    · exact hlt x (by simp [hx])
  · simpa [ha] using hand

theorem TWF_delete {n : Nat} {l1 l2 : List TimerInfo} {t : TimerInfo} {nx : Int} {b : Nat}
    {tk tk1 : List Tick} (h : TWF n ⟨l1 ++ t :: l2, nx, b, tk⟩) :
    TWF n ⟨l1 ++ l2, nx, b, tk1⟩ := by
  obtain ⟨hnext, hrange, hnd, hlt, hand⟩ := h
  have hsub : (l1 ++ l2).Sublist (l1 ++ t :: l2) :=
    List.Sublist.append (List.Sublist.refl l1) (List.sublist_cons_self t l2)
  refine ⟨hnext, ?_, hnd.sublist (hsub.map _), ?_, hand.sublist (hsub.map _)⟩
  · intro x hx
    exact hrange x (hsub.subset hx)
  · intro x hx
    exact hlt x (hsub.subset hx)

theorem TWF_create {n : Nat} {s : Timers} {t : TimerInfo} (tk1 : List Tick) (h : TWF n s)
    (hn : n + 1 < 2147483648) (hi : t.id = s.next_id) (ha : t.addr = s.brk) :
    s.next_id = (n : Int) + 1 ∧
      TWF (n + 1) ⟨s.l_timers ++ [t], wrap32 (s.next_id + 1), s.brk + 1, tk1⟩ := by
  obtain ⟨hnext, hrange, hnd, hlt, hand⟩ := h
  have hnx : s.next_id = (n : Int) + 1 := by
    rw [hnext]
    exact wrap32_of_range (by unfold IsInt32; omega)
  refine ⟨hnx, ?_, ?_, ?_, ?_, ?_⟩
  · simp only [hnx]
    push_cast
    rfl
  · intro x hx
    simp only [List.mem_append, List.mem_singleton] at hx
    rcases hx with hx | rfl
    · have := hrange x hx
      push_cast
      omega
    · rw [hi, hnx]
      push_cast
      omega
  · simp only [List.map_append, List.map_cons, List.map_nil]
    rw [List.nodup_append]
    refine ⟨hnd, by simp, ?_⟩
    intro c hc hc2
    simp only [List.mem_singleton] at hc2
    obtain ⟨x, hx, hxc⟩ := List.mem_map.mp hc
    have := hrange x hx
    rw [hi, hnx] at hc2
    omega
  · intro x hx
    simp only [List.mem_append, List.mem_singleton] at hx
    rcases hx with hx | rfl
    · have := hlt x hx
      simp only
      omega
    · simp only [ha]
      omega
  · simp only [List.map_append, List.map_cons, List.map_nil]
    rw [List.nodup_append]
    refine ⟨hand, by simp, ?_⟩
    intro c hc hc2
    simp only [List.mem_singleton] at hc2
    obtain ⟨x, hx, hxc⟩ := List.mem_map.mp hc
    have := hlt x hx
    rw [ha] at hc2
    omega

/-- A run from a state with well-formed handles ends in one and hands out the handles
`n + 1, n + 2, ...` in call order. -/
theorem TWF_run (ops : List TimerOp) {n : Nat} {s : Timers} (h : TWF n s)
    (hn : n + creates ops < 2147483648) :
    TWF (n + creates ops) (timer_run s ops).2 ∧
      (timer_run s ops).1 =
        (List.range (creates ops)).map (fun (k : Nat) => ((n : Int) + 1 + (k : Int))) := by
  induction ops generalizing n s with
  | nil => exact ⟨by simpa [creates, timer_run] using h, by simp [creates, timer_run]⟩
  | cons op rest ih =>
    cases op with
    | create iv hd u st a =>
      have hc : creates (TimerOp.create iv hd u st a :: rest) = creates rest + 1 := by
        simp [creates]
      rw [hc] at hn ⊢
      have hstep := timer_create_eq s iv hd u st a
      have hr := timer_set_state_state ⟨s.brk, s.next_id, 0, TIMER_DISABLED, iv, hd, u⟩
        s.ticks st a
      obtain ⟨hid, hw1⟩ := TWF_create
        (_timer_set_state ⟨s.brk, s.next_id, 0, TIMER_DISABLED, iv, hd, u⟩ s.ticks st a).2 h
        (by omega) hr.2.1 hr.2.2.1
      obtain ⟨h2, h3⟩ := ih hw1 (by omega)
      have e1 : n + (creates rest + 1) = n + 1 + creates rest := by omega
      simp only [timer_run, timer_step, hstep]
      refine ⟨by rw [e1]; exact h2, ?_⟩
      rw [h3, hid]
      exact range_handles n (creates rest)
    | set_state id st a =>
      have hc : creates (TimerOp.set_state id st a :: rest) = creates rest := by simp [creates]
      rw [hc] at hn ⊢
      have hw1 : TWF n (timer_set_state s id st a) := by
        obtain ⟨l, nx, b, tk⟩ := s
        rcases timer_lookup_cases l id with ⟨hnone, _⟩ | ⟨l1, t, l2, hl, ht, h1, _⟩
        · rw [timer_set_state_unknown st a hnone]
          exact h
        · subst hl
          rw [timer_set_state_found nx b tk st a h1 ht]
          have hr := timer_set_state_state t tk st a
          exact TWF_same h hr.2.1 hr.2.2.1
      simpa [timer_run, timer_step] using ih hw1 hn
    | set_interval id iv =>
      have hc : creates (TimerOp.set_interval id iv :: rest) = creates rest := by simp [creates]
      rw [hc] at hn ⊢
      have hw1 : TWF n (timer_set_interval s id iv) := by
        obtain ⟨l, nx, b, tk⟩ := s
        rcases timer_lookup_cases l id with ⟨hnone, _⟩ | ⟨l1, t, l2, hl, ht, h1, _⟩
        · rw [timer_set_interval_unknown iv hnone]
          exact h
        · subst hl
          rw [timer_set_interval_found nx b tk iv h1 ht]
          exact TWF_same h rfl rfl
      simpa [timer_run, timer_step] using ih hw1 hn
    | set_user_data id u =>
      have hc : creates (TimerOp.set_user_data id u :: rest) = creates rest := by
        simp [creates]
      rw [hc] at hn ⊢
      have hw1 : TWF n (timer_set_user_data s id u) := by
        obtain ⟨l, nx, b, tk⟩ := s
        rcases timer_lookup_cases l id with ⟨hnone, _⟩ | ⟨l1, t, l2, hl, ht, h1, _⟩
        · rw [timer_set_user_data_unknown u hnone]
          exact h
        · subst hl
          rw [timer_set_user_data_found nx b tk u h1 ht]
          exact TWF_same h rfl rfl
      simpa [timer_run, timer_step] using ih hw1 hn
    | free id =>
      have hc : creates (TimerOp.free id :: rest) = creates rest := by simp [creates]
      rw [hc] at hn ⊢
      have hw1 : TWF n (timer_free s id) := by
        obtain ⟨l, nx, b, tk⟩ := s
        rcases timer_lookup_cases l id with ⟨hnone, _⟩ | ⟨l1, t, l2, hl, ht, h1, _⟩
        · rw [timer_free_unknown hnone]
          exact h
        · subst hl
          rw [timer_free_found nx b tk h1 ht]
          exact TWF_delete h
      simpa [timer_run, timer_step] using ih hw1 hn


/-- What `timer_create(interval, handler, user_data, state)` does when the host grants the
timer it asks for: it appends one record with the given interval, handler and user data and leaves the existing records as they are; the
record ends in the state asked for, and a host timer with that interval (as the `Uint32` the
host is given, the interval itself when it is not negative) and the record as parameter is
started exactly when that state is `TIMER_ENABLED` (the host granting it). The handle
returned is `next_id`: in a run from program start with fewer than 2^31 calls of
`timer_create` the k-th call returns k, so the handles are pairwise distinct, none is 0, and
the next handle is the handle of no timer in the registry. -/
theorem timer_create_appends_record (s : Timers) (iv : Int) (hd u : Nat) (st : TimerState)
    (a : Nat) (ops : List TimerOp) (hg : st = TIMER_ENABLED → host_grants s.ticks a)
    (hn : creates ops < 2147483648) :
    (timer_create s iv hd u st a).1 = s.next_id ∧
      (timer_create s iv hd u st a).2.l_timers =
        s.l_timers ++ [⟨s.brk, s.next_id, if st = TIMER_ENABLED then a else 0, st, iv, hd, u⟩] ∧
      (timer_create s iv hd u st a).2.ticks =
        (if st = TIMER_ENABLED then s.ticks ++ [⟨a, to_uint32 iv, s.brk⟩] else s.ticks) ∧
      (0 ≤ iv → IsInt32 iv → (to_uint32 iv : Int) = iv) ∧
      (timer_run Timers.init ops).1 =
        (List.range (creates ops)).map (fun (k : Nat) => (k : Int) + 1) ∧
      (timer_run Timers.init ops).1.Nodup ∧
      (0 : Int) ∉ (timer_run Timers.init ops).1 ∧
      ∀ t ∈ (timer_run Timers.init ops).2.l_timers,
        t.id ≠ (timer_run Timers.init ops).2.next_id := by
  obtain ⟨hw, hh⟩ := TWF_run ops TWF_init (by simpa using hn)
  have hh1 : (timer_run Timers.init ops).1 =
      (List.range (creates ops)).map (fun (k : Nat) => (k : Int) + 1) := by
    rw [hh]
    apply List.map_congr_left
    intro k _
    simp only [Nat.cast_zero, zero_add]
    ring
  refine ⟨?_, ?_, ?_, ?_, hh1, ?_, ?_, ?_⟩
  · rw [timer_create_eq]
  · rw [timer_create_eq]
    cases st with
    | TIMER_DISABLED =>
      simp only [timer_set_state_same s.ticks a rfl]
      rfl
    | TIMER_ENABLED =>
      have he := timer_set_state_enable (t := ⟨s.brk, s.next_id, 0, TIMER_DISABLED, iv, hd, u⟩)
        s.ticks rfl (hg rfl).1
      rw [he]
      simp
  · rw [timer_create_eq]
    cases st with
    | TIMER_DISABLED =>
      simp only [timer_set_state_same s.ticks a rfl]
      rfl
    | TIMER_ENABLED =>
      have he := timer_set_state_enable (t := ⟨s.brk, s.next_id, 0, TIMER_DISABLED, iv, hd, u⟩)
        s.ticks rfl (hg rfl).1
      rw [he]
      simp
  · intro h0 hr
    unfold IsInt32 at hr
    unfold to_uint32
    omega
  · rw [hh1]
    refine List.Nodup.map ?_ (List.nodup_range _)
    intro x y hxy
    simpa using hxy
  · rw [hh1]
    intro h0
    obtain ⟨k, _, hk⟩ := List.mem_map.mp h0
    omega
  · intro t ht
    have h1 := hw.ids_range t ht
    have h2 := hw.next
    rw [h2]
    simp only [Nat.cast_zero, zero_add, Nat.cast_add] at h1 ⊢
    unfold wrap32
    omega

theorem timer_create_appends_record_witness :
    (timer_create Timers.init 100 7 3 .TIMER_ENABLED 5).2.ticks =
      (if TimerState.TIMER_ENABLED = .TIMER_ENABLED then
        Timers.init.ticks ++ [⟨5, to_uint32 100, Timers.init.brk⟩] else Timers.init.ticks) :=
  (timer_create_appends_record Timers.init 100 7 3 .TIMER_ENABLED 5
    [.create 100 7 0 .TIMER_ENABLED 5, .free 1, .create 50 8 0 .TIMER_DISABLED 0]
    (by decide) (by decide)).2.2.1


theorem timer_run_single (s : Timers) (op : TimerOp) :
    (timer_run s [op]).2 = (timer_step s op).2 := by
  rw [timer_run_cons]
  rfl

theorem TWF_step {n : Nat} {s : Timers} (h : TWF n s) (op : TimerOp)
    (hn : n + creates [op] < 2147483648) : TWF (n + creates [op]) (timer_step s op).2 := by
  have := (TWF_run [op] h hn).1
  rwa [timer_run_single] at this

/-- The handles of the timers after a call: those before it, and the next handle. -/
theorem timer_step_ids (s : Timers) (op : TimerOp) :
    ∀ x ∈ (timer_step s op).2.l_timers, (∃ y ∈ s.l_timers, y.id = x.id) ∨ x.id = s.next_id := by
  obtain ⟨l, n, b, tk⟩ := s
  cases op with
  | create iv hd u st a =>
    intro x hx
    simp only [timer_step, timer_create_eq, List.mem_append, List.mem_singleton] at hx
    rcases hx with hx | rfl
    · exact Or.inl ⟨x, hx, rfl⟩
    · exact Or.inr (timer_set_state_state _ tk st a).2.1
  | set_state id st a =>
    intro x hx
    simp only [timer_step] at hx
    rcases timer_lookup_cases l id with ⟨hnone, _⟩ | ⟨l1, t, l2, hl, ht, h1, _⟩
    · rw [timer_set_state_unknown st a hnone] at hx
      exact Or.inl ⟨x, hx, rfl⟩
    · subst hl
      rw [timer_set_state_found n b tk st a h1 ht] at hx
      simp only [List.mem_append, List.mem_cons] at hx
      rcases hx with hx | rfl | hx
      · exact Or.inl ⟨x, by simp [hx], rfl⟩
      · exact Or.inl ⟨t, by simp, (timer_set_state_state t tk st a).2.1.symm⟩
      · exact Or.inl ⟨x, by simp [hx], rfl⟩
  | set_interval id iv =>
    intro x hx
    simp only [timer_step] at hx
    rcases timer_lookup_cases l id with ⟨hnone, _⟩ | ⟨l1, t, l2, hl, ht, h1, _⟩
    · rw [timer_set_interval_unknown iv hnone] at hx
      exact Or.inl ⟨x, hx, rfl⟩
    · subst hl
      rw [timer_set_interval_found n b tk iv h1 ht] at hx
      simp only [List.mem_append, List.mem_cons] at hx
      rcases hx with hx | rfl | hx
      · exact Or.inl ⟨x, by simp [hx], rfl⟩
      · exact Or.inl ⟨t, by simp, rfl⟩
      · exact Or.inl ⟨x, by simp [hx], rfl⟩
  | set_user_data id u =>
    intro x hx
    simp only [timer_step] at hx
    rcases timer_lookup_cases l id with ⟨hnone, _⟩ | ⟨l1, t, l2, hl, ht, h1, _⟩
    · rw [timer_set_user_data_unknown u hnone] at hx
      exact Or.inl ⟨x, hx, rfl⟩
    · subst hl
      rw [timer_set_user_data_found n b tk u h1 ht] at hx
      simp only [List.mem_append, List.mem_cons] at hx
      rcases hx with hx | rfl | hx
      · exact Or.inl ⟨x, by simp [hx], rfl⟩
      · exact Or.inl ⟨t, by simp, rfl⟩
      · exact Or.inl ⟨x, by simp [hx], rfl⟩
  | free id =>
    intro x hx
    simp only [timer_step] at hx
    rcases timer_lookup_cases l id with ⟨hnone, _⟩ | ⟨l1, t, l2, hl, ht, h1, _⟩
    · rw [timer_free_unknown hnone] at hx
      exact Or.inl ⟨x, hx, rfl⟩
    · subst hl
      rw [timer_free_found n b tk h1 ht] at hx
      simp only [List.mem_append] at hx
      rcases hx with hx | hx
      · exact Or.inl ⟨x, by simp [hx], rfl⟩
      · exact Or.inl ⟨x, by simp [hx], rfl⟩

/-- A handle handed out before and not in use stays unknown for the rest of the run. -/
theorem unknown_run (ops : List TimerOp) {n : Nat} {s : Timers} {id : Int} (h : TWF n s)
    (h1 : 1 ≤ id) (hid : id ≤ (n : Int)) (hun : ∀ x ∈ s.l_timers, x.id ≠ id)
    (hn : n + creates ops < 2147483648) : ∀ x ∈ (timer_run s ops).2.l_timers, x.id ≠ id := by
  induction ops generalizing n s with
  | nil => simpa [timer_run] using hun
  | cons op rest ih =>
    have hc : creates (op :: rest) = creates [op] + creates rest := by
      cases op <;> simp [creates]
      omega
    rw [hc] at hn
    rw [timer_run_cons]
    refine ih (TWF_step h op (by omega)) (by push_cast; omega) ?_ (by omega)
    intro x hx
    rcases timer_step_ids s op x hx with ⟨y, hy, hyx⟩ | hx1
    · rw [← hyx]
      exact hun y hy
    · rw [hx1, h.next]
      unfold wrap32
      omega


/-- C19: in a state reached from program start (the host granting each timer asked for,
fewer than 2^31 calls of `timer_create` in all), `timer_free(h)` for a live handle `h` takes
exactly the record of `h` out of the registry, the other records staying as they were and in
their order; it removes the host timer of `h` when the timer was enabled and leaves the host
as it is otherwise, and the host timers of the other timers keep running. From then on no
timer has the handle `h`, whatever calls follow, so `timer_set_state`,
`timer_set_interval`, `timer_set_user_data` and `timer_free` on `h` change nothing. -/
theorem timer_free_removes_exactly (ops ops2 : List TimerOp) (s : Timers) (id : Int) (i : Nat)
    (t : TimerInfo) (hs : s = (timer_run Timers.init ops).2)
    (hg : run_granted Timers.init ops) (hn : creates ops + creates ops2 < 2147483648)
    (hlive : _timer_get_link s.l_timers id = some (i, t)) :
    (∃ l1 l2, s.l_timers = l1 ++ t :: l2 ∧ l1.length = i ∧
      (timer_free s id).l_timers = l1 ++ l2) ∧
    (timer_free s id).ticks =
      (if t.state = TIMER_ENABLED then SDL_RemoveTimer s.ticks t.sdl_id else s.ticks) ∧
    (t.state = TIMER_ENABLED → (timer_free s id).ticks.length + 1 = s.ticks.length ∧
      ∀ k ∈ (timer_free s id).ticks, k.sdl_id ≠ t.sdl_id) ∧
    (∀ x ∈ (timer_free s id).l_timers, x.state = TIMER_ENABLED →
      ∀ k ∈ s.ticks, k.sdl_id = x.sdl_id → k ∈ (timer_free s id).ticks) ∧
    (timer_free s id).next_id = s.next_id ∧
    (∀ x ∈ (timer_run (timer_free s id) ops2).2.l_timers, x.id ≠ id) ∧
    (∀ st a, timer_set_state (timer_run (timer_free s id) ops2).2 id st a =
      (timer_run (timer_free s id) ops2).2) ∧
    (∀ iv, timer_set_interval (timer_run (timer_free s id) ops2).2 id iv =
      (timer_run (timer_free s id) ops2).2) ∧
    (∀ u, timer_set_user_data (timer_run (timer_free s id) ops2).2 id u =
      (timer_run (timer_free s id) ops2).2) ∧
    timer_free (timer_run (timer_free s id) ops2).2 id =
      (timer_run (timer_free s id) ops2).2 := by
  have hinv : TInv s := hs ▸ TInv_run TInv_init ops hg
  have hwf : TWF (0 + creates ops) s := hs ▸ (TWF_run ops TWF_init (by omega)).1
  clear hs hg
  obtain ⟨l, n, b, tk⟩ := s
  obtain ⟨l1, l2, hl, hlen, ht, h1⟩ := timer_get_link_some hlive
  simp only at hl
  subst hl
  have hfree : timer_free ⟨l1 ++ t :: l2, n, b, tk⟩ id =
      ⟨l1 ++ l2, n, b, (_timer_set_state t tk TIMER_DISABLED 0).2⟩ :=
    timer_free_found n b tk h1 ht
  have hrange := hwf.ids_range t (by simp)
  have hun : ∀ x ∈ l1 ++ l2, x.id ≠ id := by
    intro x hx
    rcases List.mem_append.mp hx with hx | hx
    · exact h1 x hx
    · have hnd := hwf.ids_nodup
      simp only [List.map_append, List.map_cons] at hnd
      have := (List.nodup_append.mp hnd).2.1
      rw [List.nodup_cons] at this
      intro hxi
      exact this.1 (List.mem_map.mpr ⟨x, hx, by rw [hxi, ht]⟩)
  have hwf1 : TWF (0 + creates ops) (timer_free ⟨l1 ++ t :: l2, n, b, tk⟩ id) := by
    rw [hfree]
    exact TWF_delete hwf
  have hlater : ∀ x ∈ (timer_run (timer_free ⟨l1 ++ t :: l2, n, b, tk⟩ id) ops2).2.l_timers,
      x.id ≠ id := by
    refine unknown_run ops2 hwf1 (by rw [← ht]; exact hrange.1) (by rw [← ht]; exact hrange.2)
      ?_ (by omega)
    rw [hfree]
    exact hun
  have hnone := timer_get_link_none.mpr hlater
  have hticks : (timer_free ⟨l1 ++ t :: l2, n, b, tk⟩ id).ticks =
      (if t.state = TIMER_ENABLED then SDL_RemoveTimer tk t.sdl_id else tk) := by
    rw [hfree]
    cases hst : t.state with
    | TIMER_DISABLED => simp [timer_set_state_same tk 0 hst]
    | TIMER_ENABLED => simp [timer_set_state_disable tk 0 hst]
  obtain ⟨hflag, hheld, hown, hnd, hpw⟩ := hinv
  simp only [List.pairwise_append, List.pairwise_cons] at hpw
  obtain ⟨p1, ⟨p2, p3⟩, p4⟩ := hpw
  refine ⟨⟨l1, l2, rfl, hlen, by rw [hfree]⟩, hticks, ?_, ?_, by rw [hfree],
    hlater, fun st a => timer_set_state_unknown st a hnone,
    fun iv => timer_set_interval_unknown iv hnone,
    fun u => timer_set_user_data_unknown u hnone, timer_free_unknown hnone⟩
  · intro hen
    rw [hticks, if_pos hen]
    obtain ⟨k, hk, hk1, _⟩ := hheld t (by simp) hen
    have := SDL_RemoveTimer_length hnd hk
    rw [hk1] at this
    refine ⟨this, ?_⟩
    intro k1 hk1
    simp only [SDL_RemoveTimer, List.mem_filter, decide_eq_true_eq] at hk1
    exact hk1.2
  · intro x hx hen k hk hkx
    rw [hticks]
    rw [hfree] at hx
    split
    · rename_i hten
      simp only [SDL_RemoveTimer, List.mem_filter, decide_eq_true_eq]
      refine ⟨hk, ?_⟩
      intro hkt
      simp only at hx
      rcases List.mem_append.mp hx with hx | hx
      · have h0 := p4 x hx t (by simp) (by rw [← hkx, hkt])
        exact (hflag x (by simp [hx])).mp hen h0
      · have h0 := p2 x hx (by rw [← hkx, hkt])
        exact (hflag t (by simp)).mp hten h0
    · exact hk

theorem timer_free_removes_exactly_witness :
    (timer_free
        (timer_run Timers.init
          [.create 100 7 0 .TIMER_ENABLED 5, .create 50 8 0 .TIMER_ENABLED 6]).2 1).ticks =
      (if TimerInfo.state ⟨0, 1, 5, .TIMER_ENABLED, 100, 7, 0⟩ = .TIMER_ENABLED then
        SDL_RemoveTimer
          (timer_run Timers.init
            [.create 100 7 0 .TIMER_ENABLED 5, .create 50 8 0 .TIMER_ENABLED 6]).2.ticks
          (TimerInfo.sdl_id ⟨0, 1, 5, .TIMER_ENABLED, 100, 7, 0⟩)
      else
        (timer_run Timers.init
          [.create 100 7 0 .TIMER_ENABLED 5, .create 50 8 0 .TIMER_ENABLED 6]).2.ticks) :=
  (timer_free_removes_exactly
    [.create 100 7 0 .TIMER_ENABLED 5, .create 50 8 0 .TIMER_ENABLED 6]
    [.create 10 9 0 .TIMER_DISABLED 0, .set_state 1 .TIMER_ENABLED 7]
    (timer_run Timers.init
      [.create 100 7 0 .TIMER_ENABLED 5, .create 50 8 0 .TIMER_ENABLED 6]).2
    1 0 ⟨0, 1, 5, .TIMER_ENABLED, 100, 7, 0⟩ rfl (by decide) (by decide) (by decide)).2.1


/-- C20: in every state of the registry, on every handle `h0` that no timer has,
`timer_set_state`, `timer_set_interval`, `timer_set_user_data` and `timer_free` leave the
whole state (the registry, every record, the host timers) as it is; and on every live
handle `h`, `timer_set_interval` and `timer_set_user_data` write that one field of the
record of `h`: the other fields of the record, the other records, their order, `next_id`
and the host timers stay as they are. -/
theorem unknown_handle_noop_setters_frame (s : Timers) (st : TimerState) (a : Nat) (iv : Int)
    (u : Nat) :
    (∀ h0 : Int, (∀ x ∈ s.l_timers, x.id ≠ h0) →
      timer_set_state s h0 st a = s ∧ timer_set_interval s h0 iv = s ∧
        timer_set_user_data s h0 u = s ∧ timer_free s h0 = s) ∧
    (∀ (h : Int) (i : Nat) (t : TimerInfo), _timer_get s.l_timers h = some (i, t) →
      ∃ l1 l2, s.l_timers = l1 ++ t :: l2 ∧ l1.length = i ∧ (∀ x ∈ l1, x.id ≠ h) ∧ t.id = h ∧
        timer_set_interval s h iv =
          ⟨l1 ++ ⟨t.addr, t.id, t.sdl_id, t.state, iv, t.handler, t.user_data⟩ :: l2,
            s.next_id, s.brk, s.ticks⟩ ∧
        timer_set_user_data s h u =
          ⟨l1 ++ ⟨t.addr, t.id, t.sdl_id, t.state, t.interval, t.handler, u⟩ :: l2,
            s.next_id, s.brk, s.ticks⟩) := by
  refine ⟨?_, ?_⟩
  · intro h0 hunknown
    have hnone := timer_get_link_none.mpr hunknown
    exact ⟨timer_set_state_unknown st a hnone, timer_set_interval_unknown iv hnone,
      timer_set_user_data_unknown u hnone, timer_free_unknown hnone⟩
  · intro h i t hlive
    obtain ⟨l, n, b, tk⟩ := s
    rw [timer_get_eq] at hlive
    obtain ⟨l1, l2, hl, hlen, ht, h1⟩ := timer_get_link_some hlive
    simp only at hl
    subst hl
    exact ⟨l1, l2, rfl, hlen, h1, ht, timer_set_interval_found n b tk iv h1 ht,
      timer_set_user_data_found n b tk u h1 ht⟩

theorem unknown_handle_noop_setters_frame_witness :
    timer_free ⟨[⟨0, 1, 5, .TIMER_ENABLED, 100, 7, 0⟩, ⟨1, 2, 0, .TIMER_DISABLED, 50, 8, 0⟩], 3, 2,
        [⟨5, 100, 0⟩]⟩ 4 =
      ⟨[⟨0, 1, 5, .TIMER_ENABLED, 100, 7, 0⟩, ⟨1, 2, 0, .TIMER_DISABLED, 50, 8, 0⟩], 3, 2,
        [⟨5, 100, 0⟩]⟩ ∧
    timer_set_interval ⟨[⟨0, 1, 5, .TIMER_ENABLED, 100, 7, 0⟩,
        ⟨1, 2, 0, .TIMER_DISABLED, 50, 8, 0⟩], 3, 2, [⟨5, 100, 0⟩]⟩ 2 30 =
      ⟨[⟨0, 1, 5, .TIMER_ENABLED, 100, 7, 0⟩, ⟨1, 2, 0, .TIMER_DISABLED, 30, 8, 0⟩], 3, 2,
        [⟨5, 100, 0⟩]⟩ :=
  ⟨((unknown_handle_noop_setters_frame
      ⟨[⟨0, 1, 5, .TIMER_ENABLED, 100, 7, 0⟩, ⟨1, 2, 0, .TIMER_DISABLED, 50, 8, 0⟩], 3, 2,
        [⟨5, 100, 0⟩]⟩
      .TIMER_ENABLED 9 30 77).1 4 (by decide)).2.2.2,
    by decide⟩


/-- C16 fails in the code when the host refuses a timer: `SDL_AddTimer` answers NULL, the
answer is not checked, and `_timer_set_state` marks the timer `TIMER_ENABLED` all the same.
After `timer_create(100, h, u, TIMER_ENABLED)` from program start, and likewise after
`timer_create(100, h, u, TIMER_DISABLED)` followed by `timer_set_state(1, TIMER_ENABLED)`,
timer 1 is in state `TIMER_ENABLED` with `sdl_id` NULL while the host runs no timer: the
timer is enabled and has no tick. -/
theorem enabled_timer_without_tick :
    (timer_run Timers.init [.create 100 7 0 .TIMER_ENABLED 0]).2 =
      ⟨[⟨0, 1, 0, .TIMER_ENABLED, 100, 7, 0⟩], 2, 1, []⟩ ∧
    (timer_run Timers.init
        [.create 100 7 0 .TIMER_DISABLED 0, .set_state 1 .TIMER_ENABLED 0]).2 =
      ⟨[⟨0, 1, 0, .TIMER_ENABLED, 100, 7, 0⟩], 2, 1, []⟩ ∧
    TimerInfo.state ⟨0, 1, 0, .TIMER_ENABLED, 100, 7, 0⟩ = .TIMER_ENABLED ∧
    ¬ has_tick (timer_run Timers.init [.create 100 7 0 .TIMER_ENABLED 0]).2
      ⟨0, 1, 0, .TIMER_ENABLED, 100, 7, 0⟩ :=
  ⟨by decide, by decide, rfl, fun h => h.1 rfl⟩

/-- C18 fails in the code when the host refuses the timer: on the fresh registry
`timer_create(100, h, u, TIMER_ENABLED)`, with `SDL_AddTimer` answering NULL, returns the
handle 1 and appends the record with the interval, handler and user data given, in state
`TIMER_ENABLED`, but starts no tick: the host runs no timer afterwards and the `sdl_id` of
the record is NULL. -/
theorem timer_create_enabled_starts_no_tick :
    timer_create Timers.init 100 7 0 .TIMER_ENABLED 0 =
      (1, ⟨[⟨0, 1, 0, .TIMER_ENABLED, 100, 7, 0⟩], 2, 1, []⟩) ∧
    (timer_create Timers.init 100 7 0 .TIMER_ENABLED 0).2.ticks = [] := by
  decide


/-! ## From the tick to the timer handler -/

theorem timer_at_append {l1 l2 : List TimerInfo} {t : TimerInfo} {p : Nat}
    (h1 : ∀ x ∈ l1, x.addr ≠ p) (ht : t.addr = p) :
    timer_at (l1 ++ t :: l2) p = some t := by
  induction l1 with
  | nil => simp [timer_at, ht]
  | cons y ys ih =>
    have hy : y.addr ≠ p := h1 y (by simp)
    have := ih (fun w hw => h1 w (by simp [hw]))
    simp [timer_at, hy, this]

theorem timer_at_none {l : List TimerInfo} {p : Nat} :
    timer_at l p = none ↔ ∀ x ∈ l, x.addr ≠ p := by
  induction l with
  | nil => simp [timer_at]
  | cons y ys ih =>
    unfold timer_at
    by_cases hy : y.addr = p
    · simp [hy]
    · simp [hy, ih]

theorem timer_at_some {l : List TimerInfo} {p : Nat} {t : TimerInfo}
    (h : timer_at l p = some t) : t ∈ l ∧ t.addr = p := by
  induction l with
  | nil => simp [timer_at] at h
  | cons y ys ih =>
    unfold timer_at at h
    by_cases hy : y.addr = p
    · simp only [hy, if_true, Option.some.injEq] at h
      subst h
      exact ⟨by simp, hy⟩
    · simp only [hy, if_false] at h
      exact ⟨by simp [(ih h).1], (ih h).2⟩

/-- In a state with well-formed handles no record before the one found has its address. -/
theorem TWF_addr_first {n : Nat} {l1 l2 : List TimerInfo} {t : TimerInfo} {nx : Int} {b : Nat}
    {tk : List Tick} (h : TWF n ⟨l1 ++ t :: l2, nx, b, tk⟩) : ∀ x ∈ l1, x.addr ≠ t.addr := by
  have hnd := h.addrs_nodup
  simp only [List.map_append, List.map_cons] at hnd
  rw [List.nodup_append] at hnd
  intro x hx hxt
  exact hnd.2.2 (List.mem_map.mpr ⟨x, hx, rfl⟩) (by simp [hxt])

/-- The pointer to the record of a live handle points at that record. -/
theorem TWF_timer_at {n : Nat} {s : Timers} (h : TWF n s) {id : Int} {i : Nat} {t : TimerInfo}
    (hlive : _timer_get_link s.l_timers id = some (i, t)) :
    timer_at s.l_timers t.addr = some t := by
  obtain ⟨l, nx, b, tk⟩ := s
  obtain ⟨l1, l2, hl, _, _, _⟩ := timer_get_link_some hlive
  simp only at hl
  subst hl
  exact timer_at_append (TWF_addr_first h) rfl

/-- C21, as the code has it: the notification carries the address of the record, and
`_timer_evt_sdl_user` neither looks a handle up nor reads the state. In every state reached
from program start (fewer than 2^31 calls of `timer_create`) a notification with code 1 for
a timer of the registry makes exactly one call, of the handler of that timer with its user
data, also when the timer has been disabled by `timer_set_state` since the tick. -/
theorem notification_for_disabled_timer_calls (ops : List TimerOp) (s : Timers) (id : Int)
    (i : Nat) (t : TimerInfo) (a : Nat) (ty : Int) (d2 u : Nat)
    (hs : s = (timer_run Timers.init ops).2) (hn : creates ops < 2147483648)
    (hlive : _timer_get_link s.l_timers id = some (i, t)) :
    _timer_evt_sdl_user s ⟨ty, 1, t.addr, d2⟩ u = some [⟨t.handler, t.user_data⟩] ∧
      (state_of (timer_set_state s id .TIMER_DISABLED a) id = some .TIMER_DISABLED ∧
        _timer_evt_sdl_user (timer_set_state s id .TIMER_DISABLED a) ⟨ty, 1, t.addr, d2⟩ u =
          some [⟨t.handler, t.user_data⟩]) := by
  have hwf : TWF (0 + creates ops) s := hs ▸ (TWF_run ops TWF_init (by omega)).1
  clear hs
  constructor
  · simp only [_timer_evt_sdl_user, if_true, TWF_timer_at hwf hlive]
  · obtain ⟨l, nx, b, tk⟩ := s
    obtain ⟨l1, l2, hl, _, ht, h1⟩ := timer_get_link_some hlive
    simp only at hl
    subst hl
    have hr := timer_set_state_state t tk .TIMER_DISABLED a
    rw [timer_set_state_found nx b tk .TIMER_DISABLED a h1 ht]
    constructor
    · rw [state_of_found nx b _ h1 (hr.2.1.trans ht), hr.1]
    · have hat : timer_at (l1 ++ (_timer_set_state t tk .TIMER_DISABLED a).1 :: l2) t.addr =
          some (_timer_set_state t tk .TIMER_DISABLED a).1 :=
        timer_at_append (TWF_addr_first hwf) hr.2.2.1
      simp only [_timer_evt_sdl_user, if_true, hat, hr.2.2.2.2.1, hr.2.2.2.2.2]

theorem notification_for_disabled_timer_calls_witness :
    _timer_evt_sdl_user
        (timer_set_state (timer_run Timers.init [.create 100 7 3 .TIMER_ENABLED 5]).2 1
          .TIMER_DISABLED 0)
        ⟨SDL_USEREVENT, 1, (TimerInfo.mk 0 1 5 .TIMER_ENABLED 100 7 3).addr, 0⟩ 0 =
      some [⟨(TimerInfo.mk 0 1 5 .TIMER_ENABLED 100 7 3).handler,
        (TimerInfo.mk 0 1 5 .TIMER_ENABLED 100 7 3).user_data⟩] :=
  (notification_for_disabled_timer_calls [.create 100 7 3 .TIMER_ENABLED 5]
    (timer_run Timers.init [.create 100 7 3 .TIMER_ENABLED 5]).2 1 0
    ⟨0, 1, 5, .TIMER_ENABLED, 100, 7, 3⟩ 0 SDL_USEREVENT 0 0 rfl (by decide) (by decide)).2.2

/-- C21 as stated fails: a timer is created enabled (interval 100, handler 7, user data 3)
and its tick pushes the notification; the timer is then disabled with `timer_set_state`
before the notification is delivered. `_timer_evt_sdl_user` calls the handler 7 with 3 all
the same. When the timer is freed instead, the notification points at the freed record,
which the handler reads: no lookup finds that out. -/
theorem stale_notification_counterexample :
    (_timer_thread_swap (timer_create Timers.init 100 7 3 .TIMER_ENABLED 5).2 100 0).map
        (fun r => r.pushed) = some [⟨SDL_USEREVENT, 1, 0, 0⟩] ∧
      state_of (timer_set_state (timer_create Timers.init 100 7 3 .TIMER_ENABLED 5).2 1
        .TIMER_DISABLED 0) 1 = some .TIMER_DISABLED ∧
      _timer_evt_sdl_user
          (timer_set_state (timer_create Timers.init 100 7 3 .TIMER_ENABLED 5).2 1
            .TIMER_DISABLED 0) ⟨SDL_USEREVENT, 1, 0, 0⟩ 0 = some [⟨7, 3⟩] ∧
      _timer_evt_sdl_user (timer_free (timer_create Timers.init 100 7 3 .TIMER_ENABLED 5).2 1)
        ⟨SDL_USEREVENT, 1, 0, 0⟩ 0 = none := by
  decide


/-- C22: in every state reached from program start (fewer than 2^31 calls of
`timer_create`) and for every timer of the registry, `_timer_thread_swap` called with the
pointer to the timer gives exactly one event to `SDL_PushEvent`, of type `SDL_USEREVENT`
with code 1, `data1` the pointer to the timer and `data2` NULL; it calls no timer handler;
and it returns the interval stored in the timer (as `Uint32`: the interval itself when it
is not negative), whatever interval it was called with. After `timer_set_interval(h, v)` it
returns `v`. -/
theorem timer_thread_swap_posts_and_returns_interval (ops : List TimerOp) (s : Timers)
    (id : Int) (i : Nat) (t : TimerInfo) (interval : Nat) (v : Int)
    (hs : s = (timer_run Timers.init ops).2) (hn : creates ops < 2147483648)
    (hlive : _timer_get_link s.l_timers id = some (i, t)) :
    _timer_thread_swap s interval t.addr =
        some ⟨[⟨SDL_USEREVENT, 1, t.addr, 0⟩], [], to_uint32 t.interval⟩ ∧
      _timer_thread_swap (timer_set_interval s id v) interval t.addr =
        some ⟨[⟨SDL_USEREVENT, 1, t.addr, 0⟩], [], to_uint32 v⟩ ∧
      (0 ≤ v → IsInt32 v → (to_uint32 v : Int) = v) := by
  have hwf : TWF (0 + creates ops) s := hs ▸ (TWF_run ops TWF_init (by omega)).1
  clear hs
  refine ⟨?_, ?_, ?_⟩
  · simp only [_timer_thread_swap, TWF_timer_at hwf hlive]
  · obtain ⟨l, nx, b, tk⟩ := s
    obtain ⟨l1, l2, hl, _, ht, h1⟩ := timer_get_link_some hlive
    simp only at hl
    subst hl
    rw [timer_set_interval_found nx b tk v h1 ht]
    have hat : timer_at (l1 ++ { t with interval := v } :: l2) t.addr =
        some { t with interval := v } := timer_at_append (TWF_addr_first hwf) rfl
    simp only [_timer_thread_swap, hat]
  · intro h0 hr
    unfold IsInt32 at hr
    unfold to_uint32
    omega

theorem timer_thread_swap_posts_and_returns_interval_witness :
    _timer_thread_swap
        (timer_set_interval (timer_run Timers.init [.create 100 7 3 .TIMER_ENABLED 5]).2 1 30)
        100 (TimerInfo.mk 0 1 5 .TIMER_ENABLED 100 7 3).addr =
      some ⟨[⟨SDL_USEREVENT, 1, (TimerInfo.mk 0 1 5 .TIMER_ENABLED 100 7 3).addr, 0⟩], [],
        to_uint32 30⟩ :=
  (timer_thread_swap_posts_and_returns_interval [.create 100 7 3 .TIMER_ENABLED 5]
    (timer_run Timers.init [.create 100 7 3 .TIMER_ENABLED 5]).2 1 0
    ⟨0, 1, 5, .TIMER_ENABLED, 100, 7, 3⟩ 100 30 rfl (by decide) (by decide)).2.1


theorem raise_handlers_foreign {hs : List EventHandlerInfo} {fn : Nat} (d : Nat)
    (h : ∀ y ∈ hs, y.handler ≠ fn) : ∀ c ∈ raise_handlers hs d, c.handler ≠ fn := by
  intro c hc
  rw [raise_handlers_eq] at hc
  obtain ⟨y, hy, rfl⟩ := List.mem_map.mp hc
  exact h y (List.mem_filter.mp hy).1

theorem run_timer_handler_foreign (s : Timers) {fn : Nat} (event : SDL_UserEvent)
    {calls : List Call} (h : ∀ c ∈ calls, c.handler ≠ fn) (rest : List Call) :
    run_timer_handler s fn event (calls ++ rest) = run_timer_handler s fn event rest := by
  induction calls with
  | nil => rfl
  | cons c cs ih =>
    have hc : c.handler ≠ fn := h c (by simp)
    simp only [List.cons_append, run_timer_handler, hc, if_false]
    exact ih (fun w hw => h w (by simp [hw]))

/-- A raise of a channel that holds one enabled subscription of `_timer_evt_sdl_user` runs
that function once. -/
theorem run_timer_handler_one (s : Timers) {fn : Nat} (event : SDL_UserEvent) (d : Nat)
    {h1 h2 : List EventHandlerInfo} {x : EventHandlerInfo} (hx : x.handler = fn)
    (hen : x.state = .EVENT_HANDLER_ENABLED) (hother : ∀ y ∈ h1 ++ h2, y.handler ≠ fn) :
    run_timer_handler s fn event (raise_handlers (h1 ++ x :: h2) d) =
      _timer_evt_sdl_user s event x.user_data := by
  have f1 := raise_handlers_foreign d (fun y hy => hother y (List.mem_append_left _ hy))
  have f2 := raise_handlers_foreign d (fun y hy => hother y (List.mem_append_right _ hy))
  have hcons : raise_handlers (x :: h2) d = call_of d x :: raise_handlers h2 d := by
    simp [raise_handlers, hen]
  rw [raise_handlers_append, run_timer_handler_foreign s event f1, hcons]
  have hrest : run_timer_handler s fn event (raise_handlers h2 d) = some [] := by
    have := run_timer_handler_foreign s event f2 []
    simpa [run_timer_handler] using this
  simp only [run_timer_handler, hx, if_true, hrest]
  cases _timer_evt_sdl_user s event x.user_data with
  | none => rfl
  | some made => simp

/-- The subscription `timer_init` makes: one enabled record of `_timer_evt_sdl_user` with
user data NULL in the list of the channel "sdl-user", next to the records that were there. -/
theorem timer_init_subscribes (b0 : Bus) (fn : Nat) :
    (timer_init b0 fn).1 = b0.next_id ∧
    ∃ i1 e1 g1 g2,
      _event_get_event_link (timer_init b0 fn).2.l_events "sdl-user" = some (i1, e1) ∧
      e1.l_event_handlers = g1 ++ ⟨b0.next_id, 0, e1.addr, fn, .EVENT_HANDLER_ENABLED, 0⟩ :: g2 ∧
      ((∀ e0 ∈ b0.l_events, ∀ y ∈ e0.l_event_handlers, y.handler ≠ fn) →
        ∀ y ∈ g1 ++ g2, y.handler ≠ fn) := by
  have hlen : ¬ strlen "sdl-user" > EVENT_NAME_MAX_LENGTH - 1 := by decide
  unfold timer_init
  cases hf : _event_get_event_link b0.l_events "sdl-user" with
  | some r =>
    obtain ⟨i, e⟩ := r
    obtain ⟨l1, l2, hb, _, hname, h1⟩ := get_event_link_some hf
    rw [event_connect_existing b0 "sdl-user" 0 fn 0 .EVENT_HANDLER_ENABLED hlen hb hname h1]
    refine ⟨rfl, l1.length,
      set_handlers e (list_insert_sorted e.l_event_handlers
        ⟨b0.next_id, 0, e.addr, fn, .EVENT_HANDLER_ENABLED, 0⟩ _event_insert_handler),
      e.l_event_handlers.takeWhile (fun y => decide (_event_insert_handler
        ⟨b0.next_id, 0, e.addr, fn, .EVENT_HANDLER_ENABLED, 0⟩ y > 0)),
      e.l_event_handlers.dropWhile (fun y => decide (_event_insert_handler
        ⟨b0.next_id, 0, e.addr, fn, .EVENT_HANDLER_ENABLED, 0⟩ y > 0)),
      ?_, list_insert_sorted_eq _ _ _, ?_⟩
    · have := get_event_link_append l1 l2 (set_handlers e (list_insert_sorted e.l_event_handlers
        ⟨b0.next_id, 0, e.addr, fn, .EVENT_HANDLER_ENABLED, 0⟩ _event_insert_handler))
        (by simpa [hname] using h1)
      simpa [hname] using this
    · intro hno y hy
      rw [List.takeWhile_append_dropWhile] at hy
      exact hno e (by simp [hb]) y hy
  | none =>
    have h1 := get_event_link_none.mp hf
    rw [event_connect_new b0 "sdl-user" 0 fn 0 .EVENT_HANDLER_ENABLED hlen h1]
    refine ⟨rfl, b0.l_events.length,
      ⟨b0.l_events.length, "sdl-user", 0,
        [⟨b0.next_id, 0, b0.l_events.length, fn, .EVENT_HANDLER_ENABLED, 0⟩]⟩, [], [],
      ?_, rfl, ?_⟩
    · exact get_event_link_append b0.l_events []
        ⟨b0.l_events.length, "sdl-user", 0,
          [⟨b0.next_id, 0, b0.l_events.length, fn, .EVENT_HANDLER_ENABLED, 0⟩]⟩ h1
    · intro _ y hy
      simp at hy


/-- C23: `timer_init` makes one enabled subscription of `_timer_evt_sdl_user` to the
channel "sdl-user". On a bus whose channel "sdl-user" holds that subscription as its only
record of `_timer_evt_sdl_user`, the step of the main loop for an `SDL_USEREVENT` with code
1 and `data1` pointing at a timer of the registry (a state reached from program start,
fewer than 2^31 calls of `timer_create`) calls the handler of that timer exactly once, with
the user data stored in the timer: the one given to `timer_create` for a timer just created,
the one set by `timer_set_user_data` after such a call. With another code it calls no timer
handler. -/
theorem timer_notification_invokes_callback_once (fn : Nat) (b : Bus) (i : Nat) (e : EventInfo)
    (h1 h2 : List EventHandlerInfo) (x : EventHandlerInfo) (ops : List TimerOp) (s : Timers)
    (id : Int) (j : Nat) (t : TimerInfo) (p d2 u : Nat) (code : Int)
    (hf : _event_get_event_link b.l_events "sdl-user" = some (i, e))
    (he : e.l_event_handlers = h1 ++ x :: h2) (hx : x.handler = fn)
    (hen : x.state = .EVENT_HANDLER_ENABLED) (hother : ∀ y ∈ h1 ++ h2, y.handler ≠ fn)
    (hs : s = (timer_run Timers.init ops).2) (hn : creates ops < 2147483648)
    (hlive : _timer_get_link s.l_timers id = some (j, t)) :
    (main_user_event b s fn p ⟨SDL_USEREVENT, 1, t.addr, d2⟩).1 =
        some [⟨t.handler, t.user_data⟩] ∧
      (main_user_event b (timer_set_user_data s id u) fn p ⟨SDL_USEREVENT, 1, t.addr, d2⟩).1 =
        some [⟨t.handler, u⟩] ∧
      (∀ (iv : Int) (hd u0 : Nat) (st : TimerState) (a : Nat),
        (main_user_event b (timer_create s iv hd u0 st a).2 fn p
          ⟨SDL_USEREVENT, 1, s.brk, d2⟩).1 = some [⟨hd, u0⟩]) ∧
      (code ≠ 1 → (main_user_event b s fn p ⟨SDL_USEREVENT, code, t.addr, d2⟩).1 = some []) ∧
      ∀ b0 : Bus, (timer_init b0 fn).1 = b0.next_id ∧
        ∃ i1 e1 g1 g2,
          _event_get_event_link (timer_init b0 fn).2.l_events "sdl-user" = some (i1, e1) ∧
          e1.l_event_handlers =
            g1 ++ ⟨b0.next_id, 0, e1.addr, fn, .EVENT_HANDLER_ENABLED, 0⟩ :: g2 ∧
          ((∀ e0 ∈ b0.l_events, ∀ y ∈ e0.l_event_handlers, y.handler ≠ fn) →
            ∀ y ∈ g1 ++ g2, y.handler ≠ fn) := by
  have hwf : TWF (0 + creates ops) s := hs ▸ (TWF_run ops TWF_init (by omega)).1
  clear hs
  have hmain : ∀ (s1 : Timers) (ev : SDL_UserEvent),
      (main_user_event b s1 fn p ev).1 = _timer_evt_sdl_user s1 ev x.user_data := by
    intro s1 ev
    simp only [main_user_event, event_raise_calls p hf, he]
    exact run_timer_handler_one s1 ev p hx hen hother
  refine ⟨?_, ?_, ?_, ?_, fun b0 => timer_init_subscribes b0 fn⟩
  · rw [hmain]
    simp only [_timer_evt_sdl_user, if_true, TWF_timer_at hwf hlive]
  · rw [hmain]
    obtain ⟨l, nx, bk, tk⟩ := s
    obtain ⟨l1, l2, hl, _, ht, hfirst⟩ := timer_get_link_some hlive
    simp only at hl
    subst hl
    rw [timer_set_user_data_found nx bk tk u hfirst ht]
    have hat : timer_at (l1 ++ { t with user_data := u } :: l2) t.addr =
        some { t with user_data := u } := timer_at_append (TWF_addr_first hwf) rfl
    simp only [_timer_evt_sdl_user, if_true, hat]
  · intro iv hd u0 st a
    rw [hmain, timer_create_eq]
    have hr := timer_set_state_state ⟨s.brk, s.next_id, 0, .TIMER_DISABLED, iv, hd, u0⟩
      s.ticks st a
    have hat : timer_at (s.l_timers ++
        [(_timer_set_state ⟨s.brk, s.next_id, 0, .TIMER_DISABLED, iv, hd, u0⟩ s.ticks st a).1])
        s.brk =
        some (_timer_set_state ⟨s.brk, s.next_id, 0, .TIMER_DISABLED, iv, hd, u0⟩ s.ticks st a).1 := by
      refine timer_at_append ?_ hr.2.2.1
      intro y hy hyb
      have := hwf.addrs_lt y hy
      omega
    simp only [_timer_evt_sdl_user, if_true, hat, hr.2.2.2.2.1, hr.2.2.2.2.2]
  · intro hc
    rw [hmain]
    simp only [_timer_evt_sdl_user, hc, if_false]

theorem timer_notification_invokes_callback_once_witness :
    (main_user_event (timer_init Bus.init 9).2
        (timer_run Timers.init [.create 100 7 3 .TIMER_ENABLED 5]).2 9 40
        ⟨SDL_USEREVENT, 1, (TimerInfo.mk 0 1 5 .TIMER_ENABLED 100 7 3).addr, 0⟩).1 =
      some [⟨(TimerInfo.mk 0 1 5 .TIMER_ENABLED 100 7 3).handler,
        (TimerInfo.mk 0 1 5 .TIMER_ENABLED 100 7 3).user_data⟩] :=
  (timer_notification_invokes_callback_once 9 (timer_init Bus.init 9).2 0
    ⟨0, "sdl-user", 0, [⟨1, 0, 0, 9, .EVENT_HANDLER_ENABLED, 0⟩]⟩ [] []
    ⟨1, 0, 0, 9, .EVENT_HANDLER_ENABLED, 0⟩ [.create 100 7 3 .TIMER_ENABLED 5]
    (timer_run Timers.init [.create 100 7 3 .TIMER_ENABLED 5]).2 1 0
    ⟨0, 1, 5, .TIMER_ENABLED, 100, 7, 3⟩ 40 0 8 2 (by decide) rfl rfl rfl (by simp) rfl
    (by decide) (by decide)).1


/-! ## The order and the names of the channels -/

/-- C25 fails on the code: after three subscriptions to new channels "a", "b", "c" and one
raise of "c", the single exchange with the channel before leaves the channel list as "a"
(raised 0 times), "c" (raised once), "b" (raised 0 times): the first channel has a smaller
raise count than the second, so the list is not sorted by raise count. -/
theorem channel_list_unsorted_after_single_swap :
    (run Bus.init [.connect "a" 0 7 0 .EVENT_HANDLER_ENABLED,
        .connect "b" 0 7 0 .EVENT_HANDLER_ENABLED, .connect "c" 0 7 0 .EVENT_HANDLER_ENABLED,
        .raise "c" 0]).map (fun r => r.2.l_events.map (fun e => (e.name, e.raise_count))) =
      some [("a", 0), ("c", 1), ("b", 0)] := by
  decide

/-- A raise keeps the names of the channels, up to the exchange of two neighbours. -/
theorem raise_names_perm (b : Bus) (name : String) (d : Nat) :
    ((event_raise b name d).2.l_events.map (fun e => e.name)).Perm
      (b.l_events.map (fun e => e.name)) := by
  cases hf : _event_get_event_link b.l_events name with
  | none => simp [event_raise, hf]
  | some r =>
    obtain ⟨i, e⟩ := r
    obtain ⟨l1, l2, hb, _, hname, h1⟩ := get_event_link_some hf
    subst hname
    rcases eq_nil_or_snoc l1 with hl | ⟨l0, q, hl⟩
    · subst hl
      rw [event_raise_first b d l2 e (by simpa using hb), hb]
      simp
    · subst hl
      have hb1 : b.l_events = l0 ++ q :: e :: l2 := by simpa using hb
      rw [event_raise_inner b d hb1 (fun y hy => h1 y (by simp [hy])) (h1 q (by simp)), hb1]
      by_cases hc : q.raise_count < (e.raise_count + 1) % ULONG_MOD
      · simp only [hc, if_true, List.map_append, List.map_cons]
        exact List.Perm.append_left _ (List.Perm.swap _ _ _)
      · simp [hc]

/-- The names of the channels after a call: those before it in some order, or those before
it followed by one new name. -/
theorem step_names {b b1 : Bus} {op : Op} {o : Out} (hs : step b op = some (o, b1)) :
    (b1.l_events.map (fun e => e.name)).Perm (b.l_events.map (fun e => e.name)) ∨
      ∃ name, name ∉ b.l_events.map (fun e => e.name) ∧
        b1.l_events.map (fun e => e.name) = b.l_events.map (fun e => e.name) ++ [name] := by
  cases op with
  | connect name p f u st =>
    simp only [step, Option.some.injEq, Prod.mk.injEq] at hs
    rw [← hs.2]
    by_cases hlen : strlen name > EVENT_NAME_MAX_LENGTH - 1
    · rw [event_connect_long b name p f u st hlen]
      exact Or.inl (List.Perm.refl _)
    · cases hf : _event_get_event_link b.l_events name with
      | some r =>
        obtain ⟨i, e⟩ := r
        obtain ⟨l1, l2, hb, _, hname, h1⟩ := get_event_link_some hf
        rw [event_connect_existing b name p f u st hlen hb hname h1, hb]
        left
        simp
      | none =>
        have h1 := get_event_link_none.mp hf
        rw [event_connect_new b name p f u st hlen h1]
        right
        refine ⟨name, ?_, by simp⟩
        intro hmem
        obtain ⟨y, hy, hyn⟩ := List.mem_map.mp hmem
        exact h1 y hy hyn
  | set_state id st =>
    simp only [step, Option.some.injEq, Prod.mk.injEq] at hs
    rw [← hs.2]
    left
    cases hf : _event_get_handler_link b.l_events id with
    | none => simp [event_handler_set_state, hf]
    | some r =>
      obtain ⟨i, j, h⟩ := r
      obtain ⟨l1, e, l2, h1, h2, hb, _, he, _, d5, d6, d7⟩ := get_handler_link_some hf
      rw [event_handler_set_state_found b id st hb he d6 d7 d5, hb]
      simp
  | set_user_data id u =>
    simp only [step, Option.some.injEq, Prod.mk.injEq] at hs
    rw [← hs.2]
    left
    cases hf : _event_get_handler_link b.l_events id with
    | none => simp [event_handler_set_user_data, hf]
    | some r =>
      obtain ⟨i, j, h⟩ := r
      obtain ⟨l1, e, l2, h1, h2, hb, _, he, _, d5, d6, d7⟩ := get_handler_link_some hf
      rw [event_handler_set_user_data_found b id u hb he d6 d7 d5, hb]
      simp
  | disconnect id =>
    simp only [step, Option.map_eq_some', Prod.mk.injEq] at hs
    obtain ⟨b2, hd, _, hb2⟩ := hs
    subst hb2
    left
    cases hf : _event_get_handler_link b.l_events id with
    | none =>
      simp only [event_disconnect, hf, Option.some.injEq] at hd
      subst hd
      exact List.Perm.refl _
    | some r =>
      obtain ⟨i, j, h⟩ := r
      obtain ⟨l1, e, l2, h1, h2, hb, hi, he, _, d5, d6, d7⟩ := get_handler_link_some hf
      have hload : load b.l_events i = some e := by
        rw [hb, ← hi]
        exact load_append_cons l1 e l2
      by_cases hown : h.event = e.addr
      · rw [event_disconnect_found b id hb he d6 d7 d5 hown] at hd
        simp only [Option.some.injEq] at hd
        subst hd
        rw [hb]
        simp
      · simp [event_disconnect, hf, hload, hown] at hd
  | raise name d =>
    simp only [step, Option.some.injEq, Prod.mk.injEq] at hs
    rw [← hs.2]
    exact Or.inl (raise_names_perm b name d)


theorem step_names_nodup {b b1 : Bus} {op : Op} {o : Out} (hs : step b op = some (o, b1))
    (hnd : (b.l_events.map (fun e => e.name)).Nodup) :
    (b1.l_events.map (fun e => e.name)).Nodup ∧ b.l_events.length ≤ b1.l_events.length := by
  rcases step_names hs with hp | ⟨name, hnew, heq⟩
  · refine ⟨hp.nodup_iff.mpr hnd, ?_⟩
    have := hp.length_eq
    simp only [List.length_map] at this
    omega
  · constructor
    · rw [heq, List.nodup_append]
      refine ⟨hnd, by simp, ?_⟩
      intro c hc hc2
      simp only [List.mem_singleton] at hc2
      exact hnew (hc2 ▸ hc)
    · have := congrArg List.length heq
      simp only [List.length_map, List.length_append, List.length_singleton] at this
      omega

theorem run_names_nodup (ops : List Op) {b b1 : Bus} {outs : List Out}
    (hr : run b ops = some (outs, b1)) (hnd : (b.l_events.map (fun e => e.name)).Nodup) :
    (b1.l_events.map (fun e => e.name)).Nodup ∧ b.l_events.length ≤ b1.l_events.length := by
  induction ops generalizing b outs with
  | nil =>
    simp only [run, Option.some.injEq, Prod.mk.injEq] at hr
    rw [← hr.2]
    exact ⟨hnd, le_refl _⟩
  | cons op rest ih =>
    obtain ⟨o, b2, outs1, h1, h2, _⟩ := run_cons hr
    have hstep := step_names_nodup h1 hnd
    have hrest := ih h2 hstep.1
    exact ⟨hrest.1, le_trans hstep.2 hrest.2⟩

/-- Channel names when no handler function calls the bus: in every state a run from program
start reaches, no two channel records carry the same name. `_event_find_event` matches a name exactly when the strings are equal byte for
byte, so a name that differs in letter case is another name: `event_connect` on the name of
a channel keeps the list of channel names as it is (no record is added), and on a name no
channel carries it appends one channel of that name (after "score", "Score" makes a second
channel). A call never makes the list of channels shorter and keeps the names distinct, and
the exchange of positions in `event_raise` only permutes the names. -/
theorem channel_names_unique (ops : List Op) (outs : List Out) (b : Bus)
    (hr : run Bus.init ops = some (outs, b)) :
    (b.l_events.map (fun e => e.name)).Nodup ∧
    (∀ (event : EventInfo) (name : String), _event_find_event event name = 0 ↔ event.name = name) ∧
    (∀ (name : String) (p : Int) (f u : Nat) (st : EventHandlerState),
      name ∈ b.l_events.map (fun e => e.name) →
      (event_connect b name p f u st).2.l_events.map (fun e => e.name) =
        b.l_events.map (fun e => e.name)) ∧
    (∀ (name : String) (p : Int) (f u : Nat) (st : EventHandlerState),
      ¬ strlen name > EVENT_NAME_MAX_LENGTH - 1 → name ∉ b.l_events.map (fun e => e.name) →
      (event_connect b name p f u st).2.l_events.map (fun e => e.name) =
        b.l_events.map (fun e => e.name) ++ [name]) ∧
    (run Bus.init [.connect "score" 0 7 0 .EVENT_HANDLER_ENABLED,
        .connect "Score" 0 7 0 .EVENT_HANDLER_ENABLED]).map
      (fun r => r.2.l_events.map (fun e => e.name)) = some ["score", "Score"] ∧
    (∀ (op : Op) (o : Out) (b1 : Bus), step b op = some (o, b1) →
      (b1.l_events.map (fun e => e.name)).Nodup ∧ b.l_events.length ≤ b1.l_events.length) ∧
    (∀ (name : String) (d : Nat),
      ((event_raise b name d).2.l_events.map (fun e => e.name)).Perm
        (b.l_events.map (fun e => e.name))) := by
  have hnd := (run_names_nodup ops hr (by simp [Bus.init])).1
  refine ⟨hnd, fun event name => strcmp_eq_zero, ?_, ?_, by decide,
    fun op o b1 hs => step_names_nodup hs hnd, fun name d => raise_names_perm b name d⟩
  · intro name p f u st hmem
    by_cases hlen : strlen name > EVENT_NAME_MAX_LENGTH - 1
    · rw [event_connect_long b name p f u st hlen]
    · cases hf : _event_get_event_link b.l_events name with
      | some r =>
        obtain ⟨i, e⟩ := r
        obtain ⟨l1, l2, hb, _, hname, h1⟩ := get_event_link_some hf
        rw [event_connect_existing b name p f u st hlen hb hname h1, hb]
        simp
      | none =>
        obtain ⟨y, hy, hyn⟩ := List.mem_map.mp hmem
        exact absurd hyn (get_event_link_none.mp hf y hy)
  · intro name p f u st hlen hnew
    have h1 : ∀ y ∈ b.l_events, y.name ≠ name :=
      fun y hy hyn => hnew (List.mem_map.mpr ⟨y, hy, hyn⟩)
    rw [event_connect_new b name p f u st hlen h1]
    simp

theorem channel_names_unique_witness :
    ((Bus.mk [⟨0, "a", 1, [⟨1, 0, 0, 7, .EVENT_HANDLER_ENABLED, 0⟩]⟩,
      ⟨1, "A", 0, [⟨2, 0, 1, 7, .EVENT_HANDLER_ENABLED, 0⟩]⟩] 3).l_events.map
        (fun e => e.name)).Nodup :=
  (channel_names_unique
    [.connect "a" 0 7 0 .EVENT_HANDLER_ENABLED, .connect "A" 0 7 0 .EVENT_HANDLER_ENABLED,
      .raise "a" 0]
    [.handle 1, .handle 2, .calls [⟨1, 7, 0, 0⟩]]
    ⟨[⟨0, "a", 1, [⟨1, 0, 0, 7, .EVENT_HANDLER_ENABLED, 0⟩]⟩,
      ⟨1, "A", 0, [⟨2, 0, 1, 7, .EVENT_HANDLER_ENABLED, 0⟩]⟩], 3⟩ (by decide)).1


/-! ## Well-formedness of the links -/

theorem forward_spec {m : ptr.Heap} {nodes : List (Nat × Nat)} :
    ∀ {prev : Option Nat} {fuel : Nat}, ptr.dlseg m prev nodes none → nodes.length < fuel →
      ptr.forward m fuel (ptr.first_or nodes none) = some nodes := by
  induction nodes with
  | nil =>
    intro prev fuel _ _
    cases fuel <;> rfl
  | cons n rest ih =>
    intro prev fuel hd hf
    obtain ⟨a, x⟩ := n
    cases fuel with
    | zero => omega
    | succ k =>
      rw [dlseg_cons] at hd
      simp only [List.length_cons, Nat.add_lt_add_iff_right] at hf
      show ptr.forward m (k + 1) (some a) = some ((a, x) :: rest)
      simp only [ptr.forward, hd.1, ih hd.2 hf, Option.map_some']

theorem backward_spec {m : ptr.Heap} (nodes : List (Nat × Nat)) :
    ∀ {q : Option Nat} {fuel : Nat}, ptr.dlseg m none nodes q → nodes.length < fuel →
      ptr.backward m fuel (ptr.last_or nodes none) = some nodes.reverse := by
  induction nodes using List.reverseRecOn with
  | nil =>
    intro q fuel _ _
    cases fuel <;> rfl
  | append_singleton init n ih =>
    intro q fuel hd hf
    obtain ⟨c, y⟩ := n
    cases fuel with
    | zero => omega
    | succ k =>
      have gc := dlseg_get hd
      have hpre := (dlseg_append.mp hd).1
      simp only [List.length_append, List.length_singleton, Nat.add_lt_add_iff_right] at hf
      have hlast : ptr.last_or (init ++ [(c, y)]) none = some c := by
        rw [last_or_append]
        rfl
      rw [hlast]
      simp only [ptr.backward, gc, ih hpre hf, Option.map_some', List.reverse_append,
        List.reverse_cons, List.reverse_nil, List.nil_append, List.singleton_append]

/-- What a forward traversal that ends tells about the memory. -/
theorem forward_dlseg {m : ptr.Heap} :
    ∀ {fuel : Nat} {start prev0 : Option Nat} {nodes : List (Nat × Nat)},
      ptr.forward m fuel start = some nodes →
      (∀ a l, start = some a → m.get a = some l → l.prev = prev0) →
      (∀ n ∈ nodes, ∀ l nx, m.get n.1 = some l → l.next = some nx →
        ∃ l1, m.get nx = some l1 ∧ l1.prev = some n.1) →
      start = ptr.first_or nodes none ∧ ptr.dlseg m prev0 nodes none := by
  intro fuel
  induction fuel with
  | zero =>
    intro start prev0 nodes hf _ _
    cases start with
    | none =>
      simp only [ptr.forward, Option.some.injEq] at hf
      subst hf
      exact ⟨rfl, trivial⟩
    | some a => simp [ptr.forward] at hf
  | succ k ih =>
    intro start prev0 nodes hf hprev hsucc
    cases start with
    | none =>
      simp only [ptr.forward, Option.some.injEq] at hf
      subst hf
      exact ⟨rfl, trivial⟩
    | some a =>
      cases hg : m.get a with
      | none => simp [ptr.forward, hg] at hf
      | some l =>
        simp only [ptr.forward, hg, Option.map_eq_some'] at hf
        obtain ⟨rest, hrest, hnodes⟩ := hf
        subst hnodes
        have hp : l.prev = prev0 := hprev a l rfl hg
        have hnext : ∀ a1 l1, l.next = some a1 → m.get a1 = some l1 → l1.prev = some a := by
          intro a1 l1 hn hg1
          obtain ⟨l2, hg2, hp2⟩ := hsucc (a, l.data) (by simp) l a1 hg hn
          rw [hg1] at hg2
          simp only [Option.some.injEq] at hg2
          rw [hg2]
          exact hp2
        obtain ⟨hfirst, hd⟩ := ih hrest hnext (fun n hn => hsucc n (by simp [hn]))
        refine ⟨rfl, ?_⟩
        rw [dlseg_cons]
        refine ⟨?_, hd⟩
        rw [hg, ← hfirst, ← hp]

theorem well_formed_iff_is_list {m : ptr.Heap} {list : Option Nat} :
    ptr.well_formed m list ↔ ∃ nodes, ptr.is_list m list nodes := by
  constructor
  · rintro ⟨nodes, hf, hprev, hsucc⟩
    exact ⟨nodes, forward_dlseg hf hprev hsucc⟩
  · rintro ⟨nodes, hl, hd⟩
    refine ⟨nodes, ?_, ?_, ?_⟩
    · rw [hl]
      exact forward_spec hd (by have := dlseg_length_le hd; omega)
    · intro a l ha hg
      cases nodes with
      | nil =>
        rw [ha] at hl
        simp [ptr.first_or] at hl
      | cons n rest =>
        obtain ⟨c, y⟩ := n
        rw [ha] at hl
        simp only [ptr.first_or, Option.some.injEq] at hl
        subst hl
        rw [(dlseg_cons.mp hd).1] at hg
        simp only [Option.some.injEq] at hg
        rw [← hg]
    · intro n hn l nx hg hnx
      obtain ⟨l1, l2, rfl⟩ := List.append_of_mem hn
      obtain ⟨c, y⟩ := n
      have gc := dlseg_get hd
      rw [gc] at hg
      simp only [Option.some.injEq] at hg
      subst hg
      simp only at hnx
      cases l2 with
      | nil => simp [ptr.first_or] at hnx
      | cons n2 r2 =>
        obtain ⟨c2, y2⟩ := n2
        simp only [ptr.first_or, Option.some.injEq] at hnx
        subst hnx
        have hsplit : l1 ++ (c, y) :: (c2, y2) :: r2 = (l1 ++ [(c, y)]) ++ (c2, y2) :: r2 := by
          simp
        rw [hsplit] at hd
        have g2 := dlseg_get hd
        refine ⟨_, g2, ?_⟩
        simp only [last_or_append]
        rfl

theorem is_list_mirrored {m : ptr.Heap} {list : Option Nat} {nodes : List (Nat × Nat)}
    (h : ptr.is_list m list nodes) : ptr.mirrored m list := by
  have hlen := dlseg_length_le h.2
  refine ⟨nodes, ptr.last_or nodes none, ?_, list_last_spec h, backward_spec nodes h.2 (by omega)⟩
  rw [h.1]
  exact forward_spec h.2 (by omega)

theorem is_list_returns_well_formed {r : Option (Option Nat × ptr.Heap)} {head1 : Option Nat}
    {m1 : ptr.Heap} {nodes : List (Nat × Nat)} (hr : r = some (head1, m1))
    (h : ptr.is_list m1 head1 nodes) : ptr.returns_well_formed r :=
  ⟨head1, m1, hr, well_formed_iff_is_list.mpr ⟨nodes, h⟩, is_list_mirrored h⟩


/-- C27: when the list is well-formed (the forward traversal ends, `head->prev` is NULL and
`n->next->prev == n` for every node with a successor), then `list_append`, `list_prepend`,
`list_insert`, `list_insert_sorted`, `list_remove` and, for every node of the list,
`list_delete_link` return a list that is well-formed again, and whose backward traversal
from the last link meets the nodes of the forward traversal in reverse order. -/
theorem list_operations_keep_well_formed {m : ptr.Heap} {list : Option Nat}
    (h : ptr.well_formed m list) (data : Nat) (position : Int) (func : Nat → Nat → Int) :
    ptr.mirrored m list ∧
    ptr.returns_well_formed (ptr.list_append m list data) ∧
    ptr.returns_well_formed (ptr.list_prepend m list data) ∧
    ptr.returns_well_formed (ptr.list_insert m list data position) ∧
    ptr.returns_well_formed (ptr.list_insert_sorted m list data func) ∧
    ptr.returns_well_formed (ptr.list_remove m list data) ∧
    ∀ nodes, ptr.forward m (m.cells.length + 1) list = some nodes →
      ∀ n ∈ nodes, ptr.returns_well_formed (ptr.list_delete_link m list n.1) := by
  obtain ⟨nodes, hl⟩ := well_formed_iff_is_list.mp h
  refine ⟨is_list_mirrored hl, ?_, ?_, ?_, ?_, ?_, ?_⟩
  · obtain ⟨m1, h1, h2, _⟩ := ptr_list_append_spec hl data
    exact is_list_returns_well_formed h1 h2
  · obtain ⟨m1, h1, h2, _⟩ := ptr_list_prepend_spec hl data
    exact is_list_returns_well_formed h1 h2
  · obtain ⟨head1, m1, nw, h1, _, h2⟩ := ptr_list_insert_spec hl data position
    exact is_list_returns_well_formed h1 h2
  · obtain ⟨head1, m1, h1, h2, _⟩ := ptr_list_insert_sorted_spec hl data func
    exact is_list_returns_well_formed h1 h2
  · obtain ⟨head2, m2, h1, h2, _⟩ := ptr_list_remove_spec hl data
    exact is_list_returns_well_formed h1 h2
  · intro nodes1 hf n hn
    have hfw : ptr.forward m (m.cells.length + 1) list = some nodes := by
      rw [hl.1]
      exact forward_spec hl.2 (by have := dlseg_length_le hl.2; omega)
    rw [hfw] at hf
    simp only [Option.some.injEq] at hf
    subst hf
    obtain ⟨l1, l2, rfl⟩ := List.append_of_mem hn
    obtain ⟨t, xt⟩ := n
    obtain ⟨m3, h1, h2, _⟩ := ptr_list_delete_link_spec hl
    exact is_list_returns_well_formed h1 h2

theorem list_operations_keep_well_formed_witness :
    ptr.returns_well_formed
      (ptr.list_insert ⟨[some ⟨5, some 1, none⟩, some ⟨9, none, some 0⟩], 2, 0⟩ (some 0) 7 1) :=
  (@list_operations_keep_well_formed
    ⟨[some ⟨5, some 1, none⟩, some ⟨9, none, some 0⟩], 2, 0⟩ (some 0)
    (well_formed_iff_is_list.mpr
      ⟨[(0, 5), (1, 9)], And.intro rfl (And.intro rfl (And.intro rfl True.intro))⟩)
    7 1 (fun (a b : Nat) => (a : Int) - (b : Int))).2.2.2.1


/-! ## The comparator of the subscriber order -/

/-- The sign of the comparator: `_event_insert_handler(a, b)` is the difference
`b.priority - a.priority` as a 32-bit int. When that difference lies in the range of `int`
(so whenever both priorities lie between -2^30 and 2^30) it is positive exactly when
`b.priority > a.priority` and non-positive exactly when `b.priority <= a.priority`. For
32-bit priorities whose difference lies outside the range of `int` the sign is the wrong
one: the value is positive exactly when `b.priority < a.priority`. -/
theorem insert_comparator_sign (a b : EventHandlerInfo) (ha : IsInt32 a.priority)
    (hb : IsInt32 b.priority) :
    (IsInt32 (b.priority - a.priority) →
      (_event_insert_handler a b > 0 ↔ b.priority > a.priority) ∧
      (_event_insert_handler a b ≤ 0 ↔ b.priority ≤ a.priority)) ∧
    (-1073741824 ≤ a.priority → a.priority < 1073741824 → -1073741824 ≤ b.priority →
      b.priority < 1073741824 → IsInt32 (b.priority - a.priority)) ∧
    (¬ IsInt32 (b.priority - a.priority) →
      (_event_insert_handler a b > 0 ↔ b.priority < a.priority)) := by
  unfold IsInt32 at *
  unfold _event_insert_handler wrap32
  refine ⟨?_, ?_, ?_⟩
  · intro hd
    constructor <;> constructor <;> intro h <;> omega
  · intro h1 h2 h3 h4
    omega
  · intro hd
    constructor <;> intro h <;> omega

theorem insert_comparator_sign_witness :
    (_event_insert_handler ⟨1, -5, 0, 7, .EVENT_HANDLER_ENABLED, 0⟩
        ⟨2, 9, 0, 7, .EVENT_HANDLER_ENABLED, 0⟩ > 0 ↔
      (EventHandlerInfo.mk 2 9 0 7 .EVENT_HANDLER_ENABLED 0).priority >
        (EventHandlerInfo.mk 1 (-5) 0 7 .EVENT_HANDLER_ENABLED 0).priority) :=
  ((insert_comparator_sign ⟨1, -5, 0, 7, .EVENT_HANDLER_ENABLED, 0⟩
    ⟨2, 9, 0, 7, .EVENT_HANDLER_ENABLED, 0⟩ (by decide) (by decide)).1 (by decide)).1

/-- C28 fails on the code at extreme priorities: for `a.priority = INT_MIN` and
`b.priority = 1` the difference taken modulo 2^32 is -2147483647, not positive although
`b.priority > a.priority`; a subscription of priority `INT_MIN` made after one of priority
1 is therefore placed before it, against the order `event_connect` documents (highest
priority first). -/
theorem insert_comparator_overflow_counterexample :
    (EventHandlerInfo.mk 1 1 0 7 .EVENT_HANDLER_ENABLED 0).priority >
        (EventHandlerInfo.mk 2 (-2147483648) 0 7 .EVENT_HANDLER_ENABLED 0).priority ∧
      _event_insert_handler ⟨2, -2147483648, 0, 7, .EVENT_HANDLER_ENABLED, 0⟩
        ⟨1, 1, 0, 7, .EVENT_HANDLER_ENABLED, 0⟩ = -2147483647 ∧
      (run Bus.init [.connect "c" 1 7 0 .EVENT_HANDLER_ENABLED,
          .connect "c" (-2147483648) 7 0 .EVENT_HANDLER_ENABLED]).map
        (fun r => r.2.l_events.map
          (fun e => e.l_event_handlers.map (fun h => h.priority))) =
        some [[-2147483648, 1]] := by
  decide


/-! ## The owner of a subscription -/

/-- C29: in every state of a run from program start (below 2^31 subscriptions) the `event`
pointer of every subscription record is the address of the channel record whose subscriber
list holds it, and no other channel record has that address; this also holds in the state
after any `event_raise`, which may have exchanged two channels. So for every subscription
`x` held by a channel `e`, `event_disconnect(x.id)` stores the list without `x` as the
subscriber list of `e`, the channel that held `x`. -/
theorem owner_is_containing_channel (ops : List Op) (outs : List Out) (b : Bus)
    (hr : run Bus.init ops = some (outs, b)) (hn : connects ops < 2147483648) :
    (∀ e ∈ b.l_events, ∀ h ∈ e.l_event_handlers, h.event = e.addr ∧
      ∀ e1 ∈ b.l_events, h.event = e1.addr → e1 = e) ∧
    (∀ (name : String) (d : Nat), ∀ e ∈ (event_raise b name d).2.l_events,
      ∀ h ∈ e.l_event_handlers, h.event = e.addr ∧
        ∀ e1 ∈ (event_raise b name d).2.l_events, h.event = e1.addr → e1 = e) ∧
    (∀ (l1 l2 : List EventInfo) (e : EventInfo) (h1 h2 : List EventHandlerInfo)
      (x : EventHandlerInfo), b.l_events = l1 ++ e :: l2 →
      e.l_event_handlers = h1 ++ x :: h2 →
      event_disconnect b x.id =
        some { l_events := l1 ++ { e with l_event_handlers := h1 ++ h2 } :: l2,
               next_id := b.next_id }) := by
  have hw := run_init_WF hr hn
  have key : ∀ b1 : Bus, WF (connects ops) b1 → ∀ e ∈ b1.l_events, ∀ h ∈ e.l_event_handlers,
      h.event = e.addr ∧ ∀ e1 ∈ b1.l_events, h.event = e1.addr → e1 = e := by
    intro b1 hw1 e he h hh
    have hown := hw1.owner e he h hh
    refine ⟨hown, ?_⟩
    intro e1 he1 haddr
    exact List.inj_on_of_nodup_map hw1.addrs_nodup he1 he (by rw [← haddr, hown])
  refine ⟨key b hw, fun name d => key _ (WF_raise hw name d), ?_⟩
  intro l1 l2 e h1 h2 x hb he
  obtain ⟨a1, a2, a3⟩ := WF_live hw hn hb he
  have hown : x.event = e.addr := hw.owner e (by simp [hb]) x (by simp [he])
  exact event_disconnect_found b x.id hb he a1 a2 a3 hown

theorem owner_is_containing_channel_witness :
    event_disconnect
        ⟨[⟨1, "b", 1, [⟨2, 0, 1, 7, .EVENT_HANDLER_ENABLED, 0⟩]⟩,
          ⟨0, "a", 0, [⟨1, 0, 0, 7, .EVENT_HANDLER_ENABLED, 0⟩]⟩], 3⟩
        (EventHandlerInfo.mk 1 0 0 7 .EVENT_HANDLER_ENABLED 0).id =
      some { l_events := [⟨1, "b", 1, [⟨2, 0, 1, 7, .EVENT_HANDLER_ENABLED, 0⟩]⟩] ++
               { (EventInfo.mk 0 "a" 0 [⟨1, 0, 0, 7, .EVENT_HANDLER_ENABLED, 0⟩]) with
                 l_event_handlers := [] ++ [] } :: [],
             next_id := (Bus.mk [⟨1, "b", 1, [⟨2, 0, 1, 7, .EVENT_HANDLER_ENABLED, 0⟩]⟩,
               ⟨0, "a", 0, [⟨1, 0, 0, 7, .EVENT_HANDLER_ENABLED, 0⟩]⟩] 3).next_id } :=
  (owner_is_containing_channel
    [.connect "a" 0 7 0 .EVENT_HANDLER_ENABLED, .connect "b" 0 7 0 .EVENT_HANDLER_ENABLED,
      .raise "b" 0]
    [.handle 1, .handle 2, .calls [⟨2, 7, 0, 0⟩]]
    ⟨[⟨1, "b", 1, [⟨2, 0, 1, 7, .EVENT_HANDLER_ENABLED, 0⟩]⟩,
      ⟨0, "a", 0, [⟨1, 0, 0, 7, .EVENT_HANDLER_ENABLED, 0⟩]⟩], 3⟩ (by decide) (by decide)).2.2
    [⟨1, "b", 1, [⟨2, 0, 1, 7, .EVENT_HANDLER_ENABLED, 0⟩]⟩] []
    ⟨0, "a", 0, [⟨1, 0, 0, 7, .EVENT_HANDLER_ENABLED, 0⟩]⟩ [] []
    ⟨1, 0, 0, 7, .EVENT_HANDLER_ENABLED, 0⟩ rfl rfl


/-! ## The counters of allocated and freed links -/

/-- C30 fails on the code for `list_insert` with a position off the end: on the list
holding 5 and 9 (two links allocated, none freed), `list_insert(list, 7, 5)` allocates a
link, finds no link at position 5 and calls `list_append`, which allocates a second link;
the first stays behind. The list has three nodes afterwards, one more than before, while
`list_alloc_count - list_free_count` has gone from 2 to 4. -/
theorem list_insert_off_end_allocates_two :
    (ptr.list_insert ⟨[some ⟨5, some 1, none⟩, some ⟨9, none, some 0⟩], 2, 0⟩ (some 0) 7 5).map
        (fun r => (r.2.list_alloc_count - r.2.list_free_count,
          ptr.forward r.2 (r.2.cells.length + 1) r.1)) =
      some (4, some [(0, 5), (1, 9), (3, 7)]) ∧
    (ptr.list_insert ⟨[some ⟨5, some 1, none⟩, some ⟨9, none, some 0⟩], 2, 0⟩ (some 0) 7 5).map
        (fun r => r.2.cells) =
      some [some ⟨5, some 1, none⟩, some ⟨9, some 3, some 0⟩, some ⟨7, none, none⟩,
        some ⟨7, none, some 1⟩] := by
  decide

/-- The defect in general: on every well-formed list of `n >= 1` nodes, `list_insert` with a
position `p >= n` (and `p > 0`) moves the allocation counter on twice and frees nothing,
for one new node. -/
theorem list_insert_off_end_counts {m : ptr.Heap} {list : Option Nat}
    {nodes : List (Nat × Nat)} (h : ptr.is_list m list nodes) (data : Nat) (position : Int)
    (hpos : 0 < position) (hlen : (nodes.length : Int) ≤ position) :
    ∃ head1 m1, ptr.list_insert m list data position = some (head1, m1) ∧
      ptr.is_list m1 head1 (nodes ++ [(m.cells.length + 1, data)]) ∧
      m1.list_alloc_count = wrap32 (wrap32 (m.list_alloc_count + 1) + 1) ∧
      m1.list_free_count = m.list_free_count := by
  obtain ⟨m2, hm2, g2new, g2old, len2, ac2, fc2⟩ := alloc_data_spec m data
  have hfst : (ptr._list_alloc_link m).1 = m.cells.length := rfl
  have hl2 := is_list_alloc_data h g2old
  have hnth := list_nth_spec hl2 position
  have hdrop : nodes.drop position.toNat = [] := List.drop_eq_nil_of_le (by omega)
  rw [hdrop] at hnth
  simp only [ptr.first_or] at hnth
  obtain ⟨m1, h1, h2, _, ac1, fc1⟩ := ptr_list_append_spec hl2 data
  have hneg : ¬ position < 0 := by omega
  have hzero : ¬ position = 0 := by omega
  refine ⟨ptr.first_or (nodes ++ [(m2.cells.length, data)]) none, m1, ?_, ?_, ?_, ?_⟩
  · simp only [ptr.list_insert, hneg, hzero, if_false, hfst, hm2, hnth, h1]
  · rw [len2] at h2
    rw [len2]
    exact h2
  · rw [ac1, ac2]
  · rw [fc1, fc2]


/-! ## Switching a subscription and raises with acting handlers -/

/-- C26 fails in the code when a handler function raises an event: with the channels "a",
"c" and "d" made in that order (one subscription each) and the handler function of "c"
raising "d", `event_raise("c")` finds "c" in the second link; the raise of "d" from inside
the handler exchanges the data of the second and third link (counter 1 against 0), so the
second link now points to "d"; back in the outer raise the counter of "c" goes up and the
exchange with the link before is made through the link found at the start: the first link
is made to point to "c" and the second to "a". The links then point to "c", "a", "c": two
links carry the name "c" and no link points to "d" any more. This is so for any depth
allowed to nested raises. With handler functions that raise nothing the same raise leaves
"c", "a", "d". -/
theorem nested_raise_duplicates_channel :
    run Bus.init [.connect "a" 0 100 0 .EVENT_HANDLER_ENABLED,
        .connect "c" 0 200 0 .EVENT_HANDLER_ENABLED,
        .connect "d" 0 300 0 .EVENT_HANDLER_ENABLED] =
      some ([.handle 1, .handle 2, .handle 3],
        ⟨[⟨0, "a", 0, [⟨1, 0, 0, 100, .EVENT_HANDLER_ENABLED, 0⟩]⟩,
          ⟨1, "c", 0, [⟨2, 0, 1, 200, .EVENT_HANDLER_ENABLED, 0⟩]⟩,
          ⟨2, "d", 0, [⟨3, 0, 2, 300, .EVENT_HANDLER_ENABLED, 0⟩]⟩], 4⟩) ∧
    (∀ fuel : Nat,
      (event_raise_deep (fun f _ _ => if f = 200 then [("d", 5)] else []) (fuel + 2)
        (EventMem.of_bus
          ⟨[⟨0, "a", 0, [⟨1, 0, 0, 100, .EVENT_HANDLER_ENABLED, 0⟩]⟩,
            ⟨1, "c", 0, [⟨2, 0, 1, 200, .EVENT_HANDLER_ENABLED, 0⟩]⟩,
            ⟨2, "d", 0, [⟨3, 0, 2, 300, .EVENT_HANDLER_ENABLED, 0⟩]⟩], 4⟩) "c" 9) =
        ([⟨2, 200, 9, 0⟩, ⟨3, 300, 5, 0⟩],
          ⟨[1, 0, 1],
            [⟨0, "a", 0, [⟨1, 0, 0, 100, .EVENT_HANDLER_ENABLED, 0⟩]⟩,
              ⟨1, "c", 1, [⟨2, 0, 1, 200, .EVENT_HANDLER_ENABLED, 0⟩]⟩,
              ⟨2, "d", 1, [⟨3, 0, 2, 300, .EVENT_HANDLER_ENABLED, 0⟩]⟩]⟩)) ∧
    (EventMem.view
        ⟨[1, 0, 1],
          [⟨0, "a", 0, [⟨1, 0, 0, 100, .EVENT_HANDLER_ENABLED, 0⟩]⟩,
            ⟨1, "c", 1, [⟨2, 0, 1, 200, .EVENT_HANDLER_ENABLED, 0⟩]⟩,
            ⟨2, "d", 1, [⟨3, 0, 2, 300, .EVENT_HANDLER_ENABLED, 0⟩]⟩]⟩).map
      (fun e => e.name) = ["c", "a", "c"] ∧
    ¬ (["c", "a", "c"] : List String).Nodup ∧
    (∀ fuel : Nat,
      (event_raise_deep (fun _ _ _ => []) (fuel + 1)
        (EventMem.of_bus
          ⟨[⟨0, "a", 0, [⟨1, 0, 0, 100, .EVENT_HANDLER_ENABLED, 0⟩]⟩,
            ⟨1, "c", 0, [⟨2, 0, 1, 200, .EVENT_HANDLER_ENABLED, 0⟩]⟩,
            ⟨2, "d", 0, [⟨3, 0, 2, 300, .EVENT_HANDLER_ENABLED, 0⟩]⟩], 4⟩) "c" 9).2.view.map
        (fun e => e.name) = ["c", "a", "d"]) := by
  refine ⟨by decide, fun fuel => ?_, by decide, by decide, fun fuel => ?_⟩
  · rfl
  · rfl


/-! ## The pointer-level raise and the raise on the list of records -/

theorem find_addr_self {l : List EventInfo} (hnd : (l.map (fun e => e.addr)).Nodup)
    {e : EventInfo} (he : e ∈ l) : l.find? (fun x => decide (x.addr = e.addr)) = some e := by
  induction l with
  | nil => simp at he
  | cons x rest ih =>
    simp only [List.map_cons, List.nodup_cons] at hnd
    by_cases hx : x.addr = e.addr
    · have hxe : x = e := by
        rcases List.mem_cons.mp he with h | h
        · exact h.symm
        · exact absurd (List.mem_map.mpr ⟨e, h, hx.symm⟩) hnd.1
      simp [hxe]
    · have he2 : e ∈ rest := by
        rcases List.mem_cons.mp he with h | h
        · exact absurd (by rw [h]) hx
        · exact h
      simp [hx, ih hnd.2 he2]

/-- When the records have distinct addresses, the links that point to the records `ls`
show the records `ls`. -/
theorem view_eq (ls l : List EventInfo) (hnd : (l.map (fun e => e.addr)).Nodup)
    (hsub : ∀ e ∈ ls, e ∈ l) : EventMem.view ⟨ls.map (fun e => e.addr), l⟩ = ls := by
  induction ls with
  | nil => rfl
  | cons x rest ih =>
    have hx : EventMem.event ⟨(x :: rest).map (fun e => e.addr), l⟩ x.addr = some x :=
      find_addr_self hnd (hsub x (by simp))
    have hrest := ih (fun e he => hsub e (by simp [he]))
    unfold EventMem.view at hrest ⊢
    simp only [List.map_cons, List.filterMap_cons]
    have hx2 : EventMem.event ⟨x.addr :: rest.map (fun e => e.addr), l⟩ x.addr = some x := hx
    rw [hx2]
    simp only
    congr 1

theorem view_of {m : EventMem} {ls l : List EventInfo}
    (hl : m.links = ls.map (fun e => e.addr)) (hr : m.records = l)
    (hnd : (l.map (fun e => e.addr)).Nodup) (hsub : ∀ e ∈ ls, e ∈ l) : m.view = ls := by
  obtain ⟨links, records⟩ := m
  simp only at hl hr
  subst hl
  subst hr
  exact view_eq ls records hnd hsub

theorem deep_loop_quiet (raise : EventMem → String → Nat → List Call × EventMem) (d : Nat) :
    ∀ (hs : List EventHandlerInfo) (m : EventMem),
      deep_loop raise (fun _ _ _ => []) d hs m = (raise_handlers hs d, m) := by
  intro hs
  induction hs with
  | nil =>
    intro m
    rfl
  | cons h rest ih =>
    intro m
    by_cases hst : h.state = .EVENT_HANDLER_ENABLED
    · simp [deep_loop, raise_handlers, run_raises, hst, ih]
    · simp [deep_loop, raise_handlers, hst, ih]

theorem map_bump_addr {l1 l2 : List EventInfo} {e : EventInfo} (c : Nat)
    (hnd : ((l1 ++ e :: l2).map (fun e => e.addr)).Nodup) :
    (l1 ++ e :: l2).map (fun x => if x.addr = e.addr then { x with raise_count := c } else x) =
      l1 ++ { e with raise_count := c } :: l2 := by
  rw [List.map_append, List.map_cons, List.nodup_append] at hnd
  obtain ⟨_, h2, hdis⟩ := hnd
  rw [List.nodup_cons] at h2
  have k1 : l1.map (fun x => if x.addr = e.addr then { x with raise_count := c } else x) =
      l1 := by
    conv_rhs => rw [← List.map_id l1]
    apply List.map_congr_left
    intro x hx
    have : x.addr ≠ e.addr := fun h =>
      hdis (List.mem_map.mpr ⟨x, hx, rfl⟩) (by simp [h])
    simp [this]
  have k2 : l2.map (fun x => if x.addr = e.addr then { x with raise_count := c } else x) =
      l2 := by
    conv_rhs => rw [← List.map_id l2]
    apply List.map_congr_left
    intro x hx
    have : x.addr ≠ e.addr := fun h =>
      h2.1 (List.mem_map.mpr ⟨x, hx, h⟩)
    simp [this]
  rw [List.map_append, List.map_cons, k1, k2]
  simp

/-- With handler functions that raise nothing, and channel records at distinct addresses
(as in every state of a run), the pointer-level `event_raise` makes the calls of
`event_raise` on the list of records and leaves the links pointing to the records that
`event_raise` leaves, in the same order. -/
theorem event_raise_deep_quiet (b : Bus) (hnd : (b.l_events.map (fun e => e.addr)).Nodup)
    (name : String) (d fuel : Nat) :
    (event_raise_deep (fun _ _ _ => []) (fuel + 1) (EventMem.of_bus b) name d).1 =
        (event_raise b name d).1 ∧
      (event_raise_deep (fun _ _ _ => []) (fuel + 1) (EventMem.of_bus b) name d).2.view =
        (event_raise b name d).2.l_events := by
  have hview : (EventMem.of_bus b).view = b.l_events :=
    view_eq b.l_events b.l_events hnd (fun e he => he)
  cases hf : _event_get_event_link b.l_events name with
  | none =>
    have hf2 : list_find_custom b.l_events name _event_find_event = none := hf
    simp only [event_raise_deep, hview, hf2, event_raise, hf, and_self]
  | some r =>
    obtain ⟨i, e⟩ := r
    obtain ⟨l1, l2, hb, hi, hname, h1⟩ := get_event_link_some hf
    subst hname
    have hf2 : list_find_custom b.l_events e.name _event_find_event = some (i, e) := hf
    have hev : (EventMem.of_bus b).event e.addr = some e :=
      find_addr_self hnd (by simp [hb])
    have hrecs : ((EventMem.of_bus b).set_raise_count e.addr
        ((e.raise_count + 1) % ULONG_MOD)).records = l1 ++ bump e :: l2 := by
      simp only [EventMem.set_raise_count, EventMem.of_bus]
      rw [hb]
      exact map_bump_addr _ (hb ▸ hnd)
    have hlinks : ((EventMem.of_bus b).set_raise_count e.addr
        ((e.raise_count + 1) % ULONG_MOD)).links = (l1 ++ bump e :: l2).map (fun e => e.addr) := by
      simp only [EventMem.set_raise_count, EventMem.of_bus]
      rw [hb]
      simp
    have hnd2 : ((l1 ++ bump e :: l2).map (fun e => e.addr)).Nodup := by
      have := hb ▸ hnd
      simpa using this
    rcases eq_nil_or_snoc l1 with hl | ⟨l0, q, hl⟩
    · subst hl
      simp only [List.length_nil] at hi
      subst hi
      rw [event_raise_first b d l2 e (by simpa using hb)]
      simp only [event_raise_deep, hview, hf2, deep_loop_quiet, hev]
      refine ⟨trivial, ?_⟩
      exact view_of hlinks hrecs hnd2 (fun x hx => hx)
    · subst hl
      have hb1 : b.l_events = l0 ++ q :: e :: l2 := by simpa using hb
      have h0 : ∀ y ∈ l0, y.name ≠ e.name := fun y hy => h1 y (by simp [hy])
      have hq : q.name ≠ e.name := h1 q (by simp)
      have hi2 : i = l0.length + 1 := by simp [← hi]
      subst hi2
      rw [event_raise_inner b d hb1 h0 hq]
      have hrecs2 : ((EventMem.of_bus b).set_raise_count e.addr
          ((e.raise_count + 1) % ULONG_MOD)).records = l0 ++ q :: bump e :: l2 := by
        simpa using hrecs
      have hlinks2 : ((EventMem.of_bus b).set_raise_count e.addr
          ((e.raise_count + 1) % ULONG_MOD)).links =
            (l0 ++ q :: bump e :: l2).map (fun e => e.addr) := by
        simpa using hlinks
      have hnd3 : ((l0 ++ q :: bump e :: l2).map (fun e => e.addr)).Nodup := by
        simpa using hnd2
      have hload : load ((EventMem.of_bus b).set_raise_count e.addr
          ((e.raise_count + 1) % ULONG_MOD)).links l0.length = some q.addr := by
        rw [hlinks2, List.map_append, List.map_cons]
        have := load_append_cons (l0.map (fun e => e.addr)) q.addr
          ((bump e :: l2).map (fun e => e.addr))
        simpa using this
      have hprev : ((EventMem.of_bus b).set_raise_count e.addr
          ((e.raise_count + 1) % ULONG_MOD)).event q.addr = some q := by
        unfold EventMem.event
        rw [hrecs2]
        exact find_addr_self hnd3 (by simp)
      have hswap : store (store ((EventMem.of_bus b).set_raise_count e.addr
          ((e.raise_count + 1) % ULONG_MOD)).links l0.length e.addr) (l0.length + 1) q.addr =
            (l0 ++ bump e :: q :: l2).map (fun e => e.addr) := by
        rw [hlinks2, List.map_append, List.map_cons, List.map_cons]
        have s1 := store_append_cons (l0.map (fun e => e.addr)) q.addr e.addr
          ((bump e).addr :: l2.map (fun e => e.addr))
        simp only [List.length_map] at s1
        rw [s1]
        have s2 := store_append_cons (l0.map (fun e => e.addr) ++ [e.addr]) (bump e).addr q.addr
          (l2.map (fun e => e.addr))
        simp only [List.length_append, List.length_map, List.length_singleton,
          List.append_assoc, List.singleton_append] at s2
        rw [s2]
        simp
      simp only [event_raise_deep, hview, hf2, deep_loop_quiet, hev, hload, hprev]
      by_cases hc : q.raise_count < (e.raise_count + 1) % ULONG_MOD
      · simp only [hc, if_true]
        refine ⟨trivial, ?_⟩
        exact view_of hswap hrecs2 hnd3 (by
          intro x hx
          simp only [List.mem_append, List.mem_cons] at hx ⊢
          tauto)
      · simp only [hc, if_false]
        refine ⟨trivial, ?_⟩
        exact view_of hlinks2 hrecs2 hnd3 (fun x hx => hx)

end Arena1
